import Mathlib

/-!
# JSON lexer, parser and printer: a shallow embedding

The C++ sources `json_parser.hpp`, `lexer.cpp` and `parser.cpp` are embedded as pure Lean
functions.  A `std::string` is the list of its `char` values, exceptions are the `error` case of
`Except`, the mutable `Lexer` and `Parser` objects are passed explicitly as states, and every
`while` loop and the recursive descent take a fuel argument (running out of fuel is the separate
outcome `Exn.outOfFuel`, which the program itself never produces).
-/

namespace JsonParser

/-! ## Characters and strings -/

/-- A `std::string`: the sequence of its `char` values.  A byte `>= 0x80` is a negative value where
`char` is signed and a value in `128..255` where it is unsigned. -/
abbrev Str := List Int

/-- The `std::string` of an ASCII literal. -/
def str (s : String) : Str := s.toList.map fun c => Int.ofNat c.toNat

/-- `std::isspace` in the "C" locale: space, `\t`, `\n`, `\v`, `\f`, `\r`. -/
def isspace (c : Int) : Bool := c == 32 || (9 ≤ c && c ≤ 13)

/-- `std::isdigit`: `'0'..'9'`. -/
def isdigit (c : Int) : Bool := 48 ≤ c && c ≤ 57

/-- `std::isalpha` in the "C" locale: `'A'..'Z'` and `'a'..'z'`. -/
def isalpha (c : Int) : Bool := (65 ≤ c && c ≤ 90) || (97 ≤ c && c ≤ 122)

/-! ## Tokens, values, exceptions (`json_parser.hpp`) -/

/-- `enum class TokenType`. -/
inductive TokenType
  | LBRACE | RBRACE | LBRACKET | RBRACKET | COMMA | COLON | STRING | NUMBER
  | TRUE | FALSE | NULL_TOKEN | EOF_TOKEN | INVALID
  deriving DecidableEq, Repr

/-- `struct Token`. -/
structure Token where
  type : TokenType
  value : Str
  deriving DecidableEq, Repr

/-- Modelled from the spec: the "64-bit floating-point value" held by a Number node, an IEEE-754
binary64 datum.  `finite neg man exp` is `(-1)^neg * man * 2^exp`, kept with `man` odd, or with
`man = 0` and `exp = 0` for the two zeros. -/
inductive Double
  | finite (neg : Bool) (man : Nat) (exp : Int)
  | inf (neg : Bool)
  | nan
  deriving DecidableEq, Repr

/-- What the program throws.  `lexerError` is the `std::runtime_error` of `Lexer::error`, whose
text is "Lexer error at line L, column C: msg"; `expectedToken` is the one of
`Parser::checkToken`, whose text names the two token kinds; `runtimeError` carries the text of the
other `std::runtime_error`s of the parser; `invalidArgument` and `outOfRange` are thrown by
`std::stod`.  `outOfFuel` is not a behaviour of the program: the embedding ran out of fuel. -/
inductive Exn
  | lexerError (line column : Nat) (msg : Str)
  | expectedToken (expected got : TokenType)
  | runtimeError (msg : Str)
  | invalidArgument
  | outOfRange
  | outOfFuel
  deriving DecidableEq, Repr

/-- The classes `JsonObject`, `JsonArray`, `JsonString`, `JsonNumber`, `JsonBoolean`, `JsonNull`
derived from `JsonValue`. -/
inductive JsonValue
  | object (properties : List (Str × JsonValue))
  | array (elements : List JsonValue)
  | string (value : Str)
  | number (value : Double)
  | boolean (value : Bool)
  | null
  deriving Repr

/-! ## Lexer (`lexer.cpp`) -/

/-- `class Lexer`: the buffer and the cursor. -/
structure Lexer where
  text : Str
  pos : Nat
  line : Nat
  column : Nat
  currentChar : Int
  deriving DecidableEq, Repr

/-- `text[pos]` when `pos < text.length()`, the sentinel `'\0'` otherwise. -/
def charAt (text : Str) (pos : Nat) : Int :=
  if pos < text.length then text.getD pos 0 else 0

/-- `Lexer::Lexer`. -/
def Lexer.new (input : Str) : Lexer :=
  { text := input, pos := 0, line := 1, column := 1, currentChar := charAt input 0 }

/-- `Lexer::advance`. -/
def Lexer.advance (l : Lexer) : Lexer :=
  { text := l.text
    pos := l.pos + 1
    line := if l.currentChar = 10 then l.line + 1 else l.line
    column := if l.currentChar = 10 then 1 else l.column + 1
    currentChar := charAt l.text (l.pos + 1) }

/-- `Lexer::error`. -/
def Lexer.error {α : Type} (l : Lexer) (msg : Str) : Except Exn α :=
  .error (.lexerError l.line l.column msg)

/-- Fuel that is enough for any loop that advances the cursor once per iteration and stops at
the sentinel. -/
def Lexer.fuel (l : Lexer) : Nat := l.text.length - l.pos + 1

/-- The loop of `Lexer::skipWhitespace`. -/
def Lexer.skipWhitespaceLoop : Nat → Lexer → Except Exn Lexer
  | fuel, l =>
    if l.currentChar ≠ 0 ∧ isspace l.currentChar then
      match fuel with
      | 0 => .error .outOfFuel
      | fuel + 1 => Lexer.skipWhitespaceLoop fuel l.advance
    else .ok l

/-- `Lexer::skipWhitespace`. -/
def Lexer.skipWhitespace (l : Lexer) : Except Exn Lexer :=
  l.skipWhitespaceLoop l.fuel

/-- The `switch` on the character after a backslash in `Lexer::parseString`: what is appended to
the result, or nothing for the `default` case. -/
def escapeText (c : Int) : Option Str :=
  if c = 34 then some [34]              -- '"'
  else if c = 92 then some [92]         -- '\\'
  else if c = 47 then some [47]         -- '/'
  else if c = 98 then some [8]          -- 'b' gives '\b'
  else if c = 102 then some [12]        -- 'f' gives '\f'
  else if c = 110 then some [10]        -- 'n' gives '\n'
  else if c = 114 then some [13]        -- 'r' gives '\r'
  else if c = 116 then some [9]         -- 't' gives '\t'
  else if c = 117 then some [92, 117]   -- 'u' gives "\\u"
  else none

/-- The `while` loop of `Lexer::parseString`. -/
def Lexer.parseStringLoop : Nat → Lexer → Str → Except Exn (Str × Lexer)
  | fuel, l, result =>
    if l.currentChar ≠ 0 ∧ l.currentChar ≠ 34 then
      match fuel with
      | 0 => .error .outOfFuel
      | fuel + 1 =>
        if l.currentChar = 92 then
          let l := l.advance
          if l.currentChar = 0 then l.error (str "Unterminated string escape")
          else
            match escapeText l.currentChar with
            | some s => Lexer.parseStringLoop fuel l.advance (result ++ s)
            | none => l.error (str "Invalid escape sequence")
        else if l.currentChar < 32 ∧ l.currentChar ≠ 9 then
          l.error (str "Control character in string")
        else Lexer.parseStringLoop fuel l.advance (result ++ [l.currentChar])
    else .ok (result, l)

/-- `Lexer::parseString`. -/
def Lexer.parseString (l : Lexer) : Except Exn (Str × Lexer) := do
  let l := l.advance
  let (result, l) ← l.parseStringLoop l.fuel []
  if l.currentChar ≠ 34 then l.error (str "Unterminated string")
  else pure (result, l.advance)

/-- The loops `while (std::isdigit(currentChar)) { result += currentChar; advance(); }` of
`Lexer::parseNumber`. -/
def Lexer.digitsLoop : Nat → Lexer → Str → Except Exn (Str × Lexer)
  | fuel, l, result =>
    if isdigit l.currentChar then
      match fuel with
      | 0 => .error .outOfFuel
      | fuel + 1 => Lexer.digitsLoop fuel l.advance (result ++ [l.currentChar])
    else .ok (result, l)

/-- The block `// Integer part` of `Lexer::parseNumber`. -/
def Lexer.integerPart (l : Lexer) (result : Str) : Except Exn (Str × Lexer) :=
  if l.currentChar = 48 then
    let result := result ++ [l.currentChar]
    let l := l.advance
    if isdigit l.currentChar then l.error (str "Leading zeros not allowed")
    else pure (result, l)
  else if isdigit l.currentChar then l.digitsLoop l.fuel result
  else l.error (str "Invalid number")

/-- The block `// Decimal part` of `Lexer::parseNumber`. -/
def Lexer.decimalPart (l : Lexer) (result : Str) : Except Exn (Str × Lexer) :=
  if l.currentChar = 46 then
    let result := result ++ [l.currentChar]
    let l := l.advance
    if ¬ isdigit l.currentChar then l.error (str "Digit expected after decimal point")
    else l.digitsLoop l.fuel result
  else pure (result, l)

/-- The block `// Exponent part` of `Lexer::parseNumber`, whose value is returned. -/
def Lexer.exponentPart (l : Lexer) (result : Str) : Except Exn (Str × Lexer) :=
  if l.currentChar = 101 ∨ l.currentChar = 69 then
    let result := result ++ [l.currentChar]
    let l := l.advance
    let (result, l) :=
      if l.currentChar = 43 ∨ l.currentChar = 45 then (result ++ [l.currentChar], l.advance)
      else (result, l)
    if ¬ isdigit l.currentChar then l.error (str "Digit expected in exponent")
    else l.digitsLoop l.fuel result
  else pure (result, l)

/-- `Lexer::parseNumber`: the sign, then its three blocks in turn. -/
def Lexer.parseNumber (l : Lexer) : Except Exn (Str × Lexer) := do
  let result : Str := []
  -- negative sign
  let (result, l) :=
    if l.currentChar = 45 then (result ++ [l.currentChar], l.advance) else (result, l)
  let (result, l) ← l.integerPart result
  let (result, l) ← l.decimalPart result
  l.exponentPart result

/-- The loop of `Lexer::parseKeyword`. -/
def Lexer.parseKeywordLoop : Nat → Lexer → Str → Except Exn (Str × Lexer)
  | fuel, l, result =>
    if isalpha l.currentChar then
      match fuel with
      | 0 => .error .outOfFuel
      | fuel + 1 => Lexer.parseKeywordLoop fuel l.advance (result ++ [l.currentChar])
    else .ok (result, l)

/-- `Lexer::parseKeyword`. -/
def Lexer.parseKeyword (l : Lexer) : Except Exn (Str × Lexer) :=
  l.parseKeywordLoop l.fuel []

/-- The `switch` of `Lexer::getNextToken`, entered with `currentChar` neither `'\0'` nor a
whitespace character. -/
def Lexer.scanToken (l : Lexer) : Except Exn (Token × Lexer) :=
  let c := l.currentChar
  if c = 123 then .ok (⟨.LBRACE, str "\x7b"⟩, l.advance)
  else if c = 125 then .ok (⟨.RBRACE, str "\x7d"⟩, l.advance)
  else if c = 91 then .ok (⟨.LBRACKET, str "["⟩, l.advance)
  else if c = 93 then .ok (⟨.RBRACKET, str "]"⟩, l.advance)
  else if c = 44 then .ok (⟨.COMMA, str ","⟩, l.advance)
  else if c = 58 then .ok (⟨.COLON, str ":"⟩, l.advance)
  else if c = 34 then do
    let (s, l) ← l.parseString
    pure (⟨.STRING, s⟩, l)
  else if c = 45 ∨ isdigit c then do
    let (num, l) ← l.parseNumber
    pure (⟨.NUMBER, num⟩, l)
  else if c = 116 ∨ c = 102 ∨ c = 110 then do
    let (keyword, l) ← l.parseKeyword
    if keyword = str "true" then pure (⟨.TRUE, str "true"⟩, l)
    else if keyword = str "false" then pure (⟨.FALSE, str "false"⟩, l)
    else if keyword = str "null" then pure (⟨.NULL_TOKEN, str "null"⟩, l)
    else l.error (str "Invalid keyword: " ++ keyword)
  else l.error (str "Unexpected character: " ++ [c])

/-- The `while (currentChar != '\0')` loop of `Lexer::getNextToken`. -/
def Lexer.getNextTokenLoop : Nat → Lexer → Except Exn (Token × Lexer)
  | fuel, l =>
    if l.currentChar ≠ 0 then
      match fuel with
      | 0 => .error .outOfFuel
      | fuel + 1 =>
        if isspace l.currentChar then
          match l.skipWhitespace with
          | .ok l => Lexer.getNextTokenLoop fuel l
          | .error e => .error e
        else l.scanToken
    else .ok (⟨.EOF_TOKEN, []⟩, l)

/-- `Lexer::getNextToken`.  The loop body runs at most twice: once to skip whitespace and once
to scan a token. -/
def Lexer.getNextToken (l : Lexer) : Except Exn (Token × Lexer) :=
  l.getNextTokenLoop 2

/-! ## Number conversion and formatting (C++ standard library) -/

/-- Quotient of `n` by `d` rounded to nearest, ties to even. -/
def divRound (n d : Nat) : Nat :=
  if d < 2 * (n % d) ∨ (2 * (n % d) = d ∧ n / d % 2 = 1) then n / d + 1 else n / d

/-- Floor of the binary logarithm, `0` at `0`; the second argument is fuel. -/
def log2Loop : Nat → Nat → Nat
  | 0, _ => 0
  | fuel + 1, n => if n < 2 then 0 else log2Loop fuel (n / 2) + 1

/-- Floor of the binary logarithm. -/
def log2 (n : Nat) : Nat := log2Loop n n

/-- Moves the factors of two of a mantissa into the exponent. -/
def stripTwos : Nat → Nat → Int → Nat × Int
  | 0, m, e => (m, e)
  | fuel + 1, m, e => if m ≠ 0 ∧ m % 2 = 0 then stripTwos fuel (m / 2) (e + 1) else (m, e)

/-- The datum `(-1)^neg * m * 2^e` for `m <= 2^53`. -/
def Double.ofScaled (neg : Bool) (m : Nat) (e : Int) : Double :=
  if m = 0 then .finite neg 0 0 else .finite neg (stripTwos 64 m e).1 (stripTwos 64 m e).2

/-- Numerator and denominator of `num / den / 2^e`. -/
def scaledBy (num den : Nat) (e : Int) : Nat × Nat :=
  if 0 ≤ e then (num, den * 2 ^ e.toNat) else (num * 2 ^ (-e).toNat, den)

/-- The binary exponent of the unit in the last place of the binary64 nearest to `num / den`:
the `e` with `2^52 <= num / den / 2^e < 2^53`, and `-1074` for the subnormal numbers. -/
def binaryExponent (num den : Nat) : Int :=
  let e0 : Int := (log2 num : Int) - (log2 den : Int) - 52
  let e1 : Int := if (scaledBy num den e0).1 / (scaledBy num den e0).2 < 2 ^ 52 then e0 - 1 else e0
  max e1 (-1074)

/-- Modelled from the spec: the rounding of "standard textual-to-float conversion", which is
library code.  The exact value `num / den` is rounded to the nearest binary64 (ties to even);
`ERANGE`, which makes `std::stod` throw `std::out_of_range`, is raised when the result overflows
or when it is subnormal or zero and inexact. -/
def roundToDouble (neg : Bool) (num den : Nat) : Except Exn Double :=
  if num = 0 then .ok (.finite neg 0 0)
  else
    let e : Int := binaryExponent num den
    let q := divRound (scaledBy num den e).1 (scaledBy num den e).2
    if 971 < e ∨ (e = 971 ∧ 2 ^ 53 ≤ q) then .error .outOfRange
    else if q < 2 ^ 52 ∧ (scaledBy num den e).1 % (scaledBy num den e).2 ≠ 0 then
      .error .outOfRange
    else .ok (Double.ofScaled neg q e)

/-- The number written by a run of decimal digits. -/
def digitsValue (ds : Str) : Nat := ds.foldl (fun n c => 10 * n + (c - 48).toNat) 0

/-- An optional sign at the head of a text: whether it is `-`, and the text after it. -/
def takeSign (s : Str) : Bool × Str :=
  match s with
  | c :: t => if c = 45 then (true, t) else if c = 43 then (false, t) else (false, s)
  | [] => (false, s)

/-- The exponent part `[eE][+-]?[0-9]+` at the head of a text, `0` when there is none. -/
def takeExponent (s : Str) : Int :=
  match s with
  | c :: t =>
    if c = 101 ∨ c = 69 then
      let ds := (takeSign t).2.takeWhile isdigit
      if ds = [] then 0
      else if (takeSign t).1 then - (digitsValue ds : Int) else (digitsValue ds : Int)
    else 0
  | [] => 0

/-- Modelled from the spec: `std::stod`, the "standard textual-to-float conversion", is library
code.  As `strtod` does, it converts the longest prefix (after white space) of the form
`[+-]?digits[.digits][(e|E)[+-]?digits]` and throws `std::invalid_argument` when there is none.
The hexadecimal, infinity and NaN spellings of `strtod` are left out: no text the lexer
produces starts with them. -/
def stod (text : Str) : Except Exn Double :=
  let s := (takeSign (text.dropWhile isspace)).2
  let neg := (takeSign (text.dropWhile isspace)).1
  let ip := s.takeWhile isdigit
  let s := s.dropWhile isdigit
  let fp := if s.head? = some 46 then s.tail.takeWhile isdigit else []
  let s := if s.head? = some 46 then s.tail.dropWhile isdigit else s
  if ip = [] ∧ fp = [] then .error .invalidArgument
  else
    let m := digitsValue (ip ++ fp)
    let k : Int := takeExponent s - fp.length
    if 0 ≤ k then roundToDouble neg (m * 10 ^ k.toNat) 1
    else roundToDouble neg m (10 ^ (-k).toNat)

/-- Decimal digits of a number, most significant first. -/
def natDigits : Nat → Nat → Str
  | 0, _ => []
  | fuel + 1, n =>
    if n < 10 then [48 + (n : Int)] else natDigits fuel (n / 10) ++ [48 + ((n % 10 : Nat) : Int)]

/-- Decimal text of a number. -/
def natToStr (n : Nat) : Str := natDigits (log2 n + 1) n

/-- A digit text without its trailing zeros. -/
def stripZeros (ds : Str) : Str := (ds.reverse.dropWhile (fun c => c == 48)).reverse

/-- The decimal point and the fraction digits, nothing when there are none. -/
def pointText (frac : Str) : Str := if frac = [] then [] else 46 :: frac

/-- Whether `10^x <= n / d`. -/
def geTen (n d : Nat) (x : Int) : Bool :=
  if 0 ≤ x then decide (d * 10 ^ x.toNat ≤ n) else decide (d ≤ n * 10 ^ (-x).toNat)

/-- The decimal exponent of `n / d`: the `x` with `10^x <= n / d < 10^(x + 1)`, found from the
numbers of digits of `n` and `d`. -/
def decimalExponent (n d : Nat) : Int :=
  let c : Int := ((natToStr n).length : Int) - ((natToStr d).length : Int)
  if geTen n d c then c else c - 1

/-- The fraction `n / d` times `10^k`, rounded to nearest, ties to even. -/
def scaleRound (n d : Nat) (k : Int) : Nat :=
  if 0 ≤ k then divRound (n * 10 ^ k.toNat) d else divRound n (d * 10 ^ (-k).toNat)

/-- Six significant decimal digits of `n / d > 0` (round half to even on the exact value): the
digits as a number `m` with `10^5 <= m < 10^6` and the decimal exponent `x` of the first digit,
so that the rounded value is `m * 10^(x - 5)`. -/
def digits6 (n d : Nat) : Nat × Int :=
  let x0 := decimalExponent n d
  let m0 := scaleRound n d (5 - x0)
  (if m0 = 10 ^ 6 then 10 ^ 5 else m0, if m0 = 10 ^ 6 then x0 + 1 else x0)

/-- Numerator and denominator of `man * 2^exp`. -/
def Double.ratio (man : Nat) (exp : Int) : Nat × Nat :=
  if 0 ≤ exp then (man * 2 ^ exp.toNat, 1) else (man, 2 ^ (-exp).toNat)

/-- The `%g` layout of the digits `m` with the decimal exponent `x`: scientific style when the
exponent is below `-4` or at least `6` (the precision), fixed style otherwise, trailing zeros
of the fraction removed. -/
def layoutG (m : Nat) (x : Int) : Str :=
  let ds := natToStr m
  if x < -4 ∨ 6 ≤ x then
    ds.take 1 ++ pointText (stripZeros (ds.drop 1)) ++ [101]
      ++ (if x < 0 then [45] else [43])
      ++ (if x.natAbs < 10 then [48] else []) ++ natToStr x.natAbs
  else if 0 ≤ x then
    ds.take (x.toNat + 1) ++ pointText (stripZeros (ds.drop (x.toNat + 1)))
  else
    str "0." ++ List.replicate ((-x).toNat - 1) 48 ++ stripZeros ds

/-- Modelled from the spec: `oss << value`, the "platform's default textual formatting of a
64-bit float", is library code.  It is the `%g` conversion with precision 6: six significant
digits (round half to even on the exact value), scientific style when the decimal exponent is
below `-4` or at least `6`, trailing zeros removed. -/
def Double.format : Double → Str
  | .nan => str "nan"
  | .inf neg => (if neg then str "-" else []) ++ str "inf"
  | .finite neg man exp =>
    (if neg then str "-" else []) ++
      (if man = 0 then str "0"
      else layoutG (digits6 (Double.ratio man exp).1 (Double.ratio man exp).2).1
        (digits6 (Double.ratio man exp).1 (Double.ratio man exp).2).2)

/-! ## Parser (`parser.cpp`) -/

/-- `class Parser`: the lexer it reads from and the one token of lookahead. -/
structure Parser where
  lexer : Lexer
  currentToken : Token
  deriving DecidableEq, Repr

/-- `Parser::Parser`: primes the lookahead. -/
def Parser.new (lex : Lexer) : Except Exn Parser := do
  let (tok, lex) ← lex.getNextToken
  pure { lexer := lex, currentToken := tok }

/-- `Parser::checkToken`. -/
def Parser.checkToken (p : Parser) (expected : TokenType) : Except Exn Parser :=
  if p.currentToken.type ≠ expected then
    .error (.expectedToken expected p.currentToken.type)
  else do
    let (tok, lex) ← p.lexer.getNextToken
    pure { lexer := lex, currentToken := tok }

/-- `Parser::parseString`. -/
def Parser.parseString (p : Parser) : Except Exn (JsonValue × Parser) := do
  let s := JsonValue.string p.currentToken.value
  let p ← p.checkToken .STRING
  pure (s, p)

/-- `Parser::parseNumber`. -/
def Parser.parseNumber (p : Parser) : Except Exn (JsonValue × Parser) := do
  let value ← stod p.currentToken.value
  let num := JsonValue.number value
  let p ← p.checkToken .NUMBER
  pure (num, p)

/-- `Parser::parseBoolean`. -/
def Parser.parseBoolean (p : Parser) : Except Exn (JsonValue × Parser) := do
  let value := decide (p.currentToken.type = .TRUE)
  let boolean := JsonValue.boolean value
  let p ← p.checkToken p.currentToken.type
  pure (boolean, p)

/-- `Parser::parseNull`. -/
def Parser.parseNull (p : Parser) : Except Exn (JsonValue × Parser) := do
  let p ← p.checkToken .NULL_TOKEN
  pure (JsonValue.null, p)

mutual

/-- `Parser::parseValue`. -/
def Parser.parseValue : Nat → Parser → Except Exn (JsonValue × Parser)
  | 0, _ => .error .outOfFuel
  | fuel + 1, p =>
    match p.currentToken.type with
    | .LBRACE => Parser.parseObject fuel p
    | .LBRACKET => Parser.parseArray fuel p
    | .STRING => p.parseString
    | .NUMBER => p.parseNumber
    | .TRUE => p.parseBoolean
    | .FALSE => p.parseBoolean
    | .NULL_TOKEN => p.parseNull
    | _ => .error (.runtimeError (str "Unexpected token in value"))

/-- `Parser::parseObject`. -/
def Parser.parseObject : Nat → Parser → Except Exn (JsonValue × Parser)
  | 0, _ => .error .outOfFuel
  | fuel + 1, p => do
    let p ← p.checkToken .LBRACE
    if p.currentToken.type = .RBRACE then
      let p ← p.checkToken .RBRACE
      pure (.object [], p)
    else
      let (properties, p) ← Parser.parseObjectLoop fuel p []
      let p ← p.checkToken .RBRACE
      pure (.object properties, p)

/-- The `while (true)` loop of `Parser::parseObject`, left by `break` with the lookahead at
`RBRACE`. -/
def Parser.parseObjectLoop :
    Nat → Parser → List (Str × JsonValue) → Except Exn (List (Str × JsonValue) × Parser)
  | 0, _, _ => .error .outOfFuel
  | fuel + 1, p, properties =>
    if p.currentToken.type ≠ .STRING then
      .error (.runtimeError (str "Expected string key in object"))
    else do
      let key := p.currentToken.value
      let p ← p.checkToken .STRING
      let p ← p.checkToken .COLON
      let (value, p) ← Parser.parseValue fuel p
      let properties := properties ++ [(key, value)]
      if p.currentToken.type = .COMMA then
        let p ← p.checkToken .COMMA
        if p.currentToken.type = .RBRACE then
          .error (.runtimeError (str "Trailing comma in object"))
        else Parser.parseObjectLoop fuel p properties
      else if p.currentToken.type = .RBRACE then pure (properties, p)
      else .error (.runtimeError (str "Expected comma or \x7d in object"))

/-- `Parser::parseArray`. -/
def Parser.parseArray : Nat → Parser → Except Exn (JsonValue × Parser)
  | 0, _ => .error .outOfFuel
  | fuel + 1, p => do
    let p ← p.checkToken .LBRACKET
    if p.currentToken.type = .RBRACKET then
      let p ← p.checkToken .RBRACKET
      pure (.array [], p)
    else
      let (elements, p) ← Parser.parseArrayLoop fuel p []
      let p ← p.checkToken .RBRACKET
      pure (.array elements, p)

/-- The `while (true)` loop of `Parser::parseArray`, left by `break` with the lookahead at
`RBRACKET`. -/
def Parser.parseArrayLoop :
    Nat → Parser → List JsonValue → Except Exn (List JsonValue × Parser)
  | 0, _, _ => .error .outOfFuel
  | fuel + 1, p, elements => do
    let (value, p) ← Parser.parseValue fuel p
    let elements := elements ++ [value]
    if p.currentToken.type = .COMMA then
      let p ← p.checkToken .COMMA
      if p.currentToken.type = .RBRACKET then
        .error (.runtimeError (str "Trailing comma in array"))
      else Parser.parseArrayLoop fuel p elements
    else if p.currentToken.type = .RBRACKET then pure (elements, p)
    else .error (.runtimeError (str "Expected comma or ] in array"))

end

/-- Fuel that is enough for the recursive descent: three units for each token of the buffer
and one more. -/
def Parser.fuel (p : Parser) : Nat := 3 * (p.lexer.text.length + 1) + 1

/-- `Parser::parse`. -/
def Parser.parse (p : Parser) : Except Exn JsonValue := do
  let (result, p) ← p.parseValue p.fuel
  if p.currentToken.type ≠ .EOF_TOKEN then
    .error (.runtimeError (str "Extra content after JSON value"))
  else pure result

/-- The statements `Lexer lexer(input); Parser parser(lexer); parser.parse()` of `main`. -/
def parseInput (input : Str) : Except Exn JsonValue := do
  let parser ← Parser.new (Lexer.new input)
  parser.parse

/-! ## Printer (`parser.cpp`) -/

mutual

/-- The `toString(int indent)` overrides of the six value classes. -/
def JsonValue.toString : JsonValue → Nat → Str
  | .object properties, indent =>
    if properties.isEmpty then str "\x7b\x7d"
    else str "\x7b\n" ++ JsonValue.propertiesToString properties indent
      ++ List.replicate indent 32 ++ str "\x7d"
  | .array elements, indent =>
    if elements.isEmpty then str "[]"
    else str "[\n" ++ JsonValue.elementsToString elements indent
      ++ List.replicate indent 32 ++ str "]"
  | .string value, _ => str "\"" ++ value ++ str "\""
  | .number value, _ => value.format
  | .boolean value, _ => if value then str "true" else str "false"
  | .null, _ => str "null"

/-- The `for` loop of `JsonObject::toString` over the properties from index `i` on; the comma
test `i < properties.size() - 1` is "not the last property". -/
def JsonValue.propertiesToString : List (Str × JsonValue) → Nat → Str
  | [], _ => []
  | (key, value) :: rest, indent =>
    List.replicate (indent + 2) 32 ++ str "\"" ++ key ++ str "\": "
      ++ value.toString (indent + 2)
      ++ (if rest.isEmpty then [] else str ",") ++ str "\n"
      ++ JsonValue.propertiesToString rest indent

/-- The `for` loop of `JsonArray::toString` over the elements from index `i` on. -/
def JsonValue.elementsToString : List JsonValue → Nat → Str
  | [], _ => []
  | value :: rest, indent =>
    List.replicate (indent + 2) 32 ++ value.toString (indent + 2)
      ++ (if rest.isEmpty then [] else str ",") ++ str "\n"
      ++ JsonValue.elementsToString rest indent

end

/-! ## The lexer as a function of the text after the cursor

The same code read on the list of characters from the cursor on: `currentChar` is the head of the
list (the sentinel `0` when it is empty), `advance` is its tail, and a loop that advances while a
test holds is `takeWhile` and `dropWhile`.  A scan gives its result and the text left, or the
message of the lexical error and the text left when it is raised. -/

/-- The cursor after `n` calls of `Lexer::advance`. -/
def Lexer.advanceN : Nat → Lexer → Lexer
  | 0, l => l
  | n + 1, l => Lexer.advanceN n l.advance

/-- The lexer `l` is a cursor of its buffer with the text `s` from the cursor on. -/
def Lexer.View (l : Lexer) (s : Str) : Prop :=
  l.text.drop l.pos = s ∧ l.currentChar = s.headD 0

/-- The loop of `Lexer::parseString` on the text after the cursor. -/
def scanStringLoop : Str → Str → Except (Str × Str) (Str × Str)
  | [], result => .ok (result, [])
  | c :: rest, result =>
    if c ≠ 0 ∧ c ≠ 34 then
      if c = 92 then
        match rest with
        | [] => .error (str "Unterminated string escape", [])
        | e :: rest' =>
          if e = 0 then .error (str "Unterminated string escape", e :: rest')
          else
            match escapeText e with
            | some t => scanStringLoop rest' (result ++ t)
            | none => .error (str "Invalid escape sequence", e :: rest')
      else if c < 32 ∧ c ≠ 9 then .error (str "Control character in string", c :: rest)
      else scanStringLoop rest (result ++ [c])
    else .ok (result, c :: rest)

/-- `Lexer::parseString` on the text from the opening quote on. -/
def scanString (s : Str) : Except (Str × Str) (Str × Str) := do
  let (result, r) ← scanStringLoop s.tail []
  if r.headD 0 ≠ 34 then .error (str "Unterminated string", r) else pure (result, r.tail)

/-- The integer part of `Lexer::parseNumber` on the text after the cursor. -/
def scanInteger (s : Str) (result : Str) : Except (Str × Str) (Str × Str) :=
  if s.headD 0 = 48 then
    if isdigit (s.tail.headD 0) then .error (str "Leading zeros not allowed", s.tail)
    else .ok (result ++ [s.headD 0], s.tail)
  else if isdigit (s.headD 0) then .ok (result ++ s.takeWhile isdigit, s.dropWhile isdigit)
  else .error (str "Invalid number", s)

/-- The decimal part of `Lexer::parseNumber` on the text after the cursor. -/
def scanFraction (s : Str) (result : Str) : Except (Str × Str) (Str × Str) :=
  if s.headD 0 = 46 then
    if ¬ isdigit (s.tail.headD 0) then .error (str "Digit expected after decimal point", s.tail)
    else .ok (result ++ [s.headD 0] ++ s.tail.takeWhile isdigit, s.tail.dropWhile isdigit)
  else .ok (result, s)

/-- The text after an optional sign of an exponent. -/
def skipSign (s : Str) : Str := if s.headD 0 = 43 ∨ s.headD 0 = 45 then s.tail else s

/-- The sign of an exponent, when there is one. -/
def signText (s : Str) : Str := if s.headD 0 = 43 ∨ s.headD 0 = 45 then [s.headD 0] else []

/-- The exponent part of `Lexer::parseNumber` on the text after the cursor. -/
def scanExponent (s : Str) (result : Str) : Except (Str × Str) (Str × Str) :=
  if s.headD 0 = 101 ∨ s.headD 0 = 69 then
    if ¬ isdigit ((skipSign s.tail).headD 0) then
      .error (str "Digit expected in exponent", skipSign s.tail)
    else
      .ok (result ++ [s.headD 0] ++ signText s.tail ++ (skipSign s.tail).takeWhile isdigit,
        (skipSign s.tail).dropWhile isdigit)
  else .ok (result, s)

/-- `Lexer::parseNumber` on the text after the cursor. -/
def scanNumber (s : Str) : Except (Str × Str) (Str × Str) := do
  let result : Str := []
  let (result, s) := if s.headD 0 = 45 then (result ++ [s.headD 0], s.tail) else (result, s)
  let (result, s) ← scanInteger s result
  let (result, s) ← scanFraction s result
  scanExponent s result

/-- The `switch` of `Lexer::getNextToken` on the text after the cursor. -/
def scanToken (s : Str) : Except (Str × Str) (Token × Str) :=
  let c := s.headD 0
  if c = 123 then .ok (⟨.LBRACE, str "\x7b"⟩, s.tail)
  else if c = 125 then .ok (⟨.RBRACE, str "\x7d"⟩, s.tail)
  else if c = 91 then .ok (⟨.LBRACKET, str "["⟩, s.tail)
  else if c = 93 then .ok (⟨.RBRACKET, str "]"⟩, s.tail)
  else if c = 44 then .ok (⟨.COMMA, str ","⟩, s.tail)
  else if c = 58 then .ok (⟨.COLON, str ":"⟩, s.tail)
  else if c = 34 then do
    let (t, r) ← scanString s
    pure (⟨.STRING, t⟩, r)
  else if c = 45 ∨ isdigit c then do
    let (num, r) ← scanNumber s
    pure (⟨.NUMBER, num⟩, r)
  else if c = 116 ∨ c = 102 ∨ c = 110 then
    if s.takeWhile isalpha = str "true" then .ok (⟨.TRUE, str "true"⟩, s.dropWhile isalpha)
    else if s.takeWhile isalpha = str "false" then
      .ok (⟨.FALSE, str "false"⟩, s.dropWhile isalpha)
    else if s.takeWhile isalpha = str "null" then
      .ok (⟨.NULL_TOKEN, str "null"⟩, s.dropWhile isalpha)
    else .error (str "Invalid keyword: " ++ s.takeWhile isalpha, s.dropWhile isalpha)
  else .error (str "Unexpected character: " ++ [c], s)

/-- `Lexer::getNextToken` on the text after the cursor. -/
def scan (s : Str) : Except (Str × Str) (Token × Str) :=
  if (s.dropWhile isspace).headD 0 = 0 then .ok (⟨.EOF_TOKEN, []⟩, s.dropWhile isspace)
  else scanToken (s.dropWhile isspace)

/-- What a scan of the text `s` after the cursor of `l` means for the lexer: the cursor has
advanced over the characters no longer left, and an error is raised at the cursor. -/
def Lexer.lift {α : Type} (l : Lexer) (s : Str) (r : Except (Str × Str) (α × Str)) : Except Exn (α × Lexer) :=
  match r with
  | .ok (x, rest) => .ok (x, l.advanceN (s.length - rest.length))
  | .error (msg, rest) => (l.advanceN (s.length - rest.length)).error msg

/-- The lexer outcome `x`, started at the cursor `l` with the text `s` from the cursor on, is the
scan outcome `y`: the cursor has advanced over a prefix of `s`, the rest is the text left. -/
def Lexer.Agree {α : Type} (l : Lexer) (s : Str) (x : Except Exn (α × Lexer)) (y : Except (Str × Str) (α × Str)) :
    Prop :=
  match y with
  | .ok (a, r) => ∃ k, k ≤ s.length ∧ r = s.drop k ∧ x = .ok (a, l.advanceN k)
  | .error (m, r) => ∃ k, k ≤ s.length ∧ r = s.drop k ∧ x = (l.advanceN k).error m

/-- The tokens that repeated calls of `Lexer::getNextToken` return, up to and including the
end-of-input token, or up to the exception that ends them. -/
def Lexer.tokens : Nat → Lexer → List Token × Option Exn
  | 0, _ => ([], some .outOfFuel)
  | fuel + 1, l =>
    match l.getNextToken with
    | .error e => ([], some e)
    | .ok (t, l') =>
      if t.type = .EOF_TOKEN then ([t], none)
      else (t :: (Lexer.tokens fuel l').1, (Lexer.tokens fuel l').2)

/-- The token sequence of an input buffer. -/
def tokenize (input : Str) : List Token × Option Exn :=
  (Lexer.new input).tokens (input.length + 1)

/-! ## Reference decoder of string literals

Written from the words of the specification, to be compared with `Lexer::parseString`. -/

/-- The body of a string literal up to its unescaped closing quote, and the text after that
quote: a backslash takes the character after it with it. -/
def splitBody : Str → Option (Str × Str)
  | [] => none
  | c :: rest =>
    if c = 34 then some ([], rest)
    else if c = 92 then
      match rest with
      | [] => none
      | e :: rest' => (splitBody rest').map fun x => (c :: e :: x.1, x.2)
    else (splitBody rest).map fun x => (c :: x.1, x.2)

/-- The characters that may follow a backslash, with the text each escape denotes: the control
or literal character for `" \ / b f n r t`, and the two characters backslash-u for `u`. -/
def escapeTable : List (Int × Str) :=
  [(34, [34]), (92, [92]), (47, [47]), (98, [8]), (102, [12]), (110, [10]), (114, [13]),
    (116, [9]), (117, [92, 117])]

/-- Every backslash of the body is followed by one of `" \ / b f n r t u`, and no raw character
with code below `0x20` other than tab occurs. -/
def bodyValid : Str → Bool
  | [] => true
  | c :: rest =>
    if c = 92 then
      match rest with
      | [] => false
      | e :: rest' => (escapeTable.lookup e).isSome && bodyValid rest'
    else !(decide (c < 32) && decide (c ≠ 9)) && bodyValid rest

/-- The body with each escape replaced by what it denotes. -/
def decodeBody : Str → Str
  | [] => []
  | c :: rest =>
    if c = 92 then
      match rest with
      | [] => []
      | e :: rest' => (escapeTable.lookup e).getD [] ++ decodeBody rest'
    else c :: decodeBody rest

/-- The reference decoder, on the text after the opening quote: the decoded text and the text
after the closing quote, when the literal is well formed. -/
def decodeString (s : Str) : Option (Str × Str) :=
  match splitBody s with
  | none => none
  | some (body, rest) => if bodyValid body then some (decodeBody body, rest) else none

/-! ## The parser on a list of tokens

The code of the parser again, reading its tokens from a list instead of a lexer: the parser only
ever asks the lexer for its next token. -/

/-- A parser whose token source is a list: the lookahead, the tokens that `getNextToken` returns
next, and the exception that it throws after them when the list does not end with the
end-of-input token. -/
structure TParser where
  currentToken : Token
  rest : List Token
  stop : Option Exn

/-- `currentToken = lexer.getNextToken()` on the list.  A list that ends with the end-of-input
token is never asked for more, since no token is requested once the lookahead is end-of-input;
on any other list asking past its end is the exception `stop`, or running out when there is
none. -/
def TParser.next (q : TParser) : Except Exn TParser :=
  match q.rest with
  | t :: r => .ok { currentToken := t, rest := r, stop := q.stop }
  | [] =>
    match q.stop with
    | some e => .error e
    | none => .error .outOfFuel

/-- `Parser::checkToken` on the list. -/
def TParser.checkToken (q : TParser) (expected : TokenType) : Except Exn TParser :=
  if q.currentToken.type ≠ expected then
    .error (.expectedToken expected q.currentToken.type)
  else q.next

/-- `Parser::parseString` on the list. -/
def TParser.parseString (q : TParser) : Except Exn (JsonValue × TParser) := do
  let s := JsonValue.string q.currentToken.value
  let q ← q.checkToken .STRING
  pure (s, q)

/-- `Parser::parseNumber` on the list. -/
def TParser.parseNumber (q : TParser) : Except Exn (JsonValue × TParser) := do
  let value ← stod q.currentToken.value
  let num := JsonValue.number value
  let q ← q.checkToken .NUMBER
  pure (num, q)

/-- `Parser::parseBoolean` on the list. -/
def TParser.parseBoolean (q : TParser) : Except Exn (JsonValue × TParser) := do
  let value := decide (q.currentToken.type = .TRUE)
  let boolean := JsonValue.boolean value
  let q ← q.checkToken q.currentToken.type
  pure (boolean, q)

/-- `Parser::parseNull` on the list. -/
def TParser.parseNull (q : TParser) : Except Exn (JsonValue × TParser) := do
  let q ← q.checkToken .NULL_TOKEN
  pure (JsonValue.null, q)

mutual

/-- `Parser::parseValue` on the list. -/
def TParser.parseValue : Nat → TParser → Except Exn (JsonValue × TParser)
  | 0, _ => .error .outOfFuel
  | fuel + 1, q =>
    match q.currentToken.type with
    | .LBRACE => TParser.parseObject fuel q
    | .LBRACKET => TParser.parseArray fuel q
    | .STRING => q.parseString
    | .NUMBER => q.parseNumber
    | .TRUE => q.parseBoolean
    | .FALSE => q.parseBoolean
    | .NULL_TOKEN => q.parseNull
    | _ => .error (.runtimeError (str "Unexpected token in value"))

/-- `Parser::parseObject` on the list. -/
def TParser.parseObject : Nat → TParser → Except Exn (JsonValue × TParser)
  | 0, _ => .error .outOfFuel
  | fuel + 1, q => do
    let q ← q.checkToken .LBRACE
    if q.currentToken.type = .RBRACE then
      let q ← q.checkToken .RBRACE
      pure (.object [], q)
    else
      let (properties, q) ← TParser.parseObjectLoop fuel q []
      let q ← q.checkToken .RBRACE
      pure (.object properties, q)

/-- The loop of `Parser::parseObject` on the list. -/
def TParser.parseObjectLoop :
    Nat → TParser → List (Str × JsonValue) → Except Exn (List (Str × JsonValue) × TParser)
  | 0, _, _ => .error .outOfFuel
  | fuel + 1, q, properties =>
    if q.currentToken.type ≠ .STRING then
      .error (.runtimeError (str "Expected string key in object"))
    else do
      let key := q.currentToken.value
      let q ← q.checkToken .STRING
      let q ← q.checkToken .COLON
      let (value, q) ← TParser.parseValue fuel q
      let properties := properties ++ [(key, value)]
      if q.currentToken.type = .COMMA then
        let q ← q.checkToken .COMMA
        if q.currentToken.type = .RBRACE then
          .error (.runtimeError (str "Trailing comma in object"))
        else TParser.parseObjectLoop fuel q properties
      else if q.currentToken.type = .RBRACE then pure (properties, q)
      else .error (.runtimeError (str "Expected comma or \x7d in object"))

/-- `Parser::parseArray` on the list. -/
def TParser.parseArray : Nat → TParser → Except Exn (JsonValue × TParser)
  | 0, _ => .error .outOfFuel
  | fuel + 1, q => do
    let q ← q.checkToken .LBRACKET
    if q.currentToken.type = .RBRACKET then
      let q ← q.checkToken .RBRACKET
      pure (.array [], q)
    else
      let (elements, q) ← TParser.parseArrayLoop fuel q []
      let q ← q.checkToken .RBRACKET
      pure (.array elements, q)

/-- The loop of `Parser::parseArray` on the list. -/
def TParser.parseArrayLoop :
    Nat → TParser → List JsonValue → Except Exn (List JsonValue × TParser)
  | 0, _, _ => .error .outOfFuel
  | fuel + 1, q, elements => do
    let (value, q) ← TParser.parseValue fuel q
    let elements := elements ++ [value]
    if q.currentToken.type = .COMMA then
      let q ← q.checkToken .COMMA
      if q.currentToken.type = .RBRACKET then
        .error (.runtimeError (str "Trailing comma in array"))
      else TParser.parseArrayLoop fuel q elements
    else if q.currentToken.type = .RBRACKET then pure (elements, q)
    else .error (.runtimeError (str "Expected comma or ] in array"))

end

/-- `Parser::parse` on the list, with the fuel given. -/
def TParser.parse (q : TParser) (fuel : Nat) : Except Exn JsonValue := do
  let (result, q) ← q.parseValue fuel
  if q.currentToken.type ≠ .EOF_TOKEN then
    .error (.runtimeError (str "Extra content after JSON value"))
  else pure result

/-- The calls of `getNextToken` from the cursor `l` on return the tokens `ts`, the last of which
is the end-of-input token, or return them and then throw `stop`. -/
def Lexer.Feeds : Lexer → List Token → Option Exn → Prop
  | l, [], stop => ∃ e, stop = some e ∧ l.getNextToken = .error e
  | l, t :: r, stop =>
    ∃ l', l.getNextToken = .ok (t, l') ∧
      (if t.type = .EOF_TOKEN then r = [] ∧ stop = none else Lexer.Feeds l' r stop)

/-- The parser `p` on a lexer and the parser `q` on a list have the same lookahead and the same
tokens to come. -/
def Parser.Sim (p : Parser) (q : TParser) : Prop :=
  p.currentToken = q.currentToken ∧
    (q.currentToken.type ≠ .EOF_TOKEN → p.lexer.Feeds q.rest q.stop)

/-- The same outcome of two computations that may throw: both throw the same exception, or both
return and the results are related. -/
def ExceptRel {α β : Type} (R : α → β → Prop) (x : Except Exn α) (y : Except Exn β) : Prop :=
  match x, y with
  | .ok a, .ok b => R a b
  | .error e, .error e' => e = e'
  | _, _ => False

/-- The same result of a step of the two parsers: the same value, and parsers that are still
in step. -/
def Parser.SimV {α : Type} (x : α × Parser) (y : α × TParser) : Prop :=
  x.1 = y.1 ∧ x.2.Sim y.2

/-- The statements of `main` on a token sequence: the parser is primed with the first token and
parses with the fuel given. -/
def parseTokens (ts : List Token) (stop : Option Exn) (fuel : Nat) : Except Exn JsonValue := do
  let q ← TParser.next { currentToken := ⟨.INVALID, []⟩, rest := ts, stop := stop }
  q.parse fuel

/-! ## The grammar of token sequences -/

mutual

/-- The token sequence `ts` is a serialization of the value: a String, Number, true, false or
null is its single token (a NUMBER token standing for the conversion of its text), an Array is
`[`, its elements separated by single commas, `]`, an Object is `{`, its members separated by
single commas, `}`. -/
inductive Serializes : JsonValue → List Token → Prop
  | string (t : Token) : t.type = .STRING → Serializes (.string t.value) [t]
  | number (t : Token) (d : Double) :
    t.type = .NUMBER → stod t.value = .ok d → Serializes (.number d) [t]
  | true (t : Token) : t.type = .TRUE → Serializes (.boolean true) [t]
  | false (t : Token) : t.type = .FALSE → Serializes (.boolean false) [t]
  | null (t : Token) : t.type = .NULL_TOKEN → Serializes .null [t]
  | emptyObject (lb rb : Token) :
    lb.type = .LBRACE → rb.type = .RBRACE → Serializes (.object []) [lb, rb]
  | object (lb rb : Token) (properties : List (Str × JsonValue)) (ts : List Token) :
    lb.type = .LBRACE → rb.type = .RBRACE → SerializesMembers properties ts →
    Serializes (.object properties) (lb :: ts ++ [rb])
  | emptyArray (lb rb : Token) :
    lb.type = .LBRACKET → rb.type = .RBRACKET → Serializes (.array []) [lb, rb]
  | array (lb rb : Token) (elements : List JsonValue) (ts : List Token) :
    lb.type = .LBRACKET → rb.type = .RBRACKET → SerializesElements elements ts →
    Serializes (.array elements) (lb :: ts ++ [rb])

/-- One or more members `string-key colon value`, separated by single commas. -/
inductive SerializesMembers : List (Str × JsonValue) → List Token → Prop
  | one (key colon : Token) (v : JsonValue) (ts : List Token) :
    key.type = .STRING → colon.type = .COLON → Serializes v ts →
    SerializesMembers [(key.value, v)] (key :: colon :: ts)
  | cons (key colon comma : Token) (v : JsonValue) (ts : List Token)
    (rest : List (Str × JsonValue)) (tsr : List Token) :
    key.type = .STRING → colon.type = .COLON → Serializes v ts → comma.type = .COMMA →
    SerializesMembers rest tsr →
    SerializesMembers ((key.value, v) :: rest) (key :: colon :: ts ++ comma :: tsr)

/-- One or more values, separated by single commas. -/
inductive SerializesElements : List JsonValue → List Token → Prop
  | one (v : JsonValue) (ts : List Token) : Serializes v ts → SerializesElements [v] ts
  | cons (comma : Token) (v : JsonValue) (ts : List Token) (rest : List JsonValue)
    (tsr : List Token) :
    Serializes v ts → comma.type = .COMMA → SerializesElements rest tsr →
    SerializesElements (v :: rest) (ts ++ comma :: tsr)

end

/-- A comma token immediately followed by an object-close or array-close token. -/
def TrailingComma (a b : Token) : Prop :=
  a.type = .COMMA ∧ (b.type = .RBRACE ∨ b.type = .RBRACKET)

/-- The token list of `q` ends as the token sequence of a text does: with the end-of-input
token, or with an exception of the program. -/
def TParser.Ends (q : TParser) : Prop :=
  match q.stop with
  | some e => e ≠ .outOfFuel
  | none => ∃ t, (q.currentToken :: q.rest).getLast? = some t ∧ t.type = .EOF_TOKEN

/-! ## Lookahead of the lexer -/

/-- A character that ends a number and a keyword: no digit, no letter, no decimal point. -/
def Delim (c : Int) : Prop := isdigit c = false ∧ isalpha c = false ∧ c ≠ 46

/-- Two texts that a token may be followed by with the same effect: they start with the same
character, or the second one starts with a character that ends every token. -/
def Compat (r r' : Str) : Prop := r'.headD 0 = r.headD 0 ∨ Delim (r'.headD 0)

/-! ## Token sequences of a text and insertion of whitespace -/

/-- The scans of the text `s` give the tokens `ts`, the last of which is the end-of-input token
(`stop` is `none`), or give them and then raise the lexical error with the message `stop`. -/
inductive Scans : Str → List Token → Option Str → Prop
  | error {s : Str} {m r : Str} : scan s = .error (m, r) → Scans s [] (some m)
  | eof {s : Str} {t : Token} {r : Str} : scan s = .ok (t, r) → t.type = .EOF_TOKEN →
      Scans s [t] none
  | token {s : Str} {t : Token} {r : Str} {ts : List Token} {stop : Option Str} :
      scan s = .ok (t, r) → t.type ≠ .EOF_TOKEN → Scans r ts stop → Scans s (t :: ts) stop

/-- The text `s'` is the text `s` with runs of space, tab, newline and carriage return inserted
before the first token, between two adjacent tokens or after the last token, at any place that
is not inside a token.  The relation walks over `s` and stands outside the tokens: `here`
inserts one character where the walk stands, `space` steps over one whitespace character that
the text already has there, `token` steps over the next token, which `Lexer::getNextToken`
reads from exactly the characters `p`, and `done` leaves the rest of the text as it is. -/
inductive WsInsert : Str → Str → Prop
  | done (s : Str) : WsInsert s s
  | here (c : Int) {s s' : Str} : c = 32 ∨ c = 9 ∨ c = 10 ∨ c = 13 → WsInsert s s' →
      WsInsert s (c :: s')
  | space (c : Int) {s s' : Str} : isspace c = true → WsInsert s s' →
      WsInsert (c :: s) (c :: s')
  | token (p : Str) {r r' : Str} {t : Token} {l' : Lexer} :
      (Lexer.new (p ++ r)).getNextToken = .ok (t, l') → l'.pos = p.length →
      t.type ≠ .EOF_TOKEN → WsInsert r r' → WsInsert (p ++ r) (p ++ r')

/-! ## Trees whose printed text is read back -/

/-- Text that a string literal holds as it stands: characters of code 32 or more or tabs (so
no other control character and, `char` being signed, no byte above `0x7F`) that are neither a
double quote nor a backslash, and backslashes followed by `u`, which the lexer keeps as they
are. -/
inductive StrSafe : Str → Prop
  | nil : StrSafe []
  | char (c : Int) (rest : Str) :
      (32 ≤ c ∨ c = 9) → c ≠ 34 → c ≠ 92 → StrSafe rest → StrSafe (c :: rest)
  | unicode (rest : Str) : StrSafe rest → StrSafe (92 :: 117 :: rest)

/-- A number that is finite and whose default rendering `std::stod` converts without throwing. -/
def Double.Convertible (d : Double) : Prop :=
  (∃ neg man exp, d = .finite neg man exp) ∧ ∃ d', stod d.format = .ok d'

/-- The conversion of the default rendering of a number (the number itself where `std::stod`
throws). -/
def Double.reparsed (d : Double) : Double :=
  match stod d.format with
  | .ok d' => d'
  | .error _ => d

mutual

/-- The strings and keys of the tree are `StrSafe` and its numbers are `Convertible`. -/
def JsonValue.Printable : JsonValue → Prop
  | .object properties => JsonValue.PrintableMembers properties
  | .array elements => JsonValue.PrintableElements elements
  | .string value => StrSafe value
  | .number value => value.Convertible
  | .boolean _ => True
  | .null => True

/-- `Printable` for the properties of an object. -/
def JsonValue.PrintableMembers : List (Str × JsonValue) → Prop
  | [] => True
  | (key, value) :: rest => StrSafe key ∧ value.Printable ∧ JsonValue.PrintableMembers rest

/-- `Printable` for the elements of an array. -/
def JsonValue.PrintableElements : List JsonValue → Prop
  | [] => True
  | value :: rest => value.Printable ∧ JsonValue.PrintableElements rest

end

mutual

/-- The tree with every number replaced by the conversion of its default rendering: the same
variant at every node, the same children and keys in the same order, the same strings. -/
def JsonValue.reparsed : JsonValue → JsonValue
  | .object properties => .object (JsonValue.reparsedMembers properties)
  | .array elements => .array (JsonValue.reparsedElements elements)
  | .string value => .string value
  | .number value => .number value.reparsed
  | .boolean value => .boolean value
  | .null => .null

/-- `reparsed` for the properties of an object. -/
def JsonValue.reparsedMembers : List (Str × JsonValue) → List (Str × JsonValue)
  | [] => []
  | (key, value) :: rest => (key, value.reparsed) :: JsonValue.reparsedMembers rest

/-- `reparsed` for the elements of an array. -/
def JsonValue.reparsedElements : List JsonValue → List JsonValue
  | [] => []
  | value :: rest => value.reparsed :: JsonValue.reparsedElements rest

end

mutual

/-- The tokens of the printed text of a tree. -/
def JsonValue.tokens : JsonValue → List Token
  | .object properties =>
    ⟨.LBRACE, str "\x7b"⟩ :: (JsonValue.memberTokens properties ++ [⟨.RBRACE, str "\x7d"⟩])
  | .array elements =>
    ⟨.LBRACKET, str "["⟩ :: (JsonValue.elementTokens elements ++ [⟨.RBRACKET, str "]"⟩])
  | .string value => [⟨.STRING, value⟩]
  | .number value => [⟨.NUMBER, value.format⟩]
  | .boolean value => [if value then ⟨.TRUE, str "true"⟩ else ⟨.FALSE, str "false"⟩]
  | .null => [⟨.NULL_TOKEN, str "null"⟩]

/-- The tokens of the printed properties of an object. -/
def JsonValue.memberTokens : List (Str × JsonValue) → List Token
  | [] => []
  | (key, value) :: rest =>
    ⟨.STRING, key⟩ :: ⟨.COLON, str ":"⟩ :: (value.tokens
      ++ ((if rest.isEmpty then [] else [⟨.COMMA, str ","⟩]) ++ JsonValue.memberTokens rest))

/-- The tokens of the printed elements of an array. -/
def JsonValue.elementTokens : List JsonValue → List Token
  | [] => []
  | value :: rest =>
    value.tokens
      ++ ((if rest.isEmpty then [] else [⟨.COMMA, str ","⟩]) ++ JsonValue.elementTokens rest)

end

/-! ## The grammar of number literals -/

/-- The integer part `0|[1-9][0-9]*`. -/
def IntPart (ip : Str) : Prop :=
  ip = [48] ∨ (ip ≠ [] ∧ (∀ c ∈ ip, isdigit c = true) ∧ ip.headD 0 ≠ 48)

/-- The optional fraction `(\.[0-9]+)?`. -/
def FracPart (fr : Str) : Prop :=
  fr = [] ∨ ∃ ds, ds ≠ [] ∧ (∀ c ∈ ds, isdigit c = true) ∧ fr = 46 :: ds

/-- The optional exponent `([eE][+-]?[0-9]+)?`. -/
def ExpPart (ex : Str) : Prop :=
  ex = [] ∨ ∃ e sg ds, (e = 101 ∨ e = 69) ∧ (sg = [] ∨ sg = [43] ∨ sg = [45]) ∧ ds ≠ [] ∧
    (∀ c ∈ ds, isdigit c = true) ∧ ex = e :: (sg ++ ds)

/-- The grammar `-?(0|[1-9][0-9]*)(\.[0-9]+)?([eE][+-]?[0-9]+)?` of number literals. -/
def NumberLiteral (x : Str) : Prop :=
  ∃ sign ip fr ex, x = sign ++ ip ++ fr ++ ex ∧ (sign = [] ∨ sign = [45]) ∧ IntPart ip ∧
    FracPart fr ∧ ExpPart ex

/-! ## Positions in the buffer -/

/-- The lexer states between the calls of `getNextToken` on the buffer `input`: the state after
construction, and the state in which a call that returns leaves the lexer. -/
inductive Lexer.Reachable (input : Str) : Lexer → Prop
  | start : Lexer.Reachable input (Lexer.new input)
  | step {l l' : Lexer} {t : Token} :
      Lexer.Reachable input l → l.getNextToken = .ok (t, l') → Lexer.Reachable input l'

/-! ## The layout of the printer in the words of its description -/

/-- One line of a printed Object: the pair with index `i` (from zero) of `n` pairs, at the
level `L`: `L + 2` spaces, the key in quotes, colon and space, the value at level `L + 2`, a
comma when the pair is not the last one, newline. -/
def memberLine (n L : Nat) (i : Nat) (pair : Str × JsonValue) : Str :=
  List.replicate (L + 2) 32 ++ str "\"" ++ pair.1 ++ str "\": " ++ pair.2.toString (L + 2)
    ++ (if i + 1 < n then str "," else []) ++ str "\n"

/-- The layout of a non-empty Object at the level `L`: `{`, newline, one line for each pair in
stored order, `L` spaces, `}`. -/
def objectLayout (pairs : List (Str × JsonValue)) (L : Nat) : Str :=
  str "\x7b" ++ str "\n"
    ++ (pairs.enum.map fun ip => memberLine pairs.length L ip.1 ip.2).flatten
    ++ List.replicate L 32 ++ str "\x7d"

/-- One line of a printed Array: as `memberLine`, without the key. -/
def elementLine (n L : Nat) (i : Nat) (value : JsonValue) : Str :=
  List.replicate (L + 2) 32 ++ value.toString (L + 2)
    ++ (if i + 1 < n then str "," else []) ++ str "\n"

/-- The layout of a non-empty Array at the level `L`: `[`, newline, one line for each element
in stored order, `L` spaces, `]`. -/
def arrayLayout (elements : List JsonValue) (L : Nat) : Str :=
  str "[" ++ str "\n"
    ++ (elements.enum.map fun ie => elementLine elements.length L ie.1 ie.2).flatten
    ++ List.replicate L 32 ++ str "]"

/-! ## The position reported by a failure -/

/-- The line and column that the text of an exception reports: `Lexer::error` writes them into
its message, the exceptions thrown by the parser and by `std::stod` have none. -/
def Exn.position : Exn → Option (Nat × Nat)
  | .lexerError line column _ => some (line, column)
  | _ => none

/-- The line and column reported when a computation fails. -/
def failurePosition {α : Type} (r : Except Exn α) : Option (Nat × Nat) :=
  match r with
  | .error e => e.position
  | .ok _ => none

/-! ## Bytes as characters -/

/-- The value of the byte `b` as a `char` where `char` is a signed type (as on x86): the bytes
from `0x80` on are the negative values. -/
def charOfByte (b : Nat) : Int := if b < 128 then (b : Int) else (b : Int) - 256

/-! ## The word count tool (`ccwc.cpp`)

The second program of the repository.  A stream is the list of the bytes still to be read;
`in.read(buf, n)` takes up to `n` of them, and there are no read errors.  The counters are
`std::uint64_t`: they wrap around at `2^64`. -/

/-- `struct Counts`. -/
structure Ccwc.Counts where
  lines : Nat
  words : Nat
  bytes : Nat
  chars : Nat
  deriving DecidableEq, Repr

/-- `struct Sel`. -/
structure Ccwc.Sel where
  l : Bool
  w : Bool
  c : Bool
  m : Bool
  deriving DecidableEq, Repr

/-- `std::isspace` on an `unsigned char` in the "C" locale. -/
def Ccwc.isspace (uch : Nat) : Bool := uch == 32 || (9 ≤ uch && uch ≤ 13)

/-- The size `BUF` of the read buffer of `count_stream`. -/
def Ccwc.BUF : Nat := 64 * 1024

/-- The body of the `for` loop of `count_stream` for the byte `ch`, on the flag `in_word` and
the counters. -/
def Ccwc.countByte (sel : Ccwc.Sel) (st : Bool × Ccwc.Counts) (ch : Nat) : Bool × Ccwc.Counts :=
  let in_word := st.1
  let out := st.2
  let out := if sel.l ∧ ch = 10 then { out with lines := (out.lines + 1) % 2 ^ 64 } else out
  let wstep : Bool × Ccwc.Counts :=
    if sel.w then
      if Ccwc.isspace ch then (false, out)
      else if ¬ in_word then (true, { out with words := (out.words + 1) % 2 ^ 64 })
      else (in_word, out)
    else (in_word, out)
  let out := wstep.2
  let out :=
    if sel.m ∧ ch &&& 0xC0 ≠ 0x80 then { out with chars := (out.chars + 1) % 2 ^ 64 } else out
  (wstep.1, out)

/-- The `while (true)` loop of `count_stream` with a buffer of `bufSize` bytes; the first
argument is fuel, `none` is running out of it. -/
def Ccwc.countLoop (bufSize : Nat) (sel : Ccwc.Sel) :
    Nat → List Nat → Bool → Ccwc.Counts → Option (Bool × Ccwc.Counts)
  | 0, _, _, _ => none
  | fuel + 1, stream, in_word, out =>
    let got := min bufSize stream.length
    if got ≤ 0 then some (true, out)
    else
      let out := if sel.c then { out with bytes := (out.bytes + got) % 2 ^ 64 } else out
      let st := (stream.take got).foldl (Ccwc.countByte sel) (in_word, out)
      Ccwc.countLoop bufSize sel fuel (stream.drop got) st.1 st.2

/-- `count_stream` on the stream `input`: the success flag and the counters `out` after the
call. -/
def Ccwc.count_stream (input : List Nat) (sel : Ccwc.Sel) (out : Ccwc.Counts) :
    Option (Bool × Ccwc.Counts) :=
  Ccwc.countLoop Ccwc.BUF sel (input.length + 1) input false out

/-- The number of maximal runs of non-whitespace bytes: the input split at its whitespace
bytes, the pieces that are not empty. -/
def Ccwc.wordRuns (input : List Nat) : Nat :=
  ((input.splitOnP Ccwc.isspace).filter fun w => !w.isEmpty).length

/-- The number of runs of non-whitespace bytes that start in `input`, when `in_word` tells
whether the byte before `input` was part of a run. -/
def Ccwc.runsAfter (in_word : Bool) (input : List Nat) : Nat :=
  match input.splitOnP Ccwc.isspace with
  | [] => 0
  | first :: rest =>
    (if in_word ∨ first.isEmpty then 0 else 1) + (rest.filter fun w => !w.isEmpty).length

/-- The number of `\n` bytes. -/
def Ccwc.newlines (input : List Nat) : Nat := input.count 10

/-! ## Trees without numbers and with printable text -/

/-- Text of printable ASCII characters (`0x20..0x7E`) other than the double quote and the
backslash. -/
def PlainText (w : Str) : Prop := ∀ c ∈ w, 32 ≤ c ∧ c ≤ 126 ∧ c ≠ 34 ∧ c ≠ 92

mutual

/-- The tree has no Number node, and its strings and keys are `PlainText`. -/
def JsonValue.Plain : JsonValue → Prop
  | .object properties => JsonValue.PlainMembers properties
  | .array elements => JsonValue.PlainElements elements
  | .string value => PlainText value
  | .number _ => False
  | .boolean _ => True
  | .null => True

/-- `Plain` for the properties of an object. -/
def JsonValue.PlainMembers : List (Str × JsonValue) → Prop
  | [] => True
  | (key, value) :: rest => PlainText key ∧ value.Plain ∧ JsonValue.PlainMembers rest

/-- `Plain` for the elements of an array. -/
def JsonValue.PlainElements : List JsonValue → Prop
  | [] => True
  | value :: rest => value.Plain ∧ JsonValue.PlainElements rest

end

/-! ## Consumption of the buffer and requests of the parser -/

/-- The text left by a scan, whether it returned or failed. -/
def scanRest {α : Type} (y : Except (Str × Str) (α × Str)) : Str :=
  match y with
  | .ok (_, r) => r
  | .error (_, r) => r

/-- The text `r` is what is left of the text `s` behind a prefix that holds no end marker NUL. -/
def Consumes (s r : Str) : Prop := ∃ p, s = p ++ r ∧ ∀ c ∈ p, c ≠ 0

/-- The state of the lexer after `n` calls of `getNextToken` from construction, each of which
returned a token other than end-of-input. -/
inductive Lexer.After (input : Str) : Nat → Lexer → Prop
  | start : Lexer.After input 0 (Lexer.new input)
  | step {n : Nat} {l l' : Lexer} {t : Token} :
      Lexer.After input n l → l.getNextToken = .ok (t, l') → t.type ≠ .EOF_TOKEN →
      Lexer.After input (n + 1) l'

/-- The parser has requested `n + 1` tokens of the lexer constructed on `input`: the first `n`
were not end-of-input, the last one is the lookahead, and the lexer of the parser is the state
the last call left. -/
def Parser.Requested (input : Str) (n : Nat) (p : Parser) : Prop :=
  ∃ l, Lexer.After input n l ∧ l.getNextToken = .ok (p.currentToken, p.lexer)

/-- The states of the lexer that calls of `getNextToken` from construction end in: the state a
call returns in, and the state a failing call raises its error in, which is the cursor
`l.advanceN k` whose line and column the error carries. -/
inductive Lexer.Visited (input : Str) : Lexer → Prop
  | returned {l : Lexer} : Lexer.Reachable input l → Lexer.Visited input l
  | failed {l : Lexer} {k : Nat} {msg : Str} : Lexer.Reachable input l →
      l.getNextToken = (l.advanceN k).error msg → Lexer.Visited input (l.advanceN k)

/-! ## Equivalence of trees -/

/-- Two numbers that are equal to six significant decimal digits: both are finite with the same
sign, and the magnitude of the second differs from the magnitude of the first by at most six
millionths of it. -/
def Double.Close (d d' : Double) : Prop :=
  ∃ (neg : Bool) (man : Nat) (exp : Int) (man' : Nat) (exp' : Int),
    d = .finite neg man exp ∧ d' = .finite neg man' exp' ∧
    |(man' : ℚ) * 2 ^ exp' - (man : ℚ) * 2 ^ exp| ≤ 6 / 10 ^ 6 * ((man : ℚ) * 2 ^ exp)

mutual

/-- Two trees are equivalent: the same variant at every node, the same children and keys in the
same order, the same key and string contents, the same booleans, and numbers that are `Close`. -/
inductive JsonValue.Equivalent : JsonValue → JsonValue → Prop
  | object {ps qs : List (Str × JsonValue)} :
      JsonValue.EquivalentMembers ps qs → JsonValue.Equivalent (.object ps) (.object qs)
  | array {es fs : List JsonValue} :
      JsonValue.EquivalentElements es fs → JsonValue.Equivalent (.array es) (.array fs)
  | string (s : Str) : JsonValue.Equivalent (.string s) (.string s)
  | number {d d' : Double} : d.Close d' → JsonValue.Equivalent (.number d) (.number d')
  | boolean (b : Bool) : JsonValue.Equivalent (.boolean b) (.boolean b)
  | null : JsonValue.Equivalent .null .null

/-- `Equivalent` for the properties of two objects, pair by pair in order. -/
inductive JsonValue.EquivalentMembers :
    List (Str × JsonValue) → List (Str × JsonValue) → Prop
  | nil : JsonValue.EquivalentMembers [] []
  | cons (k : Str) {v v' : JsonValue} {ps qs : List (Str × JsonValue)} :
      JsonValue.Equivalent v v' → JsonValue.EquivalentMembers ps qs →
      JsonValue.EquivalentMembers ((k, v) :: ps) ((k, v') :: qs)

/-- `Equivalent` for the elements of two arrays, one by one in order. -/
inductive JsonValue.EquivalentElements : List JsonValue → List JsonValue → Prop
  | nil : JsonValue.EquivalentElements [] []
  | cons {v v' : JsonValue} {es fs : List JsonValue} :
      JsonValue.Equivalent v v' → JsonValue.EquivalentElements es fs →
      JsonValue.EquivalentElements (v :: es) (v' :: fs)

end

/-! # Theorems -/

/-! ## The lexer and the text after the cursor -/

theorem charAt_eq (t : Str) (n : Nat) : charAt t n = (t.drop n).headD 0 := by
  unfold charAt
  induction t generalizing n with
  | nil => simp
  | cons a t ih =>
    cases n with
    | zero => simp
    | succ n =>
      have := ih n
      simp only [List.length_cons, Nat.add_lt_add_iff_right, List.getD_cons_succ, List.drop_succ_cons]
      exact this

theorem Lexer.View.new (input : Str) : (Lexer.new input).View input := by
  simp [Lexer.View, Lexer.new, charAt_eq]

theorem Lexer.View.cur {l : Lexer} {s : Str} (h : l.View s) : l.currentChar = s.headD 0 := h.2

theorem Lexer.View.advance {l : Lexer} {s : Str} (h : l.View s) : l.advance.View s.tail := by
  obtain ⟨h1, _⟩ := h
  have h3 : l.text.drop (l.pos + 1) = s.tail := by
    rw [← h1, List.tail_drop]
  exact ⟨h3, by simp [Lexer.advance, charAt_eq, h3]⟩

theorem Lexer.View.advanceN {l : Lexer} {s : Str} (h : l.View s) (k : Nat) :
    (l.advanceN k).View (s.drop k) := by
  induction k generalizing l s with
  | zero => simpa [Lexer.advanceN] using h
  | succ k ih =>
    have := ih h.advance
    simpa [Lexer.advanceN, List.drop_succ_cons, List.tail_drop] using this

theorem Lexer.View.fuel {l : Lexer} {s : Str} (h : l.View s) : l.fuel = s.length + 1 := by
  simp [Lexer.fuel, ← h.1]

theorem Lexer.advanceN_add (l : Lexer) (a b : Nat) :
    (l.advanceN a).advanceN b = l.advanceN (a + b) := by
  induction a generalizing l with
  | zero => simp [Lexer.advanceN]
  | succ a ih => simp [Lexer.advanceN, ih, Nat.add_right_comm]

theorem Lexer.advanceN_succ (l : Lexer) (k : Nat) :
    l.advance.advanceN k = l.advanceN (k + 1) := rfl

theorem drop_takeWhile_length (p : Int → Bool) (s : Str) :
    s.drop (s.takeWhile p).length = s.dropWhile p := by
  induction s with
  | nil => simp
  | cons c s ih =>
    by_cases hc : p c = true
    · simp [List.takeWhile_cons, List.dropWhile_cons, hc, ih]
    · simp [List.takeWhile_cons, List.dropWhile_cons, hc]

theorem takeWhile_length_le (p : Int → Bool) (s : Str) : (s.takeWhile p).length ≤ s.length := by
  induction s with
  | nil => simp
  | cons c s ih =>
    by_cases hc : p c = true
    · simp [List.takeWhile_cons, hc, ih]
    · simp [List.takeWhile_cons, hc]

theorem Lexer.digitsLoop_eq {l : Lexer} {s : Str} (h : l.View s) (fuel : Nat)
    (hf : s.length < fuel) (result : Str) :
    l.digitsLoop fuel result =
      .ok (result ++ s.takeWhile isdigit, l.advanceN (s.takeWhile isdigit).length) := by
  induction s generalizing l fuel result with
  | nil =>
    unfold Lexer.digitsLoop
    have : isdigit l.currentChar = false := by rw [h.cur]; decide
    simp [this, Lexer.advanceN]
  | cons c s ih =>
    unfold Lexer.digitsLoop
    have hc : l.currentChar = c := h.cur
    by_cases hd : isdigit c = true
    · cases fuel with
      | zero => simp at hf
      | succ fuel =>
        have hv : l.advance.View s := h.advance
        simp only [hc, hd, ↓reduceIte]
        rw [ih hv fuel (by simpa using hf)]
        simp [List.takeWhile_cons, hd, Lexer.advanceN]
    · simp [hc, hd, List.takeWhile_cons, Lexer.advanceN]

theorem Lexer.parseKeywordLoop_eq {l : Lexer} {s : Str} (h : l.View s) (fuel : Nat)
    (hf : s.length < fuel) (result : Str) :
    l.parseKeywordLoop fuel result =
      .ok (result ++ s.takeWhile isalpha, l.advanceN (s.takeWhile isalpha).length) := by
  induction s generalizing l fuel result with
  | nil =>
    unfold Lexer.parseKeywordLoop
    have : isalpha l.currentChar = false := by rw [h.cur]; decide
    simp [this, Lexer.advanceN]
  | cons c s ih =>
    unfold Lexer.parseKeywordLoop
    have hc : l.currentChar = c := h.cur
    by_cases hd : isalpha c = true
    · cases fuel with
      | zero => simp at hf
      | succ fuel =>
        have hv : l.advance.View s := h.advance
        simp only [hc, hd, ↓reduceIte]
        rw [ih hv fuel (by simpa using hf)]
        simp [List.takeWhile_cons, hd, Lexer.advanceN]
    · simp [hc, hd, List.takeWhile_cons, Lexer.advanceN]

theorem Lexer.skipWhitespaceLoop_eq {l : Lexer} {s : Str} (h : l.View s) (fuel : Nat)
    (hf : s.length < fuel) :
    l.skipWhitespaceLoop fuel = .ok (l.advanceN (s.takeWhile isspace).length) := by
  induction s generalizing l fuel with
  | nil =>
    unfold Lexer.skipWhitespaceLoop
    have : l.currentChar = 0 := h.cur
    simp [this, Lexer.advanceN]
  | cons c s ih =>
    unfold Lexer.skipWhitespaceLoop
    have hc : l.currentChar = c := h.cur
    by_cases hd : isspace c = true
    · have hz : c ≠ 0 := by rintro rfl; simp [isspace] at hd
      cases fuel with
      | zero => simp at hf
      | succ fuel =>
        have hv : l.advance.View s := h.advance
        simp only [hc, hd, hz, ne_eq, not_false_eq_true, and_self, ↓reduceIte]
        rw [ih hv fuel (by simpa using hf)]
        simp [List.takeWhile_cons, hd, Lexer.advanceN]
    · simp [hc, hd, List.takeWhile_cons, Lexer.advanceN]

theorem Lexer.skipWhitespace_eq {l : Lexer} {s : Str} (h : l.View s) :
    l.skipWhitespace = .ok (l.advanceN (s.takeWhile isspace).length) := by
  unfold Lexer.skipWhitespace
  exact Lexer.skipWhitespaceLoop_eq h _ (by rw [h.fuel]; omega)

theorem Lexer.Agree.shift {α : Type} {l : Lexer} {s : Str} {n : Nat}
    {x : Except Exn (α × Lexer)} {y : Except (Str × Str) (α × Str)} (hn : n ≤ s.length)
    (h : (l.advanceN n).Agree (s.drop n) x y) : l.Agree s x y := by
  unfold Lexer.Agree at h ⊢
  rcases y with ⟨m, r⟩ | ⟨a, r⟩
  · obtain ⟨k, hk, hr, hx⟩ := h
    refine ⟨n + k, ?_, ?_, ?_⟩
    · simp at hk; omega
    · rw [hr, List.drop_drop, Nat.add_comm]
    · rw [hx, Lexer.advanceN_add]
  · obtain ⟨k, hk, hr, hx⟩ := h
    refine ⟨n + k, ?_, ?_, ?_⟩
    · simp at hk; omega
    · rw [hr, List.drop_drop, Nat.add_comm]
    · rw [hx, Lexer.advanceN_add]

theorem Lexer.Agree.ok_here {α : Type} (l : Lexer) (s : Str) (a : α) :
    l.Agree s (.ok (a, l)) (.ok (a, s)) :=
  ⟨0, Nat.zero_le _, rfl, rfl⟩

theorem Lexer.Agree.error_here {α : Type} (l : Lexer) (s : Str) (m : Str) :
    l.Agree (α := α) s (l.error m) (.error (m, s)) :=
  ⟨0, Nat.zero_le _, rfl, rfl⟩

theorem Lexer.parseStringLoop_agree_aux (n : Nat) :
    ∀ (s result : Str) (l : Lexer) (fuel : Nat), s.length ≤ n → l.View s → s.length < fuel →
      l.Agree s (l.parseStringLoop fuel result) (scanStringLoop s result) := by
  induction n with
  | zero =>
    intro s result l fuel hn h hf
    have hs : s = [] := List.length_eq_zero.mp (Nat.le_zero.mp hn)
    subst hs
    have hc : l.currentChar = 0 := h.cur
    unfold Lexer.parseStringLoop scanStringLoop
    simp only [hc, ne_eq, not_true_eq_false, false_and, ↓reduceIte]
    exact Lexer.Agree.ok_here _ _ _
  | succ n ih =>
    intro s result l fuel hn h hf
    cases s with
    | nil =>
      have hc : l.currentChar = 0 := h.cur
      unfold Lexer.parseStringLoop scanStringLoop
      simp only [hc, ne_eq, not_true_eq_false, false_and, ↓reduceIte]
      exact Lexer.Agree.ok_here _ _ _
    | cons c rest =>
      have hc : l.currentChar = c := h.cur
      have hv : l.advance.View rest := h.advance
      cases fuel with
      | zero => simp at hf
      | succ fuel =>
        unfold Lexer.parseStringLoop scanStringLoop
        by_cases hc1 : c ≠ 0 ∧ c ≠ 34
        · simp only [hc, hc1, ne_eq, not_false_eq_true, and_self, ↓reduceIte]
          by_cases hc2 : c = 92
          · simp only [hc2, ↓reduceIte]
            cases rest with
            | nil =>
              have hc' : l.advance.currentChar = 0 := hv.cur
              simp only [hc', ↓reduceIte]
              exact Lexer.Agree.shift (n := 1) (by simp) (Lexer.Agree.error_here _ _ _)
            | cons e rest' =>
              have hc' : l.advance.currentChar = e := hv.cur
              have hv2 : l.advance.advance.View rest' := hv.advance
              by_cases he : e = 0
              · simp only [hc', he, ↓reduceIte]
                exact Lexer.Agree.shift (n := 1) (by simp) (Lexer.Agree.error_here _ _ _)
              · simp only [hc', he, ↓reduceIte]
                cases ht : escapeText e with
                | none =>
                  exact Lexer.Agree.shift (n := 1) (by simp) (Lexer.Agree.error_here _ _ _)
                | some t =>
                  exact Lexer.Agree.shift (n := 2) (by simp)
                    (ih rest' _ l.advance.advance fuel (by simp at hn; omega) hv2
                      (by simp at hf; omega))
          · simp only [hc2, ↓reduceIte]
            by_cases hctl : c < 32 ∧ c ≠ 9
            · simp only [hctl, ne_eq, not_false_eq_true, and_self, ↓reduceIte]
              exact Lexer.Agree.error_here _ _ _
            · simp only [hctl, ↓reduceIte]
              exact Lexer.Agree.shift (n := 1) (by simp)
                (ih rest _ l.advance fuel (by simpa using hn) hv (by simpa using hf))
        · simp only [hc, hc1, ↓reduceIte]
          exact Lexer.Agree.ok_here _ _ _

theorem Lexer.parseStringLoop_agree {l : Lexer} {s : Str} (h : l.View s) (fuel : Nat)
    (hf : s.length < fuel) (result : Str) :
    l.Agree s (l.parseStringLoop fuel result) (scanStringLoop s result) :=
  Lexer.parseStringLoop_agree_aux s.length s result l fuel (Nat.le_refl _) h hf

theorem drop_tail_of_head {s : Str} {k : Nat} {c : Int} (hk : k ≤ s.length)
    (hh : (s.drop k).headD 0 = c) (hc : c ≠ 0) :
    k + 1 ≤ s.length ∧ (s.drop k).tail = s.drop (k + 1) := by
  refine ⟨?_, by rw [List.tail_drop]⟩
  by_contra hlt
  have : s.drop k = [] := List.drop_eq_nil_of_le (by omega)
  rw [this] at hh
  exact hc (by simpa using hh.symm)

theorem headD_ne_zero_length {s : Str} {c : Int} (h : s.headD 0 = c) (hc : c ≠ 0) :
    1 ≤ s.length ∧ s.tail = s.drop 1 := by
  cases s with
  | nil => exact absurd h.symm hc
  | cons a s => simp

/-- Sequencing: a lexer step that is a scan, followed by a step that is a scan from wherever the
first one stopped. -/
theorem Lexer.Agree.bind_agree {α β : Type} {l : Lexer} {s : Str} {x : Except Exn (α × Lexer)}
    {y : Except (Str × Str) (α × Str)} {f : α × Lexer → Except Exn (β × Lexer)}
    {g : α × Str → Except (Str × Str) (β × Str)}
    (hv : l.View s) (h : l.Agree s x y)
    (hfg : ∀ a k, k ≤ s.length → (l.advanceN k).View (s.drop k) →
      (l.advanceN k).Agree (s.drop k) (f (a, l.advanceN k)) (g (a, s.drop k))) :
    l.Agree s (x >>= f) (y >>= g) := by
  unfold Lexer.Agree at h
  rcases y with ⟨m, r⟩ | ⟨a, r⟩
  · obtain ⟨k, hk, hr, hx⟩ := h
    exact ⟨k, hk, hr, by rw [hx]; rfl⟩
  · obtain ⟨k, hk, hr, hx⟩ := h
    have := hfg a k hk (hv.advanceN k)
    rw [hx, hr]
    exact Lexer.Agree.shift hk this

theorem Lexer.Agree.tail_ok {α : Type} {l : Lexer} {s : Str} (hs : 1 ≤ s.length) (a : α) :
    l.Agree s (.ok (a, l.advance)) (.ok (a, s.tail)) :=
  ⟨1, hs, by cases s <;> simp, rfl⟩

theorem Lexer.Agree.tail_error {α : Type} {l : Lexer} {s : Str} (hs : 1 ≤ s.length) (m : Str) :
    l.Agree (α := α) s (l.advance.error m) (.error (m, s.tail)) :=
  ⟨1, hs, by cases s <;> simp, rfl⟩

theorem Lexer.Agree.tail {α : Type} {l : Lexer} {s : Str} (hs : 1 ≤ s.length)
    {x : Except Exn (α × Lexer)} {y : Except (Str × Str) (α × Str)} (h : l.advance.Agree s.tail x y) :
    l.Agree s x y := by
  have hd : s.tail = s.drop 1 := by cases s <;> simp
  rw [hd] at h
  exact Lexer.Agree.shift (n := 1) hs h

theorem Lexer.parseString_agree {l : Lexer} {s : Str} (h : l.View s) (hs : s ≠ []) :
    l.Agree s l.parseString (scanString s) := by
  have hv : l.advance.View s.tail := h.advance
  have hlen : 1 ≤ s.length := by
    cases s with
    | nil => exact absurd rfl hs
    | cons c s => simp
  apply Lexer.Agree.tail hlen
  unfold Lexer.parseString scanString
  refine Lexer.Agree.bind_agree hv (Lexer.parseStringLoop_agree hv l.advance.fuel (by rw [hv.fuel]; omega) []) ?_
  intro a k hk hvk
  have hck := hvk.cur
  by_cases hq : ((s.tail).drop k).headD 0 = 34
  · have hl := headD_ne_zero_length hq (by decide)
    simp only [hck, hq, ne_eq, not_true_eq_false, ↓reduceIte]
    exact Lexer.Agree.tail_ok hl.1 a
  · simp only [hck, hq, ne_eq, not_false_eq_true, ↓reduceIte]
    exact Lexer.Agree.error_here _ _ _

theorem Lexer.integerPart_agree {l : Lexer} {s : Str} (h : l.View s) (result : Str) :
    l.Agree s (l.integerPart result) (scanInteger s result) := by
  have hc := h.cur
  have hv := h.advance
  have hc' := hv.cur
  unfold Lexer.integerPart scanInteger
  by_cases h0 : s.headD 0 = 48
  · have hl := headD_ne_zero_length h0 (by decide)
    rw [if_pos (hc ▸ h0), if_pos h0]
    by_cases hd : isdigit (s.tail.headD 0) = true
    · simp only [hc', hd, ↓reduceIte]
      exact ⟨1, hl.1, hl.2, rfl⟩
    · simp only [hc', hd, ↓reduceIte]
      exact ⟨1, hl.1, hl.2, by simp [pure, Except.pure, hc, Lexer.advanceN]⟩
  · rw [if_neg (hc ▸ h0), if_neg h0]
    by_cases hd : isdigit (s.headD 0) = true
    · rw [if_pos (hc ▸ hd), if_pos hd, Lexer.digitsLoop_eq h _ (by rw [h.fuel]; omega)]
      exact ⟨_, takeWhile_length_le _ _, (drop_takeWhile_length _ _).symm, rfl⟩
    · rw [if_neg (hc ▸ hd), if_neg hd]
      exact Lexer.Agree.error_here _ _ _

theorem Lexer.decimalPart_agree {l : Lexer} {s : Str} (h : l.View s) (result : Str) :
    l.Agree s (l.decimalPart result) (scanFraction s result) := by
  have hc := h.cur
  have hv := h.advance
  have hc' := hv.cur
  unfold Lexer.decimalPart scanFraction
  by_cases h0 : s.headD 0 = 46
  · have hl := headD_ne_zero_length h0 (by decide)
    rw [if_pos (hc ▸ h0), if_pos h0]
    by_cases hd : isdigit (s.tail.headD 0) = true
    · simp only [hc', hd, not_true_eq_false, ↓reduceIte]
      rw [Lexer.digitsLoop_eq hv _ (by rw [hv.fuel]; omega)]
      refine Lexer.Agree.shift (n := 1) hl.1 ?_
      rw [← hl.2]
      exact ⟨_, takeWhile_length_le _ _, (drop_takeWhile_length _ _).symm, by rw [hc]; rfl⟩
    · simp only [hc', hd, Bool.false_eq_true, not_false_eq_true, ↓reduceIte]
      exact ⟨1, hl.1, hl.2, rfl⟩
  · rw [if_neg (hc ▸ h0), if_neg h0]
    exact Lexer.Agree.ok_here _ _ _

theorem Lexer.exponentPart_agree {l : Lexer} {s : Str} (h : l.View s) (result : Str) :
    l.Agree s (l.exponentPart result) (scanExponent s result) := by
  have hc := h.cur
  have hv := h.advance
  have hc' := hv.cur
  unfold Lexer.exponentPart scanExponent
  by_cases h0 : s.headD 0 = 101 ∨ s.headD 0 = 69
  · have hl : 1 ≤ s.length ∧ s.tail = s.drop 1 := by
      rcases h0 with h0 | h0
      · exact headD_ne_zero_length h0 (by decide)
      · exact headD_ne_zero_length h0 (by decide)
    rw [if_pos (hc ▸ h0), if_pos h0]
    refine Lexer.Agree.shift (n := 1) hl.1 ?_
    rw [← hl.2]
    change l.advance.Agree _ _ _
    by_cases hsg : s.tail.headD 0 = 43 ∨ s.tail.headD 0 = 45
    · have hl2 : 1 ≤ s.tail.length ∧ s.tail.tail = s.tail.drop 1 := by
        rcases hsg with h0 | h0
        · exact headD_ne_zero_length h0 (by decide)
        · exact headD_ne_zero_length h0 (by decide)
      have hv2 := hv.advance
      have hc2 := hv2.cur
      simp only [hc', hsg, ↓reduceIte, skipSign, signText]
      refine Lexer.Agree.shift (n := 1) hl2.1 ?_
      rw [← hl2.2]
      change l.advance.advance.Agree _ _ _
      by_cases hd : isdigit (s.tail.tail.headD 0) = true
      · simp only [hc2, hd, not_true_eq_false, ↓reduceIte]
        rw [Lexer.digitsLoop_eq hv2 _ (by rw [hv2.fuel]; omega)]
        exact ⟨_, takeWhile_length_le _ _, (drop_takeWhile_length _ _).symm, by rw [hc]⟩
      · simp only [hc2, hd, Bool.false_eq_true, not_false_eq_true, ↓reduceIte]
        exact Lexer.Agree.error_here _ _ _
    · simp only [hc', hsg, ↓reduceIte, skipSign, signText]
      by_cases hd : isdigit (s.tail.headD 0) = true
      · simp only [hc', hd, not_true_eq_false, ↓reduceIte]
        rw [Lexer.digitsLoop_eq hv _ (by rw [hv.fuel]; omega)]
        exact ⟨_, takeWhile_length_le _ _, (drop_takeWhile_length _ _).symm,
          by rw [hc]; simp⟩
      · simp only [hc', hd, Bool.false_eq_true, not_false_eq_true, ↓reduceIte]
        exact Lexer.Agree.error_here _ _ _
  · rw [if_neg (hc ▸ h0), if_neg h0]
    exact Lexer.Agree.ok_here _ _ _

theorem Lexer.parseNumber_agree {l : Lexer} {s : Str} (h : l.View s) :
    l.Agree s l.parseNumber (scanNumber s) := by
  have hc := h.cur
  have hv := h.advance
  unfold Lexer.parseNumber scanNumber
  have rest : ∀ (l : Lexer) (s result : Str), l.View s →
      l.Agree s
        (l.integerPart result >>= fun x => x.2.decimalPart x.1 >>= fun y => y.2.exponentPart y.1)
        (scanInteger s result >>= fun x => scanFraction x.2 x.1 >>= fun y => scanExponent y.2 y.1) := by
    intro l s result h
    refine Lexer.Agree.bind_agree h (Lexer.integerPart_agree h result) ?_
    intro a k hk hvk
    refine Lexer.Agree.bind_agree hvk (Lexer.decimalPart_agree hvk a) ?_
    intro b j hj hvj
    exact Lexer.exponentPart_agree hvj b
  by_cases h0 : s.headD 0 = 45
  · have hl := headD_ne_zero_length h0 (by decide)
    simp only [hc, h0, ↓reduceIte]
    exact Lexer.Agree.tail hl.1 (rest _ _ _ hv)
  · simp only [hc, h0, ↓reduceIte]
    exact rest _ _ _ h

theorem Lexer.scanToken_agree {l : Lexer} {s : Str} (h : l.View s) (hs : s.headD 0 ≠ 0) :
    l.Agree s l.scanToken (JsonParser.scanToken s) := by
  have hc := h.cur
  have hl := headD_ne_zero_length rfl hs
  have hne : s ≠ [] := by rintro rfl; simp at hl
  unfold Lexer.scanToken JsonParser.scanToken
  simp only [hc]
  by_cases h1 : s.headD 0 = 123
  · rw [if_pos h1, if_pos h1]; exact Lexer.Agree.tail_ok hl.1 _
  rw [if_neg h1, if_neg h1]
  by_cases h2 : s.headD 0 = 125
  · rw [if_pos h2, if_pos h2]; exact Lexer.Agree.tail_ok hl.1 _
  rw [if_neg h2, if_neg h2]
  by_cases h3 : s.headD 0 = 91
  · rw [if_pos h3, if_pos h3]; exact Lexer.Agree.tail_ok hl.1 _
  rw [if_neg h3, if_neg h3]
  by_cases h4 : s.headD 0 = 93
  · rw [if_pos h4, if_pos h4]; exact Lexer.Agree.tail_ok hl.1 _
  rw [if_neg h4, if_neg h4]
  by_cases h5 : s.headD 0 = 44
  · rw [if_pos h5, if_pos h5]; exact Lexer.Agree.tail_ok hl.1 _
  rw [if_neg h5, if_neg h5]
  by_cases h6 : s.headD 0 = 58
  · rw [if_pos h6, if_pos h6]; exact Lexer.Agree.tail_ok hl.1 _
  rw [if_neg h6, if_neg h6]
  by_cases h7 : s.headD 0 = 34
  · rw [if_pos h7, if_pos h7]
    refine Lexer.Agree.bind_agree h (Lexer.parseString_agree h hne) ?_
    intro a k hk hvk
    exact Lexer.Agree.ok_here _ _ _
  rw [if_neg h7, if_neg h7]
  by_cases h8 : s.headD 0 = 45 ∨ isdigit (s.headD 0) = true
  · rw [if_pos h8, if_pos h8]
    refine Lexer.Agree.bind_agree h (Lexer.parseNumber_agree h) ?_
    intro a k hk hvk
    exact Lexer.Agree.ok_here _ _ _
  rw [if_neg h8, if_neg h8]
  by_cases h9 : s.headD 0 = 116 ∨ s.headD 0 = 102 ∨ s.headD 0 = 110
  · rw [if_pos h9, if_pos h9]
    unfold Lexer.parseKeyword
    rw [Lexer.parseKeywordLoop_eq h _ (by rw [h.fuel]; omega)]
    have hk : (s.takeWhile isalpha).length ≤ s.length := takeWhile_length_le _ _
    have hd := (drop_takeWhile_length isalpha s).symm
    simp only [bind, Except.bind, List.nil_append, pure, Except.pure]
    by_cases k1 : s.takeWhile isalpha = str "true"
    · rw [if_pos k1, if_pos k1]; exact ⟨_, hk, hd, rfl⟩
    rw [if_neg k1, if_neg k1]
    by_cases k2 : s.takeWhile isalpha = str "false"
    · rw [if_pos k2, if_pos k2]; exact ⟨_, hk, hd, rfl⟩
    rw [if_neg k2, if_neg k2]
    by_cases k3 : s.takeWhile isalpha = str "null"
    · rw [if_pos k3, if_pos k3]; exact ⟨_, hk, hd, rfl⟩
    rw [if_neg k3, if_neg k3]
    exact ⟨_, hk, hd, rfl⟩
  rw [if_neg h9, if_neg h9]
  exact Lexer.Agree.error_here _ _ _

theorem Lexer.getNextToken_agree {l : Lexer} {s : Str} (h : l.View s) :
    l.Agree s l.getNextToken (scan s) := by
  have hc := h.cur
  unfold Lexer.getNextToken scan
  have body : ∀ (l : Lexer) (s : Str) (fuel : Nat), l.View s → isspace (s.headD 0) = false →
      l.Agree s (l.getNextTokenLoop (fuel + 1))
        (if s.headD 0 = 0 then .ok (⟨.EOF_TOKEN, []⟩, s) else JsonParser.scanToken s) := by
    intro l s fuel h hsp
    have hc := h.cur
    unfold Lexer.getNextTokenLoop
    by_cases h0 : s.headD 0 = 0
    · simp only [hc, h0, ne_eq, not_true_eq_false, ↓reduceIte]
      exact Lexer.Agree.ok_here _ _ _
    · simp only [hc, h0, hsp, ne_eq, not_false_eq_true, ↓reduceIte, Bool.false_eq_true]
      exact Lexer.scanToken_agree h h0
  by_cases hsp : isspace (s.headD 0) = true
  · have h0 : s.headD 0 ≠ 0 := by
      intro h0; rw [h0] at hsp; exact absurd hsp (by decide)
    unfold Lexer.getNextTokenLoop
    simp only [hc, h0, hsp, ne_eq, not_false_eq_true, ↓reduceIte]
    rw [Lexer.skipWhitespace_eq h]
    simp only
    have hv := h.advanceN (s.takeWhile isspace).length
    rw [drop_takeWhile_length] at hv
    have hns : isspace ((s.dropWhile isspace).headD 0) = false := by
      cases hd : s.dropWhile isspace with
      | nil => decide
      | cons c r =>
        have := List.head_dropWhile_not isspace s (by rw [hd]; simp)
        simp only [hd, List.head_cons] at this
        simpa using this
    have := body _ _ 0 hv hns
    refine Lexer.Agree.shift (takeWhile_length_le isspace s) ?_
    rw [drop_takeWhile_length]
    exact this
  · have hsp' : isspace (s.headD 0) = false := by simpa using hsp
    have hdw : s.dropWhile isspace = s := by
      cases s with
      | nil => rfl
      | cons c r =>
        simp only [List.headD_cons] at hsp'
        simp [List.dropWhile_cons, hsp']
    rw [hdw]
    exact body l s 1 h hsp'

theorem Lexer.Agree.eq_lift {α : Type} {l : Lexer} {s : Str} {x : Except Exn (α × Lexer)}
    {y : Except (Str × Str) (α × Str)} (h : l.Agree s x y) : x = l.lift s y := by
  unfold Lexer.Agree at h
  unfold Lexer.lift
  rcases y with ⟨m, r⟩ | ⟨a, r⟩
  · obtain ⟨k, hk, hr, hx⟩ := h
    have : s.length - r.length = k := by rw [hr, List.length_drop]; omega
    simp only [this, hx]
  · obtain ⟨k, hk, hr, hx⟩ := h
    have : s.length - r.length = k := by rw [hr, List.length_drop]; omega
    simp only [this, hx]

/-- The lexer is the scan of the text after the cursor. -/
theorem Lexer.getNextToken_eq {l : Lexer} {s : Str} (h : l.View s) :
    l.getNextToken = l.lift s (scan s) :=
  (Lexer.getNextToken_agree h).eq_lift

/-- What is left by a scan is a suffix of the text. -/
theorem Lexer.Agree.suffix {α : Type} {l : Lexer} {s : Str} {x : Except Exn (α × Lexer)}
    {a : α} {r : Str} (h : l.Agree s x (.ok (a, r))) : ∃ pre, s = pre ++ r := by
  obtain ⟨k, _, hr, _⟩ := h
  exact ⟨s.take k, by rw [hr, List.take_append_drop]⟩

theorem Lexer.advanceN_line_column {l : Lexer} (pre : Str) {r : Str} (h : l.View (pre ++ r))
    (hnl : ∀ c ∈ pre, c ≠ 10) :
    (l.advanceN pre.length).line = l.line ∧
      (l.advanceN pre.length).column = l.column + pre.length := by
  induction pre generalizing l with
  | nil => simp [Lexer.advanceN]
  | cons c pre ih =>
    have hc : l.currentChar = c := h.cur
    have hv : l.advance.View (pre ++ r) := h.advance
    have hc10 : c ≠ 10 := hnl c (by simp)
    have := ih hv (fun x hx => hnl x (by simp [hx]))
    simp only [List.length_cons, Lexer.advanceN, this]
    simp [Lexer.advance, hc, hc10]
    omega

theorem scan_leading_zero (sign : Str) (d : Int) (rest : Str) (hs : sign = [] ∨ sign = [45])
    (hd : isdigit d = true) :
    scan (sign ++ 48 :: d :: rest) = .error (str "Leading zeros not allowed", d :: rest) := by
  have hd' : 48 ≤ d ∧ d ≤ 57 := by simpa [isdigit] using hd
  rcases hs with rfl | rfl
  · simp [scan, scanToken, scanNumber, scanInteger, isspace, isdigit, hd', bind, Except.bind,
      List.dropWhile_cons]
  · simp [scan, scanToken, scanNumber, scanInteger, isspace, isdigit, hd', bind, Except.bind,
      List.dropWhile_cons]

/-! ## String literals and the reference decoder -/

theorem escapeTable_lookup (e : Int) : escapeTable.lookup e = escapeText e := by
  unfold escapeText escapeTable
  by_cases h1 : e = 34
  · subst h1; rfl
  by_cases h2 : e = 92
  · subst h2; rfl
  by_cases h3 : e = 47
  · subst h3; rfl
  by_cases h4 : e = 98
  · subst h4; rfl
  by_cases h5 : e = 102
  · subst h5; rfl
  by_cases h6 : e = 110
  · subst h6; rfl
  by_cases h7 : e = 114
  · subst h7; rfl
  by_cases h8 : e = 116
  · subst h8; rfl
  by_cases h9 : e = 117
  · subst h9; rfl
  have hb : ∀ c : Int, e ≠ c → (e == c) = false := fun c h => by simpa using h
  simp only [List.lookup, hb _ h1, hb _ h2, hb _ h3, hb _ h4, hb _ h5, hb _ h6, hb _ h7,
    hb _ h8, hb _ h9, if_neg h1, if_neg h2, if_neg h3, if_neg h4, if_neg h5, if_neg h6,
    if_neg h7, if_neg h8, if_neg h9]

theorem escapeText_zero : escapeText 0 = none := by decide

theorem decodeString_nil : decodeString [] = none := rfl

theorem splitBody_cons (c : Int) (rest : Str) :
    splitBody (c :: rest) =
      if c = 34 then some ([], rest)
      else if c = 92 then
        match rest with
        | [] => none
        | e :: rest' => (splitBody rest').map fun x => (c :: e :: x.1, x.2)
      else (splitBody rest).map fun x => (c :: x.1, x.2) := by
  cases rest <;> rfl

theorem decodeString_quote (rest : Str) : decodeString (34 :: rest) = some ([], rest) := by
  simp [decodeString, splitBody_cons, bodyValid, decodeBody]

theorem decodeString_backslash_end : decodeString [92] = none := by
  simp [decodeString, splitBody_cons]

theorem decodeString_escape (e : Int) (rest : Str) :
    decodeString (92 :: e :: rest) =
      match escapeText e with
      | some t => (decodeString rest).map fun x => (t ++ x.1, x.2)
      | none => none := by
  unfold decodeString
  simp only [splitBody_cons, show (92 : Int) ≠ 34 by decide, ↓reduceIte]
  cases hsp : splitBody rest with
  | none => cases escapeText e <;> simp
  | some x =>
    obtain ⟨b, r⟩ := x
    simp only [Option.map_some', bodyValid, decodeBody, ↓reduceIte, escapeTable_lookup]
    cases escapeText e with
    | none => simp
    | some t =>
      by_cases hb : bodyValid b = true
      · simp [hb]
      · simp [hb]

theorem bodyValid_raw (c : Int) (b : Str) (h2 : c ≠ 92) :
    bodyValid (c :: b) = (!(decide (c < 32) && decide (c ≠ 9)) && bodyValid b) := by
  cases b <;> simp [bodyValid, h2]

theorem decodeBody_raw (c : Int) (b : Str) (h2 : c ≠ 92) :
    decodeBody (c :: b) = c :: decodeBody b := by
  cases b <;> simp [decodeBody, h2]

theorem decodeString_raw (c : Int) (rest : Str) (h1 : c ≠ 34) (h2 : c ≠ 92) :
    decodeString (c :: rest) =
      if c < 32 ∧ c ≠ 9 then none else (decodeString rest).map fun x => (c :: x.1, x.2) := by
  unfold decodeString
  simp only [splitBody_cons, h1, h2, ↓reduceIte]
  cases hsp : splitBody rest with
  | none => simp
  | some x =>
    obtain ⟨b, r⟩ := x
    simp only [Option.map_some', bodyValid_raw c b h2, decodeBody_raw c b h2]
    by_cases hc : c < 32 ∧ c ≠ 9
    · simp [hc]
    · by_cases hb : bodyValid b = true
      · have hc' : c < 32 → c = 9 := by
          intro h; by_contra h9; exact hc ⟨h, h9⟩
        simp only [hb, hc, ↓reduceIte]
        simp
        omega
      · simp [hc, hb]

/-- The closing-quote check of `Lexer::parseString` after its loop. -/
theorem scanString_eq (s : Str) :
    scanString s = scanStringLoop s.tail [] >>= fun x =>
      if x.2.headD 0 ≠ 34 then .error (str "Unterminated string", x.2)
      else pure (x.1, x.2.tail) := rfl

theorem scanStringLoop_cons (c : Int) (rest result : Str) :
    scanStringLoop (c :: rest) result =
      if c ≠ 0 ∧ c ≠ 34 then
        if c = 92 then
          match rest with
          | [] => .error (str "Unterminated string escape", [])
          | e :: rest' =>
            if e = 0 then .error (str "Unterminated string escape", e :: rest')
            else
              match escapeText e with
              | some t => scanStringLoop rest' (result ++ t)
              | none => .error (str "Invalid escape sequence", e :: rest')
        else if c < 32 ∧ c ≠ 9 then .error (str "Control character in string", c :: rest)
        else scanStringLoop rest (result ++ [c])
      else .ok (result, c :: rest) := by
  cases rest <;> rfl

theorem scanStringLoop_decode (n : Nat) : ∀ (s acc : Str), s.length ≤ n →
    match decodeString s with
    | some (text, r) =>
      (scanStringLoop s acc >>= fun x =>
        if x.2.headD 0 ≠ 34 then .error (str "Unterminated string", x.2)
        else pure (x.1, x.2.tail)) = .ok (acc ++ text, r)
    | none =>
      ∃ e, (scanStringLoop s acc >>= fun x =>
        if x.2.headD 0 ≠ 34 then .error (str "Unterminated string", x.2)
        else pure (x.1, x.2.tail)) = .error e := by
  induction n with
  | zero =>
    intro s acc hn
    have hs : s = [] := List.length_eq_zero.mp (Nat.le_zero.mp hn)
    subst hs
    exact ⟨_, rfl⟩
  | succ n ih =>
    intro s acc hn
    cases s with
    | nil => exact ⟨_, rfl⟩
    | cons c rest =>
      by_cases h34 : c = 34
      · subst h34
        rw [decodeString_quote]
        simp [scanStringLoop_cons, bind, Except.bind, pure, Except.pure]
      by_cases h0 : c = 0
      · subst h0
        rw [decodeString_raw 0 rest (by decide) (by decide)]
        simp [scanStringLoop_cons, bind, Except.bind]
      by_cases h92 : c = 92
      · subst h92
        cases rest with
        | nil =>
          rw [decodeString_backslash_end]
          exact ⟨_, rfl⟩
        | cons e rest' =>
          rw [decodeString_escape]
          by_cases he : e = 0
          · subst he
            simp [escapeText_zero, scanStringLoop, bind, Except.bind]
          cases ht : escapeText e with
          | none =>
            simp [scanStringLoop_cons, he, ht, bind, Except.bind]
          | some t =>
            have := ih rest' (acc ++ t) (by simp at hn; omega)
            have e1 : scanStringLoop (92 :: e :: rest') acc = scanStringLoop rest' (acc ++ t) := by
              simp [scanStringLoop_cons, he, ht]
            rw [e1]
            cases hd : decodeString rest' with
            | none => rw [hd] at this; simpa using this
            | some x =>
              obtain ⟨text, r⟩ := x
              rw [hd] at this
              simpa using this
      · rw [decodeString_raw c rest h34 h92]
        by_cases hctl : c < 32 ∧ c ≠ 9
        · simp [scanStringLoop_cons, h0, h34, h92, hctl, bind, Except.bind]
        · have := ih rest (acc ++ [c]) (by simpa using hn)
          have e1 : scanStringLoop (c :: rest) acc = scanStringLoop rest (acc ++ [c]) := by
            simp [scanStringLoop_cons, h0, h34, h92, hctl]
          rw [e1, if_neg hctl]
          cases hd : decodeString rest with
          | none => rw [hd] at this; simpa using this
          | some x =>
            obtain ⟨text, r⟩ := x
            rw [hd] at this
            simpa using this

theorem scan_quote (s : Str) :
    scan (34 :: s) = scanString (34 :: s) >>= fun x => pure (⟨.STRING, x.1⟩, x.2) := by
  simp [scan, scanToken, isspace, List.dropWhile_cons]

/-! ## The parser on a lexer and the parser on a list of tokens -/

theorem ExceptRel.bind_rel {α β α' β' : Type} {R : α → β → Prop} {R' : α' → β' → Prop}
    {x : Except Exn α} {y : Except Exn β} {f : α → Except Exn α'} {g : β → Except Exn β'}
    (h : ExceptRel R x y) (hfg : ∀ a b, R a b → ExceptRel R' (f a) (g b)) :
    ExceptRel R' (x >>= f) (y >>= g) := by
  cases x <;> cases y <;> simp only [ExceptRel] at h
  · subst h; exact rfl
  · exact hfg _ _ h

theorem ExceptRel.error {α β : Type} {R : α → β → Prop} (e : Exn) :
    ExceptRel R (.error e) (.error e) := rfl

theorem ExceptRel.ok {α β : Type} {R : α → β → Prop} {a : α} {b : β} (h : R a b) :
    ExceptRel R (.ok a) (.ok b) := h

theorem Parser.checkToken_sim {p : Parser} {q : TParser} (h : p.Sim q) (expected : TokenType)
    (he : expected ≠ .EOF_TOKEN) :
    ExceptRel Parser.Sim (p.checkToken expected) (q.checkToken expected) := by
  unfold Parser.checkToken TParser.checkToken
  rw [h.1]
  by_cases ht : q.currentToken.type = expected
  · simp only [ht, ne_eq, not_true_eq_false, ↓reduceIte]
    have hf := h.2 (ht ▸ he)
    unfold TParser.next
    cases hr : q.rest with
    | nil =>
      rw [hr] at hf
      obtain ⟨e, hs, hg⟩ := hf
      simp only [hg, hs, bind, Except.bind]
      exact rfl
    | cons t r =>
      rw [hr] at hf
      obtain ⟨l', hg, hrest⟩ := hf
      simp only [hg, bind, Except.bind, pure, Except.pure]
      refine ⟨rfl, ?_⟩
      intro hne
      simpa [hne] using hrest
  · simp only [ht, ne_eq, not_false_eq_true, ↓reduceIte]
    exact rfl

theorem ExceptRel.refl {α : Type} (x : Except Exn α) : ExceptRel Eq x x := by
  cases x <;> exact rfl

theorem Parser.parseString_sim {p : Parser} {q : TParser} (h : p.Sim q) :
    ExceptRel Parser.SimV p.parseString q.parseString := by
  unfold Parser.parseString TParser.parseString
  refine ExceptRel.bind_rel (Parser.checkToken_sim h _ (by decide)) ?_
  intro p' q' h'
  exact ⟨by rw [h.1], h'⟩

theorem Parser.parseNumber_sim {p : Parser} {q : TParser} (h : p.Sim q) :
    ExceptRel Parser.SimV p.parseNumber q.parseNumber := by
  unfold Parser.parseNumber TParser.parseNumber
  rw [h.1]
  refine ExceptRel.bind_rel (R := Eq) (ExceptRel.refl _) ?_
  intro a b hab
  subst hab
  refine ExceptRel.bind_rel (Parser.checkToken_sim h _ (by decide)) ?_
  intro p' q' h'
  exact ⟨rfl, h'⟩

theorem Parser.parseBoolean_sim {p : Parser} {q : TParser} (h : p.Sim q)
    (ht : q.currentToken.type ≠ .EOF_TOKEN) :
    ExceptRel Parser.SimV p.parseBoolean q.parseBoolean := by
  unfold Parser.parseBoolean TParser.parseBoolean
  rw [h.1]
  refine ExceptRel.bind_rel (Parser.checkToken_sim h _ ht) ?_
  intro p' q' h'
  exact ⟨rfl, h'⟩

theorem Parser.parseNull_sim {p : Parser} {q : TParser} (h : p.Sim q) :
    ExceptRel Parser.SimV p.parseNull q.parseNull := by
  unfold Parser.parseNull TParser.parseNull
  refine ExceptRel.bind_rel (Parser.checkToken_sim h _ (by decide)) ?_
  intro p' q' h'
  exact ⟨rfl, h'⟩

theorem Parser.parse_sim_all (fuel : Nat) :
    (∀ p q, Parser.Sim p q →
      ExceptRel Parser.SimV (p.parseValue fuel) (q.parseValue fuel)) ∧
    (∀ p q, Parser.Sim p q →
      ExceptRel Parser.SimV (p.parseObject fuel) (q.parseObject fuel)) ∧
    (∀ p q acc, Parser.Sim p q →
      ExceptRel Parser.SimV (p.parseObjectLoop fuel acc) (q.parseObjectLoop fuel acc)) ∧
    (∀ p q, Parser.Sim p q →
      ExceptRel Parser.SimV (p.parseArray fuel) (q.parseArray fuel)) ∧
    (∀ p q acc, Parser.Sim p q →
      ExceptRel Parser.SimV (p.parseArrayLoop fuel acc) (q.parseArrayLoop fuel acc)) := by
  induction fuel with
  | zero =>
    refine ⟨?_, ?_, ?_, ?_, ?_⟩ <;> intros <;>
      simp only [Parser.parseValue, TParser.parseValue, Parser.parseObject, TParser.parseObject,
        Parser.parseObjectLoop, TParser.parseObjectLoop, Parser.parseArray, TParser.parseArray,
        Parser.parseArrayLoop, TParser.parseArrayLoop] <;> exact rfl
  | succ fuel ih =>
    obtain ⟨ihV, ihO, ihOL, ihA, ihAL⟩ := ih
    refine ⟨?_, ?_, ?_, ?_, ?_⟩
    · intro p q h
      simp only [Parser.parseValue, TParser.parseValue]
      rw [h.1]
      cases ht : q.currentToken.type <;> simp only
      · exact ihO p q h
      · exact rfl
      · exact ihA p q h
      · exact rfl
      · exact rfl
      · exact rfl
      · exact Parser.parseString_sim h
      · exact Parser.parseNumber_sim h
      · exact Parser.parseBoolean_sim h (by rw [ht]; decide)
      · exact Parser.parseBoolean_sim h (by rw [ht]; decide)
      · exact Parser.parseNull_sim h
      · exact rfl
      · exact rfl
    · intro p q h
      simp only [Parser.parseObject, TParser.parseObject]
      refine ExceptRel.bind_rel (Parser.checkToken_sim h _ (by decide)) ?_
      intro p1 q1 h1
      rw [h1.1]
      by_cases hb : q1.currentToken.type = .RBRACE
      · simp only [hb, ↓reduceIte]
        refine ExceptRel.bind_rel (Parser.checkToken_sim h1 _ (by decide)) ?_
        intro p2 q2 h2
        exact ⟨rfl, h2⟩
      · simp only [hb, ↓reduceIte]
        refine ExceptRel.bind_rel (ihOL p1 q1 [] h1) ?_
        intro a b hab
        refine ExceptRel.bind_rel (Parser.checkToken_sim hab.2 _ (by decide)) ?_
        intro p2 q2 h2
        exact ⟨by rw [hab.1], h2⟩
    · intro p q acc h
      simp only [Parser.parseObjectLoop, TParser.parseObjectLoop]
      rw [h.1]
      by_cases hs : q.currentToken.type = .STRING
      · simp only [hs, ne_eq, not_true_eq_false, ↓reduceIte]
        refine ExceptRel.bind_rel (Parser.checkToken_sim h _ (by decide)) ?_
        intro p1 q1 h1
        refine ExceptRel.bind_rel (Parser.checkToken_sim h1 _ (by decide)) ?_
        intro p2 q2 h2
        refine ExceptRel.bind_rel (ihV p2 q2 h2) ?_
        intro a b hab
        obtain ⟨a1, a2⟩ := a
        obtain ⟨b1, b2⟩ := b
        obtain ⟨hv, hab⟩ := hab
        simp only at hv hab ⊢
        subst hv
        rw [hab.1]
        by_cases hc : b2.currentToken.type = .COMMA
        · simp only [hc, ↓reduceIte]
          refine ExceptRel.bind_rel (Parser.checkToken_sim hab _ (by decide)) ?_
          intro p3 q3 h3
          rw [h3.1]
          by_cases hb : q3.currentToken.type = .RBRACE
          · simp only [hb, ↓reduceIte]; exact rfl
          · simp only [hb, ↓reduceIte]
            exact ihOL p3 q3 _ h3
        · simp only [hc, ↓reduceIte]
          by_cases hb : b2.currentToken.type = .RBRACE
          · simp only [hb, ↓reduceIte]
            exact ⟨rfl, hab⟩
          · simp only [hb, ↓reduceIte]; exact rfl
      · simp only [hs, ne_eq, not_false_eq_true, ↓reduceIte]
        exact rfl
    · intro p q h
      simp only [Parser.parseArray, TParser.parseArray]
      refine ExceptRel.bind_rel (Parser.checkToken_sim h _ (by decide)) ?_
      intro p1 q1 h1
      rw [h1.1]
      by_cases hb : q1.currentToken.type = .RBRACKET
      · simp only [hb, ↓reduceIte]
        refine ExceptRel.bind_rel (Parser.checkToken_sim h1 _ (by decide)) ?_
        intro p2 q2 h2
        exact ⟨rfl, h2⟩
      · simp only [hb, ↓reduceIte]
        refine ExceptRel.bind_rel (ihAL p1 q1 [] h1) ?_
        intro a b hab
        refine ExceptRel.bind_rel (Parser.checkToken_sim hab.2 _ (by decide)) ?_
        intro p2 q2 h2
        exact ⟨by rw [hab.1], h2⟩
    · intro p q acc h
      simp only [Parser.parseArrayLoop, TParser.parseArrayLoop]
      refine ExceptRel.bind_rel (ihV p q h) ?_
      intro a b hab
      obtain ⟨a1, a2⟩ := a
      obtain ⟨b1, b2⟩ := b
      obtain ⟨hv, hab⟩ := hab
      simp only at hv hab ⊢
      subst hv
      rw [hab.1]
      by_cases hc : b2.currentToken.type = .COMMA
      · simp only [hc, ↓reduceIte]
        refine ExceptRel.bind_rel (Parser.checkToken_sim hab _ (by decide)) ?_
        intro p3 q3 h3
        rw [h3.1]
        by_cases hb : q3.currentToken.type = .RBRACKET
        · simp only [hb, ↓reduceIte]; exact rfl
        · simp only [hb, ↓reduceIte]
          exact ihAL p3 q3 _ h3
      · simp only [hc, ↓reduceIte]
        by_cases hb : b2.currentToken.type = .RBRACKET
        · simp only [hb, ↓reduceIte]
          exact ⟨rfl, hab⟩
        · simp only [hb, ↓reduceIte]; exact rfl

/-! ## Every token but end-of-input consumes a character -/

theorem Lexer.Agree.length_le {α : Type} {l : Lexer} {s : Str} {x : Except Exn (α × Lexer)}
    {a : α} {r : Str} (h : l.Agree s x (.ok (a, r))) : r.length ≤ s.length := by
  obtain ⟨k, _, hr, _⟩ := h
  rw [hr, List.length_drop]; omega

theorem scanStringLoop_length {s acc x r : Str} (h : scanStringLoop s acc = .ok (x, r)) :
    r.length ≤ s.length := by
  have := Lexer.parseStringLoop_agree (Lexer.View.new s) (s.length + 1) (by omega) acc
  rw [h] at this
  exact this.length_le

theorem scanInteger_length {s acc x r : Str} (h : scanInteger s acc = .ok (x, r)) :
    r.length ≤ s.length := by
  have := Lexer.integerPart_agree (Lexer.View.new s) acc
  rw [h] at this
  exact this.length_le

theorem scanFraction_length {s acc x r : Str} (h : scanFraction s acc = .ok (x, r)) :
    r.length ≤ s.length := by
  have := Lexer.decimalPart_agree (Lexer.View.new s) acc
  rw [h] at this
  exact this.length_le

theorem scanExponent_length {s acc x r : Str} (h : scanExponent s acc = .ok (x, r)) :
    r.length ≤ s.length := by
  have := Lexer.exponentPart_agree (Lexer.View.new s) acc
  rw [h] at this
  exact this.length_le

theorem dropWhile_length_lt {p : Int → Bool} {s : Str} (hs : s ≠ []) (hp : p (s.headD 0) = true) :
    (s.dropWhile p).length < s.length := by
  cases s with
  | nil => exact absurd rfl hs
  | cons c s =>
    simp only [List.headD_cons] at hp
    rw [List.dropWhile_cons_of_pos hp]
    have := (List.dropWhile_suffix p (l := s)).length_le
    simp only [List.length_cons]
    omega

theorem dropWhile_length_le (p : Int → Bool) (s : Str) :
    (s.dropWhile p).length ≤ s.length :=
  (List.dropWhile_suffix p).length_le

theorem scanInteger_length_lt {s acc x r : Str} (h : scanInteger s acc = .ok (x, r))
    (hs : s ≠ []) : r.length < s.length := by
  unfold scanInteger at h
  have hl : s.tail.length < s.length := by
    cases s with
    | nil => exact absurd rfl hs
    | cons c s => simp
  split_ifs at h with h1 h2 h3
  · simp only [Except.ok.injEq, Prod.mk.injEq] at h
    rw [← h.2]; exact hl
  · simp only [Except.ok.injEq, Prod.mk.injEq] at h
    rw [← h.2]
    exact dropWhile_length_lt hs h3

theorem scanNumber_length_lt {s x r : Str} (h : scanNumber s = .ok (x, r)) (hs : s ≠ []) :
    r.length < s.length := by
  unfold scanNumber at h
  have hl : s.tail.length < s.length := by
    cases s with
    | nil => exact absurd rfl hs
    | cons c s => simp
  have key : ∀ (s1 acc : Str), (scanInteger s1 acc >>= fun y =>
      scanFraction y.2 y.1 >>= fun z => scanExponent z.2 z.1) = .ok (x, r) →
      r.length ≤ s1.length ∧ (s1 ≠ [] → r.length < s1.length) := by
    intro s1 acc h
    cases h1 : scanInteger s1 acc with
    | error e => rw [h1] at h; cases h
    | ok y =>
      obtain ⟨y1, y2⟩ := y
      rw [h1] at h
      simp only [bind, Except.bind] at h
      cases h2 : scanFraction y2 y1 with
      | error e => rw [h2] at h; cases h
      | ok z =>
        obtain ⟨z1, z2⟩ := z
        rw [h2] at h
        simp only at h
        have a1 := scanInteger_length h1
        have a2 := scanFraction_length h2
        have a3 := scanExponent_length h
        refine ⟨by omega, fun hne => ?_⟩
        have := scanInteger_length_lt h1 hne
        omega
  by_cases h45 : s.headD 0 = 45
  · simp only [h45, ↓reduceIte] at h
    have := (key _ _ h).1
    omega
  · simp only [h45, ↓reduceIte] at h
    exact (key _ _ h).2 hs

theorem scanString_length_lt {s x r : Str} (h : scanString s = .ok (x, r)) (hs : s ≠ []) :
    r.length < s.length := by
  rw [scanString_eq] at h
  have hl : s.tail.length < s.length := by
    cases s with
    | nil => exact absurd rfl hs
    | cons c s => simp
  cases h1 : scanStringLoop s.tail [] with
  | error e => rw [h1] at h; cases h
  | ok y =>
    obtain ⟨y1, y2⟩ := y
    rw [h1] at h
    simp only [bind, Except.bind] at h
    have a1 := scanStringLoop_length h1
    split_ifs at h
    simp only [pure, Except.pure, Except.ok.injEq, Prod.mk.injEq] at h
    rw [← h.2]
    have : y2.tail.length ≤ y2.length := by cases y2 <;> simp
    omega

theorem scanToken_length_lt {s : Str} {t : Token} {r : Str}
    (h : JsonParser.scanToken s = .ok (t, r)) (hs : s.headD 0 ≠ 0) : r.length < s.length := by
  have hne : s ≠ [] := by rintro rfl; exact hs rfl
  have hl : s.tail.length < s.length := by
    cases s with
    | nil => exact absurd rfl hne
    | cons c s => simp
  unfold JsonParser.scanToken at h
  simp only at h
  have punct : ∀ (tok : Token), (Except.ok (tok, s.tail) : Except (Str × Str) (Token × Str)) =
      .ok (t, r) → r.length < s.length := by
    intro tok h
    simp only [Except.ok.injEq, Prod.mk.injEq] at h; rw [← h.2]; exact hl
  by_cases h1 : s.headD 0 = 123
  · rw [if_pos h1] at h; exact punct _ h
  rw [if_neg h1] at h
  by_cases h2 : s.headD 0 = 125
  · rw [if_pos h2] at h; exact punct _ h
  rw [if_neg h2] at h
  by_cases h3 : s.headD 0 = 91
  · rw [if_pos h3] at h; exact punct _ h
  rw [if_neg h3] at h
  by_cases h4 : s.headD 0 = 93
  · rw [if_pos h4] at h; exact punct _ h
  rw [if_neg h4] at h
  by_cases h5 : s.headD 0 = 44
  · rw [if_pos h5] at h; exact punct _ h
  rw [if_neg h5] at h
  by_cases h6 : s.headD 0 = 58
  · rw [if_pos h6] at h; exact punct _ h
  rw [if_neg h6] at h
  by_cases h7 : s.headD 0 = 34
  · rw [if_pos h7] at h
    cases h1 : scanString s with
    | error e => rw [h1] at h; cases h
    | ok y =>
      rw [h1] at h
      simp only [bind, Except.bind, pure, Except.pure, Except.ok.injEq, Prod.mk.injEq] at h
      rw [← h.2]
      exact scanString_length_lt h1 hne
  rw [if_neg h7] at h
  by_cases h8 : s.headD 0 = 45 ∨ isdigit (s.headD 0) = true
  · rw [if_pos h8] at h
    cases h1 : scanNumber s with
    | error e => rw [h1] at h; cases h
    | ok y =>
      rw [h1] at h
      simp only [bind, Except.bind, pure, Except.pure, Except.ok.injEq, Prod.mk.injEq] at h
      rw [← h.2]
      exact scanNumber_length_lt h1 hne
  rw [if_neg h8] at h
  by_cases h9 : s.headD 0 = 116 ∨ s.headD 0 = 102 ∨ s.headD 0 = 110
  · rw [if_pos h9] at h
    have ha : isalpha (s.headD 0) = true := by
      rcases h9 with h9 | h9 | h9 <;> rw [h9] <;> decide
    have kw : ∀ (tok : Token), (Except.ok (tok, s.dropWhile isalpha) :
        Except (Str × Str) (Token × Str)) = .ok (t, r) → r.length < s.length := by
      intro tok h
      simp only [Except.ok.injEq, Prod.mk.injEq] at h; rw [← h.2]
      exact dropWhile_length_lt hne ha
    by_cases k1 : s.takeWhile isalpha = str "true"
    · rw [if_pos k1] at h; exact kw _ h
    rw [if_neg k1] at h
    by_cases k2 : s.takeWhile isalpha = str "false"
    · rw [if_pos k2] at h; exact kw _ h
    rw [if_neg k2] at h
    by_cases k3 : s.takeWhile isalpha = str "null"
    · rw [if_pos k3] at h; exact kw _ h
    rw [if_neg k3] at h
    cases h
  rw [if_neg h9] at h
  cases h

/-- A token other than end-of-input leaves a strictly shorter text. -/
theorem scan_length_lt {s : Str} {t : Token} {r : Str} (h : scan s = .ok (t, r))
    (ht : t.type ≠ .EOF_TOKEN) : r.length < s.length := by
  unfold scan at h
  split_ifs at h with h0
  · simp only [Except.ok.injEq, Prod.mk.injEq] at h
    exact absurd (by rw [← h.1]) ht
  · have := scanToken_length_lt h h0
    have := dropWhile_length_le isspace s
    omega

/-! ## The token sequence of a text -/

theorem Lexer.feeds_exists_aux (n : Nat) : ∀ (l : Lexer) (s : Str), s.length < n → l.View s →
    ∃ ts stop, l.Feeds ts stop ∧ ts.length ≤ s.length + 1 ∧
      (∀ e, stop = some e → ∃ line column msg, e = .lexerError line column msg) ∧
      (∀ fuel, s.length < fuel → l.tokens fuel = (ts, stop)) := by
  induction n with
  | zero => intro l s hn; omega
  | succ n ih =>
    intro l s hn hv
    have hag := Lexer.getNextToken_agree hv
    have heq := Lexer.getNextToken_eq hv
    cases hsc : scan s with
    | error e =>
      obtain ⟨m, r⟩ := e
      rw [hsc] at heq
      simp only [Lexer.lift, Lexer.error] at heq
      refine ⟨[], some _, ⟨_, rfl, heq⟩, by simp, ?_, ?_⟩
      · intro e he
        cases he
        exact ⟨_, _, _, rfl⟩
      · intro fuel hf
        cases fuel with
        | zero => omega
        | succ fuel => simp only [Lexer.tokens, heq]
    | ok x =>
      obtain ⟨t, r⟩ := x
      rw [hsc] at heq hag
      simp only [Lexer.lift] at heq
      obtain ⟨k, hk, hr, _⟩ := hag
      have hv' : (l.advanceN (s.length - r.length)).View r := by
        have : s.length - r.length = k := by rw [hr, List.length_drop]; omega
        rw [this, hr]
        exact hv.advanceN k
      by_cases ht : t.type = .EOF_TOKEN
      · refine ⟨[t], none, ⟨_, heq, by simp [ht]⟩, by simp, by simp, ?_⟩
        intro fuel hf
        cases fuel with
        | zero => omega
        | succ fuel => simp only [Lexer.tokens, heq, ht, ↓reduceIte]
      · have hlt := scan_length_lt hsc ht
        obtain ⟨ts, stop, hfd, hlen, hstop, htok⟩ := ih _ r (by omega) hv'
        refine ⟨t :: ts, stop, ⟨_, heq, by simpa [ht] using hfd⟩, by simp; omega, hstop, ?_⟩
        intro fuel hf
        cases fuel with
        | zero => omega
        | succ fuel =>
          simp only [Lexer.tokens, heq, ht, ↓reduceIte]
          rw [htok fuel (by omega)]

/-- From any cursor the lexer delivers a finite token sequence: no longer than the text left
plus one, ended by the end-of-input token or by a lexical error. -/
theorem Lexer.feeds_exists {l : Lexer} {s : Str} (hv : l.View s) :
    ∃ ts stop, l.Feeds ts stop ∧ ts.length ≤ s.length + 1 ∧
      (∀ e, stop = some e → ∃ line column msg, e = .lexerError line column msg) ∧
      (∀ fuel, s.length < fuel → l.tokens fuel = (ts, stop)) :=
  Lexer.feeds_exists_aux (s.length + 1) l s (by omega) hv

theorem Lexer.Feeds.unique {l : Lexer} {ts ts' : List Token} {stop stop' : Option Exn}
    (h : l.Feeds ts stop) (h' : l.Feeds ts' stop') : ts = ts' ∧ stop = stop' := by
  induction ts generalizing l ts' with
  | nil =>
    obtain ⟨e, hs, hg⟩ := h
    cases ts' with
    | nil =>
      obtain ⟨e', hs', hg'⟩ := h'
      rw [hg] at hg'
      cases hg'
      exact ⟨rfl, by rw [hs, hs']⟩
    | cons t r =>
      obtain ⟨l', hg', _⟩ := h'
      rw [hg] at hg'
      cases hg'
  | cons t r ih =>
    obtain ⟨l1, hg, hrest⟩ := h
    cases ts' with
    | nil =>
      obtain ⟨e', hs', hg'⟩ := h'
      rw [hg] at hg'
      cases hg'
    | cons t' r' =>
      obtain ⟨l2, hg', hrest'⟩ := h'
      rw [hg] at hg'
      simp only [Except.ok.injEq, Prod.mk.injEq] at hg'
      obtain ⟨rfl, rfl⟩ := hg'
      by_cases ht : t.type = .EOF_TOKEN
      · simp only [ht, ↓reduceIte] at hrest hrest'
        exact ⟨by rw [hrest.1, hrest'.1], by rw [hrest.2, hrest'.2]⟩
      · simp only [ht, ↓reduceIte] at hrest hrest'
        have := ih hrest hrest'
        exact ⟨by rw [this.1], this.2⟩

/-- The token sequence of an input is what feeds the parser. -/
theorem tokenize_feeds (input : Str) :
    (Lexer.new input).Feeds (tokenize input).1 (tokenize input).2 := by
  obtain ⟨ts, stop, hf, _, _, htok⟩ := Lexer.feeds_exists (Lexer.View.new input)
  unfold tokenize
  rw [htok _ (by omega)]
  exact hf

theorem ExceptRel.eq {α : Type} {x y : Except Exn α} (h : ExceptRel Eq x y) : x = y := by
  cases x <;> cases y <;> simp only [ExceptRel] at h
  · rw [h]
  · rw [h]

theorem Lexer.advanceN_text (l : Lexer) (k : Nat) : (l.advanceN k).text = l.text := by
  induction k generalizing l with
  | zero => rfl
  | succ k ih => rw [Lexer.advanceN, ih]; rfl

theorem Lexer.getNextToken_text {l : Lexer} {s : Str} (hv : l.View s) {t : Token} {l' : Lexer}
    (h : l.getNextToken = .ok (t, l')) : l'.text = l.text := by
  rw [Lexer.getNextToken_eq hv] at h
  unfold Lexer.lift at h
  cases hsc : scan s with
  | error e => rw [hsc] at h; cases h
  | ok x =>
    rw [hsc] at h
    simp only [Except.ok.injEq, Prod.mk.injEq] at h
    rw [← h.2, Lexer.advanceN_text]

theorem Parser.parse_sim {p : Parser} {q : TParser} (h : p.Sim q) (fuel : Nat)
    (hf : p.fuel = fuel) : p.parse = q.parse fuel := by
  apply ExceptRel.eq
  unfold Parser.parse TParser.parse
  rw [hf]
  refine ExceptRel.bind_rel ((Parser.parse_sim_all fuel).1 p q h) ?_
  intro a b hab
  obtain ⟨a1, a2⟩ := a
  obtain ⟨b1, b2⟩ := b
  obtain ⟨hv, hab⟩ := hab
  simp only at hv hab ⊢
  subst hv
  rw [hab.1]
  by_cases he : b2.currentToken.type = .EOF_TOKEN
  · simp only [he, ne_eq, not_true_eq_false, ↓reduceIte]; exact rfl
  · simp only [he, ne_eq, not_false_eq_true, ↓reduceIte]; exact rfl

/-- Parsing an input is parsing its token sequence. -/
theorem parseInput_eq_parseTokens (input : Str) :
    parseInput input =
      parseTokens (tokenize input).1 (tokenize input).2 (3 * (input.length + 1) + 1) := by
  have hf := tokenize_feeds input
  unfold parseInput parseTokens Parser.new TParser.next
  cases hts : (tokenize input).1 with
  | nil =>
    rw [hts] at hf
    obtain ⟨e, hs, hg⟩ := hf
    simp only [hg, hs, bind, Except.bind]
  | cons t r =>
    rw [hts] at hf
    obtain ⟨l', hg, hrest⟩ := hf
    have htext := Lexer.getNextToken_text (Lexer.View.new input) hg
    simp only [hg, bind, Except.bind, pure, Except.pure]
    refine Parser.parse_sim ⟨rfl, ?_⟩ _ ?_
    · intro hne
      simpa [hne] using hrest
    · simp only [Parser.fuel, htext, Lexer.new]

/-! ## Soundness of the parser on token lists -/

theorem bind_ok_inv {α β : Type} {x : Except Exn α} {f : α → Except Exn β} {b : β}
    (h : (x >>= f) = .ok b) : ∃ a, x = .ok a ∧ f a = .ok b := by
  cases x with
  | error e => cases h
  | ok a => exact ⟨a, rfl, h⟩

theorem TParser.checkToken_ok {q q' : TParser} {e : TokenType} (h : q.checkToken e = .ok q') :
    q.currentToken.type = e ∧ q.rest = q'.currentToken :: q'.rest ∧ q'.stop = q.stop := by
  unfold TParser.checkToken at h
  by_cases ht : q.currentToken.type = e
  · simp only [ht, ne_eq, not_true_eq_false, ↓reduceIte] at h
    unfold TParser.next at h
    cases hr : q.rest with
    | nil =>
      rw [hr] at h
      cases hs : q.stop <;> rw [hs] at h <;> cases h
    | cons t r =>
      rw [hr] at h
      simp only [Except.ok.injEq] at h
      rw [← h]
      exact ⟨ht, rfl, rfl⟩
  · simp only [ht, ne_eq, not_false_eq_true, ↓reduceIte] at h
    cases h

theorem TParser.sound_all (fuel : Nat) :
    (∀ q v q', TParser.parseValue fuel q = .ok (v, q') →
      ∃ ts, Serializes v ts ∧
        q.currentToken :: q.rest = ts ++ q'.currentToken :: q'.rest ∧ q'.stop = q.stop) ∧
    (∀ q v q', TParser.parseObject fuel q = .ok (v, q') →
      ∃ ts, Serializes v ts ∧
        q.currentToken :: q.rest = ts ++ q'.currentToken :: q'.rest ∧ q'.stop = q.stop) ∧
    (∀ q acc props q', TParser.parseObjectLoop fuel q acc = .ok (props, q') →
      ∃ new ts, props = acc ++ new ∧ SerializesMembers new ts ∧
        q.currentToken :: q.rest = ts ++ q'.currentToken :: q'.rest ∧ q'.stop = q.stop ∧
        q'.currentToken.type = .RBRACE) ∧
    (∀ q v q', TParser.parseArray fuel q = .ok (v, q') →
      ∃ ts, Serializes v ts ∧
        q.currentToken :: q.rest = ts ++ q'.currentToken :: q'.rest ∧ q'.stop = q.stop) ∧
    (∀ q acc elems q', TParser.parseArrayLoop fuel q acc = .ok (elems, q') →
      ∃ new ts, elems = acc ++ new ∧ SerializesElements new ts ∧
        q.currentToken :: q.rest = ts ++ q'.currentToken :: q'.rest ∧ q'.stop = q.stop ∧
        q'.currentToken.type = .RBRACKET) := by
  induction fuel with
  | zero =>
    refine ⟨?_, ?_, ?_, ?_, ?_⟩ <;> intros <;> rename_i h <;>
      simp only [TParser.parseValue, TParser.parseObject, TParser.parseObjectLoop,
        TParser.parseArray, TParser.parseArrayLoop] at h <;> cases h
  | succ fuel ih =>
    obtain ⟨ihV, ihO, ihOL, ihA, ihAL⟩ := ih
    refine ⟨?_, ?_, ?_, ?_, ?_⟩
    · intro q v q' h
      simp only [TParser.parseValue] at h
      cases ht : q.currentToken.type <;> rw [ht] at h <;> simp only at h
      · exact ihO q v q' h
      · cases h
      · exact ihA q v q' h
      · cases h
      · cases h
      · cases h
      · unfold TParser.parseString at h
        obtain ⟨q1, h1, h⟩ := bind_ok_inv h
        simp only [pure, Except.pure, Except.ok.injEq, Prod.mk.injEq] at h
        obtain ⟨rfl, rfl⟩ := h
        obtain ⟨_, hr, hs⟩ := TParser.checkToken_ok h1
        exact ⟨[q.currentToken], Serializes.string _ ht, by rw [hr]; rfl, hs⟩
      · unfold TParser.parseNumber at h
        obtain ⟨d, hd, h⟩ := bind_ok_inv h
        obtain ⟨q1, h1, h⟩ := bind_ok_inv h
        simp only [pure, Except.pure, Except.ok.injEq, Prod.mk.injEq] at h
        obtain ⟨rfl, rfl⟩ := h
        obtain ⟨_, hr, hs⟩ := TParser.checkToken_ok h1
        exact ⟨[q.currentToken], Serializes.number _ d ht hd, by rw [hr]; rfl, hs⟩
      · unfold TParser.parseBoolean at h
        obtain ⟨q1, h1, h⟩ := bind_ok_inv h
        simp only [pure, Except.pure, Except.ok.injEq, Prod.mk.injEq] at h
        obtain ⟨rfl, rfl⟩ := h
        obtain ⟨_, hr, hs⟩ := TParser.checkToken_ok h1
        refine ⟨[q.currentToken], ?_, by rw [hr]; rfl, hs⟩
        simp only [ht, decide_True]
        exact Serializes.true _ ht
      · unfold TParser.parseBoolean at h
        obtain ⟨q1, h1, h⟩ := bind_ok_inv h
        simp only [pure, Except.pure, Except.ok.injEq, Prod.mk.injEq] at h
        obtain ⟨rfl, rfl⟩ := h
        obtain ⟨_, hr, hs⟩ := TParser.checkToken_ok h1
        refine ⟨[q.currentToken], ?_, by rw [hr]; rfl, hs⟩
        simp only [ht, reduceCtorEq, decide_False]
        exact Serializes.false _ ht
      · unfold TParser.parseNull at h
        obtain ⟨q1, h1, h⟩ := bind_ok_inv h
        simp only [pure, Except.pure, Except.ok.injEq, Prod.mk.injEq] at h
        obtain ⟨rfl, rfl⟩ := h
        obtain ⟨_, hr, hs⟩ := TParser.checkToken_ok h1
        exact ⟨[q.currentToken], Serializes.null _ ht, by rw [hr]; rfl, hs⟩
      · cases h
      · cases h
    · intro q v q' h
      simp only [TParser.parseObject] at h
      obtain ⟨q1, h1, h⟩ := bind_ok_inv h
      obtain ⟨ht1, hr1, hs1⟩ := TParser.checkToken_ok h1
      by_cases hb : q1.currentToken.type = .RBRACE
      · simp only [hb, ↓reduceIte] at h
        obtain ⟨q2, h2, h⟩ := bind_ok_inv h
        simp only [pure, Except.pure, Except.ok.injEq, Prod.mk.injEq] at h
        obtain ⟨rfl, rfl⟩ := h
        obtain ⟨_, hr2, hs2⟩ := TParser.checkToken_ok h2
        exact ⟨[q.currentToken, q1.currentToken], Serializes.emptyObject _ _ ht1 hb,
          by rw [hr1, hr2]; rfl, by rw [hs2, hs1]⟩
      · simp only [hb, ↓reduceIte] at h
        obtain ⟨⟨props, q2⟩, h2, h⟩ := bind_ok_inv h
        simp only at h
        obtain ⟨q3, h3, h⟩ := bind_ok_inv h
        simp only [pure, Except.pure, Except.ok.injEq, Prod.mk.injEq] at h
        obtain ⟨rfl, rfl⟩ := h
        obtain ⟨new, ts, hp, hser, hstr, hs2, hrb⟩ := ihOL _ _ _ _ h2
        obtain ⟨_, hr3, hs3⟩ := TParser.checkToken_ok h3
        simp only [List.nil_append] at hp
        subst hp
        refine ⟨q.currentToken :: ts ++ [q2.currentToken],
          Serializes.object _ _ _ _ ht1 hrb hser, ?_, by rw [hs3, hs2, hs1]⟩
        rw [hr1, hstr, hr3]
        simp
    · intro q acc props q' h
      simp only [TParser.parseObjectLoop] at h
      by_cases hs : q.currentToken.type = .STRING
      · simp only [hs, ne_eq, not_true_eq_false, ↓reduceIte] at h
        obtain ⟨q1, h1, h⟩ := bind_ok_inv h
        obtain ⟨q2, h2, h⟩ := bind_ok_inv h
        obtain ⟨⟨v, q3⟩, h3, h⟩ := bind_ok_inv h
        simp only at h
        obtain ⟨_, hr1, hs1⟩ := TParser.checkToken_ok h1
        obtain ⟨hcol, hr2, hs2⟩ := TParser.checkToken_ok h2
        obtain ⟨tsv, hserv, hstrv, hs3⟩ := ihV _ _ _ h3
        by_cases hc : q3.currentToken.type = .COMMA
        · simp only [hc, ↓reduceIte] at h
          obtain ⟨q4, h4, h⟩ := bind_ok_inv h
          obtain ⟨_, hr4, hs4⟩ := TParser.checkToken_ok h4
          by_cases hb : q4.currentToken.type = .RBRACE
          · simp only [hb, ↓reduceIte] at h; cases h
          · simp only [hb, ↓reduceIte] at h
            obtain ⟨new, ts, hp, hser, hstr, hs5, hrb⟩ := ihOL _ _ _ _ h
            refine ⟨(q.currentToken.value, v) :: new,
              q.currentToken :: q1.currentToken :: tsv ++ q3.currentToken :: ts, ?_,
              SerializesMembers.cons _ _ _ _ _ _ _ hs hcol hserv hc hser, ?_, ?_, hrb⟩
            · rw [hp]; simp
            · rw [hr1, hr2, hstrv, hr4, hstr]; simp
            · rw [hs5, hs4, hs3, hs2, hs1]
        · simp only [hc, ↓reduceIte] at h
          by_cases hb : q3.currentToken.type = .RBRACE
          · simp only [hb, ↓reduceIte, pure, Except.pure, Except.ok.injEq, Prod.mk.injEq] at h
            obtain ⟨rfl, rfl⟩ := h
            refine ⟨[(q.currentToken.value, v)], q.currentToken :: q1.currentToken :: tsv, rfl,
              SerializesMembers.one _ _ _ _ hs hcol hserv, ?_, ?_, hb⟩
            · rw [hr1, hr2, hstrv]; simp
            · rw [hs3, hs2, hs1]
          · simp only [hb, ↓reduceIte] at h; cases h
      · simp only [hs, ne_eq, not_false_eq_true, ↓reduceIte] at h
        cases h
    · intro q v q' h
      simp only [TParser.parseArray] at h
      obtain ⟨q1, h1, h⟩ := bind_ok_inv h
      obtain ⟨ht1, hr1, hs1⟩ := TParser.checkToken_ok h1
      by_cases hb : q1.currentToken.type = .RBRACKET
      · simp only [hb, ↓reduceIte] at h
        obtain ⟨q2, h2, h⟩ := bind_ok_inv h
        simp only [pure, Except.pure, Except.ok.injEq, Prod.mk.injEq] at h
        obtain ⟨rfl, rfl⟩ := h
        obtain ⟨_, hr2, hs2⟩ := TParser.checkToken_ok h2
        exact ⟨[q.currentToken, q1.currentToken], Serializes.emptyArray _ _ ht1 hb,
          by rw [hr1, hr2]; rfl, by rw [hs2, hs1]⟩
      · simp only [hb, ↓reduceIte] at h
        obtain ⟨⟨elems, q2⟩, h2, h⟩ := bind_ok_inv h
        simp only at h
        obtain ⟨q3, h3, h⟩ := bind_ok_inv h
        simp only [pure, Except.pure, Except.ok.injEq, Prod.mk.injEq] at h
        obtain ⟨rfl, rfl⟩ := h
        obtain ⟨new, ts, hp, hser, hstr, hs2, hrb⟩ := ihAL _ _ _ _ h2
        obtain ⟨_, hr3, hs3⟩ := TParser.checkToken_ok h3
        simp only [List.nil_append] at hp
        subst hp
        refine ⟨q.currentToken :: ts ++ [q2.currentToken],
          Serializes.array _ _ _ _ ht1 hrb hser, ?_, by rw [hs3, hs2, hs1]⟩
        rw [hr1, hstr, hr3]
        simp
    · intro q acc elems q' h
      simp only [TParser.parseArrayLoop] at h
      obtain ⟨⟨v, q3⟩, h3, h⟩ := bind_ok_inv h
      simp only at h
      obtain ⟨tsv, hserv, hstrv, hs3⟩ := ihV _ _ _ h3
      by_cases hc : q3.currentToken.type = .COMMA
      · simp only [hc, ↓reduceIte] at h
        obtain ⟨q4, h4, h⟩ := bind_ok_inv h
        obtain ⟨_, hr4, hs4⟩ := TParser.checkToken_ok h4
        by_cases hb : q4.currentToken.type = .RBRACKET
        · simp only [hb, ↓reduceIte] at h; cases h
        · simp only [hb, ↓reduceIte] at h
          obtain ⟨new, ts, hp, hser, hstr, hs5, hrb⟩ := ihAL _ _ _ _ h
          refine ⟨v :: new, tsv ++ q3.currentToken :: ts, ?_,
            SerializesElements.cons _ _ _ _ _ hserv hc hser, ?_, ?_, hrb⟩
          · rw [hp]; simp
          · rw [hstrv, hr4, hstr]; simp
          · rw [hs5, hs4, hs3]
      · simp only [hc, ↓reduceIte] at h
        by_cases hb : q3.currentToken.type = .RBRACKET
        · simp only [hb, ↓reduceIte, pure, Except.pure, Except.ok.injEq, Prod.mk.injEq] at h
          obtain ⟨rfl, rfl⟩ := h
          exact ⟨[v], tsv, rfl, SerializesElements.one _ _ hserv, hstrv, hs3, hb⟩
        · simp only [hb, ↓reduceIte] at h; cases h

/-! ## Completeness of the parser on token lists -/

theorem TParser.checkToken_eq {q : TParser} {e : TokenType} {t : Token} {r : List Token}
    (ht : q.currentToken.type = e) (hr : q.rest = t :: r) :
    q.checkToken e = .ok { currentToken := t, rest := r, stop := q.stop } := by
  unfold TParser.checkToken TParser.next
  simp only [ht, ne_eq, not_true_eq_false, ↓reduceIte, hr]

/-- The first token of a value starts a value. -/
theorem Serializes.head_token {v : JsonValue} {ts : List Token} (h : Serializes v ts) :
    ∃ t tl, ts = t :: tl ∧ (t.type = .STRING ∨ t.type = .NUMBER ∨ t.type = .TRUE ∨
      t.type = .FALSE ∨ t.type = .NULL_TOKEN ∨ t.type = .LBRACE ∨ t.type = .LBRACKET) := by
  cases h with
  | string t ht => exact ⟨t, [], rfl, by simp [ht]⟩
  | number t d ht _ => exact ⟨t, [], rfl, by simp [ht]⟩
  | true t ht => exact ⟨t, [], rfl, by simp [ht]⟩
  | false t ht => exact ⟨t, [], rfl, by simp [ht]⟩
  | null t ht => exact ⟨t, [], rfl, by simp [ht]⟩
  | emptyObject lb rb h1 _ => exact ⟨lb, [rb], rfl, by simp [h1]⟩
  | object lb rb ps ts h1 _ _ => exact ⟨lb, ts ++ [rb], rfl, by simp [h1]⟩
  | emptyArray lb rb h1 _ => exact ⟨lb, [rb], rfl, by simp [h1]⟩
  | array lb rb es ts h1 _ _ => exact ⟨lb, ts ++ [rb], rfl, by simp [h1]⟩

theorem SerializesMembers.head_key {ps : List (Str × JsonValue)} {ts : List Token}
    (h : SerializesMembers ps ts) : ∃ t tl, ts = t :: tl ∧ t.type = .STRING := by
  cases h with
  | one k c v ts hk _ _ => exact ⟨k, _, rfl, hk⟩
  | cons k c cm v ts rest tsr hk _ _ _ _ => exact ⟨k, _, rfl, hk⟩

theorem SerializesElements.head_element {es : List JsonValue} {ts : List Token}
    (h : SerializesElements es ts) :
    ∃ t tl, ts = t :: tl ∧ (t.type = .STRING ∨ t.type = .NUMBER ∨ t.type = .TRUE ∨
      t.type = .FALSE ∨ t.type = .NULL_TOKEN ∨ t.type = .LBRACE ∨ t.type = .LBRACKET) := by
  cases h with
  | one v ts hv => exact hv.head_token
  | cons cm v ts rest tsr hv _ _ =>
    obtain ⟨t, tl, rfl, ht⟩ := hv.head_token
    exact ⟨t, _, rfl, ht⟩

mutual

theorem TParser.complete_value : ∀ {v : JsonValue} {ts : List Token}, Serializes v ts →
    ∀ (fuel : Nat) (q : TParser) (c : Token) (r : List Token), 3 * ts.length ≤ fuel →
      q.currentToken :: q.rest = ts ++ c :: r →
      TParser.parseValue fuel q = .ok (v, { currentToken := c, rest := r, stop := q.stop })
  | _, _, .string t ht => by
    intro fuel q c r hf hq
    simp only [List.singleton_append, List.cons.injEq] at hq
    obtain ⟨rfl, hr⟩ := hq
    obtain ⟨fuel, rfl⟩ : ∃ f, fuel = f + 1 := ⟨fuel - 1, by simp at hf; omega⟩
    simp only [TParser.parseValue, ht, TParser.parseString, TParser.checkToken_eq ht hr, bind,
      Except.bind, pure, Except.pure]
  | _, _, .number t d ht hd => by
    intro fuel q c r hf hq
    simp only [List.singleton_append, List.cons.injEq] at hq
    obtain ⟨rfl, hr⟩ := hq
    obtain ⟨fuel, rfl⟩ : ∃ f, fuel = f + 1 := ⟨fuel - 1, by simp at hf; omega⟩
    simp only [TParser.parseValue, ht, TParser.parseNumber, hd, TParser.checkToken_eq ht hr,
      bind, Except.bind, pure, Except.pure]
  | _, _, .true t ht => by
    intro fuel q c r hf hq
    simp only [List.singleton_append, List.cons.injEq] at hq
    obtain ⟨rfl, hr⟩ := hq
    obtain ⟨fuel, rfl⟩ : ∃ f, fuel = f + 1 := ⟨fuel - 1, by simp at hf; omega⟩
    simp only [TParser.parseValue, ht, TParser.parseBoolean, TParser.checkToken_eq ht hr,
      bind, Except.bind, pure, Except.pure, decide_True]
  | _, _, .false t ht => by
    intro fuel q c r hf hq
    simp only [List.singleton_append, List.cons.injEq] at hq
    obtain ⟨rfl, hr⟩ := hq
    obtain ⟨fuel, rfl⟩ : ∃ f, fuel = f + 1 := ⟨fuel - 1, by simp at hf; omega⟩
    simp only [TParser.parseValue, ht, TParser.parseBoolean, TParser.checkToken_eq ht hr,
      bind, Except.bind, pure, Except.pure, reduceCtorEq, decide_False]
  | _, _, .null t ht => by
    intro fuel q c r hf hq
    simp only [List.singleton_append, List.cons.injEq] at hq
    obtain ⟨rfl, hr⟩ := hq
    obtain ⟨fuel, rfl⟩ : ∃ f, fuel = f + 1 := ⟨fuel - 1, by simp at hf; omega⟩
    simp only [TParser.parseValue, ht, TParser.parseNull, TParser.checkToken_eq ht hr, bind,
      Except.bind, pure, Except.pure]
  | _, _, .emptyObject lb rb h1 h2 => by
    intro fuel q c r hf hq
    simp only [List.cons_append, List.nil_append, List.cons.injEq] at hq
    obtain ⟨rfl, hr⟩ := hq
    obtain ⟨fuel, rfl⟩ : ∃ f, fuel = f + 2 := ⟨fuel - 2, by simp at hf; omega⟩
    simp only [TParser.parseValue, h1, TParser.parseObject, TParser.checkToken_eq h1 hr, bind,
      Except.bind, h2, ↓reduceIte,
      TParser.checkToken_eq (q := { currentToken := rb, rest := c :: r, stop := q.stop }) h2 rfl,
      pure, Except.pure]
  | _, _, .object lb rb ps ts h1 h2 hm => by
    intro fuel q c r hf hq
    simp only [List.cons_append, List.append_assoc, List.cons.injEq] at hq
    obtain ⟨rfl, hr⟩ := hq
    obtain ⟨fuel, rfl⟩ : ∃ f, fuel = f + 2 := ⟨fuel - 2, by simp at hf; omega⟩
    obtain ⟨k, tl, rfl, hk⟩ := hm.head_key
    have hloop := TParser.complete_members hm fuel []
      { currentToken := k, rest := tl ++ rb :: c :: r, stop := q.stop } rb (c :: r)
      (by simp at hf ⊢; omega) (by simp) h2
    simp only [List.nil_append] at hloop
    simp only [List.cons_append, List.nil_append] at hr
    simp only [TParser.parseValue, h1, TParser.parseObject, TParser.checkToken_eq h1 hr, bind,
      Except.bind, hk, reduceCtorEq, ↓reduceIte, hloop,
      TParser.checkToken_eq (q := { currentToken := rb, rest := c :: r, stop := q.stop }) h2 rfl,
      pure, Except.pure]
  | _, _, .emptyArray lb rb h1 h2 => by
    intro fuel q c r hf hq
    simp only [List.cons_append, List.nil_append, List.cons.injEq] at hq
    obtain ⟨rfl, hr⟩ := hq
    obtain ⟨fuel, rfl⟩ : ∃ f, fuel = f + 2 := ⟨fuel - 2, by simp at hf; omega⟩
    simp only [TParser.parseValue, h1, TParser.parseArray, TParser.checkToken_eq h1 hr, bind,
      Except.bind, h2, ↓reduceIte,
      TParser.checkToken_eq (q := { currentToken := rb, rest := c :: r, stop := q.stop }) h2 rfl,
      pure, Except.pure]
  | _, _, .array lb rb es ts h1 h2 hm => by
    intro fuel q c r hf hq
    simp only [List.cons_append, List.append_assoc, List.cons.injEq] at hq
    obtain ⟨rfl, hr⟩ := hq
    obtain ⟨fuel, rfl⟩ : ∃ f, fuel = f + 2 := ⟨fuel - 2, by simp at hf; omega⟩
    obtain ⟨k, tl, rfl, hk⟩ := hm.head_element
    have hloop := TParser.complete_elements hm fuel []
      { currentToken := k, rest := tl ++ rb :: c :: r, stop := q.stop } rb (c :: r)
      (by simp at hf ⊢; omega) (by simp) h2
    simp only [List.nil_append] at hloop
    simp only [List.cons_append, List.nil_append] at hr
    have hk' : k.type ≠ .RBRACKET := by
      rcases hk with h | h | h | h | h | h | h <;> rw [h] <;> decide
    simp only [TParser.parseValue, h1, TParser.parseArray, TParser.checkToken_eq h1 hr, bind,
      Except.bind, hk', ↓reduceIte, hloop,
      TParser.checkToken_eq (q := { currentToken := rb, rest := c :: r, stop := q.stop }) h2 rfl,
      pure, Except.pure]

theorem TParser.complete_members : ∀ {ps : List (Str × JsonValue)} {ts : List Token},
    SerializesMembers ps ts →
    ∀ (fuel : Nat) (acc : List (Str × JsonValue)) (q : TParser) (c : Token) (r : List Token),
      3 * ts.length ≤ fuel → q.currentToken :: q.rest = ts ++ c :: r → c.type = .RBRACE →
      TParser.parseObjectLoop fuel q acc =
        .ok (acc ++ ps, { currentToken := c, rest := r, stop := q.stop })
  | _, _, .one k colon v ts hk hcol hv => by
    intro fuel acc q c r hf hq hc
    simp only [List.cons_append, List.cons.injEq] at hq
    obtain ⟨rfl, hr⟩ := hq
    obtain ⟨fuel, rfl⟩ : ∃ f, fuel = f + 1 := ⟨fuel - 1, by simp at hf; omega⟩
    obtain ⟨t, tl, rfl, _⟩ := hv.head_token
    have hval := TParser.complete_value hv fuel
      { currentToken := t, rest := tl ++ c :: r, stop := q.stop } c r
      (by simp at hf ⊢; omega) (by simp)
    simp only [List.cons_append] at hr
    simp only [TParser.parseObjectLoop, hk, ne_eq, not_true_eq_false, ↓reduceIte,
      TParser.checkToken_eq hk hr, bind, Except.bind,
      TParser.checkToken_eq
        (q := { currentToken := colon, rest := t :: (tl ++ c :: r), stop := q.stop }) hcol rfl,
      hval, hc, reduceCtorEq, pure, Except.pure]
  | _, _, .cons k colon comma v ts rest tsr hk hcol hv hcm hrest => by
    intro fuel acc q c r hf hq hc
    simp only [List.cons_append, List.append_assoc, List.cons.injEq] at hq
    obtain ⟨rfl, hr⟩ := hq
    obtain ⟨fuel, rfl⟩ : ∃ f, fuel = f + 1 := ⟨fuel - 1, by simp at hf; omega⟩
    obtain ⟨t, tl, rfl, _⟩ := hv.head_token
    obtain ⟨k2, tl2, rfl, hk2⟩ := hrest.head_key
    have hval := TParser.complete_value hv fuel
      { currentToken := t, rest := tl ++ comma :: k2 :: (tl2 ++ c :: r), stop := q.stop }
      comma (k2 :: (tl2 ++ c :: r)) (by simp at hf ⊢; omega) (by simp)
    have hloop := TParser.complete_members hrest fuel (acc ++ [(q.currentToken.value, v)])
      { currentToken := k2, rest := tl2 ++ c :: r, stop := q.stop } c r
      (by simp at hf ⊢; omega) (by simp) hc
    simp only [List.cons_append] at hr
    simp only [TParser.parseObjectLoop, hk, ne_eq, not_true_eq_false, ↓reduceIte,
      TParser.checkToken_eq hk hr, bind, Except.bind,
      TParser.checkToken_eq
        (q := { currentToken := colon,
                rest := t :: (tl ++ comma :: k2 :: (tl2 ++ c :: r)), stop := q.stop }) hcol rfl,
      hval, hcm,
      TParser.checkToken_eq
        (q := { currentToken := comma, rest := k2 :: (tl2 ++ c :: r), stop := q.stop }) hcm rfl,
      hk2, reduceCtorEq, hloop, List.append_assoc, List.singleton_append]

theorem TParser.complete_elements : ∀ {es : List JsonValue} {ts : List Token},
    SerializesElements es ts →
    ∀ (fuel : Nat) (acc : List JsonValue) (q : TParser) (c : Token) (r : List Token),
      3 * ts.length + 1 ≤ fuel → q.currentToken :: q.rest = ts ++ c :: r →
      c.type = .RBRACKET →
      TParser.parseArrayLoop fuel q acc =
        .ok (acc ++ es, { currentToken := c, rest := r, stop := q.stop })
  | _, _, .one v ts hv => by
    intro fuel acc q c r hf hq hc
    obtain ⟨fuel, rfl⟩ : ∃ f, fuel = f + 1 := ⟨fuel - 1, by omega⟩
    have hval := TParser.complete_value hv fuel q c r (by omega) hq
    simp only [TParser.parseArrayLoop, hval, bind, Except.bind, hc, reduceCtorEq, ↓reduceIte,
      pure, Except.pure]
  | _, _, .cons comma v ts rest tsr hv hcm hrest => by
    intro fuel acc q c r hf hq hc
    obtain ⟨fuel, rfl⟩ : ∃ f, fuel = f + 1 := ⟨fuel - 1, by omega⟩
    obtain ⟨k2, tl2, rfl, hk2⟩ := hrest.head_element
    have hk2' : k2.type ≠ .RBRACKET := by
      rcases hk2 with h | h | h | h | h | h | h <;> rw [h] <;> decide
    have hval := TParser.complete_value hv fuel q comma (k2 :: (tl2 ++ c :: r))
      (by simp at hf ⊢; omega) (by simpa using hq)
    have hloop := TParser.complete_elements hrest fuel (acc ++ [v])
      { currentToken := k2, rest := tl2 ++ c :: r, stop := q.stop } c r
      (by simp at hf ⊢; omega) (by simp) hc
    simp only [TParser.parseArrayLoop, hval, bind, Except.bind, hcm, ↓reduceIte,
      TParser.checkToken_eq
        (q := { currentToken := comma, rest := k2 :: (tl2 ++ c :: r), stop := q.stop }) hcm rfl,
      hk2', hloop, List.append_assoc, List.singleton_append]

end

/-! ## No serialization has a comma before a closing bracket -/

theorem getLast?_append_cons {α : Type} (l : List α) (a : α) (r : List α) :
    (l ++ a :: r).getLast? = (a :: r).getLast? := by
  rw [List.getLast?_append_of_ne_nil _ (by simp)]

mutual

theorem Serializes.chain_value : ∀ {v : JsonValue} {ts : List Token}, Serializes v ts →
    List.Chain' (fun a b => ¬ TrailingComma a b) ts ∧
      ∀ t, ts.getLast? = some t → t.type ≠ .COMMA
  | _, _, .string t ht => ⟨List.chain'_singleton _, by
      intro t' h; simp at h; subst h; rw [ht]; decide⟩
  | _, _, .number t d ht _ => ⟨List.chain'_singleton _, by
      intro t' h; simp at h; subst h; rw [ht]; decide⟩
  | _, _, .true t ht => ⟨List.chain'_singleton _, by
      intro t' h; simp at h; subst h; rw [ht]; decide⟩
  | _, _, .false t ht => ⟨List.chain'_singleton _, by
      intro t' h; simp at h; subst h; rw [ht]; decide⟩
  | _, _, .null t ht => ⟨List.chain'_singleton _, by
      intro t' h; simp at h; subst h; rw [ht]; decide⟩
  | _, _, .emptyObject lb rb h1 h2 => ⟨by
      simp [TrailingComma, h1], by
      intro t' h; simp at h; subst h; rw [h2]; decide⟩
  | _, _, .emptyArray lb rb h1 h2 => ⟨by
      simp [TrailingComma, h1], by
      intro t' h; simp at h; subst h; rw [h2]; decide⟩
  | _, _, .object lb rb ps ts h1 h2 hm => by
    obtain ⟨hc, hl⟩ := SerializesMembers.chain_members hm
    obtain ⟨k, tl, rfl, hk⟩ := hm.head_key
    refine ⟨?_, ?_⟩
    · rw [List.cons_append, List.chain'_cons']
      refine ⟨?_, ?_⟩
      · intro y hy
        simp [TrailingComma, h1]
      · refine List.Chain'.append hc (List.chain'_singleton _) ?_
        intro x hx y hy
        simp only [List.head?_cons, Option.mem_def, Option.some.injEq] at hy
        subst hy
        intro htc
        exact hl x hx htc.1
    · intro t' h
      rw [List.cons_append, ← List.cons_append, getLast?_append_cons] at h
      simp at h; subst h; rw [h2]; decide
  | _, _, .array lb rb es ts h1 h2 hm => by
    obtain ⟨hc, hl⟩ := SerializesElements.chain_elements hm
    refine ⟨?_, ?_⟩
    · rw [List.cons_append, List.chain'_cons']
      refine ⟨?_, ?_⟩
      · intro y hy
        simp [TrailingComma, h1]
      · refine List.Chain'.append hc (List.chain'_singleton _) ?_
        intro x hx y hy
        simp only [List.head?_cons, Option.mem_def, Option.some.injEq] at hy
        subst hy
        intro htc
        exact hl x hx htc.1
    · intro t' h
      rw [List.cons_append, ← List.cons_append, getLast?_append_cons] at h
      simp at h; subst h; rw [h2]; decide

theorem SerializesMembers.chain_members : ∀ {ps : List (Str × JsonValue)} {ts : List Token},
    SerializesMembers ps ts →
    List.Chain' (fun a b => ¬ TrailingComma a b) ts ∧
      ∀ t, ts.getLast? = some t → t.type ≠ .COMMA
  | _, _, .one k colon v ts hk hcol hv => by
    obtain ⟨hc, hl⟩ := Serializes.chain_value hv
    obtain ⟨t, tl, rfl, ht⟩ := hv.head_token
    refine ⟨?_, ?_⟩
    · rw [List.chain'_cons, List.chain'_cons]
      exact ⟨by simp [TrailingComma, hk], by simp [TrailingComma, hcol], hc⟩
    · intro t' h
      exact hl t' (by simpa using h)
  | _, _, .cons k colon comma v ts rest tsr hk hcol hv hcm hrest => by
    obtain ⟨hc, hl⟩ := Serializes.chain_value hv
    obtain ⟨hc2, hl2⟩ := SerializesMembers.chain_members hrest
    obtain ⟨t, tl, rfl, ht⟩ := hv.head_token
    obtain ⟨k2, tl2, rfl, hk2⟩ := hrest.head_key
    refine ⟨?_, ?_⟩
    · rw [List.cons_append, List.cons_append, List.chain'_cons, List.cons_append,
        List.chain'_cons, ← List.cons_append]
      refine ⟨by simp [TrailingComma, hk], by simp [TrailingComma, hcol], ?_⟩
      refine List.Chain'.append hc ?_ ?_
      · rw [List.chain'_cons]
        exact ⟨by simp [TrailingComma, hk2], hc2⟩
      · intro x hx y hy
        simp only [List.head?_cons, Option.mem_def, Option.some.injEq] at hy
        subst hy
        simp [TrailingComma, hcm]
    · intro t' h
      rw [List.cons_append, List.cons_append, ← List.cons_append, ← List.cons_append,
        getLast?_append_cons] at h
      exact hl2 t' (by simpa using h)

theorem SerializesElements.chain_elements : ∀ {es : List JsonValue} {ts : List Token},
    SerializesElements es ts →
    List.Chain' (fun a b => ¬ TrailingComma a b) ts ∧
      ∀ t, ts.getLast? = some t → t.type ≠ .COMMA
  | _, _, .one v ts hv => Serializes.chain_value hv
  | _, _, .cons comma v ts rest tsr hv hcm hrest => by
    obtain ⟨hc, hl⟩ := Serializes.chain_value hv
    obtain ⟨hc2, hl2⟩ := SerializesElements.chain_elements hrest
    obtain ⟨k2, tl2, rfl, hk2⟩ := hrest.head_element
    refine ⟨?_, ?_⟩
    · refine List.Chain'.append hc ?_ ?_
      · rw [List.chain'_cons]
        refine ⟨?_, hc2⟩
        rcases hk2 with h | h | h | h | h | h | h <;> simp [TrailingComma, h]
      · intro x hx y hy
        simp only [List.head?_cons, Option.mem_def, Option.some.injEq] at hy
        subst hy
        simp [TrailingComma, hcm]
    · intro t' h
      rw [getLast?_append_cons] at h
      exact hl2 t' (by simpa using h)

end

/-- In a serialization followed by the end-of-input token no comma is immediately followed by
a closing bracket. -/
theorem Serializes.no_trailing_comma {v : JsonValue} {ts : List Token} (h : Serializes v ts)
    (e : Token) (he : e.type = .EOF_TOKEN) (pre post : List Token) (a b : Token)
    (hts : ts ++ [e] = pre ++ a :: b :: post) : ¬ TrailingComma a b := by
  obtain ⟨hc, hl⟩ := h.chain_value
  have hch : List.Chain' (fun a b => ¬ TrailingComma a b) (ts ++ [e]) := by
    refine List.Chain'.append hc (List.chain'_singleton _) ?_
    intro x _ y hy
    simp only [List.head?_cons, Option.mem_def, Option.some.injEq] at hy
    subst hy
    simp [TrailingComma, he]
  rw [hts] at hch
  exact (List.chain'_cons.mp (List.chain'_append.mp hch).2.1).1

/-! ## The fuel is enough -/

theorem bind_ne_fuel {α β : Type} {x : Except Exn α} {f : α → Except Exn β}
    (hx : x ≠ .error .outOfFuel) (hf : ∀ a, x = .ok a → f a ≠ .error .outOfFuel) :
    (x >>= f) ≠ .error .outOfFuel := by
  cases x with
  | error e => intro h; exact hx (by simpa [bind, Except.bind] using h)
  | ok a => exact hf a rfl

theorem roundToDouble_ne_fuel (neg : Bool) (num den : Nat) :
    roundToDouble neg num den ≠ .error .outOfFuel := by
  unfold roundToDouble
  simp only
  split_ifs <;> simp

theorem stod_ne_fuel (text : Str) : stod text ≠ .error .outOfFuel := by
  unfold stod
  simp only
  split_ifs <;> first | exact roundToDouble_ne_fuel _ _ _ | simp

theorem TParser.Ends.of_stream {q q' : TParser} {ts : List Token} (he : q.Ends)
    (hstr : q.currentToken :: q.rest = ts ++ q'.currentToken :: q'.rest)
    (hs : q'.stop = q.stop) : q'.Ends ∧ q'.rest.length + ts.length = q.rest.length := by
  have hlen := congrArg List.length hstr
  simp only [List.length_cons, List.length_append] at hlen
  refine ⟨?_, by omega⟩
  unfold TParser.Ends at he ⊢
  rw [hs]
  cases hst : q.stop with
  | none =>
    rw [hst] at he
    obtain ⟨t, h1, h2⟩ := he
    refine ⟨t, ?_, h2⟩
    rw [hstr, List.getLast?_append_of_ne_nil _ (by simp)] at h1
    exact h1
  | some e' => rw [hst] at he; exact he

theorem Serializes.length_pos_value {v : JsonValue} {ts : List Token} (h : Serializes v ts) :
    0 < ts.length := by
  obtain ⟨t, tl, rfl, _⟩ := h.head_token
  simp

theorem SerializesMembers.length_pos_members {ps : List (Str × JsonValue)} {ts : List Token}
    (h : SerializesMembers ps ts) : 3 ≤ ts.length := by
  cases h with
  | one k c v ts _ _ hv => have := hv.length_pos_value; simp; omega
  | cons k c cm v ts rest tsr _ _ hv _ _ => have := hv.length_pos_value; simp; omega

theorem SerializesElements.length_pos_elements {es : List JsonValue} {ts : List Token}
    (h : SerializesElements es ts) : 1 ≤ ts.length := by
  obtain ⟨t, tl, rfl, _⟩ := h.head_element
  simp

theorem TParser.checkToken_ne_fuel {q : TParser} (he : q.Ends) (e : TokenType)
    (hne : e ≠ .EOF_TOKEN) : q.checkToken e ≠ .error .outOfFuel := by
  unfold TParser.checkToken
  by_cases ht : q.currentToken.type = e
  · simp only [ht, ne_eq, not_true_eq_false, ↓reduceIte]
    unfold TParser.next
    unfold TParser.Ends at he
    cases hr : q.rest with
    | nil =>
      cases hs : q.stop with
      | none =>
        rw [hs, hr] at he
        obtain ⟨t, h1, h2⟩ := he
        simp at h1
        subst h1
        exact absurd (ht ▸ h2) hne
      | some e' =>
        rw [hs] at he
        simp only
        intro h
        cases h
        exact he rfl
    | cons t r => simp
  · simp [ht]

theorem TParser.checkToken_ends {q q' : TParser} {e : TokenType} (he : q.Ends)
    (h : q.checkToken e = .ok q') : q'.Ends ∧ q'.rest.length + 1 = q.rest.length := by
  obtain ⟨_, hr, hs⟩ := TParser.checkToken_ok h
  refine ⟨?_, by rw [hr]; simp⟩
  unfold TParser.Ends at he ⊢
  rw [hs]
  cases hst : q.stop with
  | none =>
    rw [hst] at he
    obtain ⟨t, h1, h2⟩ := he
    refine ⟨t, ?_, h2⟩
    rw [hr] at h1
    simpa using h1
  | some e' => rw [hst] at he; exact he

theorem TParser.parseValue_ends {fuel : Nat} {q q' : TParser} {v : JsonValue} (he : q.Ends)
    (h : TParser.parseValue fuel q = .ok (v, q')) :
    q'.Ends ∧ q'.rest.length + 1 ≤ q.rest.length := by
  obtain ⟨ts, hser, hstr, hs⟩ := (TParser.sound_all fuel).1 q v q' h
  have hpos := hser.length_pos_value
  have hlen := congrArg List.length hstr
  simp only [List.length_cons, List.length_append] at hlen
  refine ⟨?_, by omega⟩
  unfold TParser.Ends at he ⊢
  rw [hs]
  cases hst : q.stop with
  | none =>
    rw [hst] at he
    obtain ⟨t, h1, h2⟩ := he
    refine ⟨t, ?_, h2⟩
    rw [hstr, List.getLast?_append_of_ne_nil _ (by simp)] at h1
    exact h1
  | some e' => rw [hst] at he; exact he

theorem TParser.fuel_all (fuel : Nat) :
    (∀ q, TParser.Ends q → 3 * q.rest.length + 3 ≤ fuel →
      TParser.parseValue fuel q ≠ .error .outOfFuel) ∧
    (∀ q, TParser.Ends q → 3 * q.rest.length + 2 ≤ fuel →
      TParser.parseObject fuel q ≠ .error .outOfFuel) ∧
    (∀ q acc, TParser.Ends q → 3 * q.rest.length + 4 ≤ fuel →
      TParser.parseObjectLoop fuel q acc ≠ .error .outOfFuel) ∧
    (∀ q, TParser.Ends q → 3 * q.rest.length + 2 ≤ fuel →
      TParser.parseArray fuel q ≠ .error .outOfFuel) ∧
    (∀ q acc, TParser.Ends q → 3 * q.rest.length + 4 ≤ fuel →
      TParser.parseArrayLoop fuel q acc ≠ .error .outOfFuel) := by
  induction fuel with
  | zero =>
    refine ⟨?_, ?_, ?_, ?_, ?_⟩ <;> intros <;> omega
  | succ fuel ih =>
    obtain ⟨ihV, ihO, ihOL, ihA, ihAL⟩ := ih
    have leaf : ∀ (q : TParser) (e : TokenType) (v : JsonValue), q.Ends → e ≠ .EOF_TOKEN →
        (q.checkToken e >>= fun q' => (pure (v, q') : Except Exn (JsonValue × TParser))) ≠
          .error .outOfFuel := by
      intro q e v he hne
      exact bind_ne_fuel (TParser.checkToken_ne_fuel he e hne) (fun a _ => by simp [pure, Except.pure])
    refine ⟨?_, ?_, ?_, ?_, ?_⟩
    · intro q he hf
      simp only [TParser.parseValue]
      cases ht : q.currentToken.type <;> simp only
      · exact ihO q he (by omega)
      · simp
      · exact ihA q he (by omega)
      · simp
      · simp
      · simp
      · exact leaf q _ _ he (by decide)
      · unfold TParser.parseNumber
        refine bind_ne_fuel (stod_ne_fuel _) ?_
        intro d _
        exact leaf q _ _ he (by decide)
      · unfold TParser.parseBoolean
        exact leaf q _ _ he (by rw [ht]; decide)
      · unfold TParser.parseBoolean
        exact leaf q _ _ he (by rw [ht]; decide)
      · exact leaf q _ _ he (by decide)
      · simp
      · simp
    · intro q he hf
      simp only [TParser.parseObject]
      refine bind_ne_fuel (TParser.checkToken_ne_fuel he _ (by decide)) ?_
      intro q1 h1
      obtain ⟨he1, hl1⟩ := TParser.checkToken_ends he h1
      by_cases hb : q1.currentToken.type = .RBRACE
      · simp only [hb, ↓reduceIte]
        exact leaf q1 _ _ he1 (by decide)
      · simp only [hb, ↓reduceIte]
        refine bind_ne_fuel (ihOL q1 [] he1 (by omega)) ?_
        intro a h2
        obtain ⟨props, q2⟩ := a
        obtain ⟨new, ts, _, _, hstr, hs2, _⟩ := (TParser.sound_all fuel).2.2.1 _ _ _ _ h2
        exact leaf q2 _ _ (he1.of_stream hstr hs2).1 (by decide)
    · intro q acc he hf
      simp only [TParser.parseObjectLoop]
      by_cases hs : q.currentToken.type = .STRING
      · simp only [hs, ne_eq, not_true_eq_false, ↓reduceIte]
        refine bind_ne_fuel (TParser.checkToken_ne_fuel he _ (by decide)) ?_
        intro q1 h1
        obtain ⟨he1, hl1⟩ := TParser.checkToken_ends he h1
        refine bind_ne_fuel (TParser.checkToken_ne_fuel he1 _ (by decide)) ?_
        intro q2 h2
        obtain ⟨he2, hl2⟩ := TParser.checkToken_ends he1 h2
        refine bind_ne_fuel (ihV q2 he2 (by omega)) ?_
        intro a h3
        obtain ⟨v, q3⟩ := a
        obtain ⟨he3, hl3⟩ := TParser.parseValue_ends he2 h3
        simp only
        by_cases hc : q3.currentToken.type = .COMMA
        · simp only [hc, ↓reduceIte]
          refine bind_ne_fuel (TParser.checkToken_ne_fuel he3 _ (by decide)) ?_
          intro q4 h4
          obtain ⟨he4, hl4⟩ := TParser.checkToken_ends he3 h4
          by_cases hb : q4.currentToken.type = .RBRACE
          · simp [hb]
          · simp only [hb, ↓reduceIte]
            exact ihOL q4 _ he4 (by omega)
        · simp only [hc, ↓reduceIte]
          by_cases hb : q3.currentToken.type = .RBRACE
          · simp [hb, pure, Except.pure]
          · simp [hb]
      · simp [hs]
    · intro q he hf
      simp only [TParser.parseArray]
      refine bind_ne_fuel (TParser.checkToken_ne_fuel he _ (by decide)) ?_
      intro q1 h1
      obtain ⟨he1, hl1⟩ := TParser.checkToken_ends he h1
      by_cases hb : q1.currentToken.type = .RBRACKET
      · simp only [hb, ↓reduceIte]
        exact leaf q1 _ _ he1 (by decide)
      · simp only [hb, ↓reduceIte]
        refine bind_ne_fuel (ihAL q1 [] he1 (by omega)) ?_
        intro a h2
        obtain ⟨elems, q2⟩ := a
        obtain ⟨new, ts, _, _, hstr, hs2, _⟩ := (TParser.sound_all fuel).2.2.2.2 _ _ _ _ h2
        exact leaf q2 _ _ (he1.of_stream hstr hs2).1 (by decide)
    · intro q acc he hf
      simp only [TParser.parseArrayLoop]
      refine bind_ne_fuel (ihV q he (by omega)) ?_
      intro a h3
      obtain ⟨v, q3⟩ := a
      obtain ⟨he3, hl3⟩ := TParser.parseValue_ends he h3
      simp only
      by_cases hc : q3.currentToken.type = .COMMA
      · simp only [hc, ↓reduceIte]
        refine bind_ne_fuel (TParser.checkToken_ne_fuel he3 _ (by decide)) ?_
        intro q4 h4
        obtain ⟨he4, hl4⟩ := TParser.checkToken_ends he3 h4
        by_cases hb : q4.currentToken.type = .RBRACKET
        · simp [hb]
        · simp only [hb, ↓reduceIte]
          exact ihAL q4 _ he4 (by omega)
      · simp only [hc, ↓reduceIte]
        by_cases hb : q3.currentToken.type = .RBRACKET
        · simp [hb, pure, Except.pure]
        · simp [hb]

/-! ## Parsing an input: termination, soundness and completeness -/

theorem Lexer.Feeds.last_eof {l : Lexer} {ts : List Token} (h : l.Feeds ts none) :
    ∃ t, ts.getLast? = some t ∧ t.type = .EOF_TOKEN := by
  induction ts generalizing l with
  | nil =>
    obtain ⟨e, he, _⟩ := h
    cases he
  | cons t r ih =>
    obtain ⟨l', _, hrest⟩ := h
    by_cases ht : t.type = .EOF_TOKEN
    · simp only [ht, ↓reduceIte] at hrest
      exact ⟨t, by rw [hrest.1]; rfl, ht⟩
    · simp only [ht, ↓reduceIte] at hrest
      obtain ⟨t', h1, h2⟩ := ih hrest
      cases r with
      | nil => simp at h1
      | cons a r => exact ⟨t', by rw [List.getLast?_cons_cons]; exact h1, h2⟩

theorem Lexer.Feeds.eof_is_last {l : Lexer} {ts : List Token} {stop : Option Exn}
    (h : l.Feeds ts stop) (pre : List Token) (t : Token) (post : List Token)
    (hts : ts = pre ++ t :: post) (ht : t.type = .EOF_TOKEN) : post = [] ∧ stop = none := by
  induction pre generalizing l ts with
  | nil =>
    subst hts
    obtain ⟨l', _, hrest⟩ := h
    simpa [ht] using hrest
  | cons a pre ih =>
    subst hts
    obtain ⟨l', _, hrest⟩ := h
    by_cases ha : a.type = .EOF_TOKEN
    · simp only [ha, ↓reduceIte] at hrest
      exact absurd hrest.1 (by simp)
    · simp only [ha, ↓reduceIte] at hrest
      exact ih hrest rfl

/-- The token sequence of an input: it feeds the parser, it has at most one token for each
character and one more, and it ends with end-of-input or with a lexical error. -/
theorem tokenize_spec (input : Str) :
    (Lexer.new input).Feeds (tokenize input).1 (tokenize input).2 ∧
      (tokenize input).1.length ≤ input.length + 1 ∧
      (∀ e, (tokenize input).2 = some e → ∃ line column msg, e = .lexerError line column msg) := by
  obtain ⟨ts, stop, hf, hlen, hstop, htok⟩ := Lexer.feeds_exists (Lexer.View.new input)
  unfold tokenize
  rw [htok _ (by omega)]
  exact ⟨hf, hlen, hstop⟩

/-- The embedding never runs out of fuel: parsing an input returns a tree or throws one of the
exceptions of the program. -/
theorem parseInput_ne_fuel (input : Str) : parseInput input ≠ .error .outOfFuel := by
  obtain ⟨hf, hlen, hstop⟩ := tokenize_spec input
  rw [parseInput_eq_parseTokens]
  unfold parseTokens TParser.next
  cases hts : (tokenize input).1 with
  | nil =>
    rw [hts] at hf
    obtain ⟨e, hs, _⟩ := hf
    obtain ⟨line, column, msg, he⟩ := hstop e hs
    simp only [hs, bind, Except.bind, he]
    simp
  | cons t r =>
    rw [hts] at hf hlen
    simp only [bind, Except.bind]
    have hends : TParser.Ends { currentToken := t, rest := r, stop := (tokenize input).2 } := by
      unfold TParser.Ends
      cases hs : (tokenize input).2 with
      | none =>
        rw [hs] at hf
        exact hf.last_eof
      | some e =>
        obtain ⟨line, column, msg, he⟩ := hstop e hs
        simp [he]
    unfold TParser.parse
    refine bind_ne_fuel ((TParser.fuel_all _).1 _ hends (by simp at hlen ⊢; omega)) ?_
    intro a _
    simp only
    split_ifs <;> simp [pure, Except.pure]

/-- Soundness: when parsing returns a tree, the token sequence of the input is a serialization
of that tree followed by the end-of-input token. -/
theorem parseInput_sound {input : Str} {v : JsonValue} (h : parseInput input = .ok v) :
    ∃ ts e, tokenize input = (ts ++ [e], none) ∧ e.type = .EOF_TOKEN ∧ Serializes v ts := by
  obtain ⟨hf, hlen, hstop⟩ := tokenize_spec input
  rw [parseInput_eq_parseTokens] at h
  unfold parseTokens TParser.next at h
  cases hts : (tokenize input).1 with
  | nil =>
    rw [hts] at hf h
    obtain ⟨e, hs, _⟩ := hf
    simp only [hs, bind, Except.bind] at h
    cases h
  | cons t r =>
    rw [hts] at hf h
    simp only [bind, Except.bind] at h
    unfold TParser.parse at h
    obtain ⟨⟨v', q'⟩, h1, h⟩ := bind_ok_inv h
    simp only at h
    by_cases he : q'.currentToken.type = .EOF_TOKEN
    · simp only [he, ne_eq, not_true_eq_false, ↓reduceIte, pure, Except.pure,
        Except.ok.injEq] at h
      subst h
      obtain ⟨ts, hser, hstr, _⟩ := (TParser.sound_all _).1 _ _ _ h1
      simp only at hstr
      obtain ⟨hpost, hnone⟩ := hf.eof_is_last ts q'.currentToken q'.rest hstr he
      refine ⟨ts, q'.currentToken, ?_, he, hser⟩
      rw [hpost] at hstr
      rw [Prod.ext_iff]
      exact ⟨by rw [hts, hstr], hnone⟩
    · simp only [he, ne_eq, not_false_eq_true, ↓reduceIte] at h
      cases h

/-- Completeness: when the token sequence of the input is a serialization of a tree followed
by the end-of-input token, parsing returns that tree. -/
theorem parseInput_complete {input : Str} {v : JsonValue} {ts : List Token} {e : Token}
    (htok : tokenize input = (ts ++ [e], none)) (he : e.type = .EOF_TOKEN)
    (hser : Serializes v ts) : parseInput input = .ok v := by
  obtain ⟨hf, hlen, hstop⟩ := tokenize_spec input
  rw [htok] at hlen
  rw [parseInput_eq_parseTokens, htok]
  obtain ⟨t, tl, rfl, _⟩ := hser.head_token
  unfold parseTokens TParser.next
  simp only [List.cons_append, bind, Except.bind]
  unfold TParser.parse
  have := TParser.complete_value hser (3 * (input.length + 1) + 1)
    { currentToken := t, rest := tl ++ [e], stop := none } e []
    (by simp at hlen ⊢; omega) (by simp)
  simp only [this, bind, Except.bind, he, ne_eq, not_true_eq_false, ↓reduceIte, pure,
    Except.pure]

/-! ## The lexer looks one character ahead -/

theorem Compat.append {r r' : Str} (h : Compat r r') (p : Str) : Compat (p ++ r) (p ++ r') := by
  cases p with
  | nil => exact h
  | cons c p => exact Or.inl rfl

theorem Compat.not_digit {r r' : Str} (h : Compat r r') (hr : isdigit (r.headD 0) = false) :
    isdigit (r'.headD 0) = false := by
  rcases h with h | h
  · rw [h]; exact hr
  · exact h.1

theorem Compat.not_alpha {r r' : Str} (h : Compat r r') (hr : isalpha (r.headD 0) = false) :
    isalpha (r'.headD 0) = false := by
  rcases h with h | h
  · rw [h]; exact hr
  · exact h.2.1

theorem takeWhile_dropWhile_append {f : Int → Bool} {p m : Str} (hp : ∀ c ∈ p, f c = true)
    (hm : f (m.headD 0) = false) :
    (p ++ m).takeWhile f = p ∧ (p ++ m).dropWhile f = m := by
  induction p with
  | nil =>
    cases m with
    | nil => simp
    | cons c m =>
      simp only [List.headD_cons] at hm
      simp [List.takeWhile_cons, List.dropWhile_cons, hm]
  | cons c p ih =>
    have hc : f c = true := hp c (by simp)
    have := ih (fun x hx => hp x (by simp [hx]))
    simp [List.takeWhile_cons, List.dropWhile_cons, hc, this]

theorem dropWhile_head_false (f : Int → Bool) (hf : f 0 = false) (s : Str) :
    f ((s.dropWhile f).headD 0) = false := by
  induction s with
  | nil => simpa using hf
  | cons c s ih =>
    by_cases hc : f c = true
    · rw [List.dropWhile_cons_of_pos hc]; exact ih
    · rw [List.dropWhile_cons_of_neg hc]
      simpa using hc

theorem takeWhile_all (f : Int → Bool) (s : Str) : ∀ c ∈ s.takeWhile f, f c = true :=
  fun _ hc => List.mem_takeWhile_imp hc

theorem head_cons_tail {s : Str} {c : Int} (h : s.headD 0 = c) (hc : c ≠ 0) :
    s = c :: s.tail := by
  cases s with
  | nil => exact absurd h.symm hc
  | cons a s => simp only [List.headD_cons] at h; rw [h]; rfl

theorem scanInteger_local {s acc x m : Str} (h : scanInteger s acc = .ok (x, m)) :
    ∃ p, s = p ++ m ∧ ∀ m', Compat m m' → scanInteger (p ++ m') acc = .ok (x, m') := by
  unfold scanInteger at h
  by_cases h0 : s.headD 0 = 48
  · rw [if_pos h0] at h
    by_cases hd : isdigit (s.tail.headD 0) = true
    · rw [if_pos hd] at h; cases h
    · rw [if_neg hd] at h
      simp only [Except.ok.injEq, Prod.mk.injEq] at h
      obtain ⟨rfl, rfl⟩ := h
      refine ⟨[48], head_cons_tail h0 (by decide), ?_⟩
      intro m' hc
      have hd' := hc.not_digit (by simpa using hd)
      rw [h0]
      unfold scanInteger
      simp only [List.cons_append, List.nil_append, List.headD_cons, List.tail_cons, ↓reduceIte,
        hd', Bool.false_eq_true]
  · rw [if_neg h0] at h
    by_cases hd : isdigit (s.headD 0) = true
    · rw [if_pos hd] at h
      simp only [Except.ok.injEq, Prod.mk.injEq] at h
      obtain ⟨rfl, rfl⟩ := h
      refine ⟨s.takeWhile isdigit, (List.takeWhile_append_dropWhile _ _).symm, ?_⟩
      intro m' hc
      have hd' := hc.not_digit (dropWhile_head_false isdigit (by decide) s)
      have htd := takeWhile_dropWhile_append (takeWhile_all isdigit s) hd'
      have hne : s.takeWhile isdigit ≠ [] := by
        cases s with
        | nil => simp at hd; exact absurd hd (by decide)
        | cons c s =>
          simp only [List.headD_cons] at hd
          simp [List.takeWhile_cons, hd]
      have hhead : (s.takeWhile isdigit ++ m').headD 0 = s.headD 0 := by
        cases s with
        | nil => exact absurd rfl hne
        | cons c s =>
          simp only [List.headD_cons] at hd
          simp [List.takeWhile_cons, hd]
      simp only [scanInteger, hhead, h0, hd, ↓reduceIte, htd]
    · rw [if_neg hd] at h; cases h

theorem scanFraction_local {s acc x m : Str} (h : scanFraction s acc = .ok (x, m)) :
    ∃ p, s = p ++ m ∧ ∀ m', Compat m m' → scanFraction (p ++ m') acc = .ok (x, m') := by
  unfold scanFraction at h
  by_cases h0 : s.headD 0 = 46
  · rw [if_pos h0] at h
    by_cases hd : isdigit (s.tail.headD 0) = true
    · rw [if_neg (by simpa using hd)] at h
      simp only [Except.ok.injEq, Prod.mk.injEq] at h
      obtain ⟨rfl, rfl⟩ := h
      refine ⟨46 :: s.tail.takeWhile isdigit, ?_, ?_⟩
      · rw [List.cons_append, List.takeWhile_append_dropWhile]
        exact head_cons_tail h0 (by decide)
      · intro m' hc
        have hd' := hc.not_digit (dropWhile_head_false isdigit (by decide) s.tail)
        have htd := takeWhile_dropWhile_append (takeWhile_all isdigit s.tail) hd'
        have hhead : (s.tail.takeWhile isdigit ++ m').headD 0 = s.tail.headD 0 := by
          cases hs : s.tail with
          | nil => rw [hs] at hd; simp at hd; exact absurd hd (by decide)
          | cons c t =>
            rw [hs] at hd
            simp only [List.headD_cons] at hd
            simp [List.takeWhile_cons, hd]
        rw [h0]
        unfold scanFraction
        simp only [List.cons_append, List.headD_cons, List.tail_cons, ↓reduceIte, hhead, hd,
          not_true_eq_false, htd]
    · rw [if_pos (by simpa using hd)] at h; cases h
  · rw [if_neg h0] at h
    simp only [Except.ok.injEq, Prod.mk.injEq] at h
    obtain ⟨rfl, rfl⟩ := h
    refine ⟨[], rfl, ?_⟩
    intro m' hc
    have : m'.headD 0 ≠ 46 := by
      rcases hc with hc | hc
      · rw [hc]; exact h0
      · exact hc.2.2
    unfold scanFraction
    simp only [List.nil_append, this, ↓reduceIte]

theorem takeWhile_head_append {f : Int → Bool} {t : Str} (h : f (t.headD 0) = true)
    (hf : f 0 = false) (m' : Str) : (t.takeWhile f ++ m').headD 0 = t.headD 0 := by
  cases t with
  | nil => simp only [List.headD_nil] at h; rw [hf] at h; cases h
  | cons c t =>
    simp only [List.headD_cons] at h
    simp only [List.takeWhile_cons, h, ↓reduceIte, List.cons_append, List.headD_cons]

theorem scanExponent_local {s acc x m : Str} (h : scanExponent s acc = .ok (x, m)) :
    ∃ p, s = p ++ m ∧ ∀ m', Compat m m' → scanExponent (p ++ m') acc = .ok (x, m') := by
  unfold scanExponent at h
  by_cases h0 : s.headD 0 = 101 ∨ s.headD 0 = 69
  · rw [if_pos h0] at h
    have hs : s = s.headD 0 :: s.tail := by
      rcases h0 with h0 | h0
      · rw [h0]; exact head_cons_tail h0 (by decide)
      · rw [h0]; exact head_cons_tail h0 (by decide)
    by_cases hd : isdigit ((skipSign s.tail).headD 0) = true
    · rw [if_neg (by simpa using hd)] at h
      simp only [Except.ok.injEq, Prod.mk.injEq] at h
      obtain ⟨rfl, rfl⟩ := h
      by_cases hsg : s.tail.headD 0 = 43 ∨ s.tail.headD 0 = 45
      · have hsk : skipSign s.tail = s.tail.tail := by simp only [skipSign, hsg, ↓reduceIte]
        have hst : signText s.tail = [s.tail.headD 0] := by simp only [signText, hsg, ↓reduceIte]
        have hs2 : s.tail = s.tail.headD 0 :: s.tail.tail := by
          rcases hsg with h1 | h1
          · rw [h1]; exact head_cons_tail h1 (by decide)
          · rw [h1]; exact head_cons_tail h1 (by decide)
        rw [hsk] at hd ⊢
        rw [hst]
        refine ⟨s.headD 0 :: s.tail.headD 0 :: s.tail.tail.takeWhile isdigit, ?_, ?_⟩
        · rw [List.cons_append, List.cons_append, List.takeWhile_append_dropWhile, ← hs2, ← hs]
        · intro m' hc
          have hd' := hc.not_digit (dropWhile_head_false isdigit (by decide) s.tail.tail)
          have htd := takeWhile_dropWhile_append (takeWhile_all isdigit s.tail.tail) hd'
          have hhead := takeWhile_head_append hd (by decide) m'
          unfold scanExponent
          simp only [List.cons_append, List.headD_cons, List.tail_cons, h0, ↓reduceIte, skipSign,
            signText, hsg, hhead, hd, not_true_eq_false, htd]
      · have hsk : skipSign s.tail = s.tail := by simp only [skipSign, hsg, ↓reduceIte]
        have hst : signText s.tail = [] := by simp only [signText, hsg, ↓reduceIte]
        rw [hsk] at hd ⊢
        rw [hst]
        refine ⟨s.headD 0 :: s.tail.takeWhile isdigit, ?_, ?_⟩
        · rw [List.cons_append, List.takeWhile_append_dropWhile, ← hs]
        · intro m' hc
          have hd' := hc.not_digit (dropWhile_head_false isdigit (by decide) s.tail)
          have htd := takeWhile_dropWhile_append (takeWhile_all isdigit s.tail) hd'
          have hhead := takeWhile_head_append hd (by decide) m'
          unfold scanExponent
          simp only [List.cons_append, List.headD_cons, List.tail_cons, h0, ↓reduceIte, skipSign,
            signText, hhead, hsg, hd, not_true_eq_false, htd, List.append_nil]
    · rw [if_pos (by simpa using hd)] at h; cases h
  · rw [if_neg h0] at h
    simp only [Except.ok.injEq, Prod.mk.injEq] at h
    obtain ⟨rfl, rfl⟩ := h
    refine ⟨[], rfl, ?_⟩
    intro m' hc
    have : ¬ (m'.headD 0 = 101 ∨ m'.headD 0 = 69) := by
      rcases hc with hc | hc
      · rw [hc]; exact h0
      · intro h
        have := hc.2.1
        rcases h with h | h <;> rw [h] at this <;> exact absurd this (by decide)
    unfold scanExponent
    simp only [List.nil_append, this, ↓reduceIte]

theorem scanNumber_local {s x m : Str} (h : scanNumber s = .ok (x, m)) :
    ∃ p, s = p ++ m ∧ p ≠ [] ∧ ∀ m', Compat m m' → scanNumber (p ++ m') = .ok (x, m') := by
  unfold scanNumber at h
  have key : ∀ (s1 acc : Str), (scanInteger s1 acc >>= fun y =>
      scanFraction y.2 y.1 >>= fun z => scanExponent z.2 z.1) = .ok (x, m) →
      ∃ p, s1 = p ++ m ∧ (s1 ≠ [] → p ≠ []) ∧ ∀ m', Compat m m' →
        (scanInteger (p ++ m') acc >>= fun y =>
          scanFraction y.2 y.1 >>= fun z => scanExponent z.2 z.1) = .ok (x, m') := by
    intro s1 acc h
    cases h1 : scanInteger s1 acc with
    | error e => rw [h1] at h; cases h
    | ok y =>
      obtain ⟨y1, y2⟩ := y
      rw [h1] at h
      simp only [bind, Except.bind] at h
      cases h2 : scanFraction y2 y1 with
      | error e => rw [h2] at h; cases h
      | ok z =>
        obtain ⟨z1, z2⟩ := z
        rw [h2] at h
        simp only at h
        obtain ⟨p1, hs1, l1⟩ := scanInteger_local h1
        obtain ⟨p2, hs2, l2⟩ := scanFraction_local h2
        obtain ⟨p3, hs3, l3⟩ := scanExponent_local h
        refine ⟨p1 ++ p2 ++ p3, ?_, ?_, ?_⟩
        · rw [hs1, hs2, hs3]; simp
        · intro hne hp
          have hlt := scanInteger_length_lt h1 hne
          have : p1 = [] := by
            simp only [List.append_eq_nil] at hp
            exact hp.1.1
          rw [hs1, this] at hlt
          simp at hlt
        · intro m' hc
          have e3 := l3 m' hc
          have e2 := l2 (p3 ++ m') (by rw [hs3]; exact hc.append p3)
          have e1 := l1 (p2 ++ (p3 ++ m')) (by rw [hs2, hs3]; exact (hc.append p3).append p2)
          simp only [List.append_assoc, e1, bind, Except.bind, e2, e3]
  by_cases h45 : s.headD 0 = 45
  · simp only [h45, ↓reduceIte] at h
    obtain ⟨p, hs, _, hl⟩ := key _ _ h
    refine ⟨45 :: p, ?_, by simp, ?_⟩
    · rw [List.cons_append, ← hs]; exact head_cons_tail h45 (by decide)
    · intro m' hc
      unfold scanNumber
      simp only [List.cons_append, List.headD_cons, List.tail_cons, ↓reduceIte]
      exact hl m' hc
  · simp only [h45, ↓reduceIte] at h
    have hne : s ≠ [] := by
      rintro rfl
      simp [scanInteger, bind, Except.bind, isdigit] at h
    obtain ⟨p, hs, hp, hl⟩ := key _ _ h
    refine ⟨p, hs, hp hne, ?_⟩
    intro m' hc
    have hhead : (p ++ m').headD 0 = s.headD 0 := by
      have := hp hne
      cases p with
      | nil => exact absurd rfl this
      | cons c p => rw [hs]; rfl
    unfold scanNumber
    simp only [hhead, h45, ↓reduceIte]
    exact hl m' hc

theorem scanStringLoop_local_aux (n : Nat) : ∀ (s acc x r : Str) (c : Int), s.length ≤ n →
    scanStringLoop s acc = .ok (x, c :: r) →
    ∃ p, s = p ++ c :: r ∧ ∀ r', scanStringLoop (p ++ c :: r') acc = .ok (x, c :: r') := by
  induction n with
  | zero =>
    intro s acc x r c hn h
    have hs : s = [] := List.length_eq_zero.mp (Nat.le_zero.mp hn)
    subst hs
    simp [scanStringLoop] at h
  | succ n ih =>
    intro s acc x r c hn h
    cases s with
    | nil => simp [scanStringLoop] at h
    | cons a rest =>
      rw [scanStringLoop_cons] at h
      by_cases h1 : a ≠ 0 ∧ a ≠ 34
      · rw [if_pos h1] at h
        by_cases h2 : a = 92
        · rw [if_pos h2] at h
          cases rest with
          | nil => cases h
          | cons e rest' =>
            simp only at h
            by_cases he : e = 0
            · rw [if_pos he] at h; cases h
            · rw [if_neg he] at h
              cases ht : escapeText e with
              | none => rw [ht] at h; cases h
              | some t =>
                rw [ht] at h
                simp only at h
                obtain ⟨p, hp, hl⟩ := ih rest' _ x r c (by simp at hn; omega) h
                refine ⟨a :: e :: p, by rw [hp]; rfl, ?_⟩
                intro r'
                rw [List.cons_append, List.cons_append, scanStringLoop_cons, if_pos h1, if_pos h2]
                simp only
                rw [if_neg he, ht]
                exact hl r'
        · rw [if_neg h2] at h
          by_cases h3 : a < 32 ∧ a ≠ 9
          · rw [if_pos h3] at h; cases h
          · rw [if_neg h3] at h
            obtain ⟨p, hp, hl⟩ := ih rest _ x r c (by simpa using hn) h
            refine ⟨a :: p, by rw [hp]; rfl, ?_⟩
            intro r'
            rw [List.cons_append, scanStringLoop_cons, if_pos h1, if_neg h2, if_neg h3]
            exact hl r'
      · rw [if_neg h1] at h
        simp only [Except.ok.injEq, Prod.mk.injEq, List.cons.injEq] at h
        obtain ⟨rfl, rfl, rfl⟩ := h
        refine ⟨[], rfl, ?_⟩
        intro r'
        rw [List.nil_append, scanStringLoop_cons, if_neg h1]

theorem scanString_local {s x r : Str} (h : scanString s = .ok (x, r)) (hs : s.headD 0 = 34) :
    ∃ p, s = p ++ r ∧ p ≠ [] ∧ ∀ r', scanString (p ++ r') = .ok (x, r') := by
  rw [scanString_eq] at h
  cases h1 : scanStringLoop s.tail [] with
  | error e => rw [h1] at h; cases h
  | ok y =>
    obtain ⟨y1, y2⟩ := y
    rw [h1] at h
    simp only [bind, Except.bind] at h
    by_cases hq : y2.headD 0 = 34
    · rw [if_neg (fun hh => hh hq)] at h
      simp only [pure, Except.pure, Except.ok.injEq, Prod.mk.injEq] at h
      obtain ⟨rfl, rfl⟩ := h
      have hy2 := head_cons_tail hq (by decide)
      rw [hy2] at h1
      obtain ⟨p, hp, hl⟩ := scanStringLoop_local_aux _ _ _ _ _ _ (Nat.le_refl _) h1
      refine ⟨34 :: p ++ [34], ?_, by simp, ?_⟩
      · have := head_cons_tail hs (by decide)
        rw [this, hp]; simp
      · intro r'
        rw [scanString_eq]
        simp only [List.cons_append, List.append_assoc, List.nil_append, List.tail_cons, hl r',
          bind, Except.bind, List.headD_cons, ne_eq, not_true_eq_false, ↓reduceIte, pure,
          Except.pure]
    · rw [if_pos hq] at h; cases h

theorem headD_append_of_ne_nil {p : Str} (hp : p ≠ []) (a b : Str) :
    (p ++ a).headD 0 = (p ++ b).headD 0 := by
  cases p with
  | nil => exact absurd rfl hp
  | cons c p => rfl

theorem head_cons_tail' {s : Str} (hc : s.headD 0 ≠ 0) : s = s.headD 0 :: s.tail :=
  head_cons_tail rfl hc

theorem scanToken_local {s : Str} {t : Token} {r : Str}
    (h : JsonParser.scanToken s = .ok (t, r)) (hs : s.headD 0 ≠ 0) :
    ∃ p, s = p ++ r ∧ p ≠ [] ∧
      ∀ r', Compat r r' → JsonParser.scanToken (p ++ r') = .ok (t, r') := by
  unfold JsonParser.scanToken at h
  simp only at h
  have hst := head_cons_tail' hs
  have punct : ∀ (tok : Token), (Except.ok (tok, s.tail) : Except (Str × Str) (Token × Str)) =
      .ok (t, r) →
      (∀ r', JsonParser.scanToken (s.headD 0 :: r') = .ok (tok, r')) →
      ∃ p, s = p ++ r ∧ p ≠ [] ∧
        ∀ r', Compat r r' → JsonParser.scanToken (p ++ r') = .ok (t, r') := by
    intro tok h hg
    simp only [Except.ok.injEq, Prod.mk.injEq] at h
    obtain ⟨rfl, rfl⟩ := h
    refine ⟨[s.headD 0], hst, by simp, fun r' _ => hg r'⟩
  by_cases h1 : s.headD 0 = 123
  · rw [if_pos h1] at h
    refine punct _ h (fun r' => ?_)
    unfold JsonParser.scanToken
    simp only [List.headD_cons, List.tail_cons, h1, ↓reduceIte]
  rw [if_neg h1] at h
  by_cases h2 : s.headD 0 = 125
  · rw [if_pos h2] at h
    refine punct _ h (fun r' => ?_)
    unfold JsonParser.scanToken
    simp only [List.headD_cons, List.tail_cons, h2, ↓reduceIte]
    rfl
  rw [if_neg h2] at h
  by_cases h3 : s.headD 0 = 91
  · rw [if_pos h3] at h
    refine punct _ h (fun r' => ?_)
    unfold JsonParser.scanToken
    simp only [List.headD_cons, List.tail_cons, h3, ↓reduceIte]
    rfl
  rw [if_neg h3] at h
  by_cases h4 : s.headD 0 = 93
  · rw [if_pos h4] at h
    refine punct _ h (fun r' => ?_)
    unfold JsonParser.scanToken
    simp only [List.headD_cons, List.tail_cons, h4, ↓reduceIte]
    rfl
  rw [if_neg h4] at h
  by_cases h5 : s.headD 0 = 44
  · rw [if_pos h5] at h
    refine punct _ h (fun r' => ?_)
    unfold JsonParser.scanToken
    simp only [List.headD_cons, List.tail_cons, h5, ↓reduceIte]
    rfl
  rw [if_neg h5] at h
  by_cases h6 : s.headD 0 = 58
  · rw [if_pos h6] at h
    refine punct _ h (fun r' => ?_)
    unfold JsonParser.scanToken
    simp only [List.headD_cons, List.tail_cons, h6, ↓reduceIte]
    rfl
  rw [if_neg h6] at h
  by_cases h7 : s.headD 0 = 34
  · rw [if_pos h7] at h
    cases hx : scanString s with
    | error e => rw [hx] at h; cases h
    | ok y =>
      rw [hx] at h
      simp only [bind, Except.bind, pure, Except.pure, Except.ok.injEq, Prod.mk.injEq] at h
      obtain ⟨rfl, rfl⟩ := h
      obtain ⟨p, hp, hne, hl⟩ := scanString_local hx h7
      refine ⟨p, hp, hne, ?_⟩
      intro r' _
      have hhead : (p ++ r').headD 0 = s.headD 0 := by
        rw [hp]; exact headD_append_of_ne_nil hne _ _
      unfold JsonParser.scanToken
      rw [hhead, if_neg h1, if_neg h2, if_neg h3, if_neg h4, if_neg h5, if_neg h6, if_pos h7,
        hl r']
      rfl
  rw [if_neg h7] at h
  by_cases h8 : s.headD 0 = 45 ∨ isdigit (s.headD 0) = true
  · rw [if_pos h8] at h
    cases hx : scanNumber s with
    | error e => rw [hx] at h; cases h
    | ok y =>
      rw [hx] at h
      simp only [bind, Except.bind, pure, Except.pure, Except.ok.injEq, Prod.mk.injEq] at h
      obtain ⟨rfl, rfl⟩ := h
      obtain ⟨p, hp, hne, hl⟩ := scanNumber_local hx
      refine ⟨p, hp, hne, ?_⟩
      intro r' hc
      have hhead : (p ++ r').headD 0 = s.headD 0 := by
        rw [hp]; exact headD_append_of_ne_nil hne _ _
      unfold JsonParser.scanToken
      rw [hhead, if_neg h1, if_neg h2, if_neg h3, if_neg h4, if_neg h5, if_neg h6, if_neg h7,
        if_pos h8, hl r' hc]
      rfl
  rw [if_neg h8] at h
  by_cases h9 : s.headD 0 = 116 ∨ s.headD 0 = 102 ∨ s.headD 0 = 110
  · rw [if_pos h9] at h
    have ha : isalpha (s.headD 0) = true := by
      rcases h9 with h9 | h9 | h9 <;> rw [h9] <;> decide
    have hne : s.takeWhile isalpha ≠ [] := by
      intro hnil
      have := takeWhile_head_append ha (by decide) []
      rw [hnil] at this
      simp only [List.append_nil, List.headD_nil] at this
      exact hs this.symm
    have kw : ∀ (tok : Token), (Except.ok (tok, s.dropWhile isalpha) :
        Except (Str × Str) (Token × Str)) = .ok (t, r) →
        (∀ r', isalpha (r'.headD 0) = false →
          JsonParser.scanToken (s.takeWhile isalpha ++ r') = .ok (tok, r')) →
        ∃ p, s = p ++ r ∧ p ≠ [] ∧
          ∀ r', Compat r r' → JsonParser.scanToken (p ++ r') = .ok (t, r') := by
      intro tok h hg
      simp only [Except.ok.injEq, Prod.mk.injEq] at h
      obtain ⟨rfl, rfl⟩ := h
      refine ⟨s.takeWhile isalpha, (List.takeWhile_append_dropWhile _ _).symm, hne, ?_⟩
      intro r' hc
      exact hg r' (hc.not_alpha (dropWhile_head_false isalpha (by decide) s))
    have goal : ∀ r', isalpha (r'.headD 0) = false →
        JsonParser.scanToken (s.takeWhile isalpha ++ r') =
          if s.takeWhile isalpha = str "true" then .ok (⟨.TRUE, str "true"⟩, r')
          else if s.takeWhile isalpha = str "false" then .ok (⟨.FALSE, str "false"⟩, r')
          else if s.takeWhile isalpha = str "null" then .ok (⟨.NULL_TOKEN, str "null"⟩, r')
          else .error (str "Invalid keyword: " ++ s.takeWhile isalpha, r') := by
      intro r' hr'
      have htd := takeWhile_dropWhile_append (takeWhile_all isalpha s) hr'
      have hhead := takeWhile_head_append ha (by decide) r'
      unfold JsonParser.scanToken
      rw [hhead, if_neg h1, if_neg h2, if_neg h3, if_neg h4, if_neg h5, if_neg h6, if_neg h7,
        if_neg h8, if_pos h9, htd.1, htd.2]
    by_cases k1 : s.takeWhile isalpha = str "true"
    · rw [if_pos k1] at h
      exact kw _ h (fun r' hr' => by rw [goal r' hr', if_pos k1])
    rw [if_neg k1] at h
    by_cases k2 : s.takeWhile isalpha = str "false"
    · rw [if_pos k2] at h
      exact kw _ h (fun r' hr' => by rw [goal r' hr', if_neg k1, if_pos k2])
    rw [if_neg k2] at h
    by_cases k3 : s.takeWhile isalpha = str "null"
    · rw [if_pos k3] at h
      exact kw _ h (fun r' hr' => by rw [goal r' hr', if_neg k1, if_neg k2, if_pos k3])
    rw [if_neg k3] at h
    cases h
  rw [if_neg h9] at h
  cases h

/-- A token other than end-of-input depends on the text only through the characters it consumes
and the one after them: it is scanned from a nonempty prefix of the text, and the same prefix
followed by a compatible text gives the same token. -/
theorem scan_local {s : Str} {t : Token} {r : Str} (h : scan s = .ok (t, r))
    (ht : t.type ≠ .EOF_TOKEN) :
    ∃ p, s = p ++ r ∧ p ≠ [] ∧ ∀ r', Compat r r' → scan (p ++ r') = .ok (t, r') := by
  unfold scan at h
  by_cases h0 : (s.dropWhile isspace).headD 0 = 0
  · rw [if_pos h0] at h
    simp only [Except.ok.injEq, Prod.mk.injEq] at h
    exact absurd (by rw [← h.1]) ht
  · rw [if_neg h0] at h
    obtain ⟨p, hp, hne, hl⟩ := scanToken_local h h0
    refine ⟨s.takeWhile isspace ++ p, ?_, by simp [hne], ?_⟩
    · rw [List.append_assoc, ← hp, List.takeWhile_append_dropWhile]
    · intro r' hc
      have hhead : (p ++ r').headD 0 = (s.dropWhile isspace).headD 0 := by
        rw [hp]; exact headD_append_of_ne_nil hne _ _
      have hsp : isspace ((p ++ r').headD 0) = false := by
        rw [hhead]; exact dropWhile_head_false isspace (by decide) s
      have htd := takeWhile_dropWhile_append (takeWhile_all isspace s) hsp
      unfold scan
      rw [List.append_assoc, htd.2, hhead, if_neg h0]
      exact hl r' hc

/-! ## Whitespace between tokens -/

theorem Lexer.advanceN_pos (l : Lexer) (k : Nat) : (l.advanceN k).pos = l.pos + k := by
  induction k generalizing l with
  | zero => rfl
  | succ k ih => rw [Lexer.advanceN, ih]; simp only [Lexer.advance]; omega

/-- A token read by `getNextToken` from the start of a buffer, with the cursor left after the
characters `p`, is the scan of the buffer that leaves the text after `p`. -/
theorem scan_of_getNextToken {p r : Str} {t : Token} {l' : Lexer}
    (h : (Lexer.new (p ++ r)).getNextToken = .ok (t, l')) (hp : l'.pos = p.length) :
    scan (p ++ r) = .ok (t, r) := by
  have hag := Lexer.getNextToken_agree (Lexer.View.new (p ++ r))
  rw [h] at hag
  cases hsc : scan (p ++ r) with
  | error e =>
    obtain ⟨m, r0⟩ := e
    rw [hsc] at hag
    obtain ⟨k, _, _, hx⟩ := hag
    simp only [Lexer.error] at hx
    cases hx
  | ok x =>
    obtain ⟨a, r0⟩ := x
    rw [hsc] at hag
    obtain ⟨k, _, hr, hx⟩ := hag
    simp only [Except.ok.injEq, Prod.mk.injEq] at hx
    obtain ⟨rfl, rfl⟩ := hx
    rw [Lexer.advanceN_pos] at hp
    simp only [Lexer.new, Nat.zero_add] at hp
    rw [hr, hp, List.drop_left]

theorem scan_space (c : Int) (s : Str) (hc : isspace c = true) : scan (c :: s) = scan s := by
  unfold scan
  rw [List.dropWhile_cons_of_pos hc]

theorem Scans.congr {s s' : Str} {ts : List Token} {stop : Option Str} (h : Scans s ts stop)
    (hs : scan s' = scan s) : Scans s' ts stop := by
  cases h with
  | error h => exact .error (hs.trans h)
  | eof h ht => exact .eof (hs.trans h) ht
  | token h ht hr => exact .token (hs.trans h) ht hr

theorem Scans.exists_aux (n : Nat) : ∀ s : Str, s.length < n → ∃ ts stop, Scans s ts stop := by
  induction n with
  | zero => intro s hn; omega
  | succ n ih =>
    intro s hn
    cases hsc : scan s with
    | error e => exact ⟨[], some e.1, .error hsc⟩
    | ok x =>
      obtain ⟨t, r⟩ := x
      by_cases ht : t.type = .EOF_TOKEN
      · exact ⟨[t], none, .eof hsc ht⟩
      · have hlt := scan_length_lt hsc ht
        obtain ⟨ts, stop, h⟩ := ih r (by omega)
        exact ⟨t :: ts, stop, .token hsc ht h⟩

/-- Every text has a token sequence. -/
theorem Scans.exists (s : Str) : ∃ ts stop, Scans s ts stop :=
  Scans.exists_aux (s.length + 1) s (by omega)

/-- The token sequence of the text after the cursor is what the lexer delivers. -/
theorem Scans.feeds {s : Str} {ts : List Token} {stop : Option Str} (h : Scans s ts stop) :
    ∀ l : Lexer, l.View s → ∃ stop', l.Feeds ts stop' ∧ (stop' = none ↔ stop = none) := by
  induction h with
  | error hsc =>
    intro l hv
    have heq := Lexer.getNextToken_eq hv
    rw [hsc] at heq
    simp only [Lexer.lift, Lexer.error] at heq
    exact ⟨some _, ⟨_, rfl, heq⟩, by simp⟩
  | eof hsc ht =>
    intro l hv
    have heq := Lexer.getNextToken_eq hv
    rw [hsc] at heq
    simp only [Lexer.lift] at heq
    exact ⟨none, ⟨_, heq, by simp [ht]⟩, by simp⟩
  | @token s t r ts stop hsc ht _ ih =>
    intro l hv
    have hag := Lexer.getNextToken_agree hv
    have heq := Lexer.getNextToken_eq hv
    rw [hsc] at heq hag
    simp only [Lexer.lift] at heq
    obtain ⟨k, hk, hr, _⟩ := hag
    have hv' : (l.advanceN (s.length - r.length)).View r := by
      have : s.length - r.length = k := by rw [hr, List.length_drop]; omega
      rw [this, hr]
      exact hv.advanceN k
    obtain ⟨stop', hf, hiff⟩ := ih _ hv'
    exact ⟨stop', ⟨_, heq, by simpa [ht] using hf⟩, hiff⟩

/-- The token sequence of an input, from the scans of its text. -/
theorem Scans.tokenize_eq {s : Str} {ts : List Token} {stop : Option Str} (h : Scans s ts stop) :
    (tokenize s).1 = ts ∧ ((tokenize s).2 = none ↔ stop = none) := by
  obtain ⟨stop', hf, hiff⟩ := h.feeds _ (Lexer.View.new s)
  obtain ⟨h1, h2⟩ := (tokenize_feeds s).unique hf
  exact ⟨h1, by rw [h2]; exact hiff⟩

theorem isspace_of_inserted {c : Int} (hc : c = 32 ∨ c = 9 ∨ c = 10 ∨ c = 13) :
    isspace c = true ∧ Delim c := by
  rcases hc with rfl | rfl | rfl | rfl <;> exact ⟨by decide, by decide, by decide, by decide⟩

/-- Whitespace inserted between tokens leaves the token sequence as it is. -/
theorem WsInsert.scans {s s' : Str} (h : WsInsert s s') :
    Compat s s' ∧ ∀ ts stop, Scans s ts stop → Scans s' ts stop := by
  induction h with
  | done s => exact ⟨.inl rfl, fun _ _ h => h⟩
  | here c hc _ ih =>
    obtain ⟨hsp, hd⟩ := isspace_of_inserted hc
    exact ⟨.inr hd, fun ts stop h => (ih.2 ts stop h).congr (scan_space c _ hsp)⟩
  | space c hc _ ih =>
    exact ⟨.inl rfl, fun ts stop h =>
      (ih.2 ts stop (h.congr (scan_space c _ hc).symm)).congr (scan_space c _ hc)⟩
  | @token p r r' t l' hg hp ht _ ih =>
    have hsc := scan_of_getNextToken hg hp
    obtain ⟨p0, hp0, hne, hl⟩ := scan_local hsc ht
    have hpp : p0 = p := (List.append_cancel_right hp0).symm
    subst hpp
    refine ⟨.inl (headD_append_of_ne_nil hne _ _), ?_⟩
    intro ts stop h
    cases h with
    | error h => rw [hsc] at h; cases h
    | eof h hte =>
      rw [hsc] at h
      simp only [Except.ok.injEq, Prod.mk.injEq] at h
      exact absurd (h.1 ▸ hte) ht
    | token h _ hr =>
      rw [hsc] at h
      simp only [Except.ok.injEq, Prod.mk.injEq] at h
      obtain ⟨rfl, rfl⟩ := h
      exact .token (hl r' ih.1) ht (ih.2 _ _ hr)

/-- Whitespace inserted between tokens leaves the token sequence of the input as it is, and
it ends in a lexical error exactly when it did. -/
theorem WsInsert.tokenize_same {s s' : Str} (h : WsInsert s s') :
    (tokenize s').1 = (tokenize s).1 ∧ ((tokenize s').2 = none ↔ (tokenize s).2 = none) := by
  obtain ⟨ts, stop, hs⟩ := Scans.exists s
  have h1 := hs.tokenize_eq
  have h2 := (h.scans.2 ts stop hs).tokenize_eq
  exact ⟨by rw [h1.1, h2.1], by rw [h1.2, h2.2]⟩

theorem WsInsert.parseInput {s s' : Str} (h : WsInsert s s') {v : JsonValue}
    (hv : parseInput s = .ok v) : parseInput s' = .ok v := by
  obtain ⟨ts, e, htok, he, hser⟩ := parseInput_sound hv
  obtain ⟨h1, h2⟩ := h.tokenize_same
  refine @parseInput_complete _ _ ts e ?_ he hser
  rw [Prod.ext_iff]
  rw [htok] at h1 h2
  exact ⟨h1, h2.2 rfl⟩

/-! ## Decimal digits -/

theorem log2Loop_lt (fuel : Nat) : ∀ n, n ≤ fuel → n < 2 ^ (log2Loop fuel n + 1) := by
  induction fuel with
  | zero => intro n hn; simp only [log2Loop]; omega
  | succ fuel ih =>
    intro n hn
    simp only [log2Loop]
    by_cases h2 : n < 2
    · rw [if_pos h2]; omega
    · rw [if_neg h2]
      have := ih (n / 2) (by omega)
      rw [pow_succ]
      omega

theorem lt_two_pow_log2 (n : Nat) : n < 2 ^ (log2 n + 1) := log2Loop_lt n n (Nat.le_refl n)

theorem natDigits_isdigit (fuel : Nat) : ∀ n, ∀ c ∈ natDigits fuel n, isdigit c = true := by
  induction fuel with
  | zero => intro n c hc; simp [natDigits] at hc
  | succ fuel ih =>
    intro n c hc
    simp only [natDigits] at hc
    by_cases h : n < 10
    · rw [if_pos h] at hc
      simp only [List.mem_singleton] at hc
      subst hc
      simp only [isdigit, Bool.and_eq_true, decide_eq_true_eq]
      omega
    · rw [if_neg h] at hc
      rcases List.mem_append.mp hc with hc | hc
      · exact ih _ c hc
      · simp only [List.mem_singleton] at hc
        subst hc
        simp only [isdigit, Bool.and_eq_true, decide_eq_true_eq]
        omega

theorem natDigits_ne_nil (fuel n : Nat) : natDigits (fuel + 1) n ≠ [] := by
  simp only [natDigits]
  split_ifs <;> simp

/-- With enough fuel the decimal text of a positive number has no leading zero, and its length
is the number of decimal digits. -/
theorem natDigits_spec (fuel : Nat) : ∀ n, 1 ≤ n → n < 2 ^ fuel →
    (natDigits fuel n).headD 0 ≠ 48 ∧ natDigits fuel n ≠ [] ∧
      10 ^ ((natDigits fuel n).length - 1) ≤ n ∧ n < 10 ^ (natDigits fuel n).length := by
  induction fuel with
  | zero => intro n h1 h2; simp at h2; omega
  | succ fuel ih =>
    intro n h1 h2
    simp only [natDigits]
    by_cases h : n < 10
    · rw [if_pos h]
      refine ⟨?_, by simp, ?_, ?_⟩
      · simp only [List.headD_cons]; omega
      · simpa using h1
      · simpa using h
    · rw [if_neg h]
      rw [pow_succ] at h2
      obtain ⟨ha, hb, hc, hd⟩ := ih (n / 10) (by omega) (by omega)
      have hlen : 1 ≤ (natDigits fuel (n / 10)).length := by
        cases hx : natDigits fuel (n / 10) with
        | nil => exact absurd hx hb
        | cons a l => simp
      refine ⟨?_, by simp, ?_, ?_⟩
      · cases hx : natDigits fuel (n / 10) with
        | nil => exact absurd hx hb
        | cons a l => rw [hx] at ha; simpa using ha
      · simp only [List.length_append, List.length_singleton, Nat.add_sub_cancel]
        have : (natDigits fuel (n / 10)).length = (natDigits fuel (n / 10)).length - 1 + 1 := by
          omega
        rw [this, pow_succ]
        omega
      · simp only [List.length_append, List.length_singleton]
        rw [pow_succ]
        omega

theorem natToStr_isdigit (n : Nat) : ∀ c ∈ natToStr n, isdigit c = true :=
  natDigits_isdigit _ n

theorem natToStr_ne_nil (n : Nat) : natToStr n ≠ [] := natDigits_ne_nil _ n

theorem natToStr_spec (n : Nat) (h : 1 ≤ n) :
    (natToStr n).headD 0 ≠ 48 ∧ 10 ^ ((natToStr n).length - 1) ≤ n ∧
      n < 10 ^ (natToStr n).length := by
  obtain ⟨a, _, c, d⟩ := natDigits_spec (log2 n + 1) n h (lt_two_pow_log2 n)
  exact ⟨a, c, d⟩

theorem natToStr_zero : natToStr 0 = [48] := rfl

/-- The decimal text of a number is a single zero or has no leading zero. -/
theorem natToStr_lead (n : Nat) : (natToStr n).headD 0 = 48 → natToStr n = [48] := by
  intro h
  by_cases hn : 1 ≤ n
  · exact absurd h (natToStr_spec n hn).1
  · have : n = 0 := by omega
    rw [this]; rfl

theorem stripZeros_isdigit (ds : Str) (h : ∀ c ∈ ds, isdigit c = true) :
    ∀ c ∈ stripZeros ds, isdigit c = true := by
  intro c hc
  unfold stripZeros at hc
  rw [List.mem_reverse] at hc
  exact h c (List.mem_reverse.mp ((List.dropWhile_sublist _).subset hc))

theorem dropWhile_ne_nil_of_mem {f : Int → Bool} {s : Str} {c : Int} (hc : c ∈ s)
    (hf : f c = false) : s.dropWhile f ≠ [] := by
  induction s with
  | nil => simp at hc
  | cons a s ih =>
    by_cases ha : f a = true
    · rw [List.dropWhile_cons_of_pos ha]
      rcases List.mem_cons.mp hc with rfl | hc
      · rw [hf] at ha; cases ha
      · exact ih hc
    · rw [List.dropWhile_cons_of_neg ha]; simp

theorem stripZeros_ne_nil {ds : Str} (h : ds.headD 0 ≠ 48) (hne : ds ≠ []) :
    stripZeros ds ≠ [] := by
  unfold stripZeros
  cases ds with
  | nil => exact absurd rfl hne
  | cons a l =>
    simp only [List.headD_cons] at h
    intro hnil
    have : (a :: l).reverse.dropWhile (fun c => c == 48) ≠ [] :=
      dropWhile_ne_nil_of_mem (c := a) (by simp) (by simpa using h)
    exact this (List.reverse_eq_nil_iff.mp hnil)

/-! ## Number literals that the lexer accepts -/

theorem scanInteger_build {ip : Str} (m acc : Str) (hne : ip ≠ [])
    (hd : ∀ c ∈ ip, isdigit c = true) (hlead : ip.headD 0 = 48 → ip = [48])
    (hm : isdigit (m.headD 0) = false) : scanInteger (ip ++ m) acc = .ok (acc ++ ip, m) := by
  cases ip with
  | nil => exact absurd rfl hne
  | cons a l =>
    unfold scanInteger
    simp only [List.cons_append, List.headD_cons, List.tail_cons]
    by_cases ha : a = 48
    · have := hlead (by simpa using ha)
      simp only [List.cons.injEq] at this
      obtain ⟨_, rfl⟩ := this
      rw [if_pos ha]
      simp only [List.nil_append, hm, Bool.false_eq_true, ↓reduceIte]
    · rw [if_neg ha]
      have hda : isdigit a = true := hd a (by simp)
      rw [if_pos hda]
      have := takeWhile_dropWhile_append (p := a :: l) hd hm
      simp only [List.cons_append] at this
      rw [this.1, this.2]

theorem scanFraction_build {ds : Str} (m acc : Str) (hd : ∀ c ∈ ds, isdigit c = true)
    (hm : isdigit (m.headD 0) = false) (hp : m.headD 0 ≠ 46) :
    scanFraction (pointText ds ++ m) acc = .ok (acc ++ pointText ds, m) := by
  unfold pointText scanFraction
  by_cases hds : ds = []
  · rw [if_pos hds, List.nil_append, if_neg hp, List.append_nil]
  · rw [if_neg hds]
    simp only [List.cons_append, List.headD_cons, List.tail_cons, ↓reduceIte]
    have := takeWhile_dropWhile_append hd hm
    have hh : isdigit ((ds ++ m).headD 0) = true := by
      cases ds with
      | nil => exact absurd rfl hds
      | cons a l => exact hd a (by simp)
    rw [this.1, this.2]
    simp only [hh, not_true_eq_false, ↓reduceIte, List.append_assoc, List.singleton_append]

theorem scanExponent_none (m acc : Str) (hm : m.headD 0 ≠ 101 ∧ m.headD 0 ≠ 69) :
    scanExponent m acc = .ok (acc, m) := by
  unfold scanExponent
  rw [if_neg (by simp only [not_or]; exact hm)]

theorem scanExponent_build {ds : Str} (sg : Int) (m acc : Str) (hsg : sg = 43 ∨ sg = 45)
    (hne : ds ≠ []) (hd : ∀ c ∈ ds, isdigit c = true) (hm : isdigit (m.headD 0) = false) :
    scanExponent (101 :: sg :: ds ++ m) acc = .ok (acc ++ 101 :: sg :: ds, m) := by
  unfold scanExponent skipSign signText
  simp only [List.cons_append, List.headD_cons, List.tail_cons, true_or, ↓reduceIte]
  rw [if_pos hsg, if_pos hsg]
  have := takeWhile_dropWhile_append hd hm
  have hh : isdigit ((ds ++ m).headD 0) = true := by
    cases ds with
    | nil => exact absurd rfl hne
    | cons a l => exact hd a (by simp)
  rw [this.1, this.2]
  simp only [List.tail_cons, hh, not_true_eq_false, ↓reduceIte, List.append_assoc,
    List.singleton_append, List.cons_append, List.nil_append]

/-- A sign, an integer part without a leading zero, a fraction and an exponent make a number
literal of the lexer. -/
theorem scanNumber_build (neg : Bool) {ip fr ex : Str} (hne : ip ≠ [])
    (hd : ∀ c ∈ ip, isdigit c = true) (hlead : ip.headD 0 = 48 → ip = [48])
    (hfr : ∀ c ∈ fr, isdigit c = true)
    (hex : ex = [] ∨ ∃ sg ds, (sg = 43 ∨ sg = 45) ∧ ds ≠ [] ∧ (∀ c ∈ ds, isdigit c = true) ∧
      ex = 101 :: sg :: ds) :
    scanNumber ((if neg then [45] else []) ++ (ip ++ pointText fr ++ ex)) =
      .ok ((if neg then [45] else []) ++ (ip ++ pointText fr ++ ex), []) := by
  have hexh : isdigit (ex.headD 0) = false ∧ ex.headD 0 ≠ 46 := by
    rcases hex with rfl | ⟨sg, ds, _, _, _, rfl⟩
    · exact ⟨by decide, by decide⟩
    · simp only [List.headD_cons]
      exact ⟨by decide, by decide⟩
  have hfrh : isdigit ((pointText fr ++ ex).headD 0) = false := by
    unfold pointText
    by_cases hf : fr = []
    · rw [if_pos hf]; exact hexh.1
    · rw [if_neg hf]; rfl
  have e3 : ∀ acc, scanExponent ex acc = .ok (acc ++ ex, []) := by
    intro acc
    rcases hex with rfl | ⟨sg, ds, hsg, hdn, hdd, rfl⟩
    · rw [scanExponent_none _ _ (by decide), List.append_nil]
    · have := scanExponent_build sg [] acc hsg hdn hdd (by decide)
      simpa using this
  have key : ∀ acc, (scanInteger (ip ++ pointText fr ++ ex) acc >>= fun y =>
      scanFraction y.2 y.1 >>= fun z => scanExponent z.2 z.1) =
      .ok (acc ++ (ip ++ pointText fr ++ ex), []) := by
    intro acc
    rw [List.append_assoc, scanInteger_build _ acc hne hd hlead hfrh]
    simp only [bind, Except.bind]
    rw [scanFraction_build ex _ hfr hexh.1 hexh.2]
    simp only [e3, List.append_assoc]
  have hhead : isdigit ((ip ++ pointText fr ++ ex).headD 0) = true := by
    cases ip with
    | nil => exact absurd rfl hne
    | cons a l => exact hd a (by simp)
  cases neg with
  | true =>
    unfold scanNumber
    simp only [↓reduceIte, List.cons_append, List.nil_append, List.headD_cons, List.tail_cons]
    exact key [45]
  | false =>
    have h45 : (ip ++ pointText fr ++ ex).headD 0 ≠ 45 := by
      intro h; rw [h] at hhead; exact absurd hhead (by decide)
    unfold scanNumber
    simp only [Bool.false_eq_true, ↓reduceIte, List.nil_append, h45]
    exact key []

theorem take_isdigit {ds : Str} (h : ∀ c ∈ ds, isdigit c = true) (k : Nat) :
    ∀ c ∈ ds.take k, isdigit c = true := fun c hc => h c (List.mem_of_mem_take hc)

theorem drop_isdigit {ds : Str} (h : ∀ c ∈ ds, isdigit c = true) (k : Nat) :
    ∀ c ∈ ds.drop k, isdigit c = true := fun c hc => h c (List.mem_of_mem_drop hc)

theorem take_lead {ds : Str} (hne : ds ≠ []) (h : ds.headD 0 = 48 → ds = [48]) (k : Nat) :
    ds.take (k + 1) ≠ [] ∧ ((ds.take (k + 1)).headD 0 = 48 → ds.take (k + 1) = [48]) := by
  cases ds with
  | nil => exact absurd rfl hne
  | cons a l =>
    refine ⟨by simp, ?_⟩
    intro ha
    have := h (by simpa using ha)
    simp only [List.cons.injEq] at this
    obtain ⟨rfl, rfl⟩ := this
    simp

/-- The `%g` layout is a number literal of the lexer, for digits that are not all zero when
the style is fixed with a negative exponent. -/
theorem layoutG_scan (neg : Bool) (m : Nat) (x : Int) (hm : x < 0 → 1 ≤ m) :
    scanNumber ((if neg then [45] else []) ++ layoutG m x) =
      .ok ((if neg then [45] else []) ++ layoutG m x, []) := by
  have hds := natToStr_isdigit m
  have hne := natToStr_ne_nil m
  have hlead := natToStr_lead m
  unfold layoutG
  simp only
  by_cases h1 : x < -4 ∨ 6 ≤ x
  · rw [if_pos h1]
    obtain ⟨t1, t2⟩ := take_lead hne hlead 0
    have hexd : ∀ c ∈ (if x.natAbs < 10 then [48] else []) ++ natToStr x.natAbs,
        isdigit c = true := by
      intro c hc
      rcases List.mem_append.mp hc with hc | hc
      · split_ifs at hc
        · simp only [List.mem_singleton] at hc; subst hc; decide
        · simp at hc
      · exact natToStr_isdigit _ c hc
    have := @scanNumber_build neg _ _ ([101] ++ (if x < 0 then [45] else [43])
      ++ ((if x.natAbs < 10 then [48] else []) ++ natToStr x.natAbs)) t1
      (take_isdigit hds _) t2 (stripZeros_isdigit _ (drop_isdigit hds 1))
      (.inr ⟨if x < 0 then 45 else 43, _, by split_ifs <;> simp, by
        simp [natToStr_ne_nil], hexd, by split_ifs <;> simp⟩)
    simpa only [zero_add, List.append_assoc] using this
  · rw [if_neg h1]
    by_cases h2 : 0 ≤ x
    · rw [if_pos h2]
      obtain ⟨t1, t2⟩ := take_lead hne hlead x.toNat
      have := @scanNumber_build neg _ _ [] t1 (take_isdigit hds _) t2
        (stripZeros_isdigit _ (drop_isdigit hds (x.toNat + 1))) (.inl rfl)
      simpa only [List.append_nil] using this
    · rw [if_neg h2]
      obtain ⟨hl, _, _⟩ := natToStr_spec m (hm (by omega))
      have hsz := stripZeros_ne_nil hl hne
      have hfr : ∀ c ∈ List.replicate ((-x).toNat - 1) 48 ++ stripZeros (natToStr m),
          isdigit c = true := by
        intro c hc
        rcases List.mem_append.mp hc with hc | hc
        · rw [List.eq_of_mem_replicate hc]; decide
        · exact stripZeros_isdigit _ hds c hc
      have := @scanNumber_build neg [48] _ [] (by simp)
        (by intro c hc; simp only [List.mem_singleton] at hc; subst hc; decide)
        (fun _ => rfl) hfr (.inl rfl)
      have hpt : pointText (List.replicate ((-x).toNat - 1) 48 ++ stripZeros (natToStr m)) =
          46 :: (List.replicate ((-x).toNat - 1) 48 ++ stripZeros (natToStr m)) := by
        unfold pointText
        rw [if_neg (by simp [hsz])]
      rw [hpt] at this
      have hstr : str "0." = [48, 46] := rfl
      rw [hstr]
      simpa only [List.append_nil, List.cons_append, List.nil_append, List.append_assoc]
        using this

/-! ## The six digits of a number -/

theorem le_divRound (n d : Nat) : n / d ≤ divRound n d := by
  unfold divRound
  split_ifs <;> omega

/-- The exponent found from the numbers of digits is not above the number. -/
theorem geTen_decimalExponent (n d : Nat) (hn : 1 ≤ n) (hd : 1 ≤ d) :
    geTen n d (decimalExponent n d) = true := by
  unfold decimalExponent
  simp only
  by_cases hc : geTen n d (((natToStr n).length : Int) - ((natToStr d).length : Int)) = true
  · rw [if_pos hc]; exact hc
  · rw [if_neg hc]
    obtain ⟨_, hn1, _⟩ := natToStr_spec n hn
    obtain ⟨_, _, hd2⟩ := natToStr_spec d hd
    have hln : 1 ≤ (natToStr n).length := List.length_pos.mpr (natToStr_ne_nil n)
    unfold geTen
    by_cases h0 : (0 : Int) ≤ ((natToStr n).length : Int) - ((natToStr d).length : Int) - 1
    · rw [if_pos h0]
      simp only [decide_eq_true_eq]
      have hk : (natToStr d).length +
          (((natToStr n).length : Int) - ((natToStr d).length : Int) - 1).toNat =
          (natToStr n).length - 1 := by omega
      calc d * 10 ^ (((natToStr n).length : Int) - ((natToStr d).length : Int) - 1).toNat
          ≤ 10 ^ (natToStr d).length *
            10 ^ (((natToStr n).length : Int) - ((natToStr d).length : Int) - 1).toNat :=
            Nat.mul_le_mul_right _ (Nat.le_of_lt hd2)
        _ = 10 ^ ((natToStr n).length - 1) := by rw [← pow_add, hk]
        _ ≤ n := hn1
    · rw [if_neg h0]
      simp only [decide_eq_true_eq]
      have hk : (natToStr n).length - 1 +
          (-(((natToStr n).length : Int) - ((natToStr d).length : Int) - 1)).toNat =
          (natToStr d).length := by omega
      calc d ≤ 10 ^ (natToStr d).length := Nat.le_of_lt hd2
        _ = 10 ^ ((natToStr n).length - 1) *
            10 ^ (-(((natToStr n).length : Int) - ((natToStr d).length : Int) - 1)).toNat := by
            rw [← pow_add, hk]
        _ ≤ n * 10 ^ (-(((natToStr n).length : Int) - ((natToStr d).length : Int) - 1)).toNat :=
            Nat.mul_le_mul_right _ hn1

/-- Scaled to the exponent found, the number has its first digit in the sixth place. -/
theorem scaleRound_ge (n d : Nat) (hd : 1 ≤ d) (x : Int) (hge : geTen n d x = true) :
    10 ^ 5 ≤ scaleRound n d (5 - x) := by
  unfold geTen at hge
  unfold scaleRound
  by_cases hx : 0 ≤ x
  · rw [if_pos hx] at hge
    simp only [decide_eq_true_eq] at hge
    by_cases h5 : 0 ≤ 5 - x
    · rw [if_pos h5]
      refine Nat.le_trans ?_ (le_divRound _ _)
      rw [Nat.le_div_iff_mul_le (by omega)]
      have : x.toNat + (5 - x).toNat = 5 := by omega
      calc 10 ^ 5 * d = d * 10 ^ x.toNat * 10 ^ (5 - x).toNat := by
            rw [Nat.mul_assoc, ← pow_add, this, Nat.mul_comm]
        _ ≤ n * 10 ^ (5 - x).toNat := Nat.mul_le_mul_right _ hge
    · rw [if_neg h5]
      refine Nat.le_trans ?_ (le_divRound _ _)
      rw [Nat.le_div_iff_mul_le (Nat.mul_pos (by omega) (by positivity))]
      have : 5 + (-(5 - x)).toNat = x.toNat := by omega
      calc 10 ^ 5 * (d * 10 ^ (-(5 - x)).toNat) = d * 10 ^ x.toNat := by
            rw [← this, pow_add]; ring
        _ ≤ n := hge
  · rw [if_neg hx] at hge
    simp only [decide_eq_true_eq] at hge
    rw [if_pos (by omega)]
    refine Nat.le_trans ?_ (le_divRound _ _)
    rw [Nat.le_div_iff_mul_le (by omega)]
    have : (5 - x).toNat = (-x).toNat + 5 := by omega
    calc 10 ^ 5 * d ≤ 10 ^ 5 * (n * 10 ^ (-x).toNat) := Nat.mul_le_mul_left _ hge
      _ = n * 10 ^ (5 - x).toNat := by rw [this, pow_add]; ring

theorem digits6_ge (n d : Nat) (hn : 1 ≤ n) (hd : 1 ≤ d) : 10 ^ 5 ≤ (digits6 n d).1 := by
  have := scaleRound_ge n d hd _ (geTen_decimalExponent n d hn hd)
  unfold digits6
  simp only
  split_ifs
  · exact Nat.le_refl _
  · exact this

theorem Double.ratio_pos (man : Nat) (exp : Int) (h : 1 ≤ man) :
    1 ≤ (Double.ratio man exp).1 ∧ 1 ≤ (Double.ratio man exp).2 := by
  unfold Double.ratio
  split_ifs
  · exact ⟨Nat.mul_pos h (Nat.pos_pow_of_pos _ (by decide)), Nat.le_refl 1⟩
  · exact ⟨h, Nat.pos_pow_of_pos _ (by decide)⟩

theorem Double.format_finite (neg : Bool) (man : Nat) (exp : Int) :
    (Double.finite neg man exp).format = (if neg then [45] else []) ++
      (if man = 0 then [48]
      else layoutG (digits6 (Double.ratio man exp).1 (Double.ratio man exp).2).1
        (digits6 (Double.ratio man exp).1 (Double.ratio man exp).2).2) := rfl

/-- The default rendering of a finite number is a number literal of the lexer. -/
theorem Double.format_scan (neg : Bool) (man : Nat) (exp : Int) :
    scanNumber (Double.finite neg man exp).format =
      .ok ((Double.finite neg man exp).format, []) := by
  rw [Double.format_finite]
  by_cases hm : man = 0
  · rw [if_pos hm]
    cases neg <;> rfl
  · rw [if_neg hm]
    obtain ⟨h1, h2⟩ := Double.ratio_pos man exp (by omega)
    have := digits6_ge _ _ h1 h2
    exact layoutG_scan neg _ _ (fun _ => by omega)

/-! ## The tokens of single pieces of text -/

theorem Scans.space {c : Int} {r : Str} {ts : List Token} {stop : Option Str}
    (hc : isspace c = true) (h : Scans r ts stop) : Scans (c :: r) ts stop :=
  h.congr (scan_space c r hc)

theorem Scans.spaces (k : Nat) {r : Str} {ts : List Token} {stop : Option Str}
    (h : Scans r ts stop) : Scans (List.replicate k 32 ++ r) ts stop := by
  induction k with
  | zero => exact h
  | succ k ih => exact Scans.space (by decide) ih

theorem scan_nonspace {s : Str} (h : isspace (s.headD 0) = false) (h0 : s.headD 0 ≠ 0) :
    scan s = JsonParser.scanToken s := by
  have hd : s.dropWhile isspace = s := by
    cases s with
    | nil => rfl
    | cons a l =>
      simp only [List.headD_cons] at h
      exact List.dropWhile_cons_of_neg (by rw [h]; decide)
  unfold scan
  rw [hd, if_neg h0]

theorem scan_cons (c : Int) (r : Str) (h : isspace c = false) (h0 : c ≠ 0) :
    scan (c :: r) = JsonParser.scanToken (c :: r) :=
  scan_nonspace h h0

theorem scan_lbrace (r : Str) : scan (123 :: r) = .ok (⟨.LBRACE, str "\x7b"⟩, r) := by
  rw [scan_cons _ _ (by decide) (by decide)]; rfl

theorem scan_rbrace (r : Str) : scan (125 :: r) = .ok (⟨.RBRACE, str "\x7d"⟩, r) := by
  rw [scan_cons _ _ (by decide) (by decide)]; rfl

theorem scan_lbracket (r : Str) : scan (91 :: r) = .ok (⟨.LBRACKET, str "["⟩, r) := by
  rw [scan_cons _ _ (by decide) (by decide)]; rfl

theorem scan_rbracket (r : Str) : scan (93 :: r) = .ok (⟨.RBRACKET, str "]"⟩, r) := by
  rw [scan_cons _ _ (by decide) (by decide)]; rfl

theorem scan_comma (r : Str) : scan (44 :: r) = .ok (⟨.COMMA, str ","⟩, r) := by
  rw [scan_cons _ _ (by decide) (by decide)]; rfl

theorem scan_colon (r : Str) : scan (58 :: r) = .ok (⟨.COLON, str ":"⟩, r) := by
  rw [scan_cons _ _ (by decide) (by decide)]; rfl

/-- Text without control character, double quote and backslash is `StrSafe`. -/
theorem StrSafe.of_plain {w : Str} (h : ∀ c ∈ w, (32 ≤ c ∨ c = 9) ∧ c ≠ 34 ∧ c ≠ 92) :
    StrSafe w := by
  induction w with
  | nil => exact .nil
  | cons c w ih =>
    obtain ⟨h1, h2, h3⟩ := h c (by simp)
    exact .char c w h1 h2 h3 (ih fun x hx => h x (by simp [hx]))

theorem scanStringLoop_unicode (s acc : Str) :
    scanStringLoop (92 :: 117 :: s) acc = scanStringLoop s (acc ++ [92, 117]) := by
  rw [scanStringLoop_cons]
  rfl

theorem scanStringLoop_safe {w : Str} (hw : StrSafe w) (r acc : Str) :
    scanStringLoop (w ++ 34 :: r) acc = .ok (acc ++ w, 34 :: r) := by
  induction hw generalizing acc with
  | nil =>
    rw [List.nil_append, scanStringLoop_cons, if_neg (by simp), List.append_nil]
  | char c w h1 h2 h3 _ ih =>
    rw [List.cons_append, scanStringLoop_cons, if_pos ⟨by omega, h2⟩, if_neg h3,
      if_neg (by omega), ih, List.append_assoc, List.singleton_append]
  | unicode w _ ih =>
    rw [List.cons_append, List.cons_append, scanStringLoop_unicode, ih, List.append_assoc]
    rfl

/-- A quoted `StrSafe` text is the STRING token of that text. -/
theorem scan_string {w : Str} (hw : StrSafe w) (r : Str) :
    scan (34 :: (w ++ 34 :: r)) = .ok (⟨.STRING, w⟩, r) := by
  rw [scan_quote, scanString_eq]
  simp only [List.tail_cons, scanStringLoop_safe hw, bind, Except.bind, List.headD_cons, ne_eq,
    not_true_eq_false, ↓reduceIte, pure, Except.pure, List.nil_append]

theorem scan_true {r : Str} (hr : isalpha (r.headD 0) = false) :
    scan (str "true" ++ r) = .ok (⟨.TRUE, str "true"⟩, r) := by
  have := takeWhile_dropWhile_append (f := isalpha) (p := str "true") (by decide) hr
  have e : str "true" ++ r = 116 :: ([114, 117, 101] ++ r) := rfl
  rw [e, scan_cons _ _ (by decide) (by decide), ← e]
  unfold JsonParser.scanToken
  rw [this.1, this.2]
  rfl

theorem scan_false {r : Str} (hr : isalpha (r.headD 0) = false) :
    scan (str "false" ++ r) = .ok (⟨.FALSE, str "false"⟩, r) := by
  have := takeWhile_dropWhile_append (f := isalpha) (p := str "false") (by decide) hr
  have e : str "false" ++ r = 102 :: ([97, 108, 115, 101] ++ r) := rfl
  rw [e, scan_cons _ _ (by decide) (by decide), ← e]
  unfold JsonParser.scanToken
  rw [this.1, this.2]
  rfl

theorem scan_null {r : Str} (hr : isalpha (r.headD 0) = false) :
    scan (str "null" ++ r) = .ok (⟨.NULL_TOKEN, str "null"⟩, r) := by
  have := takeWhile_dropWhile_append (f := isalpha) (p := str "null") (by decide) hr
  have e : str "null" ++ r = 110 :: ([117, 108, 108] ++ r) := rfl
  rw [e, scan_cons _ _ (by decide) (by decide), ← e]
  unfold JsonParser.scanToken
  rw [this.1, this.2]
  rfl

theorem scanNumber_head {s x m : Str} (h : scanNumber s = .ok (x, m)) :
    s.headD 0 = 45 ∨ isdigit (s.headD 0) = true := by
  by_cases h45 : s.headD 0 = 45
  · exact .inl h45
  · right
    unfold scanNumber at h
    simp only [h45, ↓reduceIte] at h
    cases h1 : scanInteger s [] with
    | error e => rw [h1] at h; cases h
    | ok y =>
      unfold scanInteger at h1
      by_cases h0 : s.headD 0 = 48
      · rw [h0]; rfl
      · rw [if_neg h0] at h1
        by_cases hd : isdigit (s.headD 0) = true
        · exact hd
        · rw [if_neg hd] at h1; cases h1

/-- A number literal followed by a character that ends it is the NUMBER token of its text. -/
theorem scan_number {s : Str} (h : scanNumber s = .ok (s, [])) {r : Str}
    (hr : Delim (r.headD 0)) : scan (s ++ r) = .ok (⟨.NUMBER, s⟩, r) := by
  obtain ⟨p, hp, hne, hl⟩ := scanNumber_local h
  rw [List.append_nil] at hp
  subst hp
  have hhead : (s ++ r).headD 0 = s.headD 0 := by
    cases s with
    | nil => exact absurd rfl hne
    | cons a l => rfl
  have hh := scanNumber_head h
  have hsp : isspace (s.headD 0) = false := by
    rcases hh with hh | hh
    · rw [hh]; rfl
    · simp only [isdigit, Bool.and_eq_true, decide_eq_true_eq] at hh
      simp only [isspace, Bool.or_eq_false_iff, beq_eq_false_iff_ne, ne_eq,
        Bool.and_eq_false_iff, decide_eq_false_iff_not, not_le]
      omega
  have hn : ∀ c : Int, c ≠ 45 → isdigit c = false → s.headD 0 ≠ c := by
    intro c h1 h2 hc
    rcases hh with hh | hh
    · exact h1 (hc.symm.trans hh)
    · rw [hc, h2] at hh; cases hh
  rw [scan_nonspace (by rw [hhead]; exact hsp) (by rw [hhead]; exact hn 0 (by decide) rfl)]
  unfold JsonParser.scanToken
  simp only
  rw [hhead, if_neg (hn 123 (by decide) rfl), if_neg (hn 125 (by decide) rfl),
    if_neg (hn 91 (by decide) rfl), if_neg (hn 93 (by decide) rfl),
    if_neg (hn 44 (by decide) rfl), if_neg (hn 58 (by decide) rfl),
    if_neg (hn 34 (by decide) rfl), if_pos hh, hl r (.inr hr)]
  rfl

/-! ## The tokens of the printed text -/

theorem str_quote : str "\"" = [34] := rfl
theorem str_quote_colon : str "\": " = [34, 58, 32] := rfl
theorem str_comma : str "," = [44] := rfl
theorem str_newline : str "\n" = [10] := rfl
theorem str_open_brace : str "\x7b\n" = [123, 10] := rfl
theorem str_close_brace : str "\x7d" = [125] := rfl
theorem str_braces : str "\x7b\x7d" = [123, 125] := rfl
theorem str_open_bracket : str "[\n" = [91, 10] := rfl
theorem str_close_bracket : str "]" = [93] := rfl
theorem str_brackets : str "[]" = [91, 93] := rfl

theorem Delim.newline {r : Str} : Delim ((10 :: r).headD 0) :=
  show Delim 10 from ⟨by decide, by decide, by decide⟩

theorem Delim.comma {r : Str} : Delim ((44 :: r).headD 0) :=
  show Delim 44 from ⟨by decide, by decide, by decide⟩

theorem Delim.alpha {c : Int} (h : Delim c) : isalpha c = false := h.2.1

mutual

/-- The printed text of a tree, followed by a text that starts with a character that ends every
token, is scanned to the tokens of the tree and then to the tokens of that text. -/
theorem JsonValue.scans_toString : ∀ (v : JsonValue) (indent : Nat) (r : Str) (ts : List Token)
    (stop : Option Str), v.Printable → Delim (r.headD 0) → Scans r ts stop →
    Scans (v.toString indent ++ r) (v.tokens ++ ts) stop
  | .object [], indent, r, ts, stop, _, _, h => by
    simp only [JsonValue.toString, JsonValue.tokens, JsonValue.memberTokens, List.isEmpty_nil,
      ↓reduceIte, str_braces, List.cons_append, List.nil_append]
    exact .token (scan_lbrace _) (by simp) (.token (scan_rbrace _) (by simp) h)
  | .object (p :: ps), indent, r, ts, stop, hp, _, h => by
    simp only [JsonValue.toString, JsonValue.tokens, List.isEmpty_cons, Bool.false_eq_true,
      ↓reduceIte, str_open_brace, str_close_brace, List.cons_append, List.nil_append,
      List.append_assoc]
    simp only [JsonValue.Printable] at hp
    refine .token (scan_lbrace _) (by simp) (.space (by decide) ?_)
    exact JsonValue.scans_properties (p :: ps) indent _ _ stop hp
      (.spaces indent (.token (scan_rbrace _) (by simp) h))
  | .array [], indent, r, ts, stop, _, _, h => by
    simp only [JsonValue.toString, JsonValue.tokens, JsonValue.elementTokens, List.isEmpty_nil,
      ↓reduceIte, str_brackets, List.cons_append, List.nil_append]
    exact .token (scan_lbracket _) (by simp) (.token (scan_rbracket _) (by simp) h)
  | .array (e :: es), indent, r, ts, stop, hp, _, h => by
    simp only [JsonValue.toString, JsonValue.tokens, List.isEmpty_cons, Bool.false_eq_true,
      ↓reduceIte, str_open_bracket, str_close_bracket, List.cons_append, List.nil_append,
      List.append_assoc]
    simp only [JsonValue.Printable] at hp
    refine .token (scan_lbracket _) (by simp) (.space (by decide) ?_)
    exact JsonValue.scans_elements (e :: es) indent _ _ stop hp
      (.spaces indent (.token (scan_rbracket _) (by simp) h))
  | .string w, indent, r, ts, stop, hp, _, h => by
    simp only [JsonValue.toString, JsonValue.tokens, str_quote, List.cons_append,
      List.nil_append, List.append_assoc]
    simp only [JsonValue.Printable] at hp
    exact .token (scan_string hp _) (by simp) h
  | .number d, indent, r, ts, stop, hp, hr, h => by
    simp only [JsonValue.toString, JsonValue.tokens, List.cons_append, List.nil_append]
    simp only [JsonValue.Printable] at hp
    obtain ⟨⟨neg, man, exp, rfl⟩, _⟩ := hp
    exact .token (scan_number (Double.format_scan neg man exp) hr) (by simp) h
  | .boolean true, indent, r, ts, stop, _, hr, h => by
    simp only [JsonValue.toString, JsonValue.tokens, ↓reduceIte, List.cons_append,
      List.nil_append]
    exact .token (scan_true hr.alpha) (by simp) h
  | .boolean false, indent, r, ts, stop, _, hr, h => by
    simp only [JsonValue.toString, JsonValue.tokens, Bool.false_eq_true, ↓reduceIte,
      List.cons_append, List.nil_append]
    exact .token (scan_false hr.alpha) (by simp) h
  | .null, indent, r, ts, stop, _, hr, h => by
    simp only [JsonValue.toString, JsonValue.tokens, List.cons_append, List.nil_append]
    exact .token (scan_null hr.alpha) (by simp) h

/-- The printed properties of an object are scanned to their tokens. -/
theorem JsonValue.scans_properties : ∀ (ps : List (Str × JsonValue)) (indent : Nat) (r : Str)
    (ts : List Token) (stop : Option Str), JsonValue.PrintableMembers ps → Scans r ts stop →
    Scans (JsonValue.propertiesToString ps indent ++ r) (JsonValue.memberTokens ps ++ ts) stop
  | [], indent, r, ts, stop, _, h => by
    simpa only [JsonValue.propertiesToString, JsonValue.memberTokens, List.nil_append] using h
  | (k, v) :: rest, indent, r, ts, stop, hp, h => by
    simp only [JsonValue.PrintableMembers] at hp
    obtain ⟨hk, hv, hrest⟩ := hp
    simp only [JsonValue.propertiesToString, JsonValue.memberTokens, str_quote,
      str_quote_colon, str_comma, str_newline, List.cons_append, List.nil_append,
      List.append_assoc]
    refine .spaces _ (.token (scan_string hk _) (by simp)
      (.token (scan_colon _) (by simp) (.space (by decide) ?_)))
    have ih := JsonValue.scans_properties rest indent r ts stop hrest h
    cases rest with
    | nil =>
      simp only [List.isEmpty_nil, ↓reduceIte, List.nil_append]
      exact JsonValue.scans_toString v (indent + 2) _ _ stop hv
        Delim.newline (.space (by decide) ih)
    | cons q qs =>
      simp only [List.isEmpty_cons, Bool.false_eq_true, ↓reduceIte, List.cons_append,
        List.nil_append]
      exact JsonValue.scans_toString v (indent + 2) _ _ stop hv
        Delim.comma
        (.token (scan_comma _) (by simp) (.space (by decide) ih))

/-- The printed elements of an array are scanned to their tokens. -/
theorem JsonValue.scans_elements : ∀ (es : List JsonValue) (indent : Nat) (r : Str)
    (ts : List Token) (stop : Option Str), JsonValue.PrintableElements es → Scans r ts stop →
    Scans (JsonValue.elementsToString es indent ++ r) (JsonValue.elementTokens es ++ ts) stop
  | [], indent, r, ts, stop, _, h => by
    simpa only [JsonValue.elementsToString, JsonValue.elementTokens, List.nil_append] using h
  | v :: rest, indent, r, ts, stop, hp, h => by
    simp only [JsonValue.PrintableElements] at hp
    obtain ⟨hv, hrest⟩ := hp
    simp only [JsonValue.elementsToString, JsonValue.elementTokens, str_comma, str_newline,
      List.cons_append, List.nil_append, List.append_assoc]
    refine .spaces _ ?_
    have ih := JsonValue.scans_elements rest indent r ts stop hrest h
    cases rest with
    | nil =>
      simp only [List.isEmpty_nil, ↓reduceIte, List.nil_append]
      exact JsonValue.scans_toString v (indent + 2) _ _ stop hv
        Delim.newline (.space (by decide) ih)
    | cons q qs =>
      simp only [List.isEmpty_cons, Bool.false_eq_true, ↓reduceIte, List.cons_append,
        List.nil_append]
      exact JsonValue.scans_toString v (indent + 2) _ _ stop hv
        Delim.comma
        (.token (scan_comma _) (by simp) (.space (by decide) ih))

end

/-! ## The printed text is parsed back -/

theorem Double.Convertible.stod {d : Double} (h : d.Convertible) :
    JsonParser.stod d.format = .ok d.reparsed := by
  obtain ⟨_, d', hd⟩ := h
  unfold Double.reparsed
  rw [hd]

mutual

/-- The tokens of the printed text of a tree are a serialization of the tree read back. -/
theorem JsonValue.serializes_tokens : ∀ (v : JsonValue), v.Printable →
    Serializes v.reparsed v.tokens
  | .object [], _ => by
    simp only [JsonValue.reparsed, JsonValue.reparsedMembers, JsonValue.tokens,
      JsonValue.memberTokens, List.nil_append]
    exact .emptyObject _ _ rfl rfl
  | .object (p :: ps), hp => by
    simp only [JsonValue.Printable] at hp
    simp only [JsonValue.reparsed, JsonValue.tokens]
    exact .object _ _ _ _ rfl rfl (JsonValue.serializes_members (p :: ps) (by simp) hp)
  | .array [], _ => by
    simp only [JsonValue.reparsed, JsonValue.reparsedElements, JsonValue.tokens,
      JsonValue.elementTokens, List.nil_append]
    exact .emptyArray _ _ rfl rfl
  | .array (e :: es), hp => by
    simp only [JsonValue.Printable] at hp
    simp only [JsonValue.reparsed, JsonValue.tokens]
    exact .array _ _ _ _ rfl rfl (JsonValue.serializes_elements (e :: es) (by simp) hp)
  | .string w, _ => by
    simp only [JsonValue.reparsed, JsonValue.tokens]
    exact .string ⟨.STRING, w⟩ rfl
  | .number d, hp => by
    simp only [JsonValue.Printable] at hp
    simp only [JsonValue.reparsed, JsonValue.tokens]
    exact .number ⟨.NUMBER, d.format⟩ _ rfl hp.stod
  | .boolean true, _ => by
    simp only [JsonValue.reparsed, JsonValue.tokens, ↓reduceIte]
    exact .true _ rfl
  | .boolean false, _ => by
    simp only [JsonValue.reparsed, JsonValue.tokens, Bool.false_eq_true, ↓reduceIte]
    exact .false _ rfl
  | .null, _ => by
    simp only [JsonValue.reparsed, JsonValue.tokens]
    exact .null _ rfl

theorem JsonValue.serializes_members : ∀ (ps : List (Str × JsonValue)), ps ≠ [] →
    JsonValue.PrintableMembers ps →
    SerializesMembers (JsonValue.reparsedMembers ps) (JsonValue.memberTokens ps)
  | [], hne, _ => absurd rfl hne
  | (k, v) :: rest, _, hp => by
    rw [JsonValue.PrintableMembers] at hp
    have ih := fun hne => JsonValue.serializes_members rest hne hp.2.2
    have hv := JsonValue.serializes_tokens v hp.2.1
    rw [JsonValue.reparsedMembers, JsonValue.memberTokens]
    cases rest with
    | nil =>
      simp only [JsonValue.reparsedMembers, JsonValue.memberTokens, List.isEmpty_nil,
        ↓reduceIte, List.append_nil]
      exact .one ⟨.STRING, k⟩ _ _ _ rfl rfl hv
    | cons q qs =>
      simp only [List.isEmpty_cons, Bool.false_eq_true, ↓reduceIte, List.singleton_append]
      exact .cons ⟨.STRING, k⟩ _ _ _ _ _ _ rfl rfl hv rfl (ih (by simp))

theorem JsonValue.serializes_elements : ∀ (es : List JsonValue), es ≠ [] →
    JsonValue.PrintableElements es →
    SerializesElements (JsonValue.reparsedElements es) (JsonValue.elementTokens es)
  | [], hne, _ => absurd rfl hne
  | v :: rest, _, hp => by
    rw [JsonValue.PrintableElements] at hp
    have ih := fun hne => JsonValue.serializes_elements rest hne hp.2
    have hv := JsonValue.serializes_tokens v hp.1
    rw [JsonValue.reparsedElements, JsonValue.elementTokens]
    cases rest with
    | nil =>
      simp only [JsonValue.reparsedElements, JsonValue.elementTokens, List.isEmpty_nil,
        ↓reduceIte, List.append_nil]
      exact .one _ _ hv
    | cons q qs =>
      simp only [List.isEmpty_cons, Bool.false_eq_true, ↓reduceIte, List.singleton_append]
      exact .cons _ _ _ _ _ hv rfl (ih (by simp))

end

/-- The printed text of a printable tree has the tokens of the tree and then end-of-input. -/
theorem JsonValue.tokenize_toString (v : JsonValue) (h : v.Printable) :
    tokenize (v.toString 0) = (v.tokens ++ [⟨.EOF_TOKEN, []⟩], none) := by
  have hs := JsonValue.scans_toString v 0 [] [⟨.EOF_TOKEN, []⟩] none h
    ⟨by decide, by decide, by decide⟩ (.eof (r := []) rfl rfl)
  rw [List.append_nil] at hs
  obtain ⟨h1, h2⟩ := hs.tokenize_eq
  rw [Prod.ext_iff]
  exact ⟨h1, h2.2 rfl⟩

/-- Parsing the printed text of a printable tree returns the tree read back. -/
theorem JsonValue.parse_toString (v : JsonValue) (h : v.Printable) :
    parseInput (v.toString 0) = .ok v.reparsed :=
  parseInput_complete (v.tokenize_toString h) rfl (v.serializes_tokens h)

/-! ## Single tokens at the cursor of the lexer -/

theorem length_sub_dropWhile (p : Int → Bool) (s : Str) :
    s.length - (s.dropWhile p).length = (s.takeWhile p).length := by
  have := congrArg List.length (List.takeWhile_append_dropWhile p s)
  rw [List.length_append] at this
  omega

theorem Lexer.lift_ok {α : Type} (l : Lexer) (p r : Str) (x : α) :
    l.lift (p ++ r) (.ok (x, r)) = .ok (x, l.advanceN p.length) := by
  unfold Lexer.lift
  simp only [List.length_append, Nat.add_sub_cancel]

theorem Lexer.lift_error {α : Type} (l : Lexer) (p r : Str) (m : Str) :
    (l.lift (p ++ r) (.error (m, r)) : Except Exn (α × Lexer)) = (l.advanceN p.length).error m := by
  unfold Lexer.lift
  simp only [List.length_append, Nat.add_sub_cancel]

/-- The keyword branch of the scan: the maximal run of letters decides. -/
theorem scan_keyword {run rest : Str}
    (hk : run.headD 0 = 116 ∨ run.headD 0 = 102 ∨ run.headD 0 = 110)
    (hrun : ∀ c ∈ run, isalpha c = true) (hrest : isalpha (rest.headD 0) = false) :
    scan (run ++ rest) =
      if run = str "true" then .ok (⟨.TRUE, str "true"⟩, rest)
      else if run = str "false" then .ok (⟨.FALSE, str "false"⟩, rest)
      else if run = str "null" then .ok (⟨.NULL_TOKEN, str "null"⟩, rest)
      else .error (str "Invalid keyword: " ++ run, rest) := by
  have hne : run ≠ [] := by
    rintro rfl
    rcases hk with h | h | h <;> simp at h
  have hhead : (run ++ rest).headD 0 = run.headD 0 := by
    cases run with
    | nil => exact absurd rfl hne
    | cons a t => rfl
  have hn : ∀ c : Int, c ≠ 116 → c ≠ 102 → c ≠ 110 → run.headD 0 ≠ c := by
    intro c h1 h2 h3 hc
    rcases hk with h | h | h
    · exact h1 (hc.symm.trans h)
    · exact h2 (hc.symm.trans h)
    · exact h3 (hc.symm.trans h)
  have hsp : isspace (run.headD 0) = false := by
    rcases hk with h | h | h <;> rw [h] <;> rfl
  have hdig : ¬ (run.headD 0 = 45 ∨ isdigit (run.headD 0) = true) := by
    rcases hk with h | h | h <;> rw [h] <;> decide
  have htd := takeWhile_dropWhile_append hrun hrest
  rw [scan_nonspace (by rw [hhead]; exact hsp)
    (by rw [hhead]; exact hn 0 (by decide) (by decide) (by decide))]
  unfold JsonParser.scanToken
  simp only
  rw [hhead, if_neg (hn 123 (by decide) (by decide) (by decide)),
    if_neg (hn 125 (by decide) (by decide) (by decide)),
    if_neg (hn 91 (by decide) (by decide) (by decide)),
    if_neg (hn 93 (by decide) (by decide) (by decide)),
    if_neg (hn 44 (by decide) (by decide) (by decide)),
    if_neg (hn 58 (by decide) (by decide) (by decide)),
    if_neg (hn 34 (by decide) (by decide) (by decide)), if_neg hdig, if_pos hk, htd.1, htd.2]

/-- The `default` branch of the scan. -/
theorem scan_unexpected {s : Str} (h0 : s.headD 0 ≠ 0) (hsp : isspace (s.headD 0) = false)
    (hp : s.headD 0 ≠ 123 ∧ s.headD 0 ≠ 125 ∧ s.headD 0 ≠ 91 ∧ s.headD 0 ≠ 93 ∧
      s.headD 0 ≠ 44 ∧ s.headD 0 ≠ 58)
    (hq : s.headD 0 ≠ 34) (hnum : s.headD 0 ≠ 45 ∧ isdigit (s.headD 0) = false)
    (hkw : s.headD 0 ≠ 116 ∧ s.headD 0 ≠ 102 ∧ s.headD 0 ≠ 110) :
    scan s = .error (str "Unexpected character: " ++ [s.headD 0], s) := by
  rw [scan_nonspace hsp h0]
  unfold JsonParser.scanToken
  simp only
  rw [if_neg hp.1, if_neg hp.2.1, if_neg hp.2.2.1, if_neg hp.2.2.2.1, if_neg hp.2.2.2.2.1,
    if_neg hp.2.2.2.2.2, if_neg hq, if_neg (by rintro (h | h); exact hnum.1 h; rw [hnum.2] at h; cases h),
    if_neg (by rintro (h | h | h); exact hkw.1 h; exact hkw.2.1 h; exact hkw.2.2 h)]

/-! ## Number tokens follow the grammar -/

theorem takeWhile_dropWhile_head (f : Int → Bool) (hf : f 0 = false) (s : Str) :
    f ((s.dropWhile f).headD 0) = false := dropWhile_head_false f hf s

theorem scanInteger_sound {s acc y m : Str} (h : scanInteger s acc = .ok (y, m)) :
    ∃ ip, y = acc ++ ip ∧ s = ip ++ m ∧ IntPart ip := by
  unfold scanInteger at h
  by_cases h0 : s.headD 0 = 48
  · rw [if_pos h0] at h
    by_cases hd : isdigit (s.tail.headD 0) = true
    · rw [if_pos hd] at h; cases h
    · rw [if_neg hd] at h
      simp only [Except.ok.injEq, Prod.mk.injEq] at h
      obtain ⟨rfl, rfl⟩ := h
      exact ⟨[48], by rw [h0], head_cons_tail h0 (by decide), .inl rfl⟩
  · rw [if_neg h0] at h
    by_cases hd : isdigit (s.headD 0) = true
    · rw [if_pos hd] at h
      simp only [Except.ok.injEq, Prod.mk.injEq] at h
      obtain ⟨rfl, rfl⟩ := h
      refine ⟨s.takeWhile isdigit, rfl, (List.takeWhile_append_dropWhile _ _).symm, .inr ?_⟩
      have hh := takeWhile_head_append hd (by decide) []
      rw [List.append_nil] at hh
      refine ⟨?_, takeWhile_all isdigit s, by rw [hh]; exact h0⟩
      intro hnil
      rw [hnil] at hh
      rw [← hh] at hd
      exact absurd hd (by decide)
    · rw [if_neg hd] at h; cases h

theorem scanFraction_sound {s acc y m : Str} (h : scanFraction s acc = .ok (y, m)) :
    ∃ fr, y = acc ++ fr ∧ s = fr ++ m ∧ FracPart fr := by
  unfold scanFraction at h
  by_cases h0 : s.headD 0 = 46
  · rw [if_pos h0] at h
    by_cases hd : isdigit (s.tail.headD 0) = true
    · rw [if_neg (not_not.mpr hd)] at h
      simp only [Except.ok.injEq, Prod.mk.injEq] at h
      obtain ⟨rfl, rfl⟩ := h
      refine ⟨46 :: s.tail.takeWhile isdigit, by rw [h0]; simp, ?_, .inr ⟨_, ?_,
        takeWhile_all isdigit _, rfl⟩⟩
      · rw [List.cons_append, List.takeWhile_append_dropWhile]
        exact head_cons_tail h0 (by decide)
      · intro hnil
        have hh := takeWhile_head_append hd (by decide) []
        rw [List.append_nil, hnil] at hh
        rw [← hh] at hd
        exact absurd hd (by decide)
    · rw [if_pos hd] at h; cases h
  · rw [if_neg h0] at h
    simp only [Except.ok.injEq, Prod.mk.injEq] at h
    obtain ⟨rfl, rfl⟩ := h
    exact ⟨[], by simp, rfl, .inl rfl⟩

theorem skipSign_signText (s : Str) :
    s = signText s ++ skipSign s ∧ (signText s = [] ∨ signText s = [43] ∨ signText s = [45]) := by
  unfold signText skipSign
  by_cases h : s.headD 0 = 43 ∨ s.headD 0 = 45
  · rw [if_pos h, if_pos h]
    rcases h with h | h
    · exact ⟨by rw [h]; exact head_cons_tail h (by decide), .inr (.inl (by rw [h]))⟩
    · exact ⟨by rw [h]; exact head_cons_tail h (by decide), .inr (.inr (by rw [h]))⟩
  · rw [if_neg h, if_neg h]
    exact ⟨rfl, .inl rfl⟩

theorem scanExponent_sound {s acc y m : Str} (h : scanExponent s acc = .ok (y, m)) :
    ∃ ex, y = acc ++ ex ∧ s = ex ++ m ∧ ExpPart ex := by
  unfold scanExponent at h
  by_cases h0 : s.headD 0 = 101 ∨ s.headD 0 = 69
  · rw [if_pos h0] at h
    by_cases hd : isdigit ((skipSign s.tail).headD 0) = true
    · rw [if_neg (not_not.mpr hd)] at h
      simp only [Except.ok.injEq, Prod.mk.injEq] at h
      obtain ⟨rfl, rfl⟩ := h
      obtain ⟨hsplit, hsg⟩ := skipSign_signText s.tail
      have hs : s = s.headD 0 :: s.tail := by
        rcases h0 with h0 | h0
        · rw [h0]; exact head_cons_tail h0 (by decide)
        · rw [h0]; exact head_cons_tail h0 (by decide)
      refine ⟨s.headD 0 :: (signText s.tail ++ (skipSign s.tail).takeWhile isdigit),
        by simp, ?_, .inr ⟨_, _, _, h0, hsg, ?_, takeWhile_all isdigit _, rfl⟩⟩
      · rw [List.cons_append, List.append_assoc, List.takeWhile_append_dropWhile, ← hsplit]
        exact hs
      · intro hnil
        have hh := takeWhile_head_append hd (by decide) []
        rw [List.append_nil, hnil] at hh
        rw [← hh] at hd
        exact absurd hd (by decide)
    · rw [if_pos hd] at h; cases h
  · rw [if_neg h0] at h
    simp only [Except.ok.injEq, Prod.mk.injEq] at h
    obtain ⟨rfl, rfl⟩ := h
    exact ⟨[], by simp, rfl, .inl rfl⟩

/-- The three parts of `Lexer::parseNumber` after the sign, one after the other. -/
theorem scanNumber_eq (s : Str) :
    scanNumber s =
      (scanInteger (if s.headD 0 = 45 then s.tail else s) (if s.headD 0 = 45 then [45] else [])
        >>= fun y => scanFraction y.2 y.1 >>= fun z => scanExponent z.2 z.1) := by
  unfold scanNumber
  by_cases h : s.headD 0 = 45
  · simp only [h, ↓reduceIte, List.nil_append]
  · simp only [h, ↓reduceIte]

/-- A number literal scanned is the text consumed, and it follows the grammar. -/
theorem scanNumber_sound {s x m : Str} (h : scanNumber s = .ok (x, m)) :
    s = x ++ m ∧ NumberLiteral x := by
  rw [scanNumber_eq] at h
  cases h1 : scanInteger (if s.headD 0 = 45 then s.tail else s)
      (if s.headD 0 = 45 then [45] else []) with
  | error e => rw [h1] at h; cases h
  | ok y =>
    obtain ⟨y1, y2⟩ := y
    rw [h1] at h
    simp only [bind, Except.bind] at h
    cases h2 : scanFraction y2 y1 with
    | error e => rw [h2] at h; cases h
    | ok z =>
      obtain ⟨z1, z2⟩ := z
      rw [h2] at h
      simp only at h
      obtain ⟨ip, e1, s1, hip⟩ := scanInteger_sound h1
      obtain ⟨fr, e2, s2, hfr⟩ := scanFraction_sound h2
      obtain ⟨ex, e3, s3, hex⟩ := scanExponent_sound h
      have hs : s = (if s.headD 0 = 45 then [45] else []) ++
          (if s.headD 0 = 45 then s.tail else s) := by
        by_cases h45 : s.headD 0 = 45
        · simp only [h45, ↓reduceIte]
          exact head_cons_tail h45 (by decide)
        · simp only [h45, ↓reduceIte, List.nil_append]
      refine ⟨?_, _, ip, fr, ex, by rw [e3, e2, e1], ?_, hip, hfr, hex⟩
      · rw [e3, e2, e1]
        conv_lhs => rw [hs, s1, s2, s3]
        simp only [List.append_assoc]
      · by_cases h45 : s.headD 0 = 45
        · rw [if_pos h45]; exact .inr rfl
        · rw [if_neg h45]; exact .inl rfl

/-- The branch of the scan for `-` and the digits. -/
theorem scan_number_branch {s : Str} (h : s.headD 0 = 45 ∨ isdigit (s.headD 0) = true) :
    scan s = scanNumber s >>= fun x => pure (⟨.NUMBER, x.1⟩, x.2) := by
  have hsp : isspace (s.headD 0) = false := by
    rcases h with hh | hh
    · rw [hh]; rfl
    · simp only [isdigit, Bool.and_eq_true, decide_eq_true_eq] at hh
      simp only [isspace, Bool.or_eq_false_iff, beq_eq_false_iff_ne, ne_eq,
        Bool.and_eq_false_iff, decide_eq_false_iff_not, not_le]
      omega
  have hn : ∀ c : Int, c ≠ 45 → isdigit c = false → s.headD 0 ≠ c := by
    intro c h1 h2 hc
    rcases h with hh | hh
    · exact h1 (hc.symm.trans hh)
    · rw [hc, h2] at hh; cases hh
  rw [scan_nonspace hsp (hn 0 (by decide) rfl)]
  unfold JsonParser.scanToken
  simp only
  rw [if_neg (hn 123 (by decide) rfl), if_neg (hn 125 (by decide) rfl),
    if_neg (hn 91 (by decide) rfl), if_neg (hn 93 (by decide) rfl),
    if_neg (hn 44 (by decide) rfl), if_neg (hn 58 (by decide) rfl),
    if_neg (hn 34 (by decide) rfl), if_pos h]

/-- A NUMBER token comes from the branch for `-` and the digits only. -/
theorem scanToken_number {s : Str} {t : Token} {r : Str}
    (h : JsonParser.scanToken s = .ok (t, r)) (ht : t.type = .NUMBER) :
    scanNumber s = .ok (t.value, r) := by
  unfold JsonParser.scanToken at h
  simp only at h
  have punct : ∀ (tok : Token) (r0 : Str), tok.type ≠ .NUMBER →
      ¬ (Except.ok (tok, r0) : Except (Str × Str) (Token × Str)) = .ok (t, r) := by
    intro tok r0 hne h
    simp only [Except.ok.injEq, Prod.mk.injEq] at h
    exact hne (h.1 ▸ ht)
  by_cases h1 : s.headD 0 = 123
  · rw [if_pos h1] at h; exact absurd h (punct _ _ (by decide))
  rw [if_neg h1] at h
  by_cases h2 : s.headD 0 = 125
  · rw [if_pos h2] at h; exact absurd h (punct _ _ (by decide))
  rw [if_neg h2] at h
  by_cases h3 : s.headD 0 = 91
  · rw [if_pos h3] at h; exact absurd h (punct _ _ (by decide))
  rw [if_neg h3] at h
  by_cases h4 : s.headD 0 = 93
  · rw [if_pos h4] at h; exact absurd h (punct _ _ (by decide))
  rw [if_neg h4] at h
  by_cases h5 : s.headD 0 = 44
  · rw [if_pos h5] at h; exact absurd h (punct _ _ (by decide))
  rw [if_neg h5] at h
  by_cases h6 : s.headD 0 = 58
  · rw [if_pos h6] at h; exact absurd h (punct _ _ (by decide))
  rw [if_neg h6] at h
  by_cases h7 : s.headD 0 = 34
  · rw [if_pos h7] at h
    cases hx : scanString s with
    | error e => rw [hx] at h; cases h
    | ok y =>
      rw [hx] at h
      simp only [bind, Except.bind, pure, Except.pure] at h
      exact absurd h (punct _ _ (by simp))
  rw [if_neg h7] at h
  by_cases h8 : s.headD 0 = 45 ∨ isdigit (s.headD 0) = true
  · rw [if_pos h8] at h
    cases hx : scanNumber s with
    | error e => rw [hx] at h; cases h
    | ok y =>
      rw [hx] at h
      simp only [bind, Except.bind, pure, Except.pure, Except.ok.injEq, Prod.mk.injEq] at h
      obtain ⟨rfl, rfl⟩ := h
      rfl
  rw [if_neg h8] at h
  by_cases h9 : s.headD 0 = 116 ∨ s.headD 0 = 102 ∨ s.headD 0 = 110
  · rw [if_pos h9] at h
    by_cases k1 : s.takeWhile isalpha = str "true"
    · rw [if_pos k1] at h; exact absurd h (punct _ _ (by decide))
    rw [if_neg k1] at h
    by_cases k2 : s.takeWhile isalpha = str "false"
    · rw [if_pos k2] at h; exact absurd h (punct _ _ (by decide))
    rw [if_neg k2] at h
    by_cases k3 : s.takeWhile isalpha = str "null"
    · rw [if_pos k3] at h; exact absurd h (punct _ _ (by decide))
    rw [if_neg k3] at h
    cases h
  rw [if_neg h9] at h
  cases h

/-- What `getNextToken` returns is what the scan of the text after the cursor returns. -/
theorem Lexer.getNextToken_ok {l l' : Lexer} {s : Str} {t : Token} (hv : l.View s)
    (h : l.getNextToken = .ok (t, l')) :
    ∃ p r, s = p ++ r ∧ scan s = .ok (t, r) ∧ l' = l.advanceN p.length ∧ l'.View r := by
  have hag := Lexer.getNextToken_agree hv
  rw [h] at hag
  cases hsc : scan s with
  | error e =>
    obtain ⟨m, r0⟩ := e
    rw [hsc] at hag
    obtain ⟨k, _, _, hx⟩ := hag
    simp only [Lexer.error] at hx
    cases hx
  | ok x =>
    obtain ⟨a, r0⟩ := x
    rw [hsc] at hag
    obtain ⟨k, hk, hr, hx⟩ := hag
    simp only [Except.ok.injEq, Prod.mk.injEq] at hx
    obtain ⟨rfl, rfl⟩ := hx
    refine ⟨s.take k, r0, by rw [hr, List.take_append_drop], rfl, ?_, ?_⟩
    · rw [List.length_take, Nat.min_eq_left hk]
    · rw [hr]; exact hv.advanceN k

/-! ## Malformed number literals -/

theorem scanInteger_invalid (s acc : Str) (h : isdigit (s.headD 0) = false) :
    scanInteger s acc = .error (str "Invalid number", s) := by
  unfold scanInteger
  rw [if_neg (by intro h0; rw [h0] at h; exact absurd h (by decide)),
    if_neg (by rw [h]; decide)]

theorem scanFraction_missing (r acc : Str) (h : isdigit (r.headD 0) = false) :
    scanFraction (46 :: r) acc = .error (str "Digit expected after decimal point", r) := by
  unfold scanFraction
  simp only [List.headD_cons, List.tail_cons, ↓reduceIte]
  rw [if_pos (by rw [h]; decide)]

theorem scanExponent_missing (e : Int) (sg r acc : Str) (he : e = 101 ∨ e = 69)
    (hsg : (sg = [] ∧ r.headD 0 ≠ 43 ∧ r.headD 0 ≠ 45) ∨ sg = [43] ∨ sg = [45])
    (h : isdigit (r.headD 0) = false) :
    scanExponent (e :: (sg ++ r)) acc = .error (str "Digit expected in exponent", r) := by
  have hskip : skipSign (sg ++ r) = r := by
    unfold skipSign
    rcases hsg with ⟨rfl, h1, h2⟩ | rfl | rfl
    · rw [List.nil_append, if_neg (by rintro (h | h); exact h1 h; exact h2 h)]
    · rfl
    · rfl
  unfold scanExponent
  simp only [List.headD_cons, List.tail_cons]
  rw [if_pos he, hskip, if_pos (by rw [h]; decide)]

theorem IntPart.build {ip : Str} (h : IntPart ip) :
    ip ≠ [] ∧ (∀ c ∈ ip, isdigit c = true) ∧ (ip.headD 0 = 48 → ip = [48]) := by
  rcases h with rfl | ⟨h1, h2, h3⟩
  · exact ⟨by simp, by decide, fun _ => rfl⟩
  · exact ⟨h1, h2, fun h => absurd h h3⟩

theorem IntPart.head {ip : Str} (h : IntPart ip) (m : Str) :
    isdigit ((ip ++ m).headD 0) = true := by
  obtain ⟨h1, h2, _⟩ := h.build
  cases ip with
  | nil => exact absurd rfl h1
  | cons a t => exact h2 a (by simp)

theorem FracPart.point {fr : Str} (h : FracPart fr) :
    ∃ ds, (∀ c ∈ ds, isdigit c = true) ∧ fr = pointText ds := by
  rcases h with rfl | ⟨ds, hne, hd, rfl⟩
  · exact ⟨[], by simp, rfl⟩
  · exact ⟨ds, hd, by unfold pointText; rw [if_neg hne]⟩

/-- The sign of a number literal. -/
theorem scanNumber_sign (neg : Bool) (body : Str) (hb : neg = false → body.headD 0 ≠ 45) :
    scanNumber ((if neg then [45] else []) ++ body) =
      (scanInteger body (if neg then [45] else [])
        >>= fun y => scanFraction y.2 y.1 >>= fun z => scanExponent z.2 z.1) := by
  rw [scanNumber_eq]
  cases neg with
  | true => rfl
  | false =>
    have := hb rfl
    simp only [Bool.false_eq_true, ↓reduceIte, List.nil_append, this]

theorem digit_ne_minus {c : Int} (h : isdigit c = true) : c ≠ 45 := by
  rintro rfl
  exact absurd h (by decide)

/-- A lexical error of the number branch at the cursor of the lexer. -/
theorem Lexer.number_error {l : Lexer} {p r m : Str} (hv : l.View (p ++ r))
    (hh : (p ++ r).headD 0 = 45 ∨ isdigit ((p ++ r).headD 0) = true)
    (h : scanNumber (p ++ r) = .error (m, r)) :
    l.getNextToken = (l.advanceN p.length).error m := by
  rw [Lexer.getNextToken_eq hv, scan_number_branch hh, h]
  exact Lexer.lift_error l p r m

theorem sign_head (neg : Bool) {body : Str} (hb : isdigit (body.headD 0) = true) :
    ((if neg then [45] else []) ++ body).headD 0 = 45 ∨
      isdigit (((if neg then [45] else []) ++ body).headD 0) = true := by
  cases neg with
  | true => exact .inl rfl
  | false => exact .inr hb

/-! ## Line and column of the cursor -/

/-- A state between two calls of `getNextToken` is the state after some characters of the
buffer. -/
theorem Lexer.Reachable.cursor {input : Str} {l : Lexer} (h : Lexer.Reachable input l) :
    ∃ k, k ≤ input.length ∧ l = (Lexer.new input).advanceN k := by
  induction h with
  | start => exact ⟨0, Nat.zero_le _, rfl⟩
  | @step l l' t _ hg ih =>
    obtain ⟨k, hk, rfl⟩ := ih
    have hv := (Lexer.View.new input).advanceN k
    obtain ⟨p, r, hs, _, hl, _⟩ := Lexer.getNextToken_ok hv hg
    have hlen : p.length ≤ input.length - k := by
      have := congrArg List.length hs
      rw [List.length_drop, List.length_append] at this
      omega
    exact ⟨k + p.length, by omega, by rw [hl, Lexer.advanceN_add]⟩

/-- A lexical failure is raised at a cursor at or after the one of the call. -/
theorem Lexer.getNextToken_error {l : Lexer} {s : Str} {e : Exn} (hv : l.View s)
    (h : l.getNextToken = .error e) :
    ∃ k msg, k ≤ s.length ∧
      e = .lexerError (l.advanceN k).line (l.advanceN k).column msg := by
  have hag := Lexer.getNextToken_agree hv
  rw [h] at hag
  cases hsc : scan s with
  | error x =>
    obtain ⟨m, r0⟩ := x
    rw [hsc] at hag
    obtain ⟨k, hk, _, hx⟩ := hag
    simp only [Lexer.error, Except.error.injEq] at hx
    exact ⟨k, m, hk, hx⟩
  | ok x =>
    obtain ⟨a, r0⟩ := x
    rw [hsc] at hag
    obtain ⟨k, _, _, hx⟩ := hag
    cases hx

/-! ## The printer line by line -/

theorem JsonValue.propertiesToString_lines (L : Nat) :
    ∀ (ps : List (Str × JsonValue)) (j n : Nat), n = j + ps.length →
      JsonValue.propertiesToString ps L =
        ((ps.enumFrom j).map fun ip => memberLine n L ip.1 ip.2).flatten := by
  intro ps
  induction ps with
  | nil => intro j n _; simp [JsonValue.propertiesToString]
  | cons p rest ih =>
    intro j n hn
    obtain ⟨k, v⟩ := p
    rw [JsonValue.propertiesToString, List.enumFrom_cons, List.map_cons, List.flatten_cons,
      ← ih (j + 1) n (by rw [hn, List.length_cons]; omega)]
    unfold memberLine
    cases rest with
    | nil =>
      have : ¬ j + 1 < n := by rw [hn]; simp
      simp only [List.isEmpty_nil, ↓reduceIte, this]
    | cons q qs =>
      have : j + 1 < n := by rw [hn]; simp
      simp only [List.isEmpty_cons, Bool.false_eq_true, ↓reduceIte, this]

theorem JsonValue.elementsToString_lines (L : Nat) :
    ∀ (es : List JsonValue) (j n : Nat), n = j + es.length →
      JsonValue.elementsToString es L =
        ((es.enumFrom j).map fun ie => elementLine n L ie.1 ie.2).flatten := by
  intro es
  induction es with
  | nil => intro j n _; simp [JsonValue.elementsToString]
  | cons v rest ih =>
    intro j n hn
    rw [JsonValue.elementsToString, List.enumFrom_cons, List.map_cons, List.flatten_cons,
      ← ih (j + 1) n (by rw [hn, List.length_cons]; omega)]
    unfold elementLine
    cases rest with
    | nil =>
      have : ¬ j + 1 < n := by rw [hn]; simp
      simp only [List.isEmpty_nil, ↓reduceIte, this]
    | cons q qs =>
      have : j + 1 < n := by rw [hn]; simp
      simp only [List.isEmpty_cons, Bool.false_eq_true, ↓reduceIte, this]

/-! ## Bytes above `0x7F` in string literals -/

theorem scanStringLoop_negative {pre : Str} (hp : StrSafe pre) (c : Int) (rest acc : Str)
    (hc : c < 0) :
    scanStringLoop (pre ++ c :: rest) acc =
      .error (str "Control character in string", c :: rest) := by
  induction hp generalizing acc with
  | nil =>
    rw [List.nil_append, scanStringLoop_cons, if_pos ⟨by omega, by omega⟩, if_neg (by omega),
      if_pos ⟨by omega, by omega⟩]
  | char a w h1 h2 h3 _ ih =>
    rw [List.cons_append, scanStringLoop_cons, if_pos ⟨by omega, h2⟩, if_neg h3,
      if_neg (by omega), ih]
  | unicode w _ ih =>
    rw [List.cons_append, List.cons_append, scanStringLoop_unicode, ih]

/-- A string literal with a negative character after legal ones is a lexical failure at that
character. -/
theorem Lexer.string_negative {l : Lexer} {pre rest : Str} {c : Int}
    (hv : l.View (34 :: (pre ++ c :: rest))) (hp : StrSafe pre) (hc : c < 0) :
    l.getNextToken = (l.advanceN (pre.length + 1)).error (str "Control character in string") := by
  have hs : scan ((34 :: pre) ++ c :: rest) =
      .error (str "Control character in string", c :: rest) := by
    rw [List.cons_append, scan_quote, scanString_eq]
    simp only [List.tail_cons, scanStringLoop_negative hp c rest [] hc, bind, Except.bind]
  rw [Lexer.getNextToken_eq hv]
  have := @Lexer.lift_error Token l (34 :: pre) (c :: rest) (str "Control character in string")
  rw [← hs] at this
  rw [List.cons_append] at this
  rw [this, List.length_cons]

/-! ## The word count tool: one pass over the bytes -/

theorem Ccwc.countByte_flag (sel : Ccwc.Sel) (st : Bool × Ccwc.Counts) (ch : Nat) :
    (Ccwc.countByte sel st ch).1 =
      if sel.w then (if Ccwc.isspace ch then false else true) else st.1 := by
  obtain ⟨iw, out⟩ := st
  obtain ⟨l, w, c, m⟩ := sel
  cases w <;> cases hs : Ccwc.isspace ch <;> cases iw <;> simp [Ccwc.countByte, hs]

theorem Ccwc.countByte_words (sel : Ccwc.Sel) (st : Bool × Ccwc.Counts) (ch : Nat) :
    (Ccwc.countByte sel st ch).2.words =
      if sel.w = true ∧ Ccwc.isspace ch = false ∧ st.1 = false then (st.2.words + 1) % 2 ^ 64
      else st.2.words := by
  obtain ⟨iw, out⟩ := st
  obtain ⟨l, w, c, m⟩ := sel
  cases w <;> cases hs : Ccwc.isspace ch <;> cases iw <;> simp [Ccwc.countByte, hs] <;>
    split_ifs <;> rfl

theorem Ccwc.countByte_lines (sel : Ccwc.Sel) (st : Bool × Ccwc.Counts) (ch : Nat) :
    (Ccwc.countByte sel st ch).2.lines =
      if sel.l = true ∧ ch = 10 then (st.2.lines + 1) % 2 ^ 64 else st.2.lines := by
  obtain ⟨iw, out⟩ := st
  obtain ⟨l, w, c, m⟩ := sel
  cases w <;> cases hs : Ccwc.isspace ch <;> cases iw <;> simp [Ccwc.countByte, hs] <;>
    split_ifs <;> simp_all

theorem Ccwc.runsAfter_nil (iw : Bool) : Ccwc.runsAfter iw [] = 0 := by
  simp [Ccwc.runsAfter, List.splitOnP_nil]

theorem Ccwc.runsAfter_false (xs : List Nat) :
    Ccwc.runsAfter false xs = ((xs.splitOnP Ccwc.isspace).filter fun w => !w.isEmpty).length := by
  unfold Ccwc.runsAfter
  cases h : xs.splitOnP Ccwc.isspace with
  | nil => rfl
  | cons first rest =>
    simp only [Bool.false_eq_true, false_or]
    cases hf : first.isEmpty with
    | true => simp [List.filter_cons, hf]
    | false => simp [List.filter_cons, hf]; omega

theorem Ccwc.runsAfter_cons (iw : Bool) (x : Nat) (xs : List Nat) :
    Ccwc.runsAfter iw (x :: xs) =
      if Ccwc.isspace x then Ccwc.runsAfter false xs
      else (if iw then 0 else 1) + Ccwc.runsAfter true xs := by
  by_cases hx : Ccwc.isspace x = true
  · rw [if_pos hx, Ccwc.runsAfter_false]
    unfold Ccwc.runsAfter
    rw [List.splitOnP_cons, if_pos hx]
    simp
  · rw [if_neg hx]
    unfold Ccwc.runsAfter
    rw [List.splitOnP_cons, if_neg hx]
    cases h : xs.splitOnP Ccwc.isspace with
    | nil => exact absurd h (List.splitOnP_ne_nil _ _)
    | cons first rest =>
      cases iw <;> simp [List.modifyHead]

theorem Ccwc.wordRuns_eq (xs : List Nat) : Ccwc.wordRuns xs = Ccwc.runsAfter false xs :=
  (Ccwc.runsAfter_false xs).symm

theorem Ccwc.countByte_words_lt (sel : Ccwc.Sel) (st : Bool × Ccwc.Counts) (ch : Nat)
    (h : st.2.words < 2 ^ 64) : (Ccwc.countByte sel st ch).2.words < 2 ^ 64 := by
  rw [Ccwc.countByte_words]
  split_ifs
  · exact Nat.mod_lt _ (by positivity)
  · exact h

theorem Ccwc.countByte_lines_lt (sel : Ccwc.Sel) (st : Bool × Ccwc.Counts) (ch : Nat)
    (h : st.2.lines < 2 ^ 64) : (Ccwc.countByte sel st ch).2.lines < 2 ^ 64 := by
  rw [Ccwc.countByte_lines]
  split_ifs
  · exact Nat.mod_lt _ (by positivity)
  · exact h

/-- The words counted by one pass over the bytes, with `-w` selected. -/
theorem Ccwc.foldl_words (sel : Ccwc.Sel) (hw : sel.w = true) :
    ∀ (xs : List Nat) (st : Bool × Ccwc.Counts), st.2.words < 2 ^ 64 →
      (xs.foldl (Ccwc.countByte sel) st).2.words =
        (st.2.words + Ccwc.runsAfter st.1 xs) % 2 ^ 64 := by
  intro xs
  induction xs with
  | nil =>
    intro st h
    rw [List.foldl_nil, Ccwc.runsAfter_nil, Nat.add_zero, Nat.mod_eq_of_lt h]
  | cons x xs ih =>
    intro st h
    rw [List.foldl_cons, ih _ (Ccwc.countByte_words_lt sel st x h), Ccwc.countByte_flag,
      Ccwc.countByte_words, Ccwc.runsAfter_cons, if_pos hw]
    by_cases hx : Ccwc.isspace x = true
    · rw [if_pos hx, if_pos hx, if_neg (by rw [hx]; simp)]
    · rw [if_neg hx, if_neg hx]
      cases hi : st.1 with
      | true =>
        rw [if_neg (by simp), if_pos rfl, Nat.zero_add]
      | false =>
        rw [if_pos ⟨hw, by simpa using hx, rfl⟩, if_neg (by simp), Nat.mod_add_mod,
          Nat.add_assoc]

/-- The lines counted by one pass over the bytes, with `-l` selected. -/
theorem Ccwc.foldl_lines (sel : Ccwc.Sel) (hl : sel.l = true) :
    ∀ (xs : List Nat) (st : Bool × Ccwc.Counts), st.2.lines < 2 ^ 64 →
      (xs.foldl (Ccwc.countByte sel) st).2.lines =
        (st.2.lines + Ccwc.newlines xs) % 2 ^ 64 := by
  intro xs
  induction xs with
  | nil =>
    intro st h
    simp only [List.foldl_nil, Ccwc.newlines, List.count_nil, Nat.add_zero]
    rw [Nat.mod_eq_of_lt h]
  | cons x xs ih =>
    intro st h
    rw [List.foldl_cons, ih _ (Ccwc.countByte_lines_lt sel st x h), Ccwc.countByte_lines]
    unfold Ccwc.newlines
    by_cases hx : x = 10
    · rw [if_pos ⟨hl, hx⟩, hx, List.count_cons_self, Nat.mod_add_mod]
      congr 1; omega
    · rw [if_neg (by simp [hx]), List.count_cons_of_ne (Ne.symm hx)]

/-- The flag and the counters of words and lines after a pass depend only on what they were
before it. -/
theorem Ccwc.foldl_congr (sel : Ccwc.Sel) :
    ∀ (xs : List Nat) (st st' : Bool × Ccwc.Counts), st.1 = st'.1 →
      st.2.words = st'.2.words → st.2.lines = st'.2.lines →
      (xs.foldl (Ccwc.countByte sel) st).1 = (xs.foldl (Ccwc.countByte sel) st').1 ∧
      (xs.foldl (Ccwc.countByte sel) st).2.words =
        (xs.foldl (Ccwc.countByte sel) st').2.words ∧
      (xs.foldl (Ccwc.countByte sel) st).2.lines =
        (xs.foldl (Ccwc.countByte sel) st').2.lines := by
  intro xs
  induction xs with
  | nil => intro st st' h1 h2 h3; exact ⟨h1, h2, h3⟩
  | cons x xs ih =>
    intro st st' h1 h2 h3
    rw [List.foldl_cons, List.foldl_cons]
    refine ih _ _ ?_ ?_ ?_
    · rw [Ccwc.countByte_flag, Ccwc.countByte_flag, h1]
    · rw [Ccwc.countByte_words, Ccwc.countByte_words, h1, h2]
    · rw [Ccwc.countByte_lines, Ccwc.countByte_lines, h3]

/-- The loop of `count_stream` returns, and it counts the words and lines of one pass over the
whole stream, whatever the size of the buffer. -/
theorem Ccwc.countLoop_pass (bufSize : Nat) (hb : 1 ≤ bufSize) (sel : Ccwc.Sel) :
    ∀ (fuel : Nat) (stream : List Nat) (in_word : Bool) (out : Ccwc.Counts),
      stream.length < fuel →
      ∃ out', Ccwc.countLoop bufSize sel fuel stream in_word out = some (true, out') ∧
        out'.words = (stream.foldl (Ccwc.countByte sel) (in_word, out)).2.words ∧
        out'.lines = (stream.foldl (Ccwc.countByte sel) (in_word, out)).2.lines := by
  intro fuel
  induction fuel with
  | zero => intro stream _ _ h; omega
  | succ fuel ih =>
    intro stream in_word out h
    unfold Ccwc.countLoop
    simp only
    by_cases hg : min bufSize stream.length ≤ 0
    · rw [if_pos hg]
      have : stream = [] := by
        apply List.length_eq_zero.mp
        rcases Nat.le_total bufSize stream.length with h1 | h1
        · rw [Nat.min_eq_left h1] at hg; omega
        · rw [Nat.min_eq_right h1] at hg; omega
      subst this
      exact ⟨out, rfl, rfl, rfl⟩
    · rw [if_neg hg]
      have hlen : (stream.drop (min bufSize stream.length)).length < fuel := by
        rw [List.length_drop]; omega
      have hout : ∀ out1 : Ccwc.Counts, out1.words = out.words → out1.lines = out.lines →
          ∃ out', Ccwc.countLoop bufSize sel fuel (stream.drop (min bufSize stream.length))
              ((stream.take (min bufSize stream.length)).foldl (Ccwc.countByte sel)
                (in_word, out1)).1
              ((stream.take (min bufSize stream.length)).foldl (Ccwc.countByte sel)
                (in_word, out1)).2 = some (true, out') ∧
            out'.words = (stream.foldl (Ccwc.countByte sel) (in_word, out)).2.words ∧
            out'.lines = (stream.foldl (Ccwc.countByte sel) (in_word, out)).2.lines := by
        intro out1 hw1 hl1
        obtain ⟨out', he, h1, h2⟩ := ih (stream.drop (min bufSize stream.length))
          ((stream.take (min bufSize stream.length)).foldl (Ccwc.countByte sel)
            (in_word, out1)).1
          ((stream.take (min bufSize stream.length)).foldl (Ccwc.countByte sel)
            (in_word, out1)).2 hlen
        have c0 := Ccwc.foldl_congr sel (stream.take (min bufSize stream.length))
          (in_word, out1) (in_word, out) rfl hw1 hl1
        have c1 := Ccwc.foldl_congr sel (stream.drop (min bufSize stream.length))
          (((stream.take (min bufSize stream.length)).foldl (Ccwc.countByte sel)
            (in_word, out1)).1,
            ((stream.take (min bufSize stream.length)).foldl (Ccwc.countByte sel)
            (in_word, out1)).2)
          ((stream.take (min bufSize stream.length)).foldl (Ccwc.countByte sel)
            (in_word, out)) c0.1 c0.2.1 c0.2.2
        have hsplit : stream.foldl (Ccwc.countByte sel) (in_word, out) =
            (stream.drop (min bufSize stream.length)).foldl (Ccwc.countByte sel)
              ((stream.take (min bufSize stream.length)).foldl (Ccwc.countByte sel)
                (in_word, out)) := by
          conv_lhs => rw [← List.take_append_drop (min bufSize stream.length) stream,
            List.foldl_append]
        refine ⟨out', he, ?_, ?_⟩
        · rw [h1, hsplit]; exact c1.2.1
        · rw [h2, hsplit]; exact c1.2.2
      by_cases hc : sel.c = true
      · rw [if_pos hc]; exact hout _ rfl rfl
      · rw [if_neg hc]; exact hout _ rfl rfl

theorem Ccwc.runsAfter_le (iw : Bool) (xs : List Nat) : Ccwc.runsAfter iw xs ≤ xs.length := by
  induction xs generalizing iw with
  | nil => rw [Ccwc.runsAfter_nil]; exact Nat.le_refl _
  | cons x xs ih =>
    rw [Ccwc.runsAfter_cons, List.length_cons]
    split_ifs
    · exact Nat.le_succ_of_le (ih false)
    · have := ih true; omega
    · have := ih true; omega

/-- Reading the stream in chunks, however it is split, is one pass over its bytes. -/
theorem Ccwc.foldl_chunks (sel : Ccwc.Sel) (chunks : List (List Nat))
    (st : Bool × Ccwc.Counts) :
    chunks.foldl (fun st chunk => chunk.foldl (Ccwc.countByte sel) st) st =
      chunks.flatten.foldl (Ccwc.countByte sel) st := by
  induction chunks generalizing st with
  | nil => rfl
  | cons c cs ih => rw [List.foldl_cons, ih, List.flatten_cons, List.foldl_append]

/-- The loop of `count_stream` from the start of the stream, with any buffer size. -/
theorem Ccwc.countLoop_counts (bufSize : Nat) (hb : 1 ≤ bufSize) (sel : Ccwc.Sel)
    (input : List Nat) :
    ∃ out, Ccwc.countLoop bufSize sel (input.length + 1) input false ⟨0, 0, 0, 0⟩ =
        some (true, out) ∧
      (sel.w = true → out.words = Ccwc.wordRuns input % 2 ^ 64) ∧
      (sel.l = true → out.lines = Ccwc.newlines input % 2 ^ 64) := by
  obtain ⟨out, he, h1, h2⟩ := Ccwc.countLoop_pass bufSize hb sel (input.length + 1) input false
    ⟨0, 0, 0, 0⟩ (Nat.lt_succ_self _)
  refine ⟨out, he, ?_, ?_⟩
  · intro hw
    rw [h1, Ccwc.foldl_words sel hw input _ (by simp), Ccwc.wordRuns_eq]
    simp
  · intro hl
    rw [h2, Ccwc.foldl_lines sel hl input _ (by simp)]
    simp

/-! ## Rounding, in rational numbers -/

theorem divRound_close (a b : Nat) (hb : 0 < b) :
    |((divRound a b : Nat) : ℚ) - (a : ℚ) / b| ≤ 1 / 2 := by
  have hbq : (0 : ℚ) < b := by exact_mod_cast hb
  have hdm : (a : ℚ) = (b : ℚ) * ((a / b : Nat) : ℚ) + ((a % b : Nat) : ℚ) := by
    exact_mod_cast (Nat.div_add_mod a b).symm
  have hr : a % b < b := Nat.mod_lt _ hb
  have hrq : ((a % b : Nat) : ℚ) < b := by exact_mod_cast hr
  have hr0 : (0 : ℚ) ≤ ((a % b : Nat) : ℚ) := by positivity
  have hfrac : (a : ℚ) / b = ((a / b : Nat) : ℚ) + ((a % b : Nat) : ℚ) / b := by
    rw [hdm]; field_simp; ring
  unfold divRound
  by_cases hc : b < 2 * (a % b) ∨ (2 * (a % b) = b ∧ a / b % 2 = 1)
  · rw [if_pos hc]
    have h2 : (b : ℚ) ≤ 2 * ((a % b : Nat) : ℚ) := by
      rcases hc with h | ⟨h, _⟩
      · exact_mod_cast Nat.le_of_lt h
      · exact_mod_cast Nat.le_of_eq h.symm
    rw [hfrac, abs_le]
    push_cast
    constructor
    · have : ((a % b : Nat) : ℚ) / b ≤ 1 := by rw [div_le_one hbq]; exact le_of_lt hrq
      linarith
    · have : (1 : ℚ) / 2 ≤ ((a % b : Nat) : ℚ) / b := by
        rw [le_div_iff₀ hbq]; linarith
      linarith
  · rw [if_neg hc]
    have h2 : 2 * ((a % b : Nat) : ℚ) ≤ b := by
      have : ¬ b < 2 * (a % b) := fun h => hc (.inl h)
      exact_mod_cast Nat.le_of_not_lt this
    rw [hfrac, abs_le]
    constructor
    · have : ((a % b : Nat) : ℚ) / b ≤ 1 / 2 := by
        rw [div_le_iff₀ hbq]; linarith
      linarith
    · have : (0 : ℚ) ≤ ((a % b : Nat) : ℚ) / b := by positivity
      linarith

theorem round_unique (r m : Nat) (y : ℚ) (hr : |(r : ℚ) - y| ≤ 1 / 2)
    (hm : |(m : ℚ) - y| < 1 / 2) : r = m := by
  rw [abs_le] at hr
  rw [abs_lt] at hm
  have h1 : (r : ℚ) < m + 1 := by linarith
  have h2 : (m : ℚ) < r + 1 := by linarith
  have h1' : r < m + 1 := by exact_mod_cast h1
  have h2' : m < r + 1 := by exact_mod_cast h2
  omega

theorem zpow_toNat_of_nonneg (b : ℚ) (x : Int) (hx : 0 ≤ x) : b ^ x = b ^ x.toNat := by
  conv_lhs => rw [← Int.toNat_of_nonneg hx]
  exact zpow_natCast b x.toNat

theorem zpow_toNat_of_neg (b : ℚ) (x : Int) (hx : x ≤ 0) : b ^ x = (b ^ (-x).toNat)⁻¹ := by
  have : x = -((-x).toNat : Int) := by rw [Int.toNat_of_nonneg (by omega)]; omega
  conv_lhs => rw [this]
  rw [zpow_neg, zpow_natCast]

theorem geTen_iff (n d : Nat) (hd : 0 < d) (x : Int) :
    geTen n d x = true ↔ (10 : ℚ) ^ x ≤ (n : ℚ) / d := by
  have hdq : (0 : ℚ) < d := by exact_mod_cast hd
  unfold geTen
  by_cases hx : 0 ≤ x
  · rw [if_pos hx, decide_eq_true_eq, zpow_toNat_of_nonneg _ _ hx, le_div_iff₀ hdq]
    constructor
    · intro h
      have : ((d * 10 ^ x.toNat : Nat) : ℚ) ≤ n := by exact_mod_cast h
      push_cast at this
      linarith
    · intro h
      have : ((d * 10 ^ x.toNat : Nat) : ℚ) ≤ n := by push_cast; linarith
      exact_mod_cast this
  · rw [if_neg hx, decide_eq_true_eq, zpow_toNat_of_neg _ _ (by omega), le_div_iff₀ hdq]
    have hp : (0 : ℚ) < 10 ^ (-x).toNat := by positivity
    rw [inv_mul_le_iff₀ hp]
    constructor
    · intro h
      have : ((d : Nat) : ℚ) ≤ ((n * 10 ^ (-x).toNat : Nat) : ℚ) := by exact_mod_cast h
      push_cast at this
      linarith
    · intro h
      have : ((d : Nat) : ℚ) ≤ ((n * 10 ^ (-x).toNat : Nat) : ℚ) := by push_cast; linarith
      exact_mod_cast this

theorem scaleRound_close (n d : Nat) (hd : 0 < d) (k : Int) :
    |((scaleRound n d k : Nat) : ℚ) - (n : ℚ) / d * 10 ^ k| ≤ 1 / 2 := by
  have hdq : (0 : ℚ) < d := by exact_mod_cast hd
  unfold scaleRound
  by_cases hk : 0 ≤ k
  · rw [if_pos hk, zpow_toNat_of_nonneg _ _ hk]
    have := divRound_close (n * 10 ^ k.toNat) d hd
    have e : ((n * 10 ^ k.toNat : Nat) : ℚ) / d = (n : ℚ) / d * 10 ^ k.toNat := by
      push_cast; ring
    rw [e] at this
    exact this
  · rw [if_neg hk, zpow_toNat_of_neg _ _ (by omega)]
    have := divRound_close n (d * 10 ^ (-k).toNat) (Nat.mul_pos hd (by positivity))
    have e : (n : ℚ) / ((d * 10 ^ (-k).toNat : Nat) : ℚ) =
        (n : ℚ) / d * (10 ^ (-k).toNat)⁻¹ := by
      push_cast; field_simp
    rw [e] at this
    exact this

/-! ## The decimal exponent and the six digits, in rational numbers -/

theorem natToStr_length_pos (n : Nat) : 1 ≤ (natToStr n).length :=
  List.length_pos.mpr (natToStr_ne_nil n)

/-- The decimal exponent found for `n / d` brackets it. -/
theorem decimalExponent_spec (n d : Nat) (hn : 1 ≤ n) (hd : 1 ≤ d) :
    (10 : ℚ) ^ decimalExponent n d ≤ (n : ℚ) / d ∧
      (n : ℚ) / d < (10 : ℚ) ^ (decimalExponent n d + 1) := by
  have hdq : (0 : ℚ) < d := by exact_mod_cast hd
  refine ⟨(geTen_iff n d hd _).mp (geTen_decimalExponent n d hn hd), ?_⟩
  unfold decimalExponent
  simp only
  by_cases hc : geTen n d (((natToStr n).length : Int) - ((natToStr d).length : Int)) = true
  · rw [if_pos hc]
    obtain ⟨_, _, hn2⟩ := natToStr_spec n hn
    obtain ⟨_, hd1, _⟩ := natToStr_spec d hd
    have hld := natToStr_length_pos d
    have hn2q : (n : ℚ) < (10 : ℚ) ^ (natToStr n).length := by exact_mod_cast hn2
    have hd1q : (10 : ℚ) ^ ((natToStr d).length - 1) ≤ (d : ℚ) := by exact_mod_cast hd1
    rw [div_lt_iff₀ hdq]
    have he : (((natToStr n).length : Int) - ((natToStr d).length : Int) + 1) =
        ((natToStr n).length : Int) - (((natToStr d).length - 1 : Nat) : Int) := by omega
    rw [he, zpow_sub₀ (by norm_num), zpow_natCast, zpow_natCast]
    have hpos : (0 : ℚ) < 10 ^ ((natToStr d).length - 1) := by positivity
    calc (n : ℚ) < 10 ^ (natToStr n).length := hn2q
      _ = 10 ^ (natToStr n).length / 10 ^ ((natToStr d).length - 1) *
          10 ^ ((natToStr d).length - 1) := by field_simp
      _ ≤ 10 ^ (natToStr n).length / 10 ^ ((natToStr d).length - 1) * d := by
          apply mul_le_mul_of_nonneg_left hd1q
          positivity
  · rw [if_neg hc]
    have := (geTen_iff n d hd _).not.mp hc
    rw [not_le] at this
    have he : ((natToStr n).length : Int) - ((natToStr d).length : Int) - 1 + 1 =
        ((natToStr n).length : Int) - ((natToStr d).length : Int) := by omega
    rw [he]
    exact this

theorem zpow_bracket_unique {v : ℚ} {a b : Int} (ha : (10 : ℚ) ^ a ≤ v)
    (ha' : v < (10 : ℚ) ^ (a + 1)) (hb : (10 : ℚ) ^ b ≤ v) (hb' : v < (10 : ℚ) ^ (b + 1)) :
    a = b := by
  have h1 : (10 : ℚ) ^ a < (10 : ℚ) ^ (b + 1) := lt_of_le_of_lt ha hb'
  have h2 : (10 : ℚ) ^ b < (10 : ℚ) ^ (a + 1) := lt_of_le_of_lt hb ha'
  rw [zpow_lt_zpow_iff_right₀ (by norm_num)] at h1 h2
  omega

/-- The decimal exponent is the one that brackets the number. -/
theorem decimalExponent_eq (n d : Nat) (hn : 1 ≤ n) (hd : 1 ≤ d) (x : Int)
    (h1 : (10 : ℚ) ^ x ≤ (n : ℚ) / d) (h2 : (n : ℚ) / d < (10 : ℚ) ^ (x + 1)) :
    decimalExponent n d = x := by
  obtain ⟨a, b⟩ := decimalExponent_spec n d hn hd
  exact zpow_bracket_unique a b h1 h2

/-- The six digits are a number of six digits. -/
theorem digits6_lt (n d : Nat) (hn : 1 ≤ n) (hd : 1 ≤ d) : (digits6 n d).1 < 10 ^ 6 := by
  obtain ⟨_, hb⟩ := decimalExponent_spec n d hn hd
  have hc := scaleRound_close n d hd (5 - decimalExponent n d)
  have hle : scaleRound n d (5 - decimalExponent n d) ≤ 10 ^ 6 := by
    have hy : (n : ℚ) / d * 10 ^ (5 - decimalExponent n d) < 10 ^ (6 : Int) := by
      have hp : (0 : ℚ) < 10 ^ (5 - decimalExponent n d) := by positivity
      calc (n : ℚ) / d * 10 ^ (5 - decimalExponent n d)
          < 10 ^ (decimalExponent n d + 1) * 10 ^ (5 - decimalExponent n d) :=
            mul_lt_mul_of_pos_right hb hp
        _ = 10 ^ (6 : Int) := by
            rw [← zpow_add₀ (by norm_num)]
            congr 1; omega
    rw [abs_le] at hc
    have : ((scaleRound n d (5 - decimalExponent n d) : Nat) : ℚ) < 10 ^ 6 + 1 := by
      have h6 : (10 : ℚ) ^ (6 : Int) = 10 ^ 6 := by norm_num
      rw [h6] at hy
      linarith
    have : scaleRound n d (5 - decimalExponent n d) < 10 ^ 6 + 1 := by exact_mod_cast this
    omega
  unfold digits6
  simp only
  split_ifs with h
  · norm_num
  · omega

/-- The six digits of a number are the digits `m` with the exponent `x` when the number,
scaled to the exponent `x`, is close to `m`. -/
theorem digits6_eq (n d : Nat) (hn : 1 ≤ n) (hd : 1 ≤ d) (m : Nat) (x : Int)
    (hm1 : 10 ^ 5 ≤ m) (hm2 : m < 10 ^ 6)
    (hy : |(n : ℚ) / d * 10 ^ (5 - x) - m| ≤ 1 / 100) : digits6 n d = (m, x) := by
  have hdq : (0 : ℚ) < d := by exact_mod_cast hd
  have hm1q : (10 : ℚ) ^ 5 ≤ m := by exact_mod_cast hm1
  have hm2q : (m : ℚ) ≤ 10 ^ 6 - 1 := by
    have : m + 1 ≤ 10 ^ 6 := hm2
    have : ((m + 1 : Nat) : ℚ) ≤ 10 ^ 6 := by exact_mod_cast this
    push_cast at this
    linarith
  rw [abs_le] at hy
  have hp : (0 : ℚ) < 10 ^ (5 - x) := by positivity
  have hscale : ∀ k : Int, (n : ℚ) / d * 10 ^ (5 - x) * 10 ^ (k - 5) = (n : ℚ) / d * 10 ^ (k - x) := by
    intro k
    rw [mul_assoc, ← zpow_add₀ (by norm_num)]
    congr 2; omega
  by_cases hcase : (10 : ℚ) ^ (5 : Int) ≤ (n : ℚ) / d * 10 ^ (5 - x)
  · -- the exponent is `x`
    have hx : decimalExponent n d = x := by
      apply decimalExponent_eq n d hn hd
      · have := mul_le_mul_of_nonneg_right hcase (le_of_lt (by positivity : (0 : ℚ) < 10 ^ (x - 5)))
        rw [hscale x, ← zpow_add₀ (by norm_num)] at this
        simpa using this
      · have hlt : (n : ℚ) / d * 10 ^ (5 - x) < 10 ^ (6 : Int) := by
          have h6 : (10 : ℚ) ^ (6 : Int) = 10 ^ 6 := by norm_num
          rw [h6]; linarith
        have := mul_lt_mul_of_pos_right hlt (by positivity : (0 : ℚ) < 10 ^ (x - 5))
        rw [hscale x, ← zpow_add₀ (by norm_num)] at this
        have e : (6 : Int) + (x - 5) = x + 1 := by omega
        rw [e] at this
        simpa using this
    have hm0 : scaleRound n d (5 - x) = m := by
      apply round_unique _ _ _ (scaleRound_close n d hd (5 - x))
      rw [abs_lt]
      constructor <;> linarith
    unfold digits6
    simp only
    rw [hx, hm0, if_neg (by omega), if_neg (by omega)]
  · -- the number is just below `10^x`: the exponent found is `x - 1`, the digits round up
    rw [not_le] at hcase
    have h5 : (10 : ℚ) ^ (5 : Int) = 10 ^ 5 := by norm_num
    rw [h5] at hcase
    have hm : m = 10 ^ 5 := by
      have : (m : ℚ) < 10 ^ 5 + 1 := by linarith
      have : m < 10 ^ 5 + 1 := by exact_mod_cast this
      omega
    have hmq : (m : ℚ) = 10 ^ 5 := by rw [hm]; norm_num
    have hx : decimalExponent n d = x - 1 := by
      apply decimalExponent_eq n d hn hd
      · have h4 : (10 : ℚ) ^ (4 : Int) ≤ (n : ℚ) / d * 10 ^ (5 - x) := by
          have : (10 : ℚ) ^ (4 : Int) = 10 ^ 4 := by norm_num
          rw [this]; rw [hmq] at hy; linarith
        have := mul_le_mul_of_nonneg_right h4 (le_of_lt (by positivity : (0 : ℚ) < 10 ^ (x - 5)))
        rw [hscale x, ← zpow_add₀ (by norm_num)] at this
        have e : (4 : Int) + (x - 5) = x - 1 := by omega
        rw [e] at this
        simpa using this
      · have hlt : (n : ℚ) / d * 10 ^ (5 - x) < 10 ^ (5 : Int) := by rw [h5]; exact hcase
        have := mul_lt_mul_of_pos_right hlt (by positivity : (0 : ℚ) < 10 ^ (x - 5))
        rw [hscale x, ← zpow_add₀ (by norm_num)] at this
        have e : (5 : Int) + (x - 5) = x - 1 + 1 := by omega
        rw [e] at this
        simpa using this
    have hm0 : scaleRound n d (5 - (x - 1)) = 10 ^ 6 := by
      apply round_unique _ _ _ (scaleRound_close n d hd (5 - (x - 1)))
      have e : (n : ℚ) / d * 10 ^ (5 - (x - 1)) = (n : ℚ) / d * 10 ^ (5 - x) * 10 := by
        have : (5 : Int) - (x - 1) = (5 - x) + 1 := by omega
        rw [this, zpow_add₀ (by norm_num), zpow_one, mul_assoc]
      rw [e, abs_lt]
      rw [hmq] at hy
      push_cast
      constructor <;> linarith
    unfold digits6
    simp only
    rw [hx, hm0, if_pos rfl, if_pos rfl, hm]
    congr 1
    omega

/-! ## The conversion to binary64, in rational numbers -/

theorem scaledBy_spec (num den : Nat) (hden : 0 < den) (e : Int) :
    0 < (scaledBy num den e).2 ∧
      ((scaledBy num den e).1 : ℚ) / (scaledBy num den e).2 = (num : ℚ) / den / 2 ^ e := by
  have hdq : (0 : ℚ) < den := by exact_mod_cast hden
  unfold scaledBy
  by_cases he : 0 ≤ e
  · rw [if_pos he]
    refine ⟨Nat.mul_pos hden (by positivity), ?_⟩
    rw [zpow_toNat_of_nonneg _ _ he]
    push_cast
    field_simp
  · rw [if_neg he]
    refine ⟨hden, ?_⟩
    rw [zpow_toNat_of_neg _ _ (by omega)]
    push_cast
    field_simp

theorem stripTwos_value (fuel : Nat) : ∀ (m : Nat) (e : Int),
    ((stripTwos fuel m e).1 : ℚ) * 2 ^ (stripTwos fuel m e).2 = (m : ℚ) * 2 ^ e ∧
      (1 ≤ m → 1 ≤ (stripTwos fuel m e).1) := by
  induction fuel with
  | zero => intro m e; exact ⟨rfl, fun h => h⟩
  | succ fuel ih =>
    intro m e
    unfold stripTwos
    by_cases h : m ≠ 0 ∧ m % 2 = 0
    · rw [if_pos h]
      obtain ⟨h1, h2⟩ := ih (m / 2) (e + 1)
      refine ⟨?_, fun _ => h2 (by omega)⟩
      rw [h1, zpow_add₀ (by norm_num), zpow_one]
      have hm : (m : ℚ) = 2 * ((m / 2 : Nat) : ℚ) := by
        have : m = 2 * (m / 2) := by omega
        exact_mod_cast this
      rw [hm]
      ring
    · rw [if_neg h]
      exact ⟨rfl, fun h => h⟩

/-- The datum of a scaled mantissa is finite, with the value of the scaled mantissa. -/
theorem Double.ofScaled_value (neg : Bool) (q : Nat) (e : Int) (hq : 1 ≤ q) :
    ∃ man exp, Double.ofScaled neg q e = .finite neg man exp ∧ 1 ≤ man ∧
      (man : ℚ) * 2 ^ exp = (q : ℚ) * 2 ^ e := by
  unfold Double.ofScaled
  rw [if_neg (by omega)]
  obtain ⟨h1, h2⟩ := stripTwos_value 64 q e
  exact ⟨_, _, rfl, h2 hq, h1⟩

theorem divRound_exact (a b : Nat) (hb : 0 < b) (h : a % b = 0) :
    ((divRound a b : Nat) : ℚ) = (a : ℚ) / b ∧ divRound a b = a / b := by
  have hd : divRound a b = a / b := by
    unfold divRound
    rw [if_neg (by rw [h]; omega)]
  refine ⟨?_, hd⟩
  rw [hd]
  have hbq : (b : ℚ) ≠ 0 := by exact_mod_cast (Nat.pos_iff_ne_zero.mp hb)
  have : a = b * (a / b) := by
    have := Nat.div_add_mod a b
    omega
  rw [eq_div_iff hbq]
  exact_mod_cast (by rw [Nat.mul_comm]; exact this.symm)

/-- A text value that `std::stod` converts gives a finite number at most half a unit in the
last place away: the relative error is at most `2^-53`. -/
theorem roundToDouble_ok {neg : Bool} {num den : Nat} {d : Double} (hnum : 1 ≤ num)
    (hden : 1 ≤ den) (h : roundToDouble neg num den = .ok d) :
    ∃ man exp, d = .finite neg man exp ∧ 1 ≤ man ∧
      |(man : ℚ) * 2 ^ exp - (num : ℚ) / den| ≤ (man : ℚ) * 2 ^ exp / 2 ^ 53 := by
  unfold roundToDouble at h
  rw [if_neg (by omega)] at h
  simp only at h
  obtain ⟨hpos, hval⟩ := scaledBy_spec num den hden (binaryExponent num den)
  have hclose := divRound_close (scaledBy num den (binaryExponent num den)).1
    (scaledBy num den (binaryExponent num den)).2 hpos
  rw [hval] at hclose
  have h2e : (0 : ℚ) < 2 ^ binaryExponent num den := by positivity
  by_cases h1 : 971 < binaryExponent num den ∨ (binaryExponent num den = 971 ∧
      2 ^ 53 ≤ divRound (scaledBy num den (binaryExponent num den)).1
        (scaledBy num den (binaryExponent num den)).2)
  · rw [if_pos h1] at h; cases h
  rw [if_neg h1] at h
  by_cases h2 : divRound (scaledBy num den (binaryExponent num den)).1
      (scaledBy num den (binaryExponent num den)).2 < 2 ^ 52 ∧
      (scaledBy num den (binaryExponent num den)).1 %
        (scaledBy num den (binaryExponent num den)).2 ≠ 0
  · rw [if_pos h2] at h; cases h
  rw [if_neg h2] at h
  simp only [Except.ok.injEq] at h
  subst h
  have hnq : (0 : ℚ) < (num : ℚ) / den := by
    have : (0 : ℚ) < num := by exact_mod_cast hnum
    have : (0 : ℚ) < den := by exact_mod_cast hden
    positivity
  by_cases hbig : 2 ^ 52 ≤ divRound (scaledBy num den (binaryExponent num den)).1
      (scaledBy num den (binaryExponent num den)).2
  · obtain ⟨man, exp, he, hman, hv⟩ := Double.ofScaled_value neg _ (binaryExponent num den)
      (Nat.le_trans (by norm_num) hbig)
    refine ⟨man, exp, he, hman, ?_⟩
    rw [hv]
    have hbq : (2 : ℚ) ^ 52 ≤ (divRound (scaledBy num den (binaryExponent num den)).1
        (scaledBy num den (binaryExponent num den)).2 : Nat) := by exact_mod_cast hbig
    generalize ((divRound (scaledBy num den (binaryExponent num den)).1
        (scaledBy num den (binaryExponent num den)).2 : Nat) : ℚ) = q at hclose hbq ⊢
    generalize (2 : ℚ) ^ binaryExponent num den = t at hclose h2e ⊢
    generalize (num : ℚ) / den = v at hclose hnq ⊢
    have e1 : q * t - v = (q - v / t) * t := by field_simp
    rw [e1, abs_mul, abs_of_pos h2e]
    calc |q - v / t| * t ≤ 1 / 2 * t := mul_le_mul_of_nonneg_right hclose (le_of_lt h2e)
      _ = 2 ^ 52 * t / 2 ^ 53 := by ring
      _ ≤ q * t / 2 ^ 53 := by
          apply div_le_div_of_nonneg_right _ (by positivity)
          exact mul_le_mul_of_nonneg_right hbq (le_of_lt h2e)
  · have hrem : (scaledBy num den (binaryExponent num den)).1 %
        (scaledBy num den (binaryExponent num den)).2 = 0 := by
      by_contra hne
      exact h2 ⟨by omega, hne⟩
    obtain ⟨hex, hdiv⟩ := divRound_exact _ _ hpos hrem
    rw [hval] at hex
    have hq1 : 1 ≤ divRound (scaledBy num den (binaryExponent num den)).1
        (scaledBy num den (binaryExponent num den)).2 := by
      have : (0 : ℚ) < (divRound (scaledBy num den (binaryExponent num den)).1
          (scaledBy num den (binaryExponent num den)).2 : Nat) := by
        rw [hex]; positivity
      have : 0 < divRound (scaledBy num den (binaryExponent num den)).1
          (scaledBy num den (binaryExponent num den)).2 := by exact_mod_cast this
      omega
    obtain ⟨man, exp, he, hman, hv⟩ := Double.ofScaled_value neg _ (binaryExponent num den) hq1
    refine ⟨man, exp, he, hman, ?_⟩
    rw [hv, hex]
    have : (num : ℚ) / den / 2 ^ binaryExponent num den * 2 ^ binaryExponent num den =
        (num : ℚ) / den := by field_simp; ring
    rw [this, sub_self, abs_zero]
    positivity

/-! ## The number written by decimal digits -/

theorem digitsValue_foldl (ds : Str) (acc : Nat) :
    ds.foldl (fun n c => 10 * n + (c - 48).toNat) acc = acc * 10 ^ ds.length + digitsValue ds := by
  unfold digitsValue
  induction ds generalizing acc with
  | nil => simp
  | cons c t ih =>
    rw [List.foldl_cons, List.foldl_cons, ih, ih (10 * 0 + (c - 48).toNat), List.length_cons,
      pow_succ]
    ring

theorem digitsValue_nil : digitsValue [] = 0 := rfl

theorem digitsValue_append (a b : Str) :
    digitsValue (a ++ b) = digitsValue a * 10 ^ b.length + digitsValue b := by
  conv_lhs => unfold digitsValue
  rw [List.foldl_append, digitsValue_foldl]
  rfl

theorem digitsValue_singleton (c : Int) : digitsValue [c] = (c - 48).toNat := by
  simp [digitsValue]

theorem digitsValue_zeros (j : Nat) : digitsValue (List.replicate j 48) = 0 := by
  induction j with
  | zero => rfl
  | succ j ih =>
    rw [List.replicate_succ', digitsValue_append, ih, digitsValue_singleton]
    simp

theorem digitsValue_zeros_append (j : Nat) (a : Str) :
    digitsValue (List.replicate j 48 ++ a) = digitsValue a := by
  rw [digitsValue_append, digitsValue_zeros, Nat.zero_mul, Nat.zero_add]

theorem digitsValue_append_zeros (a : Str) (j : Nat) :
    digitsValue (a ++ List.replicate j 48) = digitsValue a * 10 ^ j := by
  rw [digitsValue_append, digitsValue_zeros, List.length_replicate, Nat.add_zero]

theorem digitsValue_natDigits (fuel : Nat) : ∀ n, n < 2 ^ fuel →
    digitsValue (natDigits fuel n) = n := by
  induction fuel with
  | zero =>
    intro n h
    have : n = 0 := by simpa using h
    rw [this]; rfl
  | succ fuel ih =>
    intro n h
    unfold natDigits
    by_cases h10 : n < 10
    · rw [if_pos h10, digitsValue_singleton]
      omega
    · rw [if_neg h10, digitsValue_append, digitsValue_singleton, ih (n / 10) (by
        rw [pow_succ] at h; omega)]
      simp only [List.length_singleton, pow_one]
      omega

theorem digitsValue_natToStr (n : Nat) : digitsValue (natToStr n) = n :=
  digitsValue_natDigits _ n (lt_two_pow_log2 n)

/-- What `stripZeros` removes is a run of zeros at the end. -/
theorem stripZeros_spec (t : Str) :
    t = stripZeros t ++ List.replicate (t.length - (stripZeros t).length) 48 := by
  unfold stripZeros
  have h := List.takeWhile_append_dropWhile (fun c => c == 48) t.reverse
  have hz : t.reverse.takeWhile (fun c => c == 48) =
      List.replicate (t.reverse.takeWhile (fun c => c == 48)).length 48 := by
    rw [List.eq_replicate_iff]
    exact ⟨rfl, fun b hb => by simpa using List.mem_takeWhile_imp hb⟩
  have hlen : t.length = (t.reverse.takeWhile (fun c => c == 48)).length +
      (t.reverse.dropWhile (fun c => c == 48)).length := by
    have := congrArg List.length h
    rw [List.length_append, List.length_reverse] at this
    exact this.symm
  have ht : t = (t.reverse.dropWhile (fun c => c == 48)).reverse ++
      (t.reverse.takeWhile (fun c => c == 48)).reverse := by
    rw [← List.reverse_append, h, List.reverse_reverse]
  rw [List.length_reverse]
  conv_lhs => rw [ht, hz, List.reverse_replicate]
  congr 2
  omega

theorem digitsValue_stripZeros (t : Str) :
    digitsValue t = digitsValue (stripZeros t) * 10 ^ (t.length - (stripZeros t).length) := by
  conv_lhs => rw [stripZeros_spec t]
  exact digitsValue_append_zeros _ _

theorem stripZeros_length_le (t : Str) : (stripZeros t).length ≤ t.length := by
  have := congrArg List.length (stripZeros_spec t)
  rw [List.length_append, List.length_replicate] at this
  omega

/-! ## The conversion of a number literal -/

theorem dropWhile_of_head {f : Int → Bool} {s : Str} (h : f (s.headD 0) = false) (hs : s ≠ []) :
    s.dropWhile f = s := by
  cases s with
  | nil => exact absurd rfl hs
  | cons a t =>
    simp only [List.headD_cons] at h
    exact List.dropWhile_cons_of_neg (by rw [h]; decide)

theorem takeSign_minus (body : Str) : takeSign (45 :: body) = (true, body) := rfl

theorem takeSign_plus (body : Str) : takeSign (43 :: body) = (false, body) := rfl

theorem takeSign_digit {s : Str} (h : isdigit (s.headD 0) = true) : takeSign s = (false, s) := by
  cases s with
  | nil => rfl
  | cons a t =>
    simp only [List.headD_cons] at h
    unfold takeSign
    simp only
    rw [if_neg (digit_ne_minus h), if_neg (by rintro rfl; exact absurd h (by decide))]

theorem takeWhile_isdigit_self {s : Str} (h : ∀ c ∈ s, isdigit c = true) :
    s.takeWhile isdigit = s := by
  have := (takeWhile_dropWhile_append (m := []) h (show isdigit 0 = false by decide)).1
  rwa [List.append_nil] at this

theorem takeExponent_nil : takeExponent [] = 0 := rfl

theorem takeExponent_minus {ds : Str} (hne : ds ≠ []) (hd : ∀ c ∈ ds, isdigit c = true) :
    takeExponent (101 :: 45 :: ds) = -(digitsValue ds : Int) := by
  unfold takeExponent
  simp only [true_or, ↓reduceIte, takeSign_minus, takeWhile_isdigit_self hd]
  rw [if_neg hne]

theorem takeExponent_plus {ds : Str} (hne : ds ≠ []) (hd : ∀ c ∈ ds, isdigit c = true) :
    takeExponent (101 :: 43 :: ds) = (digitsValue ds : Int) := by
  unfold takeExponent
  simp only [true_or, ↓reduceIte, takeSign_plus, takeWhile_isdigit_self hd]
  rw [if_neg hne]
  simp

/-- The conversion of a sign, digits, a fraction and an exponent `E`: the digits of the integer
part and of the fraction, scaled by ten to the exponent less the number of fraction digits. -/
theorem stod_build (neg : Bool) {ip fp ex : Str} (E : Int) (hne : ip ≠ [])
    (hip : ∀ c ∈ ip, isdigit c = true) (hfp : ∀ c ∈ fp, isdigit c = true)
    (hex : (ex = [] ∧ E = 0) ∨ ∃ ds, ds ≠ [] ∧ (∀ c ∈ ds, isdigit c = true) ∧
      ((ex = 101 :: 45 :: ds ∧ E = -(digitsValue ds : Int)) ∨
        (ex = 101 :: 43 :: ds ∧ E = (digitsValue ds : Int)))) :
    stod ((if neg then [45] else []) ++ (ip ++ pointText fp ++ ex)) =
      if 0 ≤ E - fp.length then
        roundToDouble neg (digitsValue (ip ++ fp) * 10 ^ (E - fp.length).toNat) 1
      else roundToDouble neg (digitsValue (ip ++ fp)) (10 ^ (-(E - fp.length)).toNat) := by
  have hexh : isdigit (ex.headD 0) = false ∧ ex.head? ≠ some 46 := by
    rcases hex with ⟨rfl, _⟩ | ⟨ds, _, _, ⟨rfl, _⟩ | ⟨rfl, _⟩⟩
    · exact ⟨by decide, by simp⟩
    · exact ⟨by simp only [List.headD_cons]; decide, by simp⟩
    · exact ⟨by simp only [List.headD_cons]; decide, by simp⟩
  have hE : takeExponent ex = E := by
    rcases hex with ⟨rfl, rfl⟩ | ⟨ds, hdn, hdd, ⟨rfl, rfl⟩ | ⟨rfl, rfl⟩⟩
    · rfl
    · exact takeExponent_minus hdn hdd
    · exact takeExponent_plus hdn hdd
  have hresth : isdigit ((pointText fp ++ ex).headD 0) = false := by
    unfold pointText
    by_cases hf : fp = []
    · rw [if_pos hf]; exact hexh.1
    · rw [if_neg hf]; rfl
  have hbody : isdigit ((ip ++ (pointText fp ++ ex)).headD 0) = true := by
    cases ip with
    | nil => exact absurd rfl hne
    | cons a t => exact hip a (by simp)
  have hbne : ip ++ (pointText fp ++ ex) ≠ [] := by
    cases ip with
    | nil => exact absurd rfl hne
    | cons a t => simp
  -- white space and sign
  have h12 : takeSign (((if neg then [45] else []) ++ (ip ++ (pointText fp ++ ex))).dropWhile
      isspace) = (neg, ip ++ (pointText fp ++ ex)) := by
    cases neg with
    | true =>
      simp only [↓reduceIte, List.cons_append, List.nil_append]
      rw [List.dropWhile_cons_of_neg (by decide), takeSign_minus]
    | false =>
      simp only [Bool.false_eq_true, ↓reduceIte, List.nil_append]
      have hsp : isspace ((ip ++ (pointText fp ++ ex)).headD 0) = false := by
        have := hbody
        simp only [isdigit, Bool.and_eq_true, decide_eq_true_eq] at this
        simp only [isspace, Bool.or_eq_false_iff, beq_eq_false_iff_ne, ne_eq,
          Bool.and_eq_false_iff, decide_eq_false_iff_not, not_le]
        omega
      rw [dropWhile_of_head hsp hbne, takeSign_digit hbody]
  -- integer part
  have h3 := takeWhile_dropWhile_append hip hresth
  -- fraction
  have h4 : (if (pointText fp ++ ex).head? = some 46 then
        (pointText fp ++ ex).tail.takeWhile isdigit else []) = fp ∧
      (if (pointText fp ++ ex).head? = some 46 then
        (pointText fp ++ ex).tail.dropWhile isdigit else pointText fp ++ ex) = ex := by
    unfold pointText
    by_cases hf : fp = []
    · rw [if_pos hf, List.nil_append, if_neg hexh.2, if_neg hexh.2]
      exact ⟨hf.symm, rfl⟩
    · rw [if_neg hf]
      simp only [List.cons_append, List.head?_cons, ↓reduceIte, List.tail_cons]
      exact takeWhile_dropWhile_append hfp hexh.1
  unfold stod
  simp only [List.append_assoc]
  rw [h12]
  simp only
  rw [h3.1, h3.2, h4.1, h4.2, hE, if_neg (fun h => hne h.1)]

/-! ## The conversion of the `%g` layout -/

theorem decimal_ratio (neg : Bool) (M : Nat) (k : Int) (hM : 1 ≤ M) :
    ∃ num den : Nat, 1 ≤ num ∧ 1 ≤ den ∧ (num : ℚ) / den = (M : ℚ) * 10 ^ k ∧
      (if 0 ≤ k then roundToDouble neg (M * 10 ^ k.toNat) 1
        else roundToDouble neg M (10 ^ (-k).toNat)) = roundToDouble neg num den := by
  by_cases hk : 0 ≤ k
  · refine ⟨M * 10 ^ k.toNat, 1, Nat.mul_pos hM (Nat.pos_pow_of_pos _ (by decide)), Nat.le_refl 1, ?_, by
      rw [if_pos hk]⟩
    rw [zpow_toNat_of_nonneg _ _ hk]
    push_cast
    ring
  · refine ⟨M, 10 ^ (-k).toNat, hM, Nat.pos_pow_of_pos _ (by decide), ?_, by rw [if_neg hk]⟩
    rw [zpow_toNat_of_neg _ _ (by omega)]
    push_cast
    ring

theorem scaled_value_eq (M m j : Nat) (k x : Int) (hm : m = M * 10 ^ j)
    (hk : k = x - 5 + j) : (M : ℚ) * 10 ^ k = (m : ℚ) * 10 ^ (x - 5) := by
  rw [hm, hk, zpow_add₀ (by norm_num), zpow_natCast]
  push_cast
  ring

theorem natToStr_six (m : Nat) (hm1 : 10 ^ 5 ≤ m) (hm2 : m < 10 ^ 6) :
    (natToStr m).length = 6 := by
  obtain ⟨_, h1, h2⟩ := natToStr_spec m (by omega)
  have a : 10 ^ ((natToStr m).length - 1) < 10 ^ 6 := Nat.lt_of_le_of_lt h1 hm2
  have b : 10 ^ 5 < 10 ^ (natToStr m).length := Nat.lt_of_le_of_lt hm1 h2
  rw [Nat.pow_lt_pow_iff_right (by norm_num)] at a b
  omega

theorem digitsValue_take_strip (ds : Str) (k : Nat) :
    digitsValue ds = digitsValue (ds.take k ++ stripZeros (ds.drop k)) *
      10 ^ ((ds.drop k).length - (stripZeros (ds.drop k)).length) := by
  conv_lhs => rw [← List.take_append_drop k ds, stripZeros_spec (ds.drop k), ← List.append_assoc]
  exact digitsValue_append_zeros _ _

/-- The conversion of the `%g` layout of the digits `m` with the exponent `x` is the rounding
of `m * 10^(x - 5)`. -/
theorem stod_layoutG (neg : Bool) (m : Nat) (x : Int) (hm1 : 10 ^ 5 ≤ m) (hm2 : m < 10 ^ 6) :
    ∃ num den : Nat, 1 ≤ num ∧ 1 ≤ den ∧ (num : ℚ) / den = (m : ℚ) * 10 ^ (x - 5) ∧
      stod ((if neg then [45] else []) ++ layoutG m x) = roundToDouble neg num den := by
  have hds := natToStr_isdigit m
  have hne := natToStr_ne_nil m
  have hlen := natToStr_six m hm1 hm2
  have hval := digitsValue_natToStr m
  have finish : ∀ (M j : Nat) (k : Int) (t : Except Exn Double), m = M * 10 ^ j →
      k = x - 5 + j →
      t = (if 0 ≤ k then roundToDouble neg (M * 10 ^ k.toNat) 1
        else roundToDouble neg M (10 ^ (-k).toNat)) →
      ∃ num den : Nat, 1 ≤ num ∧ 1 ≤ den ∧ (num : ℚ) / den = (m : ℚ) * 10 ^ (x - 5) ∧
        t = roundToDouble neg num den := by
    intro M j k t hm hk ht
    have hM : 1 ≤ M := by
      rcases Nat.eq_zero_or_pos M with h0 | h0
      · rw [h0, Nat.zero_mul] at hm; omega
      · exact h0
    obtain ⟨num, den, h1, h2, h3, h4⟩ := decimal_ratio neg M k hM
    exact ⟨num, den, h1, h2, by rw [h3]; exact scaled_value_eq M m j k x hm hk, by rw [ht, h4]⟩
  unfold layoutG
  simp only
  by_cases h1 : x < -4 ∨ 6 ≤ x
  · rw [if_pos h1]
    have hexd : ∀ c ∈ (if x.natAbs < 10 then [48] else []) ++ natToStr x.natAbs,
        isdigit c = true := by
      intro c hc
      rcases List.mem_append.mp hc with hc | hc
      · split_ifs at hc
        · simp only [List.mem_singleton] at hc; subst hc; decide
        · simp at hc
      · exact natToStr_isdigit _ c hc
    have hexv : digitsValue ((if x.natAbs < 10 then [48] else []) ++ natToStr x.natAbs) =
        x.natAbs := by
      split_ifs
      · exact (digitsValue_zeros_append 1 _).trans (digitsValue_natToStr _)
      · rw [List.nil_append]; exact digitsValue_natToStr _
    have hb := @stod_build neg ((natToStr m).take 1)
      (stripZeros ((natToStr m).drop 1))
      (101 :: (if x < 0 then 45 else 43) ::
        ((if x.natAbs < 10 then [48] else []) ++ natToStr x.natAbs)) x (take_lead hne
        (natToStr_lead m) 0).1 (take_isdigit hds _) (stripZeros_isdigit _ (drop_isdigit hds 1))
      (.inr ⟨_, by simp [natToStr_ne_nil], hexd, by
        rw [hexv]
        by_cases hx : x < 0
        · rw [if_pos hx]; exact .inl ⟨rfl, by omega⟩
        · rw [if_neg hx]; exact .inr ⟨rfl, by omega⟩⟩)
    have hsl := stripZeros_length_le ((natToStr m).drop 1)
    have hdl : ((natToStr m).drop 1).length = 5 := by rw [List.length_drop, hlen]
    refine finish _ _ (x - ((stripZeros ((natToStr m).drop 1)).length : Int)) _
      (hval.symm.trans (digitsValue_take_strip (natToStr m) 1)) ?_ ?_
    · omega
    · rw [← hb]
      congr 2
      split_ifs <;> simp
  · rw [if_neg h1]
    by_cases h2 : 0 ≤ x
    · rw [if_pos h2]
      have hb := @stod_build neg ((natToStr m).take (x.toNat + 1))
        (stripZeros ((natToStr m).drop (x.toNat + 1))) [] 0
        (take_lead hne (natToStr_lead m) x.toNat).1 (take_isdigit hds _)
        (stripZeros_isdigit _ (drop_isdigit hds _)) (.inl ⟨rfl, rfl⟩)
      have hsl := stripZeros_length_le ((natToStr m).drop (x.toNat + 1))
      have hdl : ((natToStr m).drop (x.toNat + 1)).length = 5 - x.toNat := by
        rw [List.length_drop, hlen]; omega
      refine finish _ _ (0 - ((stripZeros ((natToStr m).drop (x.toNat + 1))).length : Int)) _
        (hval.symm.trans (digitsValue_take_strip (natToStr m) (x.toNat + 1))) ?_ ?_
      · omega
      · rw [← hb, List.append_nil]
    · rw [if_neg h2]
      obtain ⟨hl, _, _⟩ := natToStr_spec m (by omega)
      have hsz := stripZeros_ne_nil hl hne
      have hfr : ∀ c ∈ List.replicate ((-x).toNat - 1) 48 ++ stripZeros (natToStr m),
          isdigit c = true := by
        intro c hc
        rcases List.mem_append.mp hc with hc | hc
        · rw [List.eq_of_mem_replicate hc]; decide
        · exact stripZeros_isdigit _ hds c hc
      have hb := @stod_build neg [48]
        (List.replicate ((-x).toNat - 1) 48 ++ stripZeros (natToStr m)) [] 0
        (by simp) (by intro c hc; simp only [List.mem_singleton] at hc; subst hc; decide)
        hfr (.inl ⟨rfl, rfl⟩)
      have hpt : pointText (List.replicate ((-x).toNat - 1) 48 ++ stripZeros (natToStr m)) =
          46 :: (List.replicate ((-x).toNat - 1) 48 ++ stripZeros (natToStr m)) := by
        unfold pointText
        rw [if_neg (by simp [hsz])]
      have hsl := stripZeros_length_le (natToStr m)
      have hM : digitsValue ([48] ++ (List.replicate ((-x).toNat - 1) 48 ++
          stripZeros (natToStr m))) = digitsValue (stripZeros (natToStr m)) := by
        show digitsValue (48 :: (List.replicate ((-x).toNat - 1) 48 ++
          stripZeros (natToStr m))) = _
        rw [← List.cons_append, ← List.replicate_succ]
        exact digitsValue_zeros_append _ _
      refine finish (digitsValue ([48] ++ (List.replicate ((-x).toNat - 1) 48 ++
          stripZeros (natToStr m)))) ((natToStr m).length - (stripZeros (natToStr m)).length)
        (0 - ((List.replicate ((-x).toNat - 1) 48 ++
          stripZeros (natToStr m)).length : Int)) _ ?_ ?_ ?_
      · rw [hM, ← digitsValue_stripZeros, hval]
      · rw [List.length_append, List.length_replicate, hlen]
        push_cast
        omega
      · rw [← hb, hpt, List.append_nil]
        rfl

/-! ## The rendering of a number read back -/

theorem Double.ratio_value (man : Nat) (exp : Int) :
    ((Double.ratio man exp).1 : ℚ) / (Double.ratio man exp).2 = (man : ℚ) * 2 ^ exp := by
  unfold Double.ratio
  by_cases he : 0 ≤ exp
  · rw [if_pos he, zpow_toNat_of_nonneg _ _ he]
    push_cast
    ring
  · rw [if_neg he, zpow_toNat_of_neg _ _ (by omega)]
    push_cast
    ring

/-- A number within `2^-53` of six decimal digits has these six digits. -/
theorem close_to_digits (m : Nat) (x : Int) (hm2 : m < 10 ^ 6) (v' : ℚ)
    (h : |v' - (m : ℚ) * 10 ^ (x - 5)| ≤ v' / 2 ^ 53) :
    |v' * 10 ^ (5 - x) - m| ≤ 1 / 100 := by
  have ht : (0 : ℚ) < 10 ^ (5 - x) := by positivity
  have hm : (m : ℚ) * 10 ^ (x - 5) * 10 ^ (5 - x) = m := by
    rw [mul_assoc, ← zpow_add₀ (by norm_num)]
    have : x - 5 + (5 - x) = 0 := by omega
    rw [this, zpow_zero, mul_one]
  have h1 : |v' * 10 ^ (5 - x) - m| ≤ v' * 10 ^ (5 - x) / 2 ^ 53 := by
    have e : v' * 10 ^ (5 - x) - m = (v' - (m : ℚ) * 10 ^ (x - 5)) * 10 ^ (5 - x) := by
      rw [sub_mul, hm]
    rw [e, abs_mul, abs_of_pos ht]
    calc |v' - (m : ℚ) * 10 ^ (x - 5)| * 10 ^ (5 - x) ≤ v' / 2 ^ 53 * 10 ^ (5 - x) :=
          mul_le_mul_of_nonneg_right h (le_of_lt ht)
      _ = v' * 10 ^ (5 - x) / 2 ^ 53 := by ring
  have hmq : (m : ℚ) ≤ 10 ^ 6 := by
    have : ((m : Nat) : ℚ) < ((10 ^ 6 : Nat) : ℚ) := by exact_mod_cast hm2
    push_cast at this
    exact le_of_lt this
  generalize v' * 10 ^ (5 - x) = y at h1
  have h2 := abs_le.mp h1
  have hy : y ≤ 2 * 10 ^ 6 := by
    have : y - y / 2 ^ 53 ≤ m := by linarith [h2.2]
    have : y / 2 ≤ y - y / 2 ^ 53 := by
      have hy0 : 0 ≤ y := by
        by_contra hneg
        rw [not_le] at hneg
        have : y / 2 ^ 53 < 0 := div_neg_of_neg_of_pos hneg (by positivity)
        have := abs_nonneg (y - (m : ℚ))
        linarith
      have : y / 2 ^ 53 ≤ y / 2 := by
        apply div_le_div_of_nonneg_left hy0 (by norm_num) (by norm_num)
      linarith
    linarith
  calc |y - (m : ℚ)| ≤ y / 2 ^ 53 := h1
    _ ≤ 2 * 10 ^ 6 / 2 ^ 53 := by
        apply div_le_div_of_nonneg_right hy (by positivity)
    _ ≤ 1 / 100 := by norm_num

/-- The rendering of a finite number that `std::stod` converts is the rendering of the
conversion: the six digits survive the rounding to binary64. -/
theorem Double.format_stod (neg : Bool) (man : Nat) (exp : Int) (d' : Double)
    (h : stod (Double.finite neg man exp).format = .ok d') :
    d'.format = (Double.finite neg man exp).format := by
  rw [Double.format_finite] at h ⊢
  by_cases hm : man = 0
  · rw [if_pos hm] at h ⊢
    cases neg with
    | true =>
      have e : stod ((if true = true then [45] else []) ++ [48]) = .ok (.finite true 0 0) := rfl
      rw [e] at h
      simp only [Except.ok.injEq] at h
      rw [← h]; rfl
    | false =>
      have e : stod ((if false = true then [45] else []) ++ [48]) = .ok (.finite false 0 0) :=
        rfl
      rw [e] at h
      simp only [Except.ok.injEq] at h
      rw [← h]; rfl
  · rw [if_neg hm] at h ⊢
    obtain ⟨hn, hd⟩ := Double.ratio_pos man exp (by omega)
    have hm1 := digits6_ge _ _ hn hd
    have hm2 := digits6_lt _ _ hn hd
    obtain ⟨num, den, hnum, hden, hval, hst⟩ := stod_layoutG neg _
      (digits6 (Double.ratio man exp).1 (Double.ratio man exp).2).2 hm1 hm2
    rw [hst] at h
    obtain ⟨man', exp', rfl, hman', hclose⟩ := roundToDouble_ok hnum hden h
    rw [hval] at hclose
    obtain ⟨hn', hd'⟩ := Double.ratio_pos man' exp' hman'
    have hy := close_to_digits _ _ hm2 _ hclose
    rw [← Double.ratio_value] at hy
    have hdig := digits6_eq _ _ hn' hd' _ _ hm1 hm2 hy
    rw [Double.format_finite, if_neg (show ¬ man' = 0 by omega), hdig]

/-! ## Printing the tree read back -/

theorem Double.Convertible.format_reparsed {d : Double} (h : d.Convertible) :
    d.reparsed.format = d.format := by
  have hs := h.stod
  obtain ⟨⟨neg, man, exp, rfl⟩, _⟩ := h
  exact Double.format_stod neg man exp _ hs

theorem JsonValue.reparsedMembers_isEmpty (ps : List (Str × JsonValue)) :
    (JsonValue.reparsedMembers ps).isEmpty = ps.isEmpty := by
  cases ps with
  | nil => rfl
  | cons p ps => obtain ⟨k, v⟩ := p; rfl

theorem JsonValue.reparsedElements_isEmpty (es : List JsonValue) :
    (JsonValue.reparsedElements es).isEmpty = es.isEmpty := by
  cases es with
  | nil => rfl
  | cons e es => rfl

mutual

/-- The tree read back prints as the tree, at every level. -/
theorem JsonValue.toString_reparsed : ∀ (v : JsonValue) (L : Nat), v.Printable →
    v.reparsed.toString L = v.toString L
  | .object ps, L, hp => by
    simp only [JsonValue.Printable] at hp
    rw [JsonValue.reparsed, JsonValue.toString, JsonValue.toString,
      JsonValue.reparsedMembers_isEmpty, JsonValue.propertiesToString_reparsed ps L hp]
  | .array es, L, hp => by
    simp only [JsonValue.Printable] at hp
    rw [JsonValue.reparsed, JsonValue.toString, JsonValue.toString,
      JsonValue.reparsedElements_isEmpty, JsonValue.elementsToString_reparsed es L hp]
  | .string w, L, _ => rfl
  | .number d, L, hp => by
    simp only [JsonValue.Printable] at hp
    rw [JsonValue.reparsed, JsonValue.toString, JsonValue.toString, hp.format_reparsed]
  | .boolean b, L, _ => rfl
  | .null, L, _ => rfl

theorem JsonValue.propertiesToString_reparsed : ∀ (ps : List (Str × JsonValue)) (L : Nat),
    JsonValue.PrintableMembers ps →
    JsonValue.propertiesToString (JsonValue.reparsedMembers ps) L =
      JsonValue.propertiesToString ps L
  | [], L, _ => rfl
  | (k, v) :: rest, L, hp => by
    rw [JsonValue.PrintableMembers] at hp
    rw [JsonValue.reparsedMembers, JsonValue.propertiesToString, JsonValue.propertiesToString,
      JsonValue.reparsedMembers_isEmpty, JsonValue.toString_reparsed v (L + 2) hp.2.1,
      JsonValue.propertiesToString_reparsed rest L hp.2.2]

theorem JsonValue.elementsToString_reparsed : ∀ (es : List JsonValue) (L : Nat),
    JsonValue.PrintableElements es →
    JsonValue.elementsToString (JsonValue.reparsedElements es) L =
      JsonValue.elementsToString es L
  | [], L, _ => rfl
  | v :: rest, L, hp => by
    rw [JsonValue.PrintableElements] at hp
    rw [JsonValue.reparsedElements, JsonValue.elementsToString, JsonValue.elementsToString,
      JsonValue.reparsedElements_isEmpty, JsonValue.toString_reparsed v (L + 2) hp.1,
      JsonValue.elementsToString_reparsed rest L hp.2]

end

/-! ## The restricted round trip at every level -/

theorem PlainText.safe {w : Str} (h : PlainText w) : StrSafe w :=
  StrSafe.of_plain fun c hc => ⟨.inl (h c hc).1, (h c hc).2.2.1, (h c hc).2.2.2⟩

mutual

/-- A plain tree is printable, and it is read back as itself. -/
theorem JsonValue.Plain.printable_value : ∀ (v : JsonValue), v.Plain → v.Printable ∧ v.reparsed = v
  | .object ps, hp => by
    simp only [JsonValue.Plain] at hp
    obtain ⟨h1, h2⟩ := JsonValue.PlainMembers.printable_members ps hp
    exact ⟨by simp only [JsonValue.Printable]; exact h1, by rw [JsonValue.reparsed, h2]⟩
  | .array es, hp => by
    simp only [JsonValue.Plain] at hp
    obtain ⟨h1, h2⟩ := JsonValue.PlainElements.printable_elements es hp
    exact ⟨by simp only [JsonValue.Printable]; exact h1, by rw [JsonValue.reparsed, h2]⟩
  | .string w, hp => by
    simp only [JsonValue.Plain] at hp
    exact ⟨by simp only [JsonValue.Printable]; exact hp.safe, rfl⟩
  | .number d, hp => by
    simp only [JsonValue.Plain] at hp
  | .boolean b, _ => ⟨by simp only [JsonValue.Printable], rfl⟩
  | .null, _ => ⟨by simp only [JsonValue.Printable], rfl⟩

theorem JsonValue.PlainMembers.printable_members : ∀ (ps : List (Str × JsonValue)),
    JsonValue.PlainMembers ps →
    JsonValue.PrintableMembers ps ∧ JsonValue.reparsedMembers ps = ps
  | [], _ => ⟨by simp only [JsonValue.PrintableMembers], rfl⟩
  | (k, v) :: rest, hp => by
    rw [JsonValue.PlainMembers] at hp
    obtain ⟨h1, h2⟩ := JsonValue.Plain.printable_value v hp.2.1
    obtain ⟨h3, h4⟩ := JsonValue.PlainMembers.printable_members rest hp.2.2
    exact ⟨by rw [JsonValue.PrintableMembers]; exact ⟨hp.1.safe, h1, h3⟩,
      by rw [JsonValue.reparsedMembers, h2, h4]⟩

theorem JsonValue.PlainElements.printable_elements : ∀ (es : List JsonValue),
    JsonValue.PlainElements es →
    JsonValue.PrintableElements es ∧ JsonValue.reparsedElements es = es
  | [], _ => ⟨by simp only [JsonValue.PrintableElements], rfl⟩
  | v :: rest, hp => by
    rw [JsonValue.PlainElements] at hp
    obtain ⟨h1, h2⟩ := JsonValue.Plain.printable_value v hp.1
    obtain ⟨h3, h4⟩ := JsonValue.PlainElements.printable_elements rest hp.2
    exact ⟨by rw [JsonValue.PrintableElements]; exact ⟨h1, h3⟩,
      by rw [JsonValue.reparsedElements, h2, h4]⟩

end

/-- The text of a printable tree printed at any level has the tokens of the tree and then
end-of-input. -/
theorem JsonValue.tokenize_toString_level (v : JsonValue) (L : Nat) (h : v.Printable) :
    tokenize (v.toString L) = (v.tokens ++ [⟨.EOF_TOKEN, []⟩], none) := by
  have hs := JsonValue.scans_toString v L [] [⟨.EOF_TOKEN, []⟩] none h
    ⟨by decide, by decide, by decide⟩ (.eof (r := []) rfl rfl)
  rw [List.append_nil] at hs
  obtain ⟨h1, h2⟩ := hs.tokenize_eq
  rw [Prod.ext_iff]
  exact ⟨h1, h2.2 rfl⟩

/-- Parsing the text of a printable tree printed at any level returns the tree read back. -/
theorem JsonValue.parse_toString_level (v : JsonValue) (L : Nat) (h : v.Printable) :
    parseInput (v.toString L) = .ok v.reparsed :=
  parseInput_complete (v.tokenize_toString_level L h) rfl (v.serializes_tokens h)

/-! ## The requests of the parser -/

theorem Parser.checkToken_request {p p' : Parser} {e : TokenType} (h : p.checkToken e = .ok p') :
    p.currentToken.type = e ∧ p.lexer.getNextToken = .ok (p'.currentToken, p'.lexer) := by
  unfold Parser.checkToken at h
  by_cases ht : p.currentToken.type = e
  · simp only [ht, ne_eq, not_true_eq_false, ↓reduceIte] at h
    obtain ⟨⟨tok, lex⟩, h1, h⟩ := bind_ok_inv h
    simp only [pure, Except.pure, Except.ok.injEq] at h
    subst h
    exact ⟨ht, h1⟩
  · simp only [ht, ne_eq, not_false_eq_true, ↓reduceIte] at h
    cases h

/-- A property of the parser that every successful `checkToken` on a token other than
end-of-input carries from `n` to `n + 1` is carried through the recursive descent, which calls
`checkToken` at least once for a value, twice for an object or an array, three times in the
loop of an object and once in the loop of an array. -/
theorem Parser.requests_all (I : Nat → Parser → Prop)
    (hI : ∀ n p e p', I n p → e ≠ .EOF_TOKEN → p.checkToken e = .ok p' → I (n + 1) p')
    (fuel : Nat) :
    (∀ n p v p', I n p → Parser.parseValue fuel p = .ok (v, p') → ∃ m, n + 1 ≤ m ∧ I m p') ∧
    (∀ n p v p', I n p → Parser.parseObject fuel p = .ok (v, p') → ∃ m, n + 2 ≤ m ∧ I m p') ∧
    (∀ n p acc props p', I n p → Parser.parseObjectLoop fuel p acc = .ok (props, p') →
      ∃ m, n + 3 ≤ m ∧ I m p') ∧
    (∀ n p v p', I n p → Parser.parseArray fuel p = .ok (v, p') → ∃ m, n + 2 ≤ m ∧ I m p') ∧
    (∀ n p acc elems p', I n p → Parser.parseArrayLoop fuel p acc = .ok (elems, p') →
      ∃ m, n + 1 ≤ m ∧ I m p') := by
  induction fuel with
  | zero =>
    refine ⟨?_, ?_, ?_, ?_, ?_⟩ <;> intros <;> rename_i h <;>
      simp only [Parser.parseValue, Parser.parseObject, Parser.parseObjectLoop,
        Parser.parseArray, Parser.parseArrayLoop] at h <;> cases h
  | succ fuel ih =>
    obtain ⟨ihV, ihO, ihOL, ihA, ihAL⟩ := ih
    refine ⟨?_, ?_, ?_, ?_, ?_⟩
    · intro n p v p' hp h
      simp only [Parser.parseValue] at h
      cases ht : p.currentToken.type <;> rw [ht] at h <;> simp only at h
      · obtain ⟨m, hm, h⟩ := ihO n p v p' hp h
        exact ⟨m, by omega, h⟩
      · cases h
      · obtain ⟨m, hm, h⟩ := ihA n p v p' hp h
        exact ⟨m, by omega, h⟩
      · cases h
      · cases h
      · cases h
      · unfold Parser.parseString at h
        obtain ⟨p1, h1, h⟩ := bind_ok_inv h
        simp only [pure, Except.pure, Except.ok.injEq, Prod.mk.injEq] at h
        obtain ⟨_, rfl⟩ := h
        exact ⟨n + 1, le_refl _, hI n p _ _ hp (by decide) h1⟩
      · unfold Parser.parseNumber at h
        obtain ⟨d, hd, h⟩ := bind_ok_inv h
        obtain ⟨p1, h1, h⟩ := bind_ok_inv h
        simp only [pure, Except.pure, Except.ok.injEq, Prod.mk.injEq] at h
        obtain ⟨_, rfl⟩ := h
        exact ⟨n + 1, le_refl _, hI n p _ _ hp (by decide) h1⟩
      · unfold Parser.parseBoolean at h
        obtain ⟨p1, h1, h⟩ := bind_ok_inv h
        simp only [pure, Except.pure, Except.ok.injEq, Prod.mk.injEq] at h
        obtain ⟨_, rfl⟩ := h
        exact ⟨n + 1, le_refl _, hI n p _ _ hp (by rw [ht]; decide) h1⟩
      · unfold Parser.parseBoolean at h
        obtain ⟨p1, h1, h⟩ := bind_ok_inv h
        simp only [pure, Except.pure, Except.ok.injEq, Prod.mk.injEq] at h
        obtain ⟨_, rfl⟩ := h
        exact ⟨n + 1, le_refl _, hI n p _ _ hp (by rw [ht]; decide) h1⟩
      · unfold Parser.parseNull at h
        obtain ⟨p1, h1, h⟩ := bind_ok_inv h
        simp only [pure, Except.pure, Except.ok.injEq, Prod.mk.injEq] at h
        obtain ⟨_, rfl⟩ := h
        exact ⟨n + 1, le_refl _, hI n p _ _ hp (by decide) h1⟩
      · cases h
      · cases h
    · intro n p v p' hp h
      simp only [Parser.parseObject] at h
      obtain ⟨p1, h1, h⟩ := bind_ok_inv h
      have hp1 := hI n p _ _ hp (by decide) h1
      by_cases hb : p1.currentToken.type = .RBRACE
      · simp only [hb, ↓reduceIte] at h
        obtain ⟨p2, h2, h⟩ := bind_ok_inv h
        simp only [pure, Except.pure, Except.ok.injEq, Prod.mk.injEq] at h
        obtain ⟨_, rfl⟩ := h
        exact ⟨n + 2, le_refl _, hI _ p1 _ _ hp1 (by decide) h2⟩
      · simp only [hb, ↓reduceIte] at h
        obtain ⟨⟨props, p2⟩, h2, h⟩ := bind_ok_inv h
        simp only at h
        obtain ⟨p3, h3, h⟩ := bind_ok_inv h
        simp only [pure, Except.pure, Except.ok.injEq, Prod.mk.injEq] at h
        obtain ⟨_, rfl⟩ := h
        obtain ⟨m, hm, hp2⟩ := ihOL _ _ _ _ _ hp1 h2
        exact ⟨m + 1, by omega, hI _ p2 _ _ hp2 (by decide) h3⟩
    · intro n p acc props p' hp h
      simp only [Parser.parseObjectLoop] at h
      by_cases hs : p.currentToken.type = .STRING
      · simp only [hs, ne_eq, not_true_eq_false, ↓reduceIte] at h
        obtain ⟨p1, h1, h⟩ := bind_ok_inv h
        obtain ⟨p2, h2, h⟩ := bind_ok_inv h
        obtain ⟨⟨v, p3⟩, h3, h⟩ := bind_ok_inv h
        simp only at h
        have hp1 := hI n p _ _ hp (by decide) h1
        have hp2 := hI _ p1 _ _ hp1 (by decide) h2
        obtain ⟨m, hm, hp3⟩ := ihV _ _ _ _ hp2 h3
        by_cases hc : p3.currentToken.type = .COMMA
        · simp only [hc, ↓reduceIte] at h
          obtain ⟨p4, h4, h⟩ := bind_ok_inv h
          have hp4 := hI _ p3 _ _ hp3 (by decide) h4
          by_cases hb : p4.currentToken.type = .RBRACE
          · simp only [hb, ↓reduceIte] at h
            cases h
          · simp only [hb, ↓reduceIte] at h
            obtain ⟨m', hm', hp'⟩ := ihOL _ _ _ _ _ hp4 h
            exact ⟨m', by omega, hp'⟩
        · simp only [hc, ↓reduceIte] at h
          by_cases hb : p3.currentToken.type = .RBRACE
          · simp only [hb, ↓reduceIte, pure, Except.pure, Except.ok.injEq, Prod.mk.injEq] at h
            obtain ⟨_, rfl⟩ := h
            exact ⟨m, by omega, hp3⟩
          · simp only [hb, ↓reduceIte] at h
            cases h
      · simp only [hs, ne_eq, not_false_eq_true, ↓reduceIte] at h
        cases h
    · intro n p v p' hp h
      simp only [Parser.parseArray] at h
      obtain ⟨p1, h1, h⟩ := bind_ok_inv h
      have hp1 := hI n p _ _ hp (by decide) h1
      by_cases hb : p1.currentToken.type = .RBRACKET
      · simp only [hb, ↓reduceIte] at h
        obtain ⟨p2, h2, h⟩ := bind_ok_inv h
        simp only [pure, Except.pure, Except.ok.injEq, Prod.mk.injEq] at h
        obtain ⟨_, rfl⟩ := h
        exact ⟨n + 2, le_refl _, hI _ p1 _ _ hp1 (by decide) h2⟩
      · simp only [hb, ↓reduceIte] at h
        obtain ⟨⟨elems, p2⟩, h2, h⟩ := bind_ok_inv h
        simp only at h
        obtain ⟨p3, h3, h⟩ := bind_ok_inv h
        simp only [pure, Except.pure, Except.ok.injEq, Prod.mk.injEq] at h
        obtain ⟨_, rfl⟩ := h
        obtain ⟨m, hm, hp2⟩ := ihAL _ _ _ _ _ hp1 h2
        exact ⟨m + 1, by omega, hI _ p2 _ _ hp2 (by decide) h3⟩
    · intro n p acc elems p' hp h
      simp only [Parser.parseArrayLoop] at h
      obtain ⟨⟨v, p3⟩, h3, h⟩ := bind_ok_inv h
      simp only at h
      obtain ⟨m, hm, hp3⟩ := ihV _ _ _ _ hp h3
      by_cases hc : p3.currentToken.type = .COMMA
      · simp only [hc, ↓reduceIte] at h
        obtain ⟨p4, h4, h⟩ := bind_ok_inv h
        have hp4 := hI _ p3 _ _ hp3 (by decide) h4
        by_cases hb : p4.currentToken.type = .RBRACKET
        · simp only [hb, ↓reduceIte] at h
          cases h
        · simp only [hb, ↓reduceIte] at h
          obtain ⟨m', hm', hp'⟩ := ihAL _ _ _ _ _ hp4 h
          exact ⟨m', by omega, hp'⟩
      · simp only [hc, ↓reduceIte] at h
        by_cases hb : p3.currentToken.type = .RBRACKET
        · simp only [hb, ↓reduceIte, pure, Except.pure, Except.ok.injEq, Prod.mk.injEq] at h
          obtain ⟨_, rfl⟩ := h
          exact ⟨m, by omega, hp3⟩
        · simp only [hb, ↓reduceIte] at h
          cases h

theorem Lexer.After.reachable {input : Str} {n : Nat} {l : Lexer} (h : Lexer.After input n l) :
    Lexer.Reachable input l := by
  induction h with
  | start => exact .start
  | step _ hg _ ih => exact .step ih hg

theorem Lexer.Reachable.view {input : Str} {l : Lexer} (h : Lexer.Reachable input l) :
    l.View (input.drop l.pos) ∧ l.pos ≤ input.length ∧ l.text = input := by
  obtain ⟨k, hk, rfl⟩ := h.cursor
  have hv := (Lexer.View.new input).advanceN k
  have hp : ((Lexer.new input).advanceN k).pos = k := by
    rw [Lexer.advanceN_pos]; simp [Lexer.new]
  rw [hp]
  exact ⟨hv, hk, by rw [Lexer.advanceN_text]; rfl⟩

/-- After `n` tokens other than end-of-input the cursor has passed `n` characters at least. -/
theorem Lexer.After.pos_ge {input : Str} {n : Nat} {l : Lexer} (h : Lexer.After input n l) :
    n ≤ l.pos ∧ l.pos ≤ input.length := by
  induction h with
  | start => exact ⟨Nat.zero_le _, Nat.zero_le _⟩
  | @step n l l' t ha hg ht ih =>
    have hr' : Lexer.Reachable input l' := .step ha.reachable hg
    obtain ⟨hv, _, _⟩ := ha.reachable.view
    obtain ⟨p, r, hs, hsc, hl', _⟩ := Lexer.getNextToken_ok hv hg
    have hlt := scan_length_lt hsc ht
    have hlen := congrArg List.length hs
    rw [List.length_append] at hlen
    refine ⟨?_, hr'.view.2.1⟩
    rw [hl', Lexer.advanceN_pos]
    omega

theorem Parser.Requested.of_new {input : Str} {p : Parser}
    (h : Parser.new (Lexer.new input) = .ok p) : Parser.Requested input 0 p := by
  unfold Parser.new at h
  obtain ⟨⟨tok, lex⟩, h1, h⟩ := bind_ok_inv h
  simp only [pure, Except.pure, Except.ok.injEq] at h
  subst h
  exact ⟨_, .start, h1⟩

theorem Parser.Requested.after_checkToken {input : Str} {n : Nat} {p p' : Parser} {e : TokenType}
    (h : Parser.Requested input n p) (he : e ≠ .EOF_TOKEN) (hc : p.checkToken e = .ok p') :
    Parser.Requested input (n + 1) p' := by
  obtain ⟨l, ha, hg⟩ := h
  obtain ⟨ht, hg'⟩ := Parser.checkToken_request hc
  exact ⟨p.lexer, .step ha hg (by rw [ht]; exact he), hg'⟩

/-- The requests of a value: a parser that has requested `n + 1` tokens and parses a value has
requested `m + 1` tokens with `n + 1 <= m` afterwards. -/
theorem Parser.Requested.after_parseValue {input : Str} {n fuel : Nat} {p p' : Parser} {v : JsonValue}
    (h : Parser.Requested input n p) (hv : Parser.parseValue fuel p = .ok (v, p')) :
    ∃ m, n + 1 ≤ m ∧ Parser.Requested input m p' :=
  (Parser.requests_all (Parser.Requested input)
    (fun _ _ _ _ h he hc => h.after_checkToken he hc) fuel).1 n p v p' h hv

/-- The requests are bounded by the buffer: a parser that has requested `n + 1` tokens has its
cursor at `n` or further, inside the buffer or at its end. -/
theorem Parser.Requested.request_bound {input : Str} {n : Nat} {p : Parser}
    (h : Parser.Requested input n p) :
    n ≤ input.length ∧ p.lexer.pos ≤ input.length ∧ Lexer.Reachable input p.lexer ∧
      (p.currentToken.type ≠ .EOF_TOKEN → n + 1 ≤ input.length) := by
  obtain ⟨l, ha, hg⟩ := h
  have hr : Lexer.Reachable input p.lexer := .step ha.reachable hg
  refine ⟨by have := ha.pos_ge; omega, hr.view.2.1, hr, fun ht => ?_⟩
  have := (Lexer.After.step ha hg ht).pos_ge
  omega

/-! ## The end-of-input token -/

theorem scanToken_type {s : Str} {t : Token} {r : Str}
    (h : JsonParser.scanToken s = .ok (t, r)) : t.type ≠ .EOF_TOKEN := by
  unfold JsonParser.scanToken at h
  simp only at h
  have punct : ∀ (tok : Token) (x : Str), tok.type ≠ .EOF_TOKEN →
      (Except.ok (tok, x) : Except (Str × Str) (Token × Str)) = .ok (t, r) →
      t.type ≠ .EOF_TOKEN := by
    intro tok x ht h
    simp only [Except.ok.injEq, Prod.mk.injEq] at h; rw [← h.1]; exact ht
  by_cases h1 : s.headD 0 = 123
  · rw [if_pos h1] at h; exact punct _ _ (by decide) h
  rw [if_neg h1] at h
  by_cases h2 : s.headD 0 = 125
  · rw [if_pos h2] at h; exact punct _ _ (by decide) h
  rw [if_neg h2] at h
  by_cases h3 : s.headD 0 = 91
  · rw [if_pos h3] at h; exact punct _ _ (by decide) h
  rw [if_neg h3] at h
  by_cases h4 : s.headD 0 = 93
  · rw [if_pos h4] at h; exact punct _ _ (by decide) h
  rw [if_neg h4] at h
  by_cases h5 : s.headD 0 = 44
  · rw [if_pos h5] at h; exact punct _ _ (by decide) h
  rw [if_neg h5] at h
  by_cases h6 : s.headD 0 = 58
  · rw [if_pos h6] at h; exact punct _ _ (by decide) h
  rw [if_neg h6] at h
  by_cases h7 : s.headD 0 = 34
  · rw [if_pos h7] at h
    cases h1 : scanString s with
    | error e => rw [h1] at h; cases h
    | ok y =>
      rw [h1] at h
      simp only [bind, Except.bind, pure, Except.pure, Except.ok.injEq, Prod.mk.injEq] at h
      rw [← h.1]; simp
  rw [if_neg h7] at h
  by_cases h8 : s.headD 0 = 45 ∨ isdigit (s.headD 0) = true
  · rw [if_pos h8] at h
    cases h1 : scanNumber s with
    | error e => rw [h1] at h; cases h
    | ok y =>
      rw [h1] at h
      simp only [bind, Except.bind, pure, Except.pure, Except.ok.injEq, Prod.mk.injEq] at h
      rw [← h.1]; simp
  rw [if_neg h8] at h
  by_cases h9 : s.headD 0 = 116 ∨ s.headD 0 = 102 ∨ s.headD 0 = 110
  · rw [if_pos h9] at h
    by_cases k1 : s.takeWhile isalpha = str "true"
    · rw [if_pos k1] at h; exact punct _ _ (by decide) h
    rw [if_neg k1] at h
    by_cases k2 : s.takeWhile isalpha = str "false"
    · rw [if_pos k2] at h; exact punct _ _ (by decide) h
    rw [if_neg k2] at h
    by_cases k3 : s.takeWhile isalpha = str "null"
    · rw [if_pos k3] at h; exact punct _ _ (by decide) h
    rw [if_neg k3] at h
    cases h
  rw [if_neg h9] at h
  cases h

/-- The end-of-input token is returned only with the end marker at the cursor. -/
theorem scan_eof {s : Str} {t : Token} {r : Str} (h : scan s = .ok (t, r))
    (ht : t.type = .EOF_TOKEN) : r = s.dropWhile isspace ∧ r.headD 0 = 0 := by
  unfold scan at h
  split_ifs at h with h0
  · simp only [Except.ok.injEq, Prod.mk.injEq] at h
    rw [← h.2]
    exact ⟨rfl, h0⟩
  · exact absurd ht (scanToken_type h)

/-- The end-of-input token leaves the lexer with the end marker as its current character, which
is the end of the buffer or a NUL byte of it. -/
theorem Lexer.Reachable.eof {input : Str} {l l' : Lexer} {t : Token}
    (hr : Lexer.Reachable input l) (hg : l.getNextToken = .ok (t, l'))
    (ht : t.type = .EOF_TOKEN) :
    l'.pos ≤ input.length ∧ l'.currentChar = 0 ∧ charAt input l'.pos = 0 ∧
      ((∀ c ∈ input, c ≠ 0) → l'.pos = input.length) := by
  obtain ⟨hv, _, _⟩ := hr.view
  obtain ⟨p, r, hs, hsc, hl', hv'⟩ := Lexer.getNextToken_ok hv hg
  obtain ⟨_, h0⟩ := scan_eof hsc ht
  have hr' : Lexer.Reachable input l' := .step hr hg
  obtain ⟨hv2, hle, _⟩ := hr'.view
  have hc : charAt input l'.pos = 0 := by
    rw [charAt_eq, ← hv2.cur, hv'.cur, h0]
  refine ⟨hle, by rw [hv'.cur, h0], hc, fun hn => ?_⟩
  by_contra hne
  have hlt : l'.pos < input.length := by omega
  unfold charAt at hc
  rw [if_pos hlt] at hc
  have hmem : input.getD l'.pos 0 ∈ input := by
    rw [List.getD_eq_getElem _ _ hlt]
    exact List.getElem_mem _
  exact hn _ hmem hc

/-! ## The characters passed over are never the end marker -/

theorem Consumes.here (s : Str) : Consumes s s := ⟨[], rfl, by simp⟩

theorem Consumes.followed {s r t : Str} (h1 : Consumes s r) (h2 : Consumes r t) :
    Consumes s t := by
  obtain ⟨p, rfl, hp⟩ := h1
  obtain ⟨q, rfl, hq⟩ := h2
  refine ⟨p ++ q, by rw [List.append_assoc], fun c hc => ?_⟩
  rcases List.mem_append.mp hc with h | h
  · exact hp c h
  · exact hq c h

theorem Consumes.of_tail {s : Str} (h : s.headD 0 ≠ 0) : Consumes s s.tail := by
  cases s with
  | nil => exact absurd rfl h
  | cons c s =>
    refine ⟨[c], rfl, fun d hd => ?_⟩
    rw [List.mem_singleton] at hd
    rw [hd]; exact h

theorem Consumes.of_dropWhile (f : Int → Bool) (hf : f 0 = false) (s : Str) :
    Consumes s (s.dropWhile f) := by
  refine ⟨s.takeWhile f, (List.takeWhile_append_dropWhile f s).symm, fun c hc h0 => ?_⟩
  have := List.mem_takeWhile_imp hc
  rw [h0, hf] at this
  cases this

theorem Consumes.bind_rest {α β : Type} {s : Str} {x : Except (Str × Str) (α × Str)}
    {f : α × Str → Except (Str × Str) (β × Str)} (hx : Consumes s (scanRest x))
    (hf : ∀ a r, x = .ok (a, r) → Consumes r (scanRest (f (a, r)))) :
    Consumes s (scanRest (x >>= f)) := by
  rcases x with ⟨m, r⟩ | ⟨a, r⟩
  · exact hx
  · exact hx.followed (hf a r rfl)

theorem scanStringLoop_consumes_aux (n : Nat) : ∀ (s acc : Str), s.length < n →
    Consumes s (scanRest (scanStringLoop s acc)) := by
  induction n with
  | zero => intro s acc h; omega
  | succ n ih =>
    intro s acc hlen
    cases s with
    | nil => exact Consumes.here _
    | cons c rest =>
      unfold scanStringLoop
      by_cases hc : c ≠ 0 ∧ c ≠ 34
      · rw [if_pos hc]
        have hstep : Consumes (c :: rest) rest := by
          have := @Consumes.of_tail (c :: rest) hc.1
          exact this
        by_cases hb : c = 92
        · rw [if_pos hb]
          cases rest with
          | nil => exact hstep
          | cons e rest' =>
            simp only
            by_cases he : e = 0
            · rw [if_pos he]; exact hstep
            · rw [if_neg he]
              cases hesc : escapeText e with
              | none => exact hstep
              | some t =>
                simp only
                have h2 : Consumes (e :: rest') rest' := @Consumes.of_tail (e :: rest') he
                refine (hstep.followed h2).followed (ih rest' _ ?_)
                simp only [List.length_cons] at hlen
                omega
        · rw [if_neg hb]
          by_cases hctl : c < 32 ∧ c ≠ 9
          · rw [if_pos hctl]; exact Consumes.here _
          · rw [if_neg hctl]
            refine hstep.followed (ih rest _ ?_)
            simp only [List.length_cons] at hlen
            omega
      · rw [if_neg hc]; exact Consumes.here _

theorem scanStringLoop_consumes (s acc : Str) :
    Consumes s (scanRest (scanStringLoop s acc)) :=
  scanStringLoop_consumes_aux (s.length + 1) s acc (Nat.lt_succ_self _)

theorem scanString_consumes {s : Str} (hs : s.headD 0 = 34) :
    Consumes s (scanRest (scanString s)) := by
  rw [scanString_eq]
  have h1 : Consumes s s.tail := Consumes.of_tail (by rw [hs]; decide)
  refine Consumes.bind_rest (h1.followed (scanStringLoop_consumes _ _)) ?_
  intro a r _
  simp only
  by_cases hq : r.headD 0 = 34
  · rw [if_neg (not_not.mpr hq)]
    exact Consumes.of_tail (by rw [hq]; decide)
  · rw [if_pos hq]
    exact Consumes.here _

theorem scanInteger_consumes (s acc : Str) : Consumes s (scanRest (scanInteger s acc)) := by
  unfold scanInteger
  by_cases h0 : s.headD 0 = 48
  · rw [if_pos h0]
    have : Consumes s s.tail := Consumes.of_tail (by rw [h0]; decide)
    by_cases hd : isdigit (s.tail.headD 0) = true
    · rw [if_pos hd]; exact this
    · rw [if_neg hd]; exact this
  · rw [if_neg h0]
    by_cases hd : isdigit (s.headD 0) = true
    · rw [if_pos hd]; exact Consumes.of_dropWhile _ (by decide) s
    · rw [if_neg hd]; exact Consumes.here _

theorem scanFraction_consumes (s acc : Str) : Consumes s (scanRest (scanFraction s acc)) := by
  unfold scanFraction
  by_cases h0 : s.headD 0 = 46
  · rw [if_pos h0]
    have : Consumes s s.tail := Consumes.of_tail (by rw [h0]; decide)
    by_cases hd : ¬ isdigit (s.tail.headD 0) = true
    · rw [if_pos hd]; exact this
    · rw [if_neg hd]; exact this.followed (Consumes.of_dropWhile _ (by decide) _)
  · rw [if_neg h0]; exact Consumes.here _

theorem skipSign_consumes (s : Str) : Consumes s (skipSign s) := by
  unfold skipSign
  by_cases h : s.headD 0 = 43 ∨ s.headD 0 = 45
  · rw [if_pos h]
    exact Consumes.of_tail (by rcases h with h | h <;> rw [h] <;> decide)
  · rw [if_neg h]; exact Consumes.here _

theorem scanExponent_consumes (s acc : Str) : Consumes s (scanRest (scanExponent s acc)) := by
  unfold scanExponent
  by_cases h0 : s.headD 0 = 101 ∨ s.headD 0 = 69
  · rw [if_pos h0]
    have h1 : Consumes s s.tail :=
      Consumes.of_tail (by rcases h0 with h | h <;> rw [h] <;> decide)
    have h2 := h1.followed (skipSign_consumes s.tail)
    by_cases hd : ¬ isdigit ((skipSign s.tail).headD 0) = true
    · rw [if_pos hd]; exact h2
    · rw [if_neg hd]; exact h2.followed (Consumes.of_dropWhile _ (by decide) _)
  · rw [if_neg h0]; exact Consumes.here _

theorem scanNumber_consumes (s : Str) : Consumes s (scanRest (scanNumber s)) := by
  unfold scanNumber
  have key : ∀ (s1 acc : Str), Consumes s1 (scanRest (scanInteger s1 acc >>= fun y =>
      scanFraction y.2 y.1 >>= fun z => scanExponent z.2 z.1)) := by
    intro s1 acc
    refine Consumes.bind_rest (scanInteger_consumes _ _) ?_
    intro a r _
    refine Consumes.bind_rest (scanFraction_consumes _ _) ?_
    intro b r' _
    exact scanExponent_consumes _ _
  by_cases h45 : s.headD 0 = 45
  · simp only [h45, ↓reduceIte]
    have h1 : Consumes s s.tail := Consumes.of_tail (by rw [h45]; decide)
    exact h1.followed (key _ _)
  · simp only [h45, ↓reduceIte]
    exact key _ _

theorem scanToken_consumes {s : Str} (h0 : s.headD 0 ≠ 0) :
    Consumes s (scanRest (JsonParser.scanToken s)) := by
  have ht : Consumes s s.tail := Consumes.of_tail h0
  unfold JsonParser.scanToken
  simp only
  by_cases h1 : s.headD 0 = 123
  · rw [if_pos h1]; exact ht
  rw [if_neg h1]
  by_cases h2 : s.headD 0 = 125
  · rw [if_pos h2]; exact ht
  rw [if_neg h2]
  by_cases h3 : s.headD 0 = 91
  · rw [if_pos h3]; exact ht
  rw [if_neg h3]
  by_cases h4 : s.headD 0 = 93
  · rw [if_pos h4]; exact ht
  rw [if_neg h4]
  by_cases h5 : s.headD 0 = 44
  · rw [if_pos h5]; exact ht
  rw [if_neg h5]
  by_cases h6 : s.headD 0 = 58
  · rw [if_pos h6]; exact ht
  rw [if_neg h6]
  by_cases h7 : s.headD 0 = 34
  · rw [if_pos h7]
    refine Consumes.bind_rest (scanString_consumes h7) ?_
    intro a r _
    exact Consumes.here _
  rw [if_neg h7]
  by_cases h8 : s.headD 0 = 45 ∨ isdigit (s.headD 0) = true
  · rw [if_pos h8]
    refine Consumes.bind_rest (scanNumber_consumes s) ?_
    intro a r _
    exact Consumes.here _
  rw [if_neg h8]
  by_cases h9 : s.headD 0 = 116 ∨ s.headD 0 = 102 ∨ s.headD 0 = 110
  · rw [if_pos h9]
    have hd : Consumes s (s.dropWhile isalpha) := Consumes.of_dropWhile _ (by decide) s
    by_cases k1 : s.takeWhile isalpha = str "true"
    · rw [if_pos k1]; exact hd
    rw [if_neg k1]
    by_cases k2 : s.takeWhile isalpha = str "false"
    · rw [if_pos k2]; exact hd
    rw [if_neg k2]
    by_cases k3 : s.takeWhile isalpha = str "null"
    · rw [if_pos k3]; exact hd
    rw [if_neg k3]
    exact hd
  rw [if_neg h9]
  exact Consumes.here _

/-- Whatever a call of `getNextToken` passes over, returning or failing, holds no NUL: the
cursor is never advanced from the end marker. -/
theorem scan_consumes (s : Str) : Consumes s (scanRest (scan s)) := by
  unfold scan
  have hd : Consumes s (s.dropWhile isspace) := Consumes.of_dropWhile _ (by decide) s
  by_cases h0 : (s.dropWhile isspace).headD 0 = 0
  · rw [if_pos h0]; exact hd
  · rw [if_neg h0]; exact hd.followed (scanToken_consumes h0)

/-! ## The cursor stays inside the buffer -/

/-- Every `advance` moves the line and column forward: to the next line, or to the next column
of the same line. -/
theorem Lexer.advanceN_later (d : Nat) : ∀ (l : Lexer),
    l.line < (l.advanceN (d + 1)).line ∨
      (l.line = (l.advanceN (d + 1)).line ∧ l.column < (l.advanceN (d + 1)).column) := by
  have one : ∀ (l : Lexer), l.line < l.advance.line ∨
      (l.line = l.advance.line ∧ l.column < l.advance.column) := by
    intro l
    unfold Lexer.advance
    by_cases h : l.currentChar = 10
    · left; simp only [h, ↓reduceIte]; omega
    · right; simp only [h, ↓reduceIte]; exact ⟨trivial, by omega⟩
  induction d with
  | zero => intro l; exact one l
  | succ d ih =>
    intro l
    have h1 := one l
    have h2 := ih l.advance
    rw [Lexer.advanceN_succ] at h2
    rcases h1 with h1 | ⟨h1, h1'⟩ <;> rcases h2 with h2 | ⟨h2, h2'⟩
    · left; omega
    · left; omega
    · left; omega
    · right; exact ⟨by omega, by omega⟩

/-- The line and column of a cursor determine how far it has advanced. -/
theorem Lexer.advanceN_inj {l : Lexer} {j k : Nat}
    (hl : (l.advanceN j).line = (l.advanceN k).line)
    (hc : (l.advanceN j).column = (l.advanceN k).column) : j = k := by
  have key : ∀ (a d : Nat), (l.advanceN a).line = (l.advanceN (a + (d + 1))).line →
      (l.advanceN a).column = (l.advanceN (a + (d + 1))).column → False := by
    intro a d h1 h2
    have := Lexer.advanceN_later d (l.advanceN a)
    rw [Lexer.advanceN_add] at this
    omega
  rcases Nat.lt_trichotomy j k with h | h | h
  · exfalso
    obtain ⟨d, rfl⟩ : ∃ d, k = j + (d + 1) := ⟨k - j - 1, by omega⟩
    exact key j d hl hc
  · exact h
  · exfalso
    obtain ⟨d, rfl⟩ : ∃ d, j = k + (d + 1) := ⟨j - k - 1, by omega⟩
    exact key k d hl.symm hc.symm

/-- What a call of `getNextToken` passes over: a prefix `p` of the text after the cursor that
holds no NUL; the call returns in the state `l.advanceN p.length`, or raises its error there. -/
theorem Lexer.getNextToken_passes {l : Lexer} {s : Str} (hv : l.View s) :
    ∃ p r, s = p ++ r ∧ (∀ c ∈ p, c ≠ 0) ∧
      ((∃ t, l.getNextToken = .ok (t, l.advanceN p.length)) ∨
        (∃ msg, l.getNextToken = (l.advanceN p.length).error msg)) := by
  obtain ⟨p, hs, hp⟩ := scan_consumes s
  refine ⟨p, _, hs, hp, ?_⟩
  rw [Lexer.getNextToken_eq hv]
  cases hsc : scan s with
  | error e =>
    obtain ⟨m, r⟩ := e
    rw [hsc] at hs
    simp only [scanRest] at hs
    right
    refine ⟨m, ?_⟩
    conv_lhs => rw [hs]
    exact Lexer.lift_error l p r m
  | ok x =>
    obtain ⟨t, r⟩ := x
    rw [hsc] at hs
    simp only [scanRest] at hs
    left
    refine ⟨t, ?_⟩
    conv_lhs => rw [hs]
    exact Lexer.lift_ok l p r t

/-- The cursor `k` characters after a reachable state. -/
theorem Lexer.Reachable.ahead {input : Str} {l : Lexer} (h : Lexer.Reachable input l)
    (k : Nat) :
    (l.advanceN k).text = input ∧ (l.advanceN k).pos = l.pos + k ∧
      (l.advanceN k).currentChar = charAt input (l.pos + k) := by
  obtain ⟨hv, _, ht⟩ := h.view
  refine ⟨by rw [Lexer.advanceN_text, ht], Lexer.advanceN_pos l k, ?_⟩
  rw [(hv.advanceN k).cur, charAt_eq, List.drop_drop]

/-- The states a call of `getNextToken` passes through before the one it ends in have a
character of the buffer other than NUL at the cursor. -/
theorem Lexer.Reachable.passes {input : Str} {l : Lexer} (h : Lexer.Reachable input l) :
    ∃ k, l.pos + k ≤ input.length ∧
      (∀ j, j < k → (l.advanceN j).currentChar ≠ 0 ∧ (l.advanceN j).pos < input.length) ∧
      ((∃ t, l.getNextToken = .ok (t, l.advanceN k)) ∨
        (∃ msg, l.getNextToken = (l.advanceN k).error msg)) := by
  obtain ⟨hv, hle, _⟩ := h.view
  obtain ⟨p, r, hs, hp, hout⟩ := Lexer.getNextToken_passes hv
  have hlen := congrArg List.length hs
  rw [List.length_drop, List.length_append] at hlen
  refine ⟨p.length, by omega, fun j hj => ?_, hout⟩
  rw [Lexer.advanceN_pos]
  refine ⟨?_, by omega⟩
  rw [((hv.advanceN j).cur), hs, List.drop_append_of_le_length (le_of_lt hj)]
  have hne : p.drop j ≠ [] := by
    intro h0
    have := congrArg List.length h0
    rw [List.length_drop] at this
    simp only [List.length_nil] at this
    omega
  rw [headD_append_of_ne_nil hne r [], List.append_nil]
  obtain ⟨c, q, hd⟩ := List.exists_cons_of_ne_nil hne
  rw [hd]
  show c ≠ 0
  apply hp
  have : c ∈ p.drop j := by rw [hd]; exact List.mem_cons_self _ _
  exact List.mem_of_mem_drop this

/-! ## The number read back is close to the number printed -/

/-- The six digits of a number are within half a unit of the sixth digit of it. -/
theorem digits6_close (n d : Nat) (hn : 1 ≤ n) (hd : 1 ≤ d) :
    |((digits6 n d).1 : ℚ) * 10 ^ ((digits6 n d).2 - 5) - (n : ℚ) / d| ≤
      (n : ℚ) / d / (2 * 10 ^ 5) := by
  obtain ⟨hlo, _⟩ := decimalExponent_spec n d hn hd
  have hcl := scaleRound_close n d (by omega) (5 - decimalExponent n d)
  set x0 := decimalExponent n d with hx0
  set m0 := scaleRound n d (5 - x0) with hm0
  set v : ℚ := (n : ℚ) / d with hv
  have ha : (0 : ℚ) < 10 ^ x0 := by positivity
  have e1 : (10 : ℚ) ^ (x0 - 5) = 10 ^ x0 / 10 ^ 5 := by
    rw [zpow_sub₀ (by norm_num)]; norm_num
  have e2 : (10 : ℚ) ^ (5 - x0) = 10 ^ 5 / 10 ^ x0 := by
    rw [zpow_sub₀ (by norm_num)]; norm_num
  have e3 : (10 : ℚ) ^ (x0 + 1 - 5) = 10 ^ x0 / 10 ^ 4 := by
    have : x0 + 1 - 5 = x0 - 4 := by ring
    rw [this, zpow_sub₀ (by norm_num)]; norm_num
  have hval : ((digits6 n d).1 : ℚ) * 10 ^ ((digits6 n d).2 - 5) = (m0 : ℚ) * 10 ^ x0 / 10 ^ 5 := by
    unfold digits6
    simp only [← hx0, ← hm0]
    by_cases h6 : m0 = 10 ^ 6
    · rw [if_pos h6, if_pos h6, e3, h6]
      push_cast
      ring
    · rw [if_neg h6, if_neg h6, e1]
      ring
  rw [hval]
  rw [e2] at hcl
  have hcl' := abs_le.mp hcl
  have h1 : (m0 : ℚ) * 10 ^ x0 / 10 ^ 5 - v =
      ((m0 : ℚ) - v * (10 ^ 5 / 10 ^ x0)) * (10 ^ x0 / 10 ^ 5) := by
    field_simp
    ring
  rw [h1, abs_mul, abs_of_pos (show (0 : ℚ) < 10 ^ x0 / 10 ^ 5 by positivity)]
  calc |(m0 : ℚ) - v * (10 ^ 5 / 10 ^ x0)| * (10 ^ x0 / 10 ^ 5)
      ≤ 1 / 2 * (10 ^ x0 / 10 ^ 5) := by
        apply mul_le_mul_of_nonneg_right hcl (by positivity)
    _ = 10 ^ x0 / (2 * 10 ^ 5) := by ring
    _ ≤ v / (2 * 10 ^ 5) := by
        apply div_le_div_of_nonneg_right hlo (by norm_num)

/-- A finite number whose rendering `std::stod` converts is read back as a number `Close` to
it: the rounding to six decimal digits moves it by at most five millionths of itself, and the
rounding to binary64 by at most `2^-53` of the result. -/
theorem Double.Convertible.close {d : Double} (h : d.Convertible) : d.Close d.reparsed := by
  have hs := h.stod
  obtain ⟨⟨neg, man, exp, rfl⟩, _⟩ := h
  rw [Double.format_finite] at hs
  by_cases hm : man = 0
  · rw [if_pos hm] at hs
    subst hm
    have e : ∀ b : Bool, JsonParser.stod ((if b = true then [45] else []) ++ [48]) =
        .ok (.finite b 0 0) := by
      intro b; cases b <;> rfl
    rw [e] at hs
    simp only [Except.ok.injEq] at hs
    rw [← hs]
    exact ⟨neg, 0, exp, 0, 0, rfl, rfl, by simp⟩
  · rw [if_neg hm] at hs
    obtain ⟨hn, hd⟩ := Double.ratio_pos man exp (by omega)
    have hm1 := digits6_ge _ _ hn hd
    have hm2 := digits6_lt _ _ hn hd
    obtain ⟨num, den, hnum, hden, hval, hst⟩ := stod_layoutG neg _
      (digits6 (Double.ratio man exp).1 (Double.ratio man exp).2).2 hm1 hm2
    have hs' : JsonParser.stod ((if neg = true then [45] else []) ++
        layoutG (digits6 (Double.ratio man exp).1 (Double.ratio man exp).2).1
          (digits6 (Double.ratio man exp).1 (Double.ratio man exp).2).2) = .ok
        (Double.finite neg man exp).reparsed := hs
    rw [hst] at hs'
    obtain ⟨man', exp', hd', hman', hclose⟩ := roundToDouble_ok hnum hden hs'
    rw [hval] at hclose
    have hdig := digits6_close _ _ hn hd
    rw [Double.ratio_value] at hdig
    refine ⟨neg, man, exp, man', exp', rfl, hd', ?_⟩
    have hv : (0 : ℚ) < (man : ℚ) * 2 ^ exp := by
      have : (0 : ℚ) < (man : ℚ) := by exact_mod_cast Nat.pos_of_ne_zero hm
      positivity
    set v : ℚ := (man : ℚ) * 2 ^ exp
    set V : ℚ := (man' : ℚ) * 2 ^ exp'
    set D : ℚ := ((digits6 (Double.ratio man exp).1 (Double.ratio man exp).2).1 : ℚ) *
      10 ^ ((digits6 (Double.ratio man exp).1 (Double.ratio man exp).2).2 - 5)
    obtain ⟨a1, a2⟩ := abs_le.mp hclose
    obtain ⟨b1, b2⟩ := abs_le.mp hdig
    have c1 : V / 2 ^ 53 = V * (1 / 9007199254740992) := by norm_num [div_eq_mul_inv]
    have c2 : v / (2 * 10 ^ 5) = v * (1 / 200000) := by norm_num [div_eq_mul_inv]
    rw [c1] at a1 a2
    rw [c2] at b1 b2
    rw [abs_le]
    constructor <;> norm_num <;> linarith

mutual

/-- A printable tree is equivalent to the tree read back. -/
theorem JsonValue.equivalent_reparsed : ∀ (v : JsonValue), v.Printable →
    v.Equivalent v.reparsed
  | .object ps, hp => by
    simp only [JsonValue.Printable] at hp
    rw [JsonValue.reparsed]
    exact .object (JsonValue.equivalent_members ps hp)
  | .array es, hp => by
    simp only [JsonValue.Printable] at hp
    rw [JsonValue.reparsed]
    exact .array (JsonValue.equivalent_elements es hp)
  | .string w, _ => by
    rw [JsonValue.reparsed]
    exact .string w
  | .number d, hp => by
    simp only [JsonValue.Printable] at hp
    rw [JsonValue.reparsed]
    exact .number hp.close
  | .boolean b, _ => by
    rw [JsonValue.reparsed]
    exact .boolean b
  | .null, _ => by
    rw [JsonValue.reparsed]
    exact .null

theorem JsonValue.equivalent_members : ∀ (ps : List (Str × JsonValue)),
    JsonValue.PrintableMembers ps →
    JsonValue.EquivalentMembers ps (JsonValue.reparsedMembers ps)
  | [], _ => by
    rw [JsonValue.reparsedMembers]
    exact .nil
  | (k, v) :: rest, hp => by
    rw [JsonValue.PrintableMembers] at hp
    rw [JsonValue.reparsedMembers]
    exact .cons k (JsonValue.equivalent_reparsed v hp.2.1)
      (JsonValue.equivalent_members rest hp.2.2)

theorem JsonValue.equivalent_elements : ∀ (es : List JsonValue),
    JsonValue.PrintableElements es →
    JsonValue.EquivalentElements es (JsonValue.reparsedElements es)
  | [], _ => by
    rw [JsonValue.reparsedElements]
    exact .nil
  | v :: rest, hp => by
    rw [JsonValue.PrintableElements] at hp
    rw [JsonValue.reparsedElements]
    exact .cons (JsonValue.equivalent_reparsed v hp.1)
      (JsonValue.equivalent_elements rest hp.2)

end

/-- A run `w` of space, tab, newline and carriage return inserted behind whitespace `g` that the
text already has where the walk stands. -/
theorem WsInsert.run (g w : Str) (hg : ∀ c ∈ g, isspace c = true)
    (hw : ∀ c ∈ w, c = 32 ∨ c = 9 ∨ c = 10 ∨ c = 13) {s s' : Str} (h : WsInsert s s') :
    WsInsert (g ++ s) (g ++ (w ++ s')) := by
  induction g with
  | nil =>
    induction w with
    | nil => exact h
    | cons c w ih =>
      exact .here c (hw c (List.mem_cons_self _ _))
        (ih fun d hd => hw d (List.mem_cons_of_mem _ hd))
  | cons c g ih =>
    exact .space c (hg c (List.mem_cons_self _ _))
      (ih fun d hd => hg d (List.mem_cons_of_mem _ hd))

/-! # The claims -/

/-! ## Worked examples -/

/-- C3: the nested example of the specification.  The input
`{"a": [1, 2, {"b": true}], "c": null}` parses to the object with the members
`a = [1, 2, {"b": true}]` and `c = null` in this order, and `toString(0)` of that tree is the
ten-line text of the specification: two more spaces at each nesting level, the closing bracket at
the level of its parent, no newline at the end. -/
theorem nested_example :
    parseInput (str "\x7b\"a\": [1, 2, \x7b\"b\": true\x7d], \"c\": null\x7d") =
        .ok (.object [(str "a", .array [.number (Double.ofScaled false 1 0),
          .number (Double.ofScaled false 2 0), .object [(str "b", .boolean true)]]),
          (str "c", .null)]) ∧
      (JsonValue.object [(str "a", .array [.number (Double.ofScaled false 1 0),
          .number (Double.ofScaled false 2 0), .object [(str "b", .boolean true)]]),
          (str "c", .null)]).toString 0 =
        str ("\x7b\n  \"a\": [\n    1,\n    2,\n    \x7b\n      \"b\": true\n    \x7d\n  ],\n" ++
          "  \"c\": null\n\x7d") :=
  ⟨rfl, rfl⟩

/-- C7: empty containers.  `{}` parses to the object without properties and `[]` to the array
without elements; at every indentation level the empty object prints as `{}` and the empty array
as `[]`, so both inputs print back unchanged. -/
theorem empty_containers :
    parseInput (str "\x7b\x7d") = .ok (.object []) ∧
      parseInput (str "[]") = .ok (.array []) ∧
      (∀ indent : Nat, (JsonValue.object []).toString indent = str "\x7b\x7d") ∧
      (∀ indent : Nat, (JsonValue.array []).toString indent = str "[]") ∧
      (∀ v, parseInput (str "\x7b\x7d") = .ok v → v.toString 0 = str "\x7b\x7d") ∧
      (∀ v, parseInput (str "[]") = .ok v → v.toString 0 = str "[]") := by
  refine ⟨rfl, rfl, fun _ => rfl, fun _ => rfl, ?_, ?_⟩
  · intro v h
    have e : parseInput (str "\x7b\x7d") = .ok (.object []) := rfl
    rw [e] at h
    cases h
    rfl
  · intro v h
    have e : parseInput (str "[]") = .ok (.array []) := rfl
    rw [e] at h
    cases h
    rfl

/-- C6: leading zeros.  With the cursor at a number literal whose integer part, after an optional
`-`, is a `0` followed by another digit, `getNextToken` throws the lexical error
"Leading zeros not allowed" at the position of that digit, and parsing an input that starts with
such a literal throws it; `01` fails, `0` and `0.5` are each one NUMBER token with their own text
followed by end-of-input, and they parse. -/
theorem leading_zero_rejected :
    (∀ (l : Lexer) (sign : Str) (d : Int) (rest : Str), (sign = [] ∨ sign = [45]) →
        isdigit d = true → l.View (sign ++ 48 :: d :: rest) →
        l.getNextToken =
          .error (.lexerError l.line (l.column + sign.length + 1)
            (str "Leading zeros not allowed"))) ∧
      (∀ (sign : Str) (d : Int) (rest : Str), (sign = [] ∨ sign = [45]) → isdigit d = true →
        parseInput (sign ++ 48 :: d :: rest) =
          .error (.lexerError 1 (sign.length + 2) (str "Leading zeros not allowed"))) ∧
      parseInput (str "01") = .error (.lexerError 1 2 (str "Leading zeros not allowed")) ∧
      tokenize (str "0") = ([⟨.NUMBER, str "0"⟩, ⟨.EOF_TOKEN, []⟩], none) ∧
      tokenize (str "0.5") = ([⟨.NUMBER, str "0.5"⟩, ⟨.EOF_TOKEN, []⟩], none) ∧
      parseInput (str "0") = .ok (.number (Double.ofScaled false 0 0)) ∧
      parseInput (str "0.5") = .ok (.number (Double.ofScaled false 1 (-1))) := by
  have gen : ∀ (l : Lexer) (sign : Str) (d : Int) (rest : Str), (sign = [] ∨ sign = [45]) →
      isdigit d = true → l.View (sign ++ 48 :: d :: rest) →
      l.getNextToken =
        .error (.lexerError l.line (l.column + sign.length + 1)
          (str "Leading zeros not allowed")) := by
    intro l sign d rest hs hd hv
    rw [Lexer.getNextToken_eq hv, scan_leading_zero sign d rest hs hd]
    have hv' : l.View ((sign ++ [48]) ++ d :: rest) := by simpa using hv
    have hpos := Lexer.advanceN_line_column (sign ++ [48]) hv' (by
      intro c hc
      rcases hs with rfl | rfl <;> simp at hc <;> omega)
    have hk : (sign ++ 48 :: d :: rest).length - (d :: rest).length = (sign ++ [48]).length := by
      simp only [List.length_append, List.length_cons, List.length_nil]
      omega
    simp only [Lexer.lift, hk, Lexer.error, hpos]
    simp [Nat.add_assoc]
  refine ⟨gen, ?_, rfl, rfl, rfl, rfl, rfl⟩
  intro sign d rest hs hd
  have := gen (Lexer.new (sign ++ 48 :: d :: rest)) sign d rest hs hd (Lexer.View.new _)
  simp only [parseInput, Parser.new, this, bind, Except.bind]
  simp [Lexer.new, Nat.add_comm, Nat.add_left_comm]


/-- C6 at the input `-01x`: the error is raised at line 1, column 3. -/
theorem leading_zero_rejected_witness :
    (Lexer.new (str "-01x")).getNextToken =
      .error (.lexerError 1 3 (str "Leading zeros not allowed")) :=
  leading_zero_rejected.1 (Lexer.new (str "-01x")) [45] 49 (str "x") (Or.inr rfl) rfl
    (Lexer.View.new _)

/-- C10: string literals are decoded as by the reference decoder.  With the cursor at a `"`
followed by 7-bit ASCII text, `getNextToken` returns a STRING token exactly when the reference
decoder accepts the literal (an unescaped closing quote, only the escapes `" \ / b f n r t u`,
no raw character below `0x20` other than tab before it); the token text is the decoded body,
with `\u` kept as backslash-u and the characters after it appended as ordinary ones, and the
cursor is left just past the closing quote.  Otherwise it throws a lexical error.  `"\u0041"`
gives the six characters `\u0041`, and `"\u"` is accepted. -/
theorem string_literal_decoding :
    (∀ (l : Lexer) (s : Str), (∀ c ∈ s, 0 ≤ c ∧ c ≤ 127) → l.View (34 :: s) →
      match decodeString s with
      | some (text, rest) =>
        l.getNextToken = .ok (⟨.STRING, text⟩, l.advanceN (s.length + 1 - rest.length)) ∧
          (l.advanceN (s.length + 1 - rest.length)).View rest
      | none => ∃ line column msg, l.getNextToken = .error (.lexerError line column msg)) ∧
      tokenize (str "\"\\u0041\"") = ([⟨.STRING, str "\\u0041"⟩, ⟨.EOF_TOKEN, []⟩], none) ∧
      (str "\\u0041").length = 6 ∧
      tokenize (str "\"\\u\"") = ([⟨.STRING, str "\\u"⟩, ⟨.EOF_TOKEN, []⟩], none) := by
  refine ⟨?_, rfl, rfl, rfl⟩
  intro l s _ hv
  have hd := scanStringLoop_decode s.length s [] (Nat.le_refl _)
  have hsuf := (Lexer.getNextToken_agree hv)
  rw [Lexer.getNextToken_eq hv, scan_quote, scanString_eq]
  rw [scan_quote, scanString_eq] at hsuf
  simp only [List.tail_cons] at hsuf ⊢
  cases hds : decodeString s with
  | none =>
    rw [hds] at hd
    obtain ⟨e, he⟩ := hd
    rw [he]
    exact ⟨_, _, _, rfl⟩
  | some x =>
    obtain ⟨text, rest⟩ := x
    rw [hds] at hd
    simp only [List.nil_append] at hd
    rw [hd] at hsuf ⊢
    obtain ⟨k, hk, hr, _⟩ := hsuf
    replace hr : rest = List.drop k (34 :: s) := hr
    have hk' : (34 :: s).length - rest.length = k := by
      rw [hr, List.length_drop]; omega
    have hlen : s.length + 1 - rest.length = k := by simpa using hk'
    refine ⟨?_, ?_⟩
    · simp only [bind, Except.bind, pure, Except.pure, Lexer.lift, hk', hlen]
    · rw [hlen, hr]
      exact hv.advanceN k

/-- C10 at the literal `"a\nb"` followed by a comma: the token text is `a`, newline, `b`, and
the cursor is left at the comma. -/
theorem string_literal_decoding_witness :
    (Lexer.new (str "\"a\\nb\",")).getNextToken =
        .ok (⟨.STRING, [97, 10, 98]⟩, (Lexer.new (str "\"a\\nb\",")).advanceN 6) ∧
      ((Lexer.new (str "\"a\\nb\",")).advanceN 6).View (str ",") :=
  string_literal_decoding.1 (Lexer.new (str "\"a\\nb\",")) (str "a\\nb\",") (by decide)
    (Lexer.View.new _)

/-- C4: trailing commas.  Whenever the token sequence of the input has a comma token immediately
followed by `}` or `]`, parsing throws (it returns no tree, and the embedding does not run out
of fuel); `{"a":1,}` and `[1,]` throw the trailing-comma errors of the object and of the array
loop, and `{"a":1}` and `[1]` parse. -/
theorem trailing_comma_rejected :
    (∀ (input : Str) (pre post : List Token) (a b : Token),
        (tokenize input).1 = pre ++ a :: b :: post → a.type = .COMMA →
        (b.type = .RBRACE ∨ b.type = .RBRACKET) →
        ∃ e, parseInput input = .error e ∧ e ≠ .outOfFuel) ∧
      parseInput (str "\x7b\"a\":1,\x7d") =
        .error (.runtimeError (str "Trailing comma in object")) ∧
      parseInput (str "[1,]") = .error (.runtimeError (str "Trailing comma in array")) ∧
      parseInput (str "\x7b\"a\":1\x7d") =
        .ok (.object [(str "a", .number (Double.ofScaled false 1 0))]) ∧
      parseInput (str "[1]") = .ok (.array [.number (Double.ofScaled false 1 0)]) := by
  refine ⟨?_, rfl, rfl, rfl, rfl⟩
  intro input pre post a b hts ha hb
  cases hp : parseInput input with
  | error e => exact ⟨e, rfl, fun h => parseInput_ne_fuel input (by rw [hp, h])⟩
  | ok v =>
    obtain ⟨ts, e, htok, he, hser⟩ := parseInput_sound hp
    rw [htok] at hts
    exact absurd ⟨ha, hb⟩ (hser.no_trailing_comma e he pre post a b hts)

/-- C4 at the input `[1, 2,]`: its third and fourth tokens are a comma and `]`. -/
theorem trailing_comma_rejected_witness :
    ∃ e, parseInput (str "[1, 2,]") = .error e ∧ e ≠ .outOfFuel :=
  trailing_comma_rejected.1 (str "[1, 2,]")
    [⟨.LBRACKET, str "["⟩, ⟨.NUMBER, str "1"⟩, ⟨.COMMA, str ","⟩, ⟨.NUMBER, str "2"⟩]
    [⟨.EOF_TOKEN, []⟩] ⟨.COMMA, str ","⟩ ⟨.RBRACKET, str "]"⟩ rfl rfl (Or.inr rfl)

/-- C5: trailing content.  `Parser::parse` returns the value that `parseValue` parsed exactly
when the lookahead after it is end-of-input, and throws "Extra content after JSON value"
otherwise; an input parses only if its token sequence is the serialization of one value followed
by end-of-input, and every input whose token sequence starts with the serialization of a value
followed by a further token other than end-of-input throws that error, as `1 2` does. -/
theorem trailing_content :
    (∀ (p p' : Parser) (v : JsonValue), p.parseValue p.fuel = .ok (v, p') →
        (p'.currentToken.type = .EOF_TOKEN → p.parse = .ok v) ∧
        (p'.currentToken.type ≠ .EOF_TOKEN →
          p.parse = .error (.runtimeError (str "Extra content after JSON value")))) ∧
      (∀ (input : Str) (v : JsonValue), parseInput input = .ok v →
        ∃ ts e, tokenize input = (ts ++ [e], none) ∧ e.type = .EOF_TOKEN ∧ Serializes v ts) ∧
      (∀ (input : Str) (v : JsonValue) (ts : List Token) (t : Token) (rest : List Token),
        (tokenize input).1 = ts ++ t :: rest → Serializes v ts → t.type ≠ .EOF_TOKEN →
        parseInput input = .error (.runtimeError (str "Extra content after JSON value"))) ∧
      parseInput (str "1 2") =
        .error (.runtimeError (str "Extra content after JSON value")) := by
  refine ⟨?_, fun input v h => parseInput_sound h, ?_, rfl⟩
  · intro p p' v h
    unfold Parser.parse
    rw [h]
    refine ⟨fun he => ?_, fun he => ?_⟩
    · simp [bind, Except.bind, he, pure, Except.pure]
    · simp [bind, Except.bind, he]
  · intro input v ts t rest htok hser ht
    obtain ⟨hf, hlen, hstop⟩ := tokenize_spec input
    rw [htok] at hlen
    rw [parseInput_eq_parseTokens, htok]
    obtain ⟨t0, tl, rfl, _⟩ := hser.head_token
    unfold parseTokens TParser.next
    simp only [List.cons_append, bind, Except.bind]
    unfold TParser.parse
    have := TParser.complete_value hser (3 * (input.length + 1) + 1)
      { currentToken := t0, rest := tl ++ t :: rest, stop := (tokenize input).2 } t rest
      (by simp at hlen ⊢; omega) (by simp)
    simp only [this, bind, Except.bind, ht, ne_eq, not_false_eq_true, ↓reduceIte]

/-- C5 at the input `[] 1`: the value `[]` is followed by a number token. -/
theorem trailing_content_witness :
    parseInput (str "[] 1") = .error (.runtimeError (str "Extra content after JSON value")) :=
  trailing_content.2.2.1 (str "[] 1") (.array [])
    [⟨.LBRACKET, str "["⟩, ⟨.RBRACKET, str "]"⟩] ⟨.NUMBER, str "1"⟩ [⟨.EOF_TOKEN, []⟩] rfl
    (Serializes.emptyArray _ _ rfl rfl) (by decide)

/-- C9: duplicate keys and order.  Parsing returns the object with the properties `props`
exactly when the token sequence of the input is `{`, one member `key : value` for each pair of
`props` in the same order, separated by single commas, `}` and end-of-input (for no pair: `{`,
`}`, end-of-input): nothing is merged or dropped.  `{"a":1,"a":2}` gives the two pairs
`("a", 1)`, `("a", 2)` in this order. -/
theorem duplicate_keys_preserved :
    (∀ (input : Str) (props : List (Str × JsonValue)),
        parseInput input = .ok (.object props) ↔
          ∃ lb rb e ms, tokenize input = (lb :: ms ++ [rb, e], none) ∧ lb.type = .LBRACE ∧
            rb.type = .RBRACE ∧ e.type = .EOF_TOKEN ∧
            ((props = [] ∧ ms = []) ∨ SerializesMembers props ms)) ∧
      parseInput (str "\x7b\"a\":1,\"a\":2\x7d") =
        .ok (.object [(str "a", .number (Double.ofScaled false 1 0)),
          (str "a", .number (Double.ofScaled false 2 0))]) := by
  refine ⟨?_, rfl⟩
  intro input props
  constructor
  · intro h
    obtain ⟨ts, e, htok, he, hser⟩ := parseInput_sound h
    cases hser with
    | emptyObject lb rb h1 h2 =>
      exact ⟨lb, rb, e, [], by rw [htok]; rfl, h1, h2, he, Or.inl ⟨rfl, rfl⟩⟩
    | object lb rb ps ms h1 h2 hm =>
      exact ⟨lb, rb, e, ms, by rw [htok]; simp, h1, h2, he, Or.inr hm⟩
  · rintro ⟨lb, rb, e, ms, htok, h1, h2, he, hm⟩
    rcases hm with ⟨rfl, rfl⟩ | hm
    · exact @parseInput_complete _ _ [lb, rb] _ (by rw [htok]; rfl) he
        (Serializes.emptyObject _ _ h1 h2)
    · exact @parseInput_complete _ _ (lb :: ms ++ [rb]) _ (by rw [htok]; simp) he
        (Serializes.object _ _ _ _ h1 h2 hm)

/-- C8: whitespace insensitivity.  When `s'` is the input `s` with runs of space, tab, newline
and carriage return inserted before the first token, between two adjacent tokens (before, inside
or behind the whitespace that is there already) or after the last token, the token sequence (kind and text of every token) delivered by the repeated calls
of `getNextToken` is the same for both, it ends in a lexical error for both or for neither,
and when `s` parses to a tree, `s'` parses to the same tree. -/
theorem whitespace_insensitive (s s' : Str) (h : WsInsert s s') :
    (tokenize s').1 = (tokenize s).1 ∧ ((tokenize s').2 = none ↔ (tokenize s).2 = none) ∧
      ∀ v, parseInput s = .ok v → parseInput s' = .ok v :=
  ⟨h.tokenize_same.1, h.tokenize_same.2, fun _ hv => h.parseInput hv⟩

theorem whitespace_insensitive_witness :
    WsInsert (str "[ 1]") (str " [ \t1\n]\r") ∧
      parseInput (str "[ 1]") = .ok (.array [.number (.finite false 1 0)]) ∧
      ((tokenize (str " [ \t1\n]\r")).1 = (tokenize (str "[ 1]")).1 ∧
        ((tokenize (str " [ \t1\n]\r")).2 = none ↔ (tokenize (str "[ 1]")).2 = none) ∧
        ∀ v, parseInput (str "[ 1]") = .ok v → parseInput (str " [ \t1\n]\r") = .ok v) :=
  have hw : WsInsert (str "[ 1]") (str " [ \t1\n]\r") :=
    .here 32 (by decide) (.token [91] (r := [32, 49, 93]) rfl rfl (by decide)
      (.space 32 (by decide) (.here 9 (by decide) (.token [49] (r := [93]) rfl rfl (by decide)
        (.here 10 (by decide) (.token [93] (r := []) rfl rfl (by decide)
          (.here 13 (by decide) (.done []))))))))
  ⟨hw, rfl, whitespace_insensitive _ _ hw⟩

/-- C1 (as amended): round trip.  For every tree whose strings and object keys hold only
characters of code 32 or more or tabs, no double quote and no backslash (other than one
followed by `u`, which the lexer keeps as it is), and whose numbers are finite with a default
rendering that `std::stod` converts, lexing and parsing `toString(0)` of the tree succeeds and
returns a tree equivalent to it: the same variant at every node, the same children and keys in
the same order, the same key and string contents, and numbers equal to six significant decimal
digits.  Each number is read back as the conversion of its six-digit rendering, which has the
same sign and a magnitude that differs from its own by at most six millionths of it. -/
theorem round_trip (t : JsonValue) (h : t.Printable) :
    parseInput (t.toString 0) = .ok t.reparsed ∧ t.Equivalent t.reparsed :=
  ⟨t.parse_toString h, t.equivalent_reparsed h⟩

theorem round_trip_witness :
    (JsonValue.object [(str "a", .array [.number (.finite false 1234567 0),
        .string (str "x y"), .boolean true, .null]), (str "b", .object [])]).Printable ∧
      (parseInput ((JsonValue.object [(str "a", .array [.number (.finite false 1234567 0),
        .string (str "x y"), .boolean true, .null]), (str "b", .object [])]).toString 0) =
        .ok (JsonValue.object [(str "a", .array [.number (.finite false 1234567 0),
          .string (str "x y"), .boolean true, .null]), (str "b", .object [])]).reparsed ∧
      (JsonValue.object [(str "a", .array [.number (.finite false 1234567 0),
        .string (str "x y"), .boolean true, .null]), (str "b", .object [])]).Equivalent
        (JsonValue.object [(str "a", .array [.number (.finite false 1234567 0),
          .string (str "x y"), .boolean true, .null]), (str "b", .object [])]).reparsed) :=
  have hp : (JsonValue.object [(str "a", .array [.number (.finite false 1234567 0),
      .string (str "x y"), .boolean true, .null]), (str "b", .object [])]).Printable := by
    simp only [JsonValue.Printable, JsonValue.PrintableMembers, JsonValue.PrintableElements,
      and_true]
    exact ⟨StrSafe.of_plain (by decide), ⟨⟨⟨_, _, _, rfl⟩, _, rfl⟩,
      StrSafe.of_plain (by decide)⟩, StrSafe.of_plain (by decide)⟩
  ⟨hp, round_trip _ hp⟩

set_option exponentiation.threshold 1200 in
set_option maxRecDepth 100000 in
/-- C1 as stated fails: a String holding one double quote has no `\u` escape and no control
character, and its printed text `"""` is rejected by the lexer; a String holding a backslash
and `n` is read back as a line feed; a String holding bytes above `0x7F` is rejected where
`char` is signed; the printed text `nan` of a Number is rejected; the printed text of the
smallest subnormal number makes `std::stod` throw; and the Number 1234567, printed with six
significant digits as `1.23457e+06`, is read back as 1234570, which is `617285 * 2`: the two
differ in the seventh digit, far more than the precision of a binary64 (or binary32) number,
both being exactly representable. -/
theorem round_trip_counterexample :
    (∀ c ∈ ([34] : Str), 32 ≤ c ∧ c ≠ 127 ∧ c ≠ 92) ∧
      parseInput ((JsonValue.string [34]).toString 0) =
        .error (.lexerError 1 4 (str "Unterminated string")) ∧
      parseInput ((JsonValue.string [92, 110]).toString 0) = .ok (.string [10]) ∧
      parseInput ((JsonValue.string [-61, -87]).toString 0) =
        .error (.lexerError 1 2 (str "Control character in string")) ∧
      parseInput ((JsonValue.number .nan).toString 0) =
        .error (.lexerError 1 4 (str "Invalid keyword: nan")) ∧
      parseInput ((JsonValue.number (.finite false 1 (-1074))).toString 0) =
        .error .outOfRange ∧
      (JsonValue.number (.finite false 1234567 0)).toString 0 = str "1.23457e+06" ∧
      parseInput ((JsonValue.number (.finite false 1234567 0)).toString 0) =
        .ok (.number (.finite false 617285 1)) :=
  ⟨by decide, rfl, rfl, rfl, rfl, rfl, rfl, rfl⟩

/-- C17: soundness and completeness of the parser against the grammar of token sequences.
For every input, `parse` returns the tree `v` exactly when the token sequence delivered by the
lexer is a serialization of `v` (an Object as `{`, members `key : value` separated by single
commas, `}`; an Array as `[`, values separated by single commas, `]`; a String, Number, true,
false or null as its single token, the Number holding the conversion of the token text)
followed by end-of-input; for every other token sequence `parse` fails with an exception of
the program. -/
theorem parser_grammar :
    (∀ (input : Str) (v : JsonValue),
        parseInput input = .ok v ↔
          ∃ ts e, tokenize input = (ts ++ [e], none) ∧ e.type = .EOF_TOKEN ∧ Serializes v ts) ∧
      (∀ input : Str,
        (¬ ∃ v ts e, tokenize input = (ts ++ [e], none) ∧ e.type = .EOF_TOKEN ∧
          Serializes v ts) →
        ∃ x, parseInput input = .error x ∧ x ≠ .outOfFuel) := by
  have hiff : ∀ (input : Str) (v : JsonValue),
      parseInput input = .ok v ↔
        ∃ ts e, tokenize input = (ts ++ [e], none) ∧ e.type = .EOF_TOKEN ∧ Serializes v ts := by
    intro input v
    constructor
    · exact parseInput_sound
    · rintro ⟨ts, e, htok, he, hser⟩
      exact parseInput_complete htok he hser
  refine ⟨hiff, ?_⟩
  intro input hno
  cases hp : parseInput input with
  | ok v => exact absurd ⟨v, (hiff input v).mp hp⟩ hno
  | error x =>
    refine ⟨x, rfl, ?_⟩
    rintro rfl
    exact parseInput_ne_fuel input hp

/-- C13: keyword literals.  With the cursor at `t`, `f` or `n`, where `run` is the maximal run
of alphabetic characters from the cursor on (the text goes on with `rest`, which does not start
with a letter), `getNextToken` consumes exactly `run` and returns the true, false or null
token when `run` is exactly `true`, `false` or `null`, and for every other run it fails with
the lexical error "Invalid keyword: run" raised after the run. -/
theorem keyword_literals (l : Lexer) (run rest : Str) (hv : l.View (run ++ rest))
    (hk : run.headD 0 = 116 ∨ run.headD 0 = 102 ∨ run.headD 0 = 110)
    (hrun : ∀ c ∈ run, isalpha c = true) (hrest : isalpha (rest.headD 0) = false) :
    l.getNextToken =
      if run = str "true" then .ok (⟨.TRUE, str "true"⟩, l.advanceN run.length)
      else if run = str "false" then .ok (⟨.FALSE, str "false"⟩, l.advanceN run.length)
      else if run = str "null" then .ok (⟨.NULL_TOKEN, str "null"⟩, l.advanceN run.length)
      else (l.advanceN run.length).error (str "Invalid keyword: " ++ run) := by
  rw [Lexer.getNextToken_eq hv, scan_keyword hk hrun hrest]
  by_cases h1 : run = str "true"
  · rw [if_pos h1, if_pos h1, Lexer.lift_ok]
  rw [if_neg h1, if_neg h1]
  by_cases h2 : run = str "false"
  · rw [if_pos h2, if_pos h2, Lexer.lift_ok]
  rw [if_neg h2, if_neg h2]
  by_cases h3 : run = str "null"
  · rw [if_pos h3, if_pos h3, Lexer.lift_ok]
  rw [if_neg h3, if_neg h3, Lexer.lift_error]

/-- C13 at the texts `nul,`, `truex` and `true]`: the first two are lexical failures at
line 1, columns 4 and 6, the third gives the true token. -/
theorem keyword_literals_witness :
    (Lexer.new (str "nul,")).getNextToken =
        .error (.lexerError 1 4 (str "Invalid keyword: nul")) ∧
      (Lexer.new (str "truex")).getNextToken =
        .error (.lexerError 1 6 (str "Invalid keyword: truex")) ∧
      (Lexer.new (str "true]")).getNextToken =
        .ok (⟨.TRUE, str "true"⟩, (Lexer.new (str "true]")).advanceN 4) :=
  ⟨keyword_literals (Lexer.new (str "nul,")) (str "nul") (str ",") (Lexer.View.new _)
      (by decide) (by decide) (by decide),
    keyword_literals (Lexer.new (str "truex")) (str "truex") [] (Lexer.View.new _)
      (by decide) (by decide) (by decide),
    keyword_literals (Lexer.new (str "true]")) (str "true") (str "]") (Lexer.View.new _)
      (by decide) (by decide) (by decide)⟩

/-- C12 (as amended): unexpected character.  When the character at the cursor is not the end
marker NUL, not one of the six characters of `std::isspace` (space, tab, newline, vertical
tab, form feed, carriage return), not one of `{ } [ ] , :`, not `"`, not `-` or a digit and
not `t`, `f` or `n`, `getNextToken` fails with the lexical error "Unexpected character: c" at
the line and column of the cursor: the character is neither skipped nor turned into a token. -/
theorem unexpected_character (l : Lexer) (s : Str) (hv : l.View s)
    (h0 : l.currentChar ≠ 0) (hsp : isspace l.currentChar = false)
    (hp : l.currentChar ≠ 123 ∧ l.currentChar ≠ 125 ∧ l.currentChar ≠ 91 ∧
      l.currentChar ≠ 93 ∧ l.currentChar ≠ 44 ∧ l.currentChar ≠ 58)
    (hq : l.currentChar ≠ 34) (hnum : l.currentChar ≠ 45 ∧ isdigit l.currentChar = false)
    (hkw : l.currentChar ≠ 116 ∧ l.currentChar ≠ 102 ∧ l.currentChar ≠ 110) :
    l.getNextToken =
      .error (.lexerError l.line l.column (str "Unexpected character: " ++ [l.currentChar])) := by
  rw [hv.cur] at h0 hsp hp hq hnum hkw ⊢
  rw [Lexer.getNextToken_eq hv, scan_unexpected h0 hsp hp hq hnum hkw]
  have := @Lexer.lift_error Token l [] s (str "Unexpected character: " ++ [s.headD 0])
  rw [List.nil_append] at this
  rw [this]
  rfl

/-- C12 at the text `@1`: the failure names `@` at line 1, column 1. -/
theorem unexpected_character_witness :
    (Lexer.new (str "@1")).getNextToken =
      .error (.lexerError 1 1 (str "Unexpected character: @")) :=
  unexpected_character (Lexer.new (str "@1")) (str "@1") (Lexer.View.new _) (by decide)
    (by decide) (by decide) (by decide) (by decide) (by decide)

/-- C12 as stated fails: a vertical tab and a form feed are none of the characters the claim
lists, and `getNextToken` skips them and returns the token after them; the character NUL is
none of them either, and it is turned into the end-of-input token. -/
theorem unexpected_character_counterexample :
    (Lexer.new [11, 49]).getNextToken = .ok (⟨.NUMBER, [49]⟩, (Lexer.new [11, 49]).advanceN 2) ∧
      (Lexer.new [12, 49]).getNextToken =
        .ok (⟨.NUMBER, [49]⟩, (Lexer.new [12, 49]).advanceN 2) ∧
      (Lexer.new [0, 64]).getNextToken = .ok (⟨.EOF_TOKEN, []⟩, Lexer.new [0, 64]) :=
  ⟨rfl, rfl, rfl⟩

/-- C18: number token soundness.  Whenever `getNextToken` returns a NUMBER token, the text
after the cursor was white space `ws`, then the text of the token, then `rest`: the token text
is exactly the characters consumed for it, it follows the grammar
`-?(0|[1-9][0-9]*)(\.[0-9]+)?([eE][+-]?[0-9]+)?`, and the cursor is left at the first
character after it. -/
theorem number_token (l l' : Lexer) (s : Str) (t : Token) (hv : l.View s)
    (h : l.getNextToken = .ok (t, l')) (ht : t.type = .NUMBER) :
    ∃ ws rest, s = ws ++ t.value ++ rest ∧ (∀ c ∈ ws, isspace c = true) ∧
      NumberLiteral t.value ∧ l' = l.advanceN (ws.length + t.value.length) ∧ l'.View rest := by
  obtain ⟨p, r, hs, hsc, hl, hv'⟩ := Lexer.getNextToken_ok hv h
  unfold scan at hsc
  by_cases h0 : (s.dropWhile isspace).headD 0 = 0
  · rw [if_pos h0] at hsc
    simp only [Except.ok.injEq, Prod.mk.injEq] at hsc
    rw [← hsc.1] at ht
    cases ht
  · rw [if_neg h0] at hsc
    obtain ⟨hsplit, hlit⟩ := scanNumber_sound (scanToken_number hsc ht)
    have hs2 : s = s.takeWhile isspace ++ t.value ++ r := by
      rw [List.append_assoc, ← hsplit, List.takeWhile_append_dropWhile]
    have hp : p = s.takeWhile isspace ++ t.value :=
      List.append_cancel_right (hs.symm.trans hs2)
    refine ⟨s.takeWhile isspace, r, hs2, takeWhile_all isspace s, hlit, ?_, hv'⟩
    rw [hl, hp, List.length_append]

/-- C18 at the text ` -1.5e+3,`: one space is skipped, the token text is `-1.5e+3`, the
cursor is left at the comma. -/
theorem number_token_witness :
    ∃ ws rest, str " -1.5e+3," = ws ++ str "-1.5e+3" ++ rest ∧ (∀ c ∈ ws, isspace c = true) ∧
      NumberLiteral (str "-1.5e+3") ∧
      (Lexer.new (str " -1.5e+3,")).advanceN 8 =
        (Lexer.new (str " -1.5e+3,")).advanceN (ws.length + (str "-1.5e+3").length) ∧
      ((Lexer.new (str " -1.5e+3,")).advanceN 8).View rest :=
  number_token (Lexer.new (str " -1.5e+3,")) ((Lexer.new (str " -1.5e+3,")).advanceN 8)
    (str " -1.5e+3,") ⟨.NUMBER, str "-1.5e+3"⟩ (Lexer.View.new _) rfl rfl

/-- C19: malformed number rejection.  With the cursor at a number literal, `getNextToken` fails
with a lexical error and returns no token when `-` is not followed by a digit ("Invalid
number"), when the `.` after the integer part is not followed by a digit ("Digit expected after
decimal point"), and when the `e` or `E` after the integer part and the optional fraction is
not followed by a digit after its optional sign ("Digit expected in exponent"); the error is
raised at the character where the digit is missing.  The texts `-`, `1.`, `1e` and `1e+` are
examples. -/
theorem malformed_number :
    (∀ (l : Lexer) (r : Str), l.View (45 :: r) → isdigit (r.headD 0) = false →
        l.getNextToken = (l.advanceN 1).error (str "Invalid number")) ∧
      (∀ (l : Lexer) (neg : Bool) (ip r : Str),
        l.View ((if neg then [45] else []) ++ (ip ++ 46 :: r)) → IntPart ip →
        isdigit (r.headD 0) = false →
        l.getNextToken =
          (l.advanceN (((if neg then [45] else []) ++ (ip ++ [46])).length)).error
            (str "Digit expected after decimal point")) ∧
      (∀ (l : Lexer) (neg : Bool) (ip fr sg r : Str) (e : Int),
        l.View ((if neg then [45] else []) ++ (ip ++ (fr ++ e :: (sg ++ r)))) → IntPart ip →
        FracPart fr → (e = 101 ∨ e = 69) →
        ((sg = [] ∧ r.headD 0 ≠ 43 ∧ r.headD 0 ≠ 45) ∨ sg = [43] ∨ sg = [45]) →
        isdigit (r.headD 0) = false →
        l.getNextToken =
          (l.advanceN (((if neg then [45] else []) ++ (ip ++ (fr ++ e :: sg))).length)).error
            (str "Digit expected in exponent")) ∧
      (Lexer.new (str "-")).getNextToken = .error (.lexerError 1 2 (str "Invalid number")) ∧
      (Lexer.new (str "1.")).getNextToken =
        .error (.lexerError 1 3 (str "Digit expected after decimal point")) ∧
      (Lexer.new (str "1e")).getNextToken =
        .error (.lexerError 1 3 (str "Digit expected in exponent")) ∧
      (Lexer.new (str "1e+")).getNextToken =
        .error (.lexerError 1 4 (str "Digit expected in exponent")) := by
  refine ⟨?_, ?_, ?_, rfl, rfl, rfl, rfl⟩
  · intro l r hv hr
    have hs : scanNumber ([45] ++ r) = .error (str "Invalid number", r) := by
      have := scanNumber_sign true r (fun h => by cases h)
      simp only [↓reduceIte] at this
      rw [this, scanInteger_invalid r [45] hr]
      rfl
    exact Lexer.number_error (p := [45]) hv (.inl rfl) hs
  · intro l neg ip r hv hip hr
    obtain ⟨h1, h2, h3⟩ := hip.build
    have hs : scanNumber (((if neg then [45] else []) ++ (ip ++ [46])) ++ r) =
        .error (str "Digit expected after decimal point", r) := by
      have e : ((if neg then [45] else []) ++ (ip ++ [46])) ++ r =
          (if neg then [45] else []) ++ (ip ++ 46 :: r) := by simp
      rw [e, scanNumber_sign neg _ (fun _ => digit_ne_minus (hip.head _)),
        scanInteger_build (46 :: r) _ h1 h2 h3 (show isdigit 46 = false by decide)]
      simp only [bind, Except.bind]
      rw [scanFraction_missing r _ hr]
    refine Lexer.number_error (by simpa using hv) ?_ hs
    have := sign_head neg (hip.head (46 :: r))
    simpa using this
  · intro l neg ip fr sg r e hv hip hfr he hsg hr
    obtain ⟨h1, h2, h3⟩ := hip.build
    obtain ⟨ds, hds, rfl⟩ := hfr.point
    have hne : isdigit ((e :: (sg ++ r)).headD 0) = false ∧ (e :: (sg ++ r)).headD 0 ≠ 46 := by
      simp only [List.headD_cons]
      rcases he with rfl | rfl <;> exact ⟨by decide, by decide⟩
    have hfh : isdigit ((pointText ds ++ e :: (sg ++ r)).headD 0) = false := by
      unfold pointText
      by_cases hd : ds = []
      · rw [if_pos hd]; exact hne.1
      · rw [if_neg hd]; rfl
    have hs : scanNumber (((if neg then [45] else []) ++ (ip ++ (pointText ds ++ e :: sg)))
        ++ r) = .error (str "Digit expected in exponent", r) := by
      have e' : ((if neg then [45] else []) ++ (ip ++ (pointText ds ++ e :: sg))) ++ r =
          (if neg then [45] else []) ++ (ip ++ (pointText ds ++ e :: (sg ++ r))) := by simp
      rw [e', scanNumber_sign neg _ (fun _ => digit_ne_minus (hip.head _)),
        scanInteger_build _ _ h1 h2 h3 hfh]
      simp only [bind, Except.bind]
      rw [scanFraction_build _ _ hds hne.1 hne.2]
      simp only
      rw [scanExponent_missing e sg r _ he hsg hr]
    refine Lexer.number_error (by simpa using hv) ?_ hs
    have := sign_head neg (hip.head (pointText ds ++ e :: (sg ++ r)))
    simpa using this

/-- C14: printer layout.  For every non-empty Object and every level `L`, `toString(L)` is
`{`, newline, then for each pair in stored order `L + 2` spaces, the key in quotes, colon and
space, the value printed at level `L + 2`, a comma iff the pair is not the last one, newline,
and finally `L` spaces and `}`; for every non-empty Array it is the same with `[` and `]` and
without the keys. -/
theorem printer_layout :
    (∀ (p : Str × JsonValue) (ps : List (Str × JsonValue)) (L : Nat),
        (JsonValue.object (p :: ps)).toString L = objectLayout (p :: ps) L) ∧
      (∀ (e : JsonValue) (es : List JsonValue) (L : Nat),
        (JsonValue.array (e :: es)).toString L = arrayLayout (e :: es) L) ∧
      (JsonValue.object [(str "a", .array [.null, .boolean true]), (str "b", .object [])]).toString 0 =
        str "\x7b\n  \"a\": [\n    null,\n    true\n  ],\n  \"b\": \x7b\x7d\n\x7d" := by
  refine ⟨?_, ?_, rfl⟩
  · intro p ps L
    rw [JsonValue.toString, objectLayout, List.enum,
      ← JsonValue.propertiesToString_lines L (p :: ps) 0 _ (by simp)]
    simp only [List.isEmpty_cons, Bool.false_eq_true, ↓reduceIte]
    rfl
  · intro e es L
    rw [JsonValue.toString, arrayLayout, List.enum,
      ← JsonValue.elementsToString_lines L (e :: es) 0 _ (by simp)]
    simp only [List.isEmpty_cons, Bool.false_eq_true, ↓reduceIte]
    rfl

/-- C15 (as amended): the input `{"a": }` fails with the error of `Parser::parseValue` for a
token that starts no value, "Unexpected token in value"; the exception is thrown by the
parser, whose exceptions carry no line and no column. -/
theorem error_position :
    parseInput (str "\x7b\"a\": \x7d") =
        .error (.runtimeError (str "Unexpected token in value")) ∧
      (Exn.runtimeError (str "Unexpected token in value")).position = none :=
  ⟨rfl, rfl⟩

/-- C15 as stated fails: the `}` of `{"a": }` is the character at line 1, column 7, and the
failure of the parse reports no position. -/
theorem error_position_counterexample :
    ((Lexer.new (str "\x7b\"a\": \x7d")).advanceN 6).currentChar = 125 ∧
      ((Lexer.new (str "\x7b\"a\": \x7d")).advanceN 6).line = 1 ∧
      ((Lexer.new (str "\x7b\"a\": \x7d")).advanceN 6).column = 7 ∧
      failurePosition (parseInput (str "\x7b\"a\": \x7d")) = none :=
  ⟨rfl, rfl, rfl, rfl⟩

/-- C11 fails on the code where `char` is signed: in a string literal, the first byte from
`0x80` on after legal characters is a negative `char`, it compares below 32, and
`getNextToken` fails with "Control character in string" at that byte.  The literal `"é"`
(bytes `22 C3 A9 22`) fails at line 1, column 2; with the same bytes as unsigned values the
body is returned unchanged. -/
theorem utf8_rejected :
    (∀ (l : Lexer) (pre rest : Str) (b : Nat),
        l.View (34 :: (pre ++ charOfByte b :: rest)) → StrSafe pre → 128 ≤ b → b < 256 →
        l.getNextToken =
          (l.advanceN (pre.length + 1)).error (str "Control character in string")) ∧
      (Lexer.new ([0x22, 0xC3, 0xA9, 0x22].map charOfByte)).getNextToken =
        .error (.lexerError 1 2 (str "Control character in string")) ∧
      (Lexer.new [0x22, 0xC3, 0xA9, 0x22]).getNextToken =
        .ok (⟨.STRING, [0xC3, 0xA9]⟩, (Lexer.new [0x22, 0xC3, 0xA9, 0x22]).advanceN 4) := by
  refine ⟨?_, rfl, rfl⟩
  intro l pre rest b hv hp h1 h2
  refine Lexer.string_negative hv hp ?_
  unfold charOfByte
  rw [if_neg (by omega)]
  omega

/-- C16: the word count of `ccwc`.  For every input byte sequence, `count_stream` on zeroed
counters returns with, when `-w` is selected, `words` the number of maximal runs of
non-whitespace bytes of the whole input, and when `-l` is selected, `lines` the number of `\n`
bytes (as 64-bit counters: modulo `2^64`, which is the number itself for an input of fewer
than `2^64` bytes).  The same holds for the loop with any buffer size, and a pass over the
bytes chunk by chunk is the pass over the whole input however the chunks are cut: with a
buffer of four bytes the text `ab cdefg h`, newline, whose second word spans two buffer
boundaries, has 3 words and 1 line. -/
theorem ccwc_word_count :
    (∀ (input : List Nat) (sel : Ccwc.Sel),
        ∃ out, Ccwc.count_stream input sel ⟨0, 0, 0, 0⟩ = some (true, out) ∧
          (sel.w = true → out.words = Ccwc.wordRuns input % 2 ^ 64) ∧
          (sel.l = true → out.lines = Ccwc.newlines input % 2 ^ 64) ∧
          (input.length < 2 ^ 64 →
            (sel.w = true → out.words = Ccwc.wordRuns input) ∧
            (sel.l = true → out.lines = Ccwc.newlines input))) ∧
      (∀ (input : List Nat) (sel : Ccwc.Sel) (bufSize : Nat), 1 ≤ bufSize →
        ∃ out, Ccwc.countLoop bufSize sel (input.length + 1) input false ⟨0, 0, 0, 0⟩ =
            some (true, out) ∧
          (sel.w = true → out.words = Ccwc.wordRuns input % 2 ^ 64) ∧
          (sel.l = true → out.lines = Ccwc.newlines input % 2 ^ 64)) ∧
      (∀ (sel : Ccwc.Sel) (chunks : List (List Nat)) (st : Bool × Ccwc.Counts),
        chunks.foldl (fun st chunk => chunk.foldl (Ccwc.countByte sel) st) st =
          chunks.flatten.foldl (Ccwc.countByte sel) st) ∧
      Ccwc.countLoop 4 ⟨true, true, false, false⟩ 12
          [97, 98, 32, 99, 100, 101, 102, 103, 32, 104, 10] false ⟨0, 0, 0, 0⟩ =
        some (true, ⟨1, 3, 0, 0⟩) ∧
      Ccwc.wordRuns [97, 98, 32, 99, 100, 101, 102, 103, 32, 104, 10] = 3 := by
  refine ⟨?_, ?_, Ccwc.foldl_chunks, by decide, by decide⟩
  · intro input sel
    obtain ⟨out, he, h1, h2⟩ := Ccwc.countLoop_counts Ccwc.BUF (by decide) sel input
    refine ⟨out, he, h1, h2, ?_⟩
    intro hlen
    constructor
    · intro hw
      rw [h1 hw, Nat.mod_eq_of_lt]
      rw [Ccwc.wordRuns_eq]
      exact Nat.lt_of_le_of_lt (Ccwc.runsAfter_le false input) hlen
    · intro hl
      rw [h2 hl, Nat.mod_eq_of_lt]
      exact Nat.lt_of_le_of_lt (List.count_le_length 10 input) hlen
  · intro input sel bufSize hb
    exact Ccwc.countLoop_counts bufSize hb sel input

/-- C2 (as amended): idempotence.  For every tree whose strings and object keys hold only
characters of code 32 or more or tabs, no double quote and no backslash (other than one
followed by `u`), and whose numbers are finite with a default rendering that `std::stod`
converts, lexing and parsing `toString(0)` of the tree succeeds, and `toString(0)` of the
resulting tree is exactly the same text: the six digits of every number survive the conversion
to binary64 and back. -/
theorem print_idempotent (t : JsonValue) (h : t.Printable) :
    ∃ t', parseInput (t.toString 0) = .ok t' ∧ t'.toString 0 = t.toString 0 :=
  ⟨t.reparsed, t.parse_toString h, t.toString_reparsed 0 h⟩

/-- C2 at an array with the number 1234567, which prints as `1.23457e+06` and is read back as
1234570, and a string with a `\u` escape. -/
theorem print_idempotent_witness :
    (JsonValue.array [.number (.finite false 1234567 0), .string (str "\\u00e9")]).Printable ∧
      parseInput ((JsonValue.array [.number (.finite false 1234567 0),
          .string (str "\\u00e9")]).toString 0) =
        .ok (.array [.number (.finite false 617285 1), .string (str "\\u00e9")]) ∧
      ∃ t', parseInput ((JsonValue.array [.number (.finite false 1234567 0),
          .string (str "\\u00e9")]).toString 0) = .ok t' ∧
        t'.toString 0 = (JsonValue.array [.number (.finite false 1234567 0),
          .string (str "\\u00e9")]).toString 0 :=
  have hp : (JsonValue.array [.number (.finite false 1234567 0),
      .string (str "\\u00e9")]).Printable := by
    simp only [JsonValue.Printable, JsonValue.PrintableElements, and_true]
    exact ⟨⟨⟨_, _, _, rfl⟩, _, rfl⟩, .unicode _ (StrSafe.of_plain (by decide))⟩
  ⟨hp, rfl, print_idempotent _ hp⟩

/-- C2 as stated fails: the String holding a backslash and `t` prints as `"\t"`, which is read
back as the String holding a tab, and that one prints as other text; an Array holding the
String `",` prints as text that the lexer rejects, and so does the Number negative
infinity. -/
theorem print_idempotent_counterexample :
    (JsonValue.string [92, 116]).toString 0 = [34, 92, 116, 34] ∧
      parseInput ((JsonValue.string [92, 116]).toString 0) = .ok (.string [9]) ∧
      (JsonValue.string [9]).toString 0 = [34, 9, 34] ∧
      parseInput ((JsonValue.array [.string [34, 44]]).toString 0) =
        .error (.lexerError 2 7 (str "Control character in string")) ∧
      parseInput ((JsonValue.number (.inf true)).toString 0) =
        .error (.lexerError 1 2 (str "Invalid number")) :=
  ⟨rfl, rfl, rfl, rfl, rfl⟩

/-- C23: restricted round trip.  For every tree without a Number node whose strings and object
keys consist of printable ASCII characters (`0x20..0x7E`) other than the double quote and the
backslash, and for every level `L`, lexing and parsing `toString(L)` of the tree succeeds and
returns the tree itself, and printing the result at level `L` gives the same text again. -/
theorem restricted_round_trip (t : JsonValue) (L : Nat) (h : t.Plain) :
    ∃ t', parseInput (t.toString L) = .ok t' ∧ t' = t ∧ t'.toString L = t.toString L := by
  obtain ⟨hp, hr⟩ := JsonValue.Plain.printable_value t h
  refine ⟨t, ?_, rfl, rfl⟩
  have := t.parse_toString_level L hp
  rwa [hr] at this

/-- C23 at an object with an array, two strings, true and null, and an empty object, printed at
level 3. -/
theorem restricted_round_trip_witness :
    (JsonValue.object [(str "k 1", .array [.string (str "x/y"), .boolean true, .null]),
        (str "", .object [])]).Plain ∧
      ∃ t', parseInput ((JsonValue.object [(str "k 1", .array [.string (str "x/y"),
          .boolean true, .null]), (str "", .object [])]).toString 3) = .ok t' ∧
        t' = JsonValue.object [(str "k 1", .array [.string (str "x/y"), .boolean true, .null]),
          (str "", .object [])] ∧
        t'.toString 3 = (JsonValue.object [(str "k 1", .array [.string (str "x/y"),
          .boolean true, .null]), (str "", .object [])]).toString 3 :=
  have hp : (JsonValue.object [(str "k 1", .array [.string (str "x/y"), .boolean true, .null]),
      (str "", .object [])]).Plain := by
    simp only [JsonValue.Plain, JsonValue.PlainMembers, JsonValue.PlainElements, and_true]
    exact ⟨by unfold PlainText; decide, by unfold PlainText; decide, by unfold PlainText; decide⟩
  ⟨hp, restricted_round_trip _ 3 hp⟩

/-- C22: whole-buffer consumption.  When `parse` succeeds, the cursor of the lexer is inside the
buffer or at its end, with the end marker at the cursor, and it is at the length of the buffer
when the buffer holds no NUL byte; an end-of-input token is produced with the cursor at the end
of the buffer or at a NUL byte of it.  On `1\0garbage` (nine bytes) `parse` succeeds with the
number 1 and the cursor at 1: the eight bytes from the NUL on are never read, and no
trailing-content error is raised. -/
theorem whole_buffer_consumption :
    (∀ (input : Str) (p p' : Parser) (v : JsonValue),
        Parser.new (Lexer.new input) = .ok p → p.parseValue p.fuel = .ok (v, p') →
        p'.currentToken.type = .EOF_TOKEN →
        p'.lexer.pos ≤ input.length ∧ charAt input p'.lexer.pos = 0 ∧
          ((∀ c ∈ input, c ≠ 0) → p'.lexer.pos = input.length)) ∧
      (∀ (input : Str) (l l' : Lexer) (t : Token), Lexer.Reachable input l →
        l.getNextToken = .ok (t, l') → t.type = .EOF_TOKEN →
        l'.pos = input.length ∨ (l'.pos < input.length ∧ input.getD l'.pos 1 = 0)) ∧
      parseInput (str "1" ++ [0] ++ str "garbage") = .ok (.number (.finite false 1 0)) ∧
      (str "1" ++ [0] ++ str "garbage").length = 9 ∧
      (∃ p p', Parser.new (Lexer.new (str "1" ++ [0] ++ str "garbage")) = .ok p ∧
        p.parseValue p.fuel = .ok (.number (.finite false 1 0), p') ∧
        p'.currentToken = ⟨.EOF_TOKEN, []⟩ ∧ p'.lexer.pos = 1) := by
  refine ⟨?_, ?_, rfl, rfl, ⟨_, _, rfl, rfl, rfl, rfl⟩⟩
  · intro input p p' v hn hv ht
    obtain ⟨m, _, l, ha, hg⟩ := (Parser.Requested.of_new hn).after_parseValue hv
    obtain ⟨h1, _, h3, h4⟩ := ha.reachable.eof hg ht
    exact ⟨h1, h3, h4⟩
  · intro input l l' t hr hg ht
    obtain ⟨h1, _, h3, _⟩ := hr.eof hg ht
    by_cases hlt : l'.pos < input.length
    · right
      refine ⟨hlt, ?_⟩
      unfold charAt at h3
      rw [if_pos hlt] at h3
      rw [List.getD_eq_getElem _ _ hlt] at h3 ⊢
      exact h3
    · left; omega

/-- C21: termination.  For every input buffer, constructing the lexer and the parser and calling
`parse` returns a tree or fails with an exception of the program: the fuel of the embedding,
which is linear in the length of the buffer, never runs out.  Every call of `getNextToken` in a
reachable state returns or fails with a lexical error, raised at a cursor inside the buffer or
at its end; when it returns a token other than end-of-input the cursor has strictly advanced,
and when it returns end-of-input the end marker is at the cursor.  Every iteration of the array loop parses a value and every iteration of the
object loop a key, a colon and a value, which takes one token, respectively three, at least.  A
parser that has requested `n + 1` tokens has `n + 1 <= length + 1`, also counting the request it
makes next when its lookahead is not end-of-input, and with end-of-input as its lookahead it
requests no further token.  The five characters `[1,2]` take six requests. -/
theorem termination :
    (∀ (input : Str), (∃ v, parseInput input = .ok v) ∨
        (∃ e, parseInput input = .error e ∧ e ≠ .outOfFuel)) ∧
      (∀ (input : Str) (l : Lexer), Lexer.Reachable input l →
        (∃ t l', l.getNextToken = .ok (t, l') ∧ l'.pos ≤ input.length ∧
          ((t.type ≠ .EOF_TOKEN ∧ l.pos < l'.pos) ∨
            (t.type = .EOF_TOKEN ∧ l.pos ≤ l'.pos ∧ l'.currentChar = 0))) ∨
        (∃ k msg, l.pos + k ≤ input.length ∧ l.getNextToken = (l.advanceN k).error msg)) ∧
      (∀ (input : Str) (n fuel : Nat) (p p1 : Parser) (v : JsonValue),
        Parser.Requested input n p → Parser.parseValue fuel p = .ok (v, p1) →
        ∃ m, n + 1 ≤ m ∧ Parser.Requested input m p1) ∧
      (∀ (input : Str) (n fuel : Nat) (p p1 p2 p3 : Parser) (v : JsonValue),
        Parser.Requested input n p → p.checkToken .STRING = .ok p1 →
        p1.checkToken .COLON = .ok p2 → Parser.parseValue fuel p2 = .ok (v, p3) →
        ∃ m, n + 3 ≤ m ∧ Parser.Requested input m p3) ∧
      (∀ (input : Str) (p : Parser), Parser.new (Lexer.new input) = .ok p →
        Parser.Requested input 0 p) ∧
      (∀ (input : Str) (n : Nat) (p : Parser), Parser.Requested input n p →
        n + 1 ≤ input.length + 1 ∧
        (p.currentToken.type ≠ .EOF_TOKEN → n + 2 ≤ input.length + 1) ∧
        (p.currentToken.type = .EOF_TOKEN → ∀ e, e ≠ .EOF_TOKEN →
          p.checkToken e = .error (.expectedToken e .EOF_TOKEN))) ∧
      (tokenize (str "[1,2]")).1.length = 6 := by
  refine ⟨?_, ?_, ?_, ?_, ?_, ?_, rfl⟩
  · intro input
    cases h : parseInput input with
    | ok v => exact Or.inl ⟨v, rfl⟩
    | error e => exact Or.inr ⟨e, rfl, fun he => parseInput_ne_fuel input (by rw [h, he])⟩
  · intro input l hr
    obtain ⟨hv, _, _⟩ := hr.view
    cases hg : l.getNextToken with
    | error e =>
      obtain ⟨k, msg, hk, he⟩ := Lexer.getNextToken_error hv hg
      rw [List.length_drop] at hk
      exact Or.inr ⟨k, msg, by omega, by rw [he]; rfl⟩
    | ok x =>
      obtain ⟨t, l'⟩ := x
      left
      obtain ⟨p, r, hs, hsc, hl', _⟩ := Lexer.getNextToken_ok hv hg
      have hle := (Lexer.Reachable.step hr hg).view.2.1
      have hpos : l'.pos = l.pos + p.length := by rw [hl', Lexer.advanceN_pos]
      refine ⟨t, l', rfl, hle, ?_⟩
      by_cases ht : t.type = .EOF_TOKEN
      · exact Or.inr ⟨ht, by omega, (hr.eof hg ht).2.1⟩
      · have hlt := scan_length_lt hsc ht
        have hlen := congrArg List.length hs
        rw [List.length_append] at hlen
        exact Or.inl ⟨ht, by omega⟩
  · intro input n fuel p p1 v hp hv
    exact hp.after_parseValue hv
  · intro input n fuel p p1 p2 p3 v hp h1 h2 hv
    obtain ⟨m, hm, h⟩ :=
      ((hp.after_checkToken (by decide) h1).after_checkToken (by decide) h2).after_parseValue hv
    exact ⟨m, by omega, h⟩
  · intro input p h
    exact Parser.Requested.of_new h
  · intro input n p hp
    obtain ⟨h1, _, _, h4⟩ := hp.request_bound
    refine ⟨by omega, fun ht => by have := h4 ht; omega, fun ht e he => ?_⟩
    unfold Parser.checkToken
    rw [if_pos (by rw [ht]; exact fun h => he h.symm), ht]

/-- C24: cursor bounds invariant.  In every state of the lexer that calls of `getNextToken` from
construction end in, returning or failing, the buffer is the input, `pos` is at most its length
and `currentChar` is the character of the buffer at `pos`, or the end marker when `pos` is the
length.  A call moves the cursor only by `advance`, one character at a time, from the state `l`
it starts in to the state `l.advanceN k` it returns or fails in: each of the states
`l.advanceN j` with `j < k`, the ones in which `advance` is invoked, has a character other than
the end marker at a cursor inside the buffer, so the cursor never passes the end of the buffer.
The unterminated literal `"ab` fails in the state at the end of the buffer. -/
theorem cursor_bounds :
    (∀ (input : Str) (l : Lexer), Lexer.Visited input l →
        l.text = input ∧ l.pos ≤ input.length ∧ l.currentChar = charAt input l.pos) ∧
      (∀ (input : Str) (l l' : Lexer) (t : Token), Lexer.Reachable input l →
        l.getNextToken = .ok (t, l') →
        ∃ k, l' = l.advanceN k ∧ l.pos + k ≤ input.length ∧
          ∀ j, j < k → (l.advanceN j).currentChar ≠ 0 ∧ (l.advanceN j).pos < input.length) ∧
      (∀ (input : Str) (l : Lexer) (k : Nat) (msg : Str), Lexer.Reachable input l →
        l.getNextToken = (l.advanceN k).error msg →
        l.pos + k ≤ input.length ∧
          ∀ j, j < k → (l.advanceN j).currentChar ≠ 0 ∧ (l.advanceN j).pos < input.length) ∧
      ((Lexer.new (str "\"ab")).getNextToken =
          ((Lexer.new (str "\"ab")).advanceN 3).error (str "Unterminated string") ∧
        ((Lexer.new (str "\"ab")).advanceN 3).pos = 3 ∧
        ((Lexer.new (str "\"ab")).advanceN 3).currentChar = 0) := by
  have failing : ∀ (input : Str) (l : Lexer) (k : Nat) (msg : Str), Lexer.Reachable input l →
      l.getNextToken = (l.advanceN k).error msg →
      l.pos + k ≤ input.length ∧
        ∀ j, j < k → (l.advanceN j).currentChar ≠ 0 ∧ (l.advanceN j).pos < input.length := by
    intro input l k msg hr hg
    obtain ⟨k0, hk0, hpass, hout⟩ := hr.passes
    rcases hout with ⟨t, ht⟩ | ⟨m, hm⟩
    · rw [ht] at hg
      unfold Lexer.error at hg
      cases hg
    · rw [hm] at hg
      unfold Lexer.error at hg
      simp only [Except.error.injEq, Exn.lexerError.injEq] at hg
      have hk : k0 = k := Lexer.advanceN_inj hg.1 hg.2.1
      subst hk
      exact ⟨hk0, hpass⟩
  refine ⟨?_, ?_, failing, rfl, rfl, rfl⟩
  · intro input l hv
    cases hv with
    | returned hr =>
      obtain ⟨_, hle, ht⟩ := hr.view
      have := (hr.ahead 0).2.2
      exact ⟨ht, hle, this⟩
    | @failed l k msg hr hg =>
      obtain ⟨hk, _⟩ := failing input l k msg hr hg
      obtain ⟨h1, h2, h3⟩ := hr.ahead k
      rw [h2]
      exact ⟨h1, hk, h3⟩
  · intro input l l' t hr hg
    obtain ⟨k0, hk0, hpass, hout⟩ := hr.passes
    rcases hout with ⟨t0, ht⟩ | ⟨m, hm⟩
    · rw [ht] at hg
      simp only [Except.ok.injEq, Prod.mk.injEq] at hg
      exact ⟨k0, hg.2.symm, hk0, hpass⟩
    · rw [hm] at hg
      unfold Lexer.error at hg
      cases hg

end JsonParser
